import Mathlib

/-!
# A verification development for `cpp_data_structures`

## `UnorderedMap` (src/hashmap/UnorderedMap.h)

The table is a separate-chaining hash map: an array of `_bucket_count` singly linked
chains of `HashNode`s, a cached `_head` pointer and a `_size` counter.

Embedding.

* A heap object created by `new HashNode` is a `HashNode` value carrying its own identity
  `addr`.  Identities are handed out by the counter `_alloc` and never reused: a pointer to
  a deleted node is an invalid pointer for ever, so it can never compare equal to a live
  node.
* A chain (`HashNode *` followed through `next`) is the list of its nodes, front first; the
  `next` field of a node is the identity of the node after it in the list.
* A pointer is `Option Nat`: `none` is `nullptr`, `some a` points at the node with identity
  `a`.  The live nodes are exactly the nodes linked in some chain; reading through any
  other pointer has no defined result and the operation doing so returns `none`.
* `size_t` values are natural numbers.  `_size++` is `+ 1` (every increment comes with a
  live node, so the counter cannot wrap); `_size--` wraps at zero as the machine does.
* `Key` comparison `==` is equality on `K`; `T` comparison `!=` is disequality on `V`.
-/

set_option autoImplicit false

/-- The heap node `UnorderedMap::HashNode`: `val` is the stored pair, `addr` the identity of
the object; the `next` link is the position in the chain. -/
structure HashNode (K V : Type) where
  addr : Nat
  val : K × V

/-- The class `UnorderedMap`: its six data members, and the allocation counter `_alloc`
of the heap it allocates its nodes from. -/
structure UnorderedMap (K V : Type) where
  _bucket_count : Nat
  _buckets : List (List (HashNode K V))
  _head : Option Nat
  _size : Nat
  _hash : K → Nat
  _equal : K → K → Bool
  _alloc : Nat

/-- A cursor `basic_iterator`: its `_ptr` member (the `_map` member is the table the
operation is applied to).  Two cursors are equal when their `_ptr` are. -/
abbrev iterator : Type := Option Nat

/-- The machine decrement `_size--` on a 64-bit `size_t`. -/
def size_decr (s : Nat) : Nat := if s = 0 then 2 ^ 64 - 1 else s - 1

/-- `_range_hash(hash_code, bucket_count)`. -/
def _range_hash (hash_code bucket_count : Nat) : Nat := hash_code % bucket_count

section Chains

variable {K V : Type}

/-- The pointer stored in a bucket slot: the identity of the first node of the chain. -/
def chainHead (chain : List (HashNode K V)) : Option Nat :=
  match chain with
  | [] => none
  | n :: _ => some n.addr

/-- The search loop `while (curr) { if (curr->val.first == key) ...; curr = curr->next; }`
of `_find` and of `operator[]`: the node it stops at, or `none` at the end of the chain. -/
def chainFind [DecidableEq K] (key : K) : List (HashNode K V) → Option Nat
  | [] => none
  | n :: rest => if n.val.1 = key then some n.addr else chainFind key rest

/-- The scan-and-overwrite loop shared by both `insert` overloads and
`_insert_into_bucket`: at the first node whose key is `key` the mapped value is assigned
when it differs; the result is that node and the chain, or `none` when no node matches
(`exists == false`). -/
def chainAssign [DecidableEq K] [DecidableEq V] (key : K) (v : V) :
    List (HashNode K V) → Option (Nat × List (HashNode K V))
  | [] => none
  | n :: rest =>
    if n.val.1 = key then
      some (n.addr, (if n.val.2 ≠ v then { n with val := (n.val.1, v) } else n) :: rest)
    else
      match chainAssign key v rest with
      | some (a, rest') => some (a, n :: rest')
      | none => none

/-- The trailing-pointer loop of both `erase` overloads: the first node whose key is `key`
is unlinked; the result is that node and the remaining chain, or `none` when the loop runs
off the end of the chain. -/
def chainUnlink [DecidableEq K] (key : K) :
    List (HashNode K V) → Option (HashNode K V × List (HashNode K V))
  | [] => none
  | n :: rest =>
    if n.val.1 = key then some (n, rest)
    else
      match chainUnlink key rest with
      | some (c, rest') => some (c, n :: rest')
      | none => none

/-- Reading the live node with identity `p` in one chain: the node and its `next` link. -/
def chainLookup (p : Nat) : List (HashNode K V) → Option (HashNode K V × Option Nat)
  | [] => none
  | n :: rest => if n.addr = p then some (n, chainHead rest) else chainLookup p rest

/-- Reading the live node with identity `p` on the heap formed by all chains. -/
def heapLookup (p : Nat) : List (List (HashNode K V)) → Option (HashNode K V × Option Nat)
  | [] => none
  | chain :: chains =>
    match chainLookup p chain with
    | some r => some r
    | none => heapLookup p chains

/-- The loop `while (bucket_index < _bucket_count && !_buckets[bucket_index]) bucket_index++`
of `operator++`; the first argument is `_bucket_count - bucket_index`, the number of
indices left before the first conjunct fails.  The result is the final `bucket_index`. -/
def scanBuckets (buckets : List (List (HashNode K V))) : Nat → Nat → Nat
  | 0, bucket_index => bucket_index
  | left + 1, bucket_index =>
    if (buckets.getD bucket_index []).isEmpty then scanBuckets buckets left (bucket_index + 1)
    else bucket_index

/-- The loop `for (i = 0; i < _bucket_count; i++) { ...; _buckets[i] = nullptr; }` of
`clear`, started at index `i` with `left` iterations to go. -/
def clearBuckets (buckets : List (List (HashNode K V))) : Nat → Nat → List (List (HashNode K V))
  | 0, _ => buckets
  | left + 1, i => clearBuckets (buckets.set i []) left (i + 1)

end Chains

namespace UnorderedMap

variable {K V : Type}

/-- `_bucket(const Key &)`: `_range_hash(_hash(key), _bucket_count)`. -/
def _bucket (m : UnorderedMap K V) (key : K) : Nat :=
  _range_hash (m._hash key) m._bucket_count

/-- `bucket(key)`. -/
def bucket (m : UnorderedMap K V) (key : K) : Nat := m._bucket key

/-- The chain `_buckets[n]`. -/
def chain (m : UnorderedMap K V) (n : Nat) : List (HashNode K V) := m._buckets.getD n []

/-- Reading through a node pointer `p` (`p->val`, `p->next`): defined when `p` is live. -/
def deref (m : UnorderedMap K V) (p : Nat) : Option (HashNode K V × Option Nat) :=
  heapLookup p m._buckets

/-- The constructor `UnorderedMap(bucket_count, hash, equal)`.  `next_greater_prime` is
declared in `primes.h`, which is not part of the sources, and is a parameter here. -/
def construct (next_greater_prime : Nat → Nat) (bucket_count : Nat) (hash : K → Nat)
    (equal : K → K → Bool) : UnorderedMap K V :=
  { _bucket_count := next_greater_prime bucket_count
    _buckets := List.replicate (next_greater_prime bucket_count) []
    _head := none
    _size := 0
    _hash := hash
    _equal := equal
    _alloc := 0 }

/-- `size()`. -/
def size (m : UnorderedMap K V) : Nat := m._size

/-- `empty()`. -/
def empty (m : UnorderedMap K V) : Bool := m._size == 0

/-- `bucket_count()`. -/
def bucket_count (m : UnorderedMap K V) : Nat := m._bucket_count

/-- `begin()`: a cursor at `_head`. -/
def begin (m : UnorderedMap K V) : iterator := m._head

/-- `end()`: the cursor with a null `_ptr`. -/
def end_ (_m : UnorderedMap K V) : iterator := none

/-- `bucket_size(n)`. -/
def bucket_size (m : UnorderedMap K V) (n : Nat) : Nat := (m.chain n).length

/-- The tail of `operator++` once `_ptr->next` and `_ptr->val` have been read: the `next`
link if it is not null, else the head of the first non-empty bucket after the node's own,
else null. -/
def successor (m : UnorderedMap K V) (next : Option Nat) (val : K × V) : iterator :=
  match next with
  | some q => some q
  | none =>
    let bucket_index :=
      scanBuckets m._buckets (m._bucket_count - (m._bucket val.1 + 1)) (m._bucket val.1 + 1)
    if bucket_index ≥ m._bucket_count then none else chainHead (m.chain bucket_index)

/-- `basic_iterator::operator++` (prefix; the postfix form moves the cursor the same way):
the new `_ptr`, or `none` when `_ptr` is not a live node. -/
def increment (m : UnorderedMap K V) (it : iterator) : Option iterator :=
  match it with
  | none => none
  | some p =>
    match m.deref p with
    | none => none
    | some (n, next) => some (m.successor next n.val)

/-- `basic_iterator::operator*`: the pair stored in the node the cursor is at. -/
def star (m : UnorderedMap K V) (it : iterator) : Option (K × V) :=
  match it with
  | none => none
  | some p => (m.deref p).map (fun r => r.1.val)

/-- `_find(code, bucket, key)` and `_find(key)`, declared to return `HashNode*&`.  The loop
is `chainFind`.  At a node with the key the function returns `curr`, a reference to its
own local variable, which is dead when the call ends; at the end of the chain it returns
`nullptr`, to which a `HashNode*&` cannot be bound, so the function is ill-formed and has
no instantiation.  On neither path does the caller get a pointer it can read: `none`. -/
def _find [DecidableEq K] (m : UnorderedMap K V) (key : K) : Option (Option Nat) :=
  match chainFind key (m.chain (m._bucket key)) with
  | some _ => none
  | none => none

/-- `find(key)`: `HashNode* node = _find(key); iterator target(this, node); return target;`:
the table after the call and the cursor returned; `none` when `_find` gives no pointer. -/
def find [DecidableEq K] (m : UnorderedMap K V) (key : K) :
    Option (UnorderedMap K V × iterator) :=
  match m._find key with
  | some node => some (m, node)
  | none => none

/-- `_insert_into_bucket(bucket, value)`: the table after the call and the node returned;
`none` when `_head` is read while it points at no live node. -/
def _insert_into_bucket [DecidableEq K] [DecidableEq V] (m : UnorderedMap K V) (bucket : Nat)
    (value : K × V) : Option (UnorderedMap K V × Nat) :=
  let head_bucket : Option Nat :=
    match m._head with
    | none => some 0
    | some h => (m.deref h).map (fun r => m._bucket r.1.val.1)
  match head_bucket with
  | none => none
  | some head_bucket =>
    let scanned : UnorderedMap K V × Nat :=
      match chainAssign value.1 value.2 (m.chain bucket) with
      | some (curr, chain') => ({ m with _buckets := m._buckets.set bucket chain' }, curr)
      | none =>
        ({ m with
            _buckets := m._buckets.set bucket (⟨m._alloc, value⟩ :: m.chain bucket)
            _size := m._size + 1
            _alloc := m._alloc + 1 }, m._alloc)
    let newNode := scanned.2
    if m._head = none ∨ bucket ≤ head_bucket then
      some ({ scanned.1 with _head := some newNode }, newNode)
    else
      some (scanned.1, newNode)

/-- `insert(value_type &&)`: the table after the call and the returned pair
`(cursor, inserted)`. -/
def insert_move [DecidableEq K] [DecidableEq V] (m : UnorderedMap K V) (value : K × V) :
    Option (UnorderedMap K V × (iterator × Bool)) :=
  let bucket_index := m._bucket value.1
  match chainAssign value.1 value.2 (m.chain bucket_index) with
  | some (curr, chain') =>
    some ({ m with _buckets := m._buckets.set bucket_index chain' }, (some curr, false))
  | none =>
    match m._insert_into_bucket bucket_index value with
    | none => none
    | some (m', insertedNode) => some (m', (some insertedNode, true))

/-- `insert(const value_type &)`: the table after the call and the returned pair
`(cursor, inserted)`; `none` when `_head` is read while it points at no live node. -/
def insert [DecidableEq K] [DecidableEq V] (m : UnorderedMap K V) (value : K × V) :
    Option (UnorderedMap K V × (iterator × Bool)) :=
  let bucket_index := m._bucket value.1
  match chainAssign value.1 value.2 (m.chain bucket_index) with
  | some (curr, chain') =>
    some ({ m with _buckets := m._buckets.set bucket_index chain' }, (some curr, false))
  | none =>
    let newNode := m._alloc
    let linked : UnorderedMap K V :=
      { m with
          _buckets := m._buckets.set bucket_index (⟨newNode, value⟩ :: m.chain bucket_index)
          _alloc := m._alloc + 1 }
    match m._head with
    | some h =>
      match linked.deref h with
      | none => none
      | some (hn, _) =>
        let head_index := m._bucket hn.val.1
        if bucket_index ≤ head_index then
          some ({ linked with _head := some newNode, _size := m._size + 1 }, (some newNode, true))
        else
          some ({ linked with _size := m._size + 1 }, (some newNode, true))
    | none =>
      some ({ linked with _head := some newNode, _size := m._size + 1 }, (some newNode, true))

/-- `operator[](key)`: the table after the call and the node whose mapped value the
returned reference denotes. -/
def index [DecidableEq K] [DecidableEq V] [Inhabited V] (m : UnorderedMap K V) (key : K) :
    Option (UnorderedMap K V × Nat) :=
  let bucket_index := m._bucket key
  match chainFind key (m.chain bucket_index) with
  | some curr => some (m, curr)
  | none => m._insert_into_bucket bucket_index (key, default)

/-- `erase(const Key &)`: the table after the call and the number of elements removed. -/
def erase [DecidableEq K] (m : UnorderedMap K V) (key : K) : UnorderedMap K V × Nat :=
  let bucket_index := m._bucket key
  match chainUnlink key (m.chain bucket_index) with
  | some (_, chain') =>
    ({ m with _buckets := m._buckets.set bucket_index chain', _size := size_decr m._size }, 1)
  | none => (m, 0)

/-- `erase(iterator pos)`: the table after the call and the cursor returned; `none` when
`pos` is neither null nor at a live node.  `++pos` runs after the unlink and before the
`delete`: it reads the `next` link and the pair of the node `pos` is at, which the unlink
does not write, and scans the bucket array as the unlink left it. -/
def erase_at [DecidableEq K] (m : UnorderedMap K V) (pos : iterator) :
    Option (UnorderedMap K V × iterator) :=
  match pos with
  | none => some (m, none)
  | some p =>
    match m.deref p with
    | none => none
    | some (x, next) =>
      let bucket_index := m._bucket x.val.1
      match chainUnlink x.val.1 (m.chain bucket_index) with
      | none => some (m, some p)
      | some (curr, chain') =>
        let unlinked : UnorderedMap K V :=
          { m with _buckets := m._buckets.set bucket_index chain', _size := size_decr m._size }
        let pos' := unlinked.successor next x.val
        if m._head = some curr.addr then
          some ({ unlinked with _head := pos' }, pos')
        else
          some (unlinked, pos')

/-- `clear()`: every chain is deleted and its slot nulled, `_size` is zeroed in the loop
body; `_head` is not written. -/
def clear (m : UnorderedMap K V) : UnorderedMap K V :=
  { m with
      _buckets := clearBuckets m._buckets m._bucket_count 0
      _size := if m._bucket_count = 0 then m._size else 0 }

end UnorderedMap

/-! ### Invariants of the table -/

namespace UnorderedMap

variable {K V : Type}

/-- All nodes linked in the table, bucket by bucket, each chain front first. -/
def allNodes (m : UnorderedMap K V) : List (HashNode K V) := m._buckets.flatten

/-- The keys stored in the table, one entry per node. -/
def keys (m : UnorderedMap K V) : List K := m.allNodes.map (fun n => n.val.1)

/-- The representation invariant of a table: the bucket array has `_bucket_count > 0`
slots, every node sits in the chain its key hashes to, no chain holds a key twice, distinct
nodes are distinct heap objects allocated before `_alloc`, and `_size` counts the nodes. -/
structure WellFormed (m : UnorderedMap K V) : Prop where
  length_buckets : m._buckets.length = m._bucket_count
  bucket_count_pos : 0 < m._bucket_count
  placement : ∀ i n, n ∈ m.chain i → m._bucket n.val.1 = i
  keys_nodup : ∀ i, ((m.chain i).map (fun n => n.val.1)).Nodup
  addr_nodup : (m.allNodes.map HashNode.addr).Nodup
  addr_lt : ∀ n ∈ m.allNodes, n.addr < m._alloc
  size_eq : m._size = m.allNodes.length

/-- The cached `_head` is null or points at a live node. -/
def HeadLive (m : UnorderedMap K V) : Prop :=
  ∀ h, m._head = some h → ∃ n ∈ m.allNodes, n.addr = h

/-- The head invariant of the data model: `_head` is null when no chain has a node, and
otherwise is the first node of the lowest-index non-empty bucket. -/
def HeadFirst (m : UnorderedMap K V) : Prop :=
  m._head = chainHead m.allNodes

/-- The tables reached from a freshly constructed one through the public mutators, each
call having a defined result. -/
inductive Reachable [DecidableEq K] [DecidableEq V] [Inhabited V] : UnorderedMap K V → Prop
  | construct (next_greater_prime : Nat → Nat) (bucket_count : Nat) (hash : K → Nat)
      (equal : K → K → Bool) (hpos : 0 < next_greater_prime bucket_count) :
      Reachable (UnorderedMap.construct next_greater_prime bucket_count hash equal)
  | insert (m m1 : UnorderedMap K V) (value : K × V) (r : iterator × Bool) :
      Reachable m → m.insert value = some (m1, r) → Reachable m1
  | insert_move (m m1 : UnorderedMap K V) (value : K × V) (r : iterator × Bool) :
      Reachable m → m.insert_move value = some (m1, r) → Reachable m1
  | index (m m1 : UnorderedMap K V) (key : K) (p : Nat) :
      Reachable m → m.index key = some (m1, p) → Reachable m1
  | erase (m : UnorderedMap K V) (key : K) : Reachable m → Reachable (m.erase key).1
  | erase_at (m m1 : UnorderedMap K V) (pos r : iterator) :
      Reachable m → m.erase_at pos = some (m1, r) → Reachable m1
  | clear (m : UnorderedMap K V) : Reachable m → Reachable m.clear

end UnorderedMap


namespace UnorderedMap

variable {K V : Type}

/-- The tables reached from a freshly constructed one through `insert` (either overload),
`operator[]` and `erase(iterator)` alone, each call having a defined result. -/
inductive ReachableByCursor [DecidableEq K] [DecidableEq V] [Inhabited V] :
    UnorderedMap K V → Prop
  | construct (next_greater_prime : Nat → Nat) (bucket_count : Nat) (hash : K → Nat)
      (equal : K → K → Bool) (hpos : 0 < next_greater_prime bucket_count) :
      ReachableByCursor (UnorderedMap.construct next_greater_prime bucket_count hash equal)
  | insert (m m1 : UnorderedMap K V) (value : K × V) (r : iterator × Bool) :
      ReachableByCursor m → m.insert value = some (m1, r) → ReachableByCursor m1
  | insert_move (m m1 : UnorderedMap K V) (value : K × V) (r : iterator × Bool) :
      ReachableByCursor m → m.insert_move value = some (m1, r) → ReachableByCursor m1
  | index (m m1 : UnorderedMap K V) (key : K) (p : Nat) :
      ReachableByCursor m → m.index key = some (m1, p) → ReachableByCursor m1
  | erase_at (m m1 : UnorderedMap K V) (pos r : iterator) :
      ReachableByCursor m → m.erase_at pos = some (m1, r) → ReachableByCursor m1

end UnorderedMap

/-! ### Example tables -/

/-- The table `UnorderedMap<size_t, size_t> m(5)` with the identity hash, for a sizing
function that answers the request 5 with 5 buckets. -/
def exampleEmpty : UnorderedMap Nat Nat :=
  UnorderedMap.construct (fun _ => 5) 5 (fun k => k) (fun a b => a == b)

/-- The table `exampleEmpty` after `insert({1, 10})`. -/
def exampleOne : UnorderedMap Nat Nat :=
  { exampleEmpty with
      _buckets := [[], [⟨0, (1, 10)⟩], [], [], []], _head := some 0, _size := 1, _alloc := 1 }

/-- The table `exampleOne` after `erase(1)`: the chain is empty again, `_head` still holds
the pointer to the deleted node. -/
def exampleErased : UnorderedMap Nat Nat :=
  { exampleEmpty with
      _buckets := [[], [], [], [], []], _head := some 0, _size := 0, _alloc := 1 }

/-- The table `exampleOne` after `insert({2, 20})`. -/
def exampleTwo : UnorderedMap Nat Nat :=
  { exampleEmpty with
      _buckets := [[], [⟨0, (1, 10)⟩], [⟨1, (2, 20)⟩], [], []]
      _head := some 0, _size := 2, _alloc := 2 }

/-- The table `exampleTwo` after `erase(1)`: one node is left, in bucket 2, and `_head`
still holds the pointer to the deleted node of bucket 1. -/
def exampleTwoErased : UnorderedMap Nat Nat :=
  { exampleEmpty with
      _buckets := [[], [], [⟨1, (2, 20)⟩], [], []], _head := some 0, _size := 1, _alloc := 2 }

/-! ### Statements about the result of `insert` -/

namespace UnorderedMap

variable {K V : Type}

/-- The result `res` of inserting `(k, v)` into `m` is a new node: the call returns a cursor
at a node holding `(k, v)` and `true`, that node is the first of chain `hash(k) mod N`
followed by the chain as it was, the other chains are as they were, and `size()` is one
more. -/
def InsertedNew (m : UnorderedMap K V) (k : K) (v : V)
    (res : Option (UnorderedMap K V × (iterator × Bool))) : Prop :=
  ∃ m1 p, res = some (m1, (some p, true)) ∧
    m1.star (some p) = some (k, v) ∧
    m1.chain (m._hash k % m._bucket_count) =
      ⟨p, (k, v)⟩ :: m.chain (m._hash k % m._bucket_count) ∧
    (∀ i, i ≠ m._hash k % m._bucket_count → m1.chain i = m.chain i) ∧
    m1.size = m.size + 1

/-- The result `res` of inserting `(k, v)` into `m` is an overwrite: the call returns a
cursor at a node `n` of `m` with key `k` and `false`, that node now holds `(k, v)`, every
chain consists of the same nodes with the same keys in the same order, and `size()` and
the head reference are as they were. -/
def Overwritten (m : UnorderedMap K V) (k : K) (v : V)
    (res : Option (UnorderedMap K V × (iterator × Bool))) : Prop :=
  ∃ m1 n, n ∈ m.allNodes ∧ n.val.1 = k ∧ res = some (m1, (some n.addr, false)) ∧
    m1.star (some n.addr) = some (k, v) ∧
    (∀ i, (m1.chain i).map HashNode.addr = (m.chain i).map HashNode.addr) ∧
    (∀ i, (m1.chain i).map (fun x => x.val.1) = (m.chain i).map (fun x => x.val.1)) ∧
    m1.size = m.size ∧ m1._head = m._head ∧ m1._bucket_count = m._bucket_count

end UnorderedMap

namespace UnorderedMap

variable {K V : Type}

/-- The loop `for (it = start; it != end(); ++it)` reading `*it` at every step: the pairs
visited, in order.  `fuel` bounds the number of iterations; the result is `none` when the
cursor is read while it is at no live node, or when the fuel runs out. -/
def traverse (m : UnorderedMap K V) : Nat → iterator → Option (List (K × V))
  | _, none => some []
  | 0, some _ => none
  | fuel + 1, some p =>
    match m.deref p with
    | none => none
    | some (n, next) =>
      (traverse m fuel (m.successor next n.val)).map (fun rest => n.val :: rest)

end UnorderedMap

/-! ### Sizing, moving, copying, local iteration -/

/-- The search loop of `next_greater_prime`: the first prime among `n, n + 1, ...`, looking
at no more than `fuel` candidates. -/
def primeSearch : Nat → Nat → Nat
  | 0, n => n
  | fuel + 1, n => if Nat.Prime n then n else primeSearch fuel (n + 1)

/-- Modelled from the spec: `next_greater_prime` is declared in `primes.h`, which is not
part of the sources.  The spec describes it as the prime sizing service that "returns the
smallest member of a fixed ascending prime sequence that is ≥ the request", the table of
operations giving `bucket_count = smallest prime ≥ requested_capacity`.  By Bertrand's
postulate a prime is found among the `n + 2` candidates from `n` on. -/
def next_greater_prime (n : Nat) : Nat := primeSearch (n + 2) n

namespace UnorderedMap

variable {K V : Type}

/-- `_move_content(src, dst)`: every member of `dst` is assigned from `src`; the nodes now
linked in `dst` are those allocated for `src`. -/
def _move_content (src dst : UnorderedMap K V) : UnorderedMap K V :=
  { dst with
      _buckets := src._buckets
      _hash := src._hash
      _bucket_count := src._bucket_count
      _equal := src._equal
      _size := src._size
      _head := src._head
      _alloc := src._alloc }

/-- The move constructor `UnorderedMap(UnorderedMap && other)`: the constructed table and
`other` after the call. -/
def move_construct (other : UnorderedMap K V) : UnorderedMap K V × UnorderedMap K V :=
  ({ _bucket_count := other._bucket_count
     _hash := other._hash
     _equal := other._equal
     _buckets := other._buckets
     _size := other._size
     _head := other._head
     _alloc := other._alloc },
   { other with
       _buckets := List.replicate other._bucket_count []
       _size := 0
       _head := none })

/-- The move assignment `operator=(UnorderedMap && other)` on a table `self` that is not
`other`: `self` and `other` after the call. -/
def move_assign (self other : UnorderedMap K V) : UnorderedMap K V × UnorderedMap K V :=
  let cleared := self.clear
  let moved := _move_content other cleared
  (moved,
   { other with
       _size := 0
       _buckets := List.replicate other._bucket_count []
       _head := none })

/-- `begin(n)`: a local cursor at the first node of bucket `n`. -/
def local_begin (m : UnorderedMap K V) (n : Nat) : Option Nat := chainHead (m.chain n)

/-- `end(n)`: the local cursor with a null `_node`. -/
def local_end (_m : UnorderedMap K V) (_n : Nat) : Option Nat := none

/-- `local_iterator::operator++`: `_node = _node->next`; `none` when `_node` is not a live
node. -/
def local_increment (m : UnorderedMap K V) (it : Option Nat) : Option (Option Nat) :=
  match it with
  | none => none
  | some p => (m.deref p).map (fun r => r.2)

/-- `local_iterator::operator*`: `_node->val`; `none` when `_node` is not a live node. -/
def local_star (m : UnorderedMap K V) (it : Option Nat) : Option (K × V) :=
  match it with
  | none => none
  | some p => (m.deref p).map (fun r => r.1.val)

/-- The loop `for (it = start; it != end(n); ++it)` over a local cursor, which reads `*it`
at every step and advances with `local_iterator::operator++`: the pairs visited, in order;
`none` when the cursor is read or advanced while it is at no live node, or when the fuel
runs out. -/
def local_traverse (m : UnorderedMap K V) : Nat → Option Nat → Option (List (K × V))
  | _, none => some []
  | 0, some _ => none
  | fuel + 1, some p =>
    match m.local_star (some p), m.local_increment (some p) with
    | some kv, some next => (local_traverse m fuel next).map (fun rest => kv :: rest)
    | _, _ => none

/-- The calls `insert(kv)` (copying overload) for the pairs of a list, in order. -/
def insert_all [DecidableEq K] [DecidableEq V] (m : UnorderedMap K V) :
    List (K × V) → Option (UnorderedMap K V)
  | [] => some m
  | kv :: rest =>
    match m.insert kv with
    | none => none
    | some (m1, _) => insert_all m1 rest

end UnorderedMap

/-! ### Copy construction and writing through a reference -/

section CopyLoops

variable {K V : Type}

/-- The inner loop of the copy constructor over one chain of the source: each node is
copied into a node allocated next, and linked behind the previous copy. -/
def copyChain (alloc : Nat) : List (HashNode K V) → List (HashNode K V)
  | [] => []
  | curr :: rest => ⟨alloc, curr.val⟩ :: copyChain (alloc + 1) rest

/-- The state the loops of the copy constructor work on: the bucket array and the head
reference under construction, the flag `isHead`, and the allocation counter. -/
structure CopyState (K V : Type) where
  buckets : List (List (HashNode K V))
  head : Option Nat
  isHead : Bool
  alloc : Nat

/-- The outer loop `for (i = 0; i < other._bucket_count; i++)` of the copy constructor,
started at index `i` with `left` iterations to go.  The first node copied from a non-empty
chain becomes `_buckets[i]`, and `_head` if `isHead` is still set. -/
def copyBuckets (src : List (List (HashNode K V))) : Nat → Nat → CopyState K V → CopyState K V
  | 0, _, st => st
  | left + 1, i, st =>
    match src.getD i [] with
    | [] => copyBuckets src left (i + 1) st
    | curr :: rest =>
      copyBuckets src left (i + 1)
        { buckets := st.buckets.set i (copyChain st.alloc (curr :: rest))
          head := if st.isHead then some st.alloc else st.head
          isHead := false
          alloc := st.alloc + (curr :: rest).length }

/-- The chains the loops of the copy constructor build from the chains `src`, allocating
from `alloc` on: each chain copied node by node, one chain after the other. -/
def copyFrom (alloc : Nat) : List (List (HashNode K V)) → List (List (HashNode K V))
  | [] => []
  | chain :: rest => copyChain alloc chain :: copyFrom (alloc + chain.length) rest

/-- Assigning `v` to `p->val.second` in one chain; `none` when `p` is not in the chain. -/
def chainStore (p : Nat) (v : V) : List (HashNode K V) → Option (List (HashNode K V))
  | [] => none
  | n :: rest =>
    if n.addr = p then some ({ n with val := (n.val.1, v) } :: rest)
    else
      match chainStore p v rest with
      | some rest' => some (n :: rest')
      | none => none

/-- Assigning `v` to `p->val.second` on the heap formed by all chains. -/
def heapStore (p : Nat) (v : V) :
    List (List (HashNode K V)) → Option (List (List (HashNode K V)))
  | [] => none
  | chain :: chains =>
    match chainStore p v chain with
    | some chain' => some (chain' :: chains)
    | none =>
      match heapStore p v chains with
      | some chains' => some (chain :: chains')
      | none => none

end CopyLoops

namespace UnorderedMap

variable {K V : Type}

/-- The copy constructor `UnorderedMap(const UnorderedMap & other)`.  The member `_head` has
no initialiser and is assigned only when a first node is copied: `garbage` is the value its
storage holds before the loops.  The nodes of the copy are allocated after all nodes of
`other`. -/
def copy_construct (garbage : Option Nat) (other : UnorderedMap K V) : UnorderedMap K V :=
  let st := copyBuckets other._buckets other._bucket_count 0
    { buckets := List.replicate other._bucket_count []
      head := garbage
      isHead := true
      alloc := other._alloc }
  { _hash := other._hash
    _equal := other._equal
    _bucket_count := other._bucket_count
    _buckets := st.buckets
    _size := other._size
    _head := st.head
    _alloc := st.alloc }

/-- Writing `v` through a reference to the mapped value of the node `p` (as `operator[]`
returns one): `p->val.second = v`; `none` when `p` is not a live node. -/
def store (m : UnorderedMap K V) (p : Nat) (v : V) : Option (UnorderedMap K V) :=
  match heapStore p v m._buckets with
  | some buckets => some { m with _buckets := buckets }
  | none => none

end UnorderedMap

/-!
## `PriorityQueue` (src/priority-queue/PriorityQueue.h)

A binary max-heap in a `std::vector`.  The container `c` is a list; `c[i]?` is `some`
exactly when `i < c.size()`, and an element access outside the container has no defined
result (`none`).  Indices are natural numbers; `2 * index + 1` and `2 * (index + 1)` are
computed for `index < c.size()` only and do not wrap.
-/

/-- The class `PriorityQueue`: the container `c` and the comparison `comp`. -/
structure PriorityQueue (T : Type) where
  c : List T
  comp : T → T → Bool

namespace PriorityQueue

variable {T : Type}

/-- `parent(index)`: `(index - 1) / 2` on a 64-bit `size_t`. -/
def parent (index : Nat) : Nat := if index = 0 then (2 ^ 64 - 1) / 2 else (index - 1) / 2

/-- `left_child(index)`. -/
def left_child (index : Nat) : Nat := 2 * index + 1

/-- `right_child(index)`. -/
def right_child (index : Nat) : Nat := 2 * (index + 1)

/-- `is_internal(index)`. -/
def is_internal (q : PriorityQueue T) (index : Nat) : Bool :=
  decide (left_child index < q.c.length)

/-- `is_leaf(index)`. -/
def is_leaf (q : PriorityQueue T) (index : Nat) : Bool :=
  decide (left_child index ≥ q.c.length)

/-- `comp(c[i], c[j])`. -/
def compAt (comp : T → T → Bool) (c : List T) (i j : Nat) : Option Bool :=
  match (c)[i]?, (c)[j]? with
  | some a, some b => some (comp a b)
  | _, _ => none

/-- `std::swap(c[i], c[j])`. -/
def swap (c : List T) (i j : Nat) : Option (List T) :=
  match (c)[i]?, (c)[j]? with
  | some a, some b => some ((c.set i b).set j a)
  | _, _ => none

/-- The loop of `upheap`, `while (index > 0 && comp(c[parentIndex], c[index]))` with
`parentIndex == parent(index)` at every test; the first argument bounds the number of
iterations (`none` when it is used up before the loop ends). -/
def upheapLoop (comp : T → T → Bool) : Nat → List T → Nat → Option (List T)
  | 0, c, index => if index > 0 then none else some c
  | fuel + 1, c, index =>
    if index > 0 then
      match compAt comp c (parent index) index with
      | some true =>
        match swap c (parent index) index with
        | some c1 => upheapLoop comp fuel c1 (parent index)
        | none => none
      | some false => some c
      | none => none
    else some c

/-- `upheap(index)`: every iteration at least halves `index`, so `index` iterations are
enough. -/
def upheap (comp : T → T → Bool) (c : List T) (index : Nat) : Option (List T) :=
  upheapLoop comp index c index

/-- The loop of `downheap`, `while (!is_leaf(index) && invalid)`; the first argument bounds
the number of iterations (`none` when it is used up before the loop ends).  An iteration
that leaves `invalid` false ends the loop. -/
def downheapLoop (comp : T → T → Bool) : Nat → List T → Nat → Option (List T)
  | 0, c, index => if left_child index ≥ c.length then some c else none
  | fuel + 1, c, index =>
    if left_child index ≥ c.length then some c
    else
      let right := right_child index
      let left := left_child index
      let first : Option (Bool × Nat) :=
        if right < c.length then
          match compAt comp c index right with
          | some true => some (true, right)
          | some false => some (false, index)
          | none => none
        else some (false, index)
      match first with
      | none => none
      | some (invalid1, maxIndex1) =>
        let second : Option (Bool × Nat) :=
          if left < c.length then
            match compAt comp c maxIndex1 left with
            | some true => some (true, left)
            | some false => some (invalid1, maxIndex1)
            | none => none
          else some (invalid1, maxIndex1)
        match second with
        | none => none
        | some (invalid, maxIndex) =>
          if invalid then
            match swap c index maxIndex with
            | some c1 => downheapLoop comp fuel c1 maxIndex
            | none => none
          else some c

/-- `downheap(index)`: every iteration moves `index` to a child, so `c.size() - index`
iterations are enough. -/
def downheap (comp : T → T → Bool) (c : List T) (index : Nat) : Option (List T) :=
  downheapLoop comp (c.length - index) c index

/-- The default constructor: an empty container. -/
def new (comp : T → T → Bool) : PriorityQueue T := { c := [], comp := comp }

/-- `top()`: `c[0]`. -/
def top (q : PriorityQueue T) : Option T := q.c[0]?

/-- `empty()`. -/
def empty (q : PriorityQueue T) : Bool := q.c.length == 0

/-- `size()`. -/
def size (q : PriorityQueue T) : Nat := q.c.length

/-- `push(value)` (both overloads): `c.push_back(value); upheap(c.size() - 1)`. -/
def push (q : PriorityQueue T) (value : T) : Option (PriorityQueue T) :=
  match upheap q.comp (q.c ++ [value]) ((q.c ++ [value]).length - 1) with
  | some c1 => some { q with c := c1 }
  | none => none

/-- `pop()`. -/
def pop (q : PriorityQueue T) : Option (PriorityQueue T) :=
  if q.c.isEmpty then some q
  else
    match swap q.c 0 (q.c.length - 1) with
    | none => none
    | some c1 =>
      match downheap q.comp c1.dropLast 0 with
      | some c2 => some { q with c := c2 }
      | none => none

/-- The queues reached from an empty queue through `push` and `pop`. -/
inductive Reachable : PriorityQueue T → Prop
  | new (comp : T → T → Bool) : Reachable (PriorityQueue.new comp)
  | push (q q1 : PriorityQueue T) (value : T) : Reachable q → q.push value = some q1 →
      Reachable q1
  | pop (q q1 : PriorityQueue T) : Reachable q → q.pop = some q1 → Reachable q1

/-- The requirement on `Compare`: a strict weak ordering, that is an irreflexive and
transitive relation whose incomparability relation is transitive. -/
structure StrictWeakOrdering (comp : T → T → Bool) : Prop where
  irrefl : ∀ a, comp a a = false
  trans : ∀ a b c, comp a b = true → comp b c = true → comp a c = true
  incomp_trans : ∀ a b c, comp a b = false → comp b a = false → comp b c = false →
    comp c b = false → comp a c = false ∧ comp c a = false

/-- The max-heap property of the container: no element compares less than its child. -/
def MaxHeap (comp : T → T → Bool) (c : List T) : Prop :=
  ∀ i a b, 0 < i → (c)[parent i]? = some a → (c)[i]? = some b → comp a b = false

/-- An example queue of numbers under `<`: the queue after `push(3)`, `push(7)`,
`push(5)`. -/
def exampleQueue : PriorityQueue Nat := { c := [7, 3, 5], comp := fun a b => decide (a < b) }

end PriorityQueue

/-! ### Head maintenance, postfix increment, copy assignment -/

namespace UnorderedMap

variable {K V : Type}

/-- The head reference of `m1`, the table after the new key `k` was inserted into `m` as
node `p`: it is at the new node exactly when `m` was empty or the bucket of `k` is at most
the bucket of the node the head of `m` references, it is the head of `m` otherwise, and it
references the first node of the lowest-index non-empty bucket of `m1`. -/
def HeadRetargeted (m : UnorderedMap K V) (k : K) (p : Nat) (m1 : UnorderedMap K V) : Prop :=
  (m1._head = some p ↔
      (m.size = 0 ∨ ∃ h hn nx, m._head = some h ∧ m.deref h = some (hn, nx) ∧
        m.bucket k ≤ m.bucket hn.val.1)) ∧
    (m1._head ≠ some p → m1._head = m._head) ∧ HeadFirst m1

/-- `basic_iterator::operator++(int)` (postfix): the new `_ptr` of the cursor and the copy
of the cursor taken before it moved, which the call returns; `none` when `_ptr` is not a
live node. -/
def increment_post (m : UnorderedMap K V) (it : iterator) : Option (iterator × iterator) :=
  match it with
  | none => none
  | some p =>
    match m.deref p with
    | none => none
    | some (n, next) => some (m.successor next n.val, some p)

end UnorderedMap

section AssignLoops

variable {K V : Type}

/-- The state the loops of the copy assignment work on: the bucket array and the head
reference under construction, and the allocation counter. -/
structure AssignState (K V : Type) where
  buckets : List (List (HashNode K V))
  head : Option Nat
  alloc : Nat

/-- The outer loop `for (i = 0; i < other._bucket_count; i++)` of the copy assignment,
started at index `i` with `left` iterations to go.  The flag `isHead` is declared in the
loop body, so it is `true` at the first node of every chain: the first node copied from
every non-empty chain becomes `_buckets[i]` and `_head`. -/
def assignBuckets (src : List (List (HashNode K V))) :
    Nat → Nat → AssignState K V → AssignState K V
  | 0, _, st => st
  | left + 1, i, st =>
    let isHead := true
    match src.getD i [] with
    | [] => assignBuckets src left (i + 1) st
    | curr :: rest =>
      assignBuckets src left (i + 1)
        { buckets := st.buckets.set i (copyChain st.alloc (curr :: rest))
          head := if isHead then some st.alloc else st.head
          alloc := st.alloc + (curr :: rest).length }

end AssignLoops

namespace UnorderedMap

variable {K V : Type}

/-- The copy assignment `operator=(const UnorderedMap & other)` on a table `self` that is
not `other`: `self` after the call.  `clear()` runs first and leaves `_head` as it was; the
new nodes are allocated after all nodes of both tables. -/
def copy_assign (self other : UnorderedMap K V) : UnorderedMap K V :=
  let cleared := self.clear
  let st := assignBuckets other._buckets other._bucket_count 0
    { buckets := List.replicate other._bucket_count []
      head := cleared._head
      alloc := Nat.max self._alloc other._alloc }
  { _hash := other._hash
    _equal := other._equal
    _bucket_count := other._bucket_count
    _buckets := st.buckets
    _size := other._size
    _head := st.head
    _alloc := st.alloc }

end UnorderedMap

/-! ## `Vector` (src/vector/Vector.h)

The member `array` is `none` for `nullptr` and otherwise the block `new T[n]` returned, as
the list of its `n` slots; `_capacity` and `_size` are the two counters.  Reading a slot
outside the block has no defined result. -/

namespace DynamicArray

/-- The exception `std::out_of_range` with its message. -/
inductive Exception where
  | out_of_range (what : String)
  deriving DecidableEq

/-- The class `Vector`: its three data members. -/
structure Vector (T : Type) where
  array : Option (List T)
  _capacity : Nat
  _size : Nat

namespace Vector

variable {T : Type}

/-- `size()`. -/
def size (v : Vector T) : Nat := v._size

/-- `capacity()`. -/
def capacity (v : Vector T) : Nat := v._capacity

/-- Reading `array[pos]`: defined when `array` is a block with a slot `pos`. -/
def slot (v : Vector T) (pos : Nat) : Option T :=
  match v.array with
  | none => none
  | some block => block[pos]?

/-- `at(pos)` (both overloads): the exception thrown, or the vector after the call and the
element the returned reference denotes; `none` when `array[pos]` is read outside the
block. -/
def at_ (v : Vector T) (pos : Nat) : Option (Except Exception (Vector T × T)) :=
  if pos < 0 ∨ pos ≥ v._size then
    some (Except.error (Exception.out_of_range "given position is out of bounds"))
  else
    match v.slot pos with
    | none => none
    | some x => some (Except.ok (v, x))

/-- The data model of a vector: `size() <= capacity()`, and `array` is null with capacity
zero or a block of `capacity()` slots. -/
structure WellFormed (v : Vector T) : Prop where
  size_le : v._size ≤ v._capacity
  block_length : ∀ block, v.array = some block → block.length = v._capacity
  null_capacity : v.array = none → v._capacity = 0

/-- The vector holding 7, 8, 9 in a block of four slots. -/
def exampleVector : Vector Nat := { array := some [7, 8, 9, 0], _capacity := 4, _size := 3 }

end Vector

end DynamicArray

/-! ## Graph algorithms (src/graph-algorithms)

`topologicalSort` and `dijkstrasAlgorithm` work on a `WeightedGraph<T>` and on
`std::unordered_map`s from vertices to numbers.  A map with value-initialised entries read
through `operator[]` is a function that answers 0 (or `nullopt`) at a key it has no entry
for.  The order in which a range-`for` visits a container is the order of the list that
stands for it. -/

namespace GraphAlgorithms

/-- Modelled from the spec: `WeightedGraph<T>` is declared in `weighted-graph.hpp`, which is
not part of the sources.  The sources use it as a container of entries
`(vertex, adjacency list)` visited by a range-`for` or from `begin()` to `end()`, with
`at(vertex)` and `size()`, an adjacency list being a container of entries
`(vertex, weight)`.  A graph is the list of its entries in the order they are visited. -/
abbrev WeightedGraph (T : Type) : Type := List (T × List (T × Int))

section Graph

variable {T : Type} [DecidableEq T]

/-- `graph.at(vertex)`: the adjacency list stored for `vertex`; `none` when the call throws
because the graph has no entry for `vertex`. -/
def WeightedGraph.at_ (graph : WeightedGraph T) (vertex : T) : Option (List (T × Int)) :=
  match graph with
  | [] => none
  | entry :: rest => if entry.1 = vertex then some entry.2 else WeightedGraph.at_ rest vertex

/-- `graph.size()`: the number of entries. -/
def WeightedGraph.size (graph : WeightedGraph T) : Nat := graph.length

/-- The vertices of a graph: the keys of its entries. -/
def WeightedGraph.vertices (graph : WeightedGraph T) : List T := graph.map Prod.fst

/-- The graph has an edge from `u` to `v` of weight `w`. -/
def WeightedGraph.Edge (graph : WeightedGraph T) (u v : T) (w : Int) : Prop :=
  ∃ adj, (u, adj) ∈ graph ∧ (v, w) ∈ adj

/-- The graph has an edge from `u` to `v`. -/
def WeightedGraph.Adj (graph : WeightedGraph T) (u v : T) : Prop :=
  ∃ w, graph.Edge u v w

/-- The data model of a graph: the container is a map, so no vertex has two entries and no
adjacency list has two entries for one target. -/
structure WeightedGraph.WellFormed (graph : WeightedGraph T) : Prop where
  vertices_nodup : graph.vertices.Nodup
  targets_nodup : ∀ entry ∈ graph, (entry.2.map Prod.fst).Nodup

/-- Every edge target is a vertex of the graph. -/
def WeightedGraph.Closed (graph : WeightedGraph T) : Prop :=
  ∀ u v w, graph.Edge u v w → v ∈ graph.vertices

/-- The graph has no cycle: no vertex is reached from itself along one or more edges. -/
def WeightedGraph.Acyclic (graph : WeightedGraph T) : Prop :=
  ∀ v, ¬ Relation.TransGen graph.Adj v v

/-! ### `topologicalSort` -/

/-- The inner loop of the second loop of `computeIndegrees`:
`for (auto [vertex, weight] : graph.at(curr->first)) indegrees[vertex] += 1`. -/
def countTargets : List (T × Int) → (T → Int) → (T → Int)
  | [], indegrees => indegrees
  | edge :: rest, indegrees =>
    countTargets rest (Function.update indegrees edge.1 (indegrees edge.1 + 1))

/-- The second loop of `computeIndegrees` over the entries `entries` still to visit;
`none` when `graph.at` throws. -/
def countEntries (graph : WeightedGraph T) :
    List (T × List (T × Int)) → (T → Int) → Option (T → Int)
  | [], indegrees => some indegrees
  | curr :: rest, indegrees =>
    match graph.at_ curr.1 with
    | none => none
    | some adj => countEntries graph rest (countTargets adj indegrees)

/-- The first loop of `computeIndegrees`: `indegrees[curr->first] = 0` for every entry. -/
def zeroEntries : List (T × List (T × Int)) → (T → Int) → (T → Int)
  | [], indegrees => indegrees
  | curr :: rest, indegrees => zeroEntries rest (Function.update indegrees curr.1 0)

/-- `computeIndegrees(graph, indegrees)` on an empty map `indegrees`: the map after the
call. -/
def computeIndegrees (graph : WeightedGraph T) : Option (T → Int) :=
  countEntries graph graph (zeroEntries graph (fun _ => 0))

/-- The variables the `while` loop of `topologicalSort` works on. -/
structure TopoState (T : Type) where
  indegrees : T → Int
  q : List T
  res : List T

/-- The loop `for (auto [adjVertex, weight] : graph.at(vertex))` in the body of the `while`
loop: the in-degree of every target is decremented, and a target whose in-degree is then 0
is pushed on the queue. -/
def visitAdjacent : List (T × Int) → TopoState T → TopoState T
  | [], st => st
  | edge :: rest, st =>
    let indegrees := Function.update st.indegrees edge.1 (st.indegrees edge.1 - 1)
    visitAdjacent rest
      { st with
          indegrees := indegrees
          q := if indegrees edge.1 = 0 then st.q ++ [edge.1] else st.q }

/-- The loop `while (q.size() > 0)` of `topologicalSort`, run for at most `fuel` iterations:
`none` when `graph.at` throws or the fuel runs out before the queue is empty. -/
def topoLoop (graph : WeightedGraph T) : Nat → TopoState T → Option (TopoState T)
  | 0, st => if st.q.isEmpty then some st else none
  | fuel + 1, st =>
    match st.q with
    | [] => some st
    | vertex :: rest =>
      match graph.at_ vertex with
      | none => none
      | some adj =>
        topoLoop graph fuel (visitAdjacent adj { st with q := rest, res := st.res ++ [vertex] })

/-- `topologicalSort(graph)`.  `order` is the order in which the loop over `indegrees`
visits the keys of that map; `fuel` bounds the iterations of the `while` loop. -/
def topologicalSort (graph : WeightedGraph T) (order : List T) (fuel : Nat) :
    Option (List T) :=
  match computeIndegrees graph with
  | none => none
  | some indegrees =>
    let q := order.filter (fun curr => indegrees curr = 0)
    match topoLoop graph fuel { indegrees := indegrees, q := q, res := [] } with
    | none => none
    | some st => some (if st.res.length ≠ graph.size then [] else st.res)

/-- The number of edges into `v` from the entries of a graph whose vertex is not in
`res`. -/
def indegreeOutside (res : List T) (v : T) : WeightedGraph T → Int
  | [] => 0
  | entry :: rest =>
    (if entry.1 ∈ res then 0 else (entry.2.countP (fun e => e.1 = v) : Int)) +
      indegreeOutside res v rest

/-- The invariant of the `while` loop of `topologicalSort`: the vertices in `res` and `q`
are pairwise distinct vertices of the graph, `indegrees` counts for every vertex the edges
into it from vertices not yet in `res`, the vertices in `res` or `q` are those whose count
is 0, and every edge into a vertex of `res` comes from a vertex earlier in `res`. -/
structure TopoInv (graph : WeightedGraph T) (st : TopoState T) : Prop where
  nodup : (st.res ++ st.q).Nodup
  subset : ∀ v ∈ st.res ++ st.q, v ∈ graph.vertices
  indeg : ∀ v, st.indegrees v = indegreeOutside st.res v graph
  ready : ∀ v ∈ graph.vertices, (v ∈ st.res ++ st.q ↔ st.indegrees v = 0)
  before : ∀ u v, graph.Adj u v → ∀ pre post, st.res = pre ++ v :: post → u ∈ pre

/-- The graph with the edges a → b, a → c, b → c. -/
def exampleDag : WeightedGraph Nat := [(0, [(1, 4), (2, 1)]), (1, [(2, 2)]), (2, [])]

/-- The graph with the edges a → b, b → a. -/
def exampleCycle : WeightedGraph Nat := [(0, [(1, 1)]), (1, [(0, 1)])]

end Graph

end GraphAlgorithms

/-! ### `dijkstrasAlgorithm`

`infinity<T>()` is `std::numeric_limits<weight_type<T>>::max()`; the weight type is
declared in `graph-types.h`, which is not part of the sources, and `infinity` is a parameter
here.  A sum that leaves the range of the weight type has no defined result.

`std::priority_queue` is library code.  The queue is the list of the vertices it holds;
`top`, a parameter, is the element `top()` returns for the comparator
`DijkstraComparator` over the current `distances`.  The calls `updateHeap` re-establish the
heap order after every change of `distances`, so `top()` is an element of the queue than
which no element has a smaller distance (`TopSpec`). -/

namespace GraphAlgorithms

/-- Why a run has no result: a sum outside the range of the weight type, an `at` that throws
`std::out_of_range`, a `q.top()` on an empty queue, or the bound on the iterations used
up. -/
inductive Undefined where
  | overflow
  | out_of_range
  | empty_queue
  | out_of_fuel
  deriving DecidableEq

section Dijkstra

variable {T : Type} [DecidableEq T]

/-- `relax<T>(u, v, w, distances, predecessors)`: the returned flag and the two maps after
the call; `overflow` when `distances[u] + w` is outside the range of the weight type. -/
def relax (infinity : Int) (u v : T) (w : Int) (distances : T → Int)
    (predecessors : T → Option T) : Except Undefined (Bool × (T → Int) × (T → Option T)) :=
  let newDist := distances u + w
  if newDist > infinity ∨ newDist < -infinity - 1 then .error .overflow
  else if newDist < distances v then
    .ok (true, Function.update distances v newDist, Function.update predecessors v (some u))
  else .ok (false, distances, predecessors)

/-- The loop of `initializeSingleSource`: `distances[vertex] = infinity<T>()` and
`predecessors[vertex] = std::nullopt` for every entry. -/
def initEntries (infinity : Int) :
    List (T × List (T × Int)) → (T → Int) × (T → Option T) → (T → Int) × (T → Option T)
  | [], maps => maps
  | entry :: rest, maps =>
    initEntries infinity rest
      (Function.update maps.1 entry.1 infinity, Function.update maps.2 entry.1 none)

/-- `initializeSingleSource<T>(graph, initial_node, distances, predecessors)` on two empty
maps: the maps after the call; `out_of_range` when `distances.at(initial_node)` throws. -/
def initializeSingleSource (infinity : Int) (graph : WeightedGraph T) (initial_node : T) :
    Except Undefined ((T → Int) × (T → Option T)) :=
  let maps := initEntries infinity graph (fun _ => 0, fun _ => none)
  if initial_node ∈ graph.vertices then .ok (Function.update maps.1 initial_node 0, maps.2)
  else .error .out_of_range

/-- `updateHeap<T>(q, distances)`: the queue holds the same vertices afterwards;
`empty_queue` when the queue is empty, where `q.top()` has no defined result. -/
def updateHeap (q : List T) : Except Undefined (List T) :=
  if q.isEmpty then .error .empty_queue else .ok q

/-- The variables the `while` loop of `dijkstrasAlgorithm` works on. -/
structure DijkstraState (T : Type) where
  distances : T → Int
  predecessors : T → Option T
  s : List T
  q : List T

/-- The loop `for (auto [adjVertex, weight] : graph.at(vertex))` in the body of the `while`
loop. -/
def relaxAdjacent (infinity : Int) (vertex : T) :
    List (T × Int) → DijkstraState T → Except Undefined (DijkstraState T)
  | [], st => .ok st
  | edge :: rest, st =>
    if edge.1 ∈ st.s then relaxAdjacent infinity vertex rest st
    else
      match relax infinity vertex edge.1 edge.2 st.distances st.predecessors with
      | .error e => .error e
      | .ok (true, distances, predecessors) =>
        match updateHeap st.q with
        | .error e => .error e
        | .ok q =>
          relaxAdjacent infinity vertex rest
            { st with distances := distances, predecessors := predecessors, q := q }
      | .ok (false, distances, predecessors) =>
        relaxAdjacent infinity vertex rest
          { st with distances := distances, predecessors := predecessors }

/-- The loop `while (!q.empty())` of `dijkstrasAlgorithm`, run for at most `fuel` iterations
that take a vertex off the queue: `out_of_fuel` when the fuel runs out, `out_of_range` when
`graph.at(vertex)` throws, and what the loop over the adjacency list answers when that has
no defined result. -/
def dijkstraLoop (top : (T → Int) → List T → T) (infinity : Int) (graph : WeightedGraph T) :
    Nat → DijkstraState T → Except Undefined (DijkstraState T)
  | 0, st =>
    if st.q.isEmpty then .ok st
    else if st.distances (top st.distances st.q) = infinity then .ok st
    else .error .out_of_fuel
  | fuel + 1, st =>
    if st.q.isEmpty then .ok st
    else
      let vertex := top st.distances st.q
      if st.distances vertex = infinity then .ok st
      else
        let q := st.q.erase vertex
        let s := if vertex ∈ st.s then st.s else st.s ++ [vertex]
        match graph.at_ vertex with
        | none => .error .out_of_range
        | some adj =>
          match relaxAdjacent infinity vertex adj { st with q := q, s := s } with
          | .error e => .error e
          | .ok st1 => dijkstraLoop top infinity graph fuel st1

/-- The loop `while (predecessors[curr].has_value())` that builds the result, run for at
most `fuel` iterations. -/
def walkBack (predecessors : T → Option T) : Nat → T → List T → Except Undefined (List T)
  | 0, curr, res => if (predecessors curr).isSome then .error .out_of_fuel else .ok res
  | fuel + 1, curr, res =>
    match predecessors curr with
    | none => .ok res
    | some p => walkBack predecessors fuel p (p :: res)

/-- `dijkstrasAlgorithm<T>(graph, initial_node, destination_node)`; `fuel` bounds the
iterations of each of the two `while` loops. -/
def dijkstrasAlgorithm (top : (T → Int) → List T → T) (infinity : Int)
    (graph : WeightedGraph T) (initial_node destination_node : T) (fuel : Nat) :
    Except Undefined (List T) :=
  match initializeSingleSource infinity graph initial_node with
  | .error e => .error e
  | .ok (distances, predecessors) =>
    match dijkstraLoop top infinity graph fuel
        { distances := distances, predecessors := predecessors, s := [], q := graph.vertices } with
    | .error e => .error e
    | .ok st =>
      let res :=
        if initial_node = destination_node ∨ (st.predecessors destination_node).isSome then
          [destination_node]
        else []
      walkBack st.predecessors fuel destination_node res

/-- What `std::priority_queue::top()` answers on a non-empty queue kept in heap order for
the comparator `distances.at(a) > distances.at(b)`: an element of the queue with the least
distance. -/
def TopSpec (top : (T → Int) → List T → T) : Prop :=
  ∀ (distances : T → Int) (q : List T), q ≠ [] →
    top distances q ∈ q ∧ ∀ y ∈ q, distances (top distances q) ≤ distances y

/-- An instance of `top`: the first element of the queue with the least distance. -/
def firstMin (distances : T → Int) : List T → T → T
  | [], best => best
  | y :: rest, best => firstMin distances rest (if distances y < distances best then y else best)

/-- The instance of `top` used in the examples. -/
def exampleTop (distances : Nat → Int) (q : List Nat) : Nat :=
  match q with
  | [] => 0
  | y :: rest => firstMin distances rest y

/-- The walks of a graph from `s`, with their total weight. -/
inductive Walk (graph : WeightedGraph T) (s : T) : T → Int → Prop
  | nil : Walk graph s s 0
  | snoc {u v : T} {d w : Int} : Walk graph s u d → graph.Edge u v w → Walk graph s v (d + w)

/-- The weight of the entry for `v` in an adjacency list. -/
def weightIn (v : T) : List (T × Int) → Option Int
  | [] => none
  | edge :: rest => if edge.1 = v then some edge.2 else weightIn v rest

/-- The weight of the edge from `u` to `v`, when there is one. -/
def WeightedGraph.weight (graph : WeightedGraph T) (u v : T) : Option Int :=
  match graph.at_ u with
  | none => none
  | some adj => weightIn v adj

/-- The total weight of a list of vertices read as a path: `none` when the list is empty or
two consecutive vertices are not joined by an edge. -/
def pathWeight (graph : WeightedGraph T) : List T → Option Int
  | [] => none
  | [_] => some 0
  | u :: v :: rest =>
    match graph.weight u v, pathWeight graph (v :: rest) with
    | some w, some d => some (w + d)
    | _, _ => none

/-- Every edge weight is non-negative. -/
def WeightedGraph.NonNegative (graph : WeightedGraph T) : Prop :=
  ∀ u v w, graph.Edge u v w → 0 ≤ w

/-- The invariant of the `while` loop of `dijkstrasAlgorithm`.  The vertices are split
between the visited set `s` (in the order they were taken off the queue) and the queue; a
distance below `infinity` is the weight of a walk from the source; the distance of a visited
vertex is the least weight of a walk to it; every edge out of a visited vertex has been
relaxed, the edges in `pending` apart; and a predecessor is a visited vertex, taken off the
queue earlier, from which one edge gives the distance. -/
structure DijkstraInv (infinity : Int) (graph : WeightedGraph T) (source : T)
    (pending : T → T → Int → Prop) (st : DijkstraState T) : Prop where
  s_nodup : st.s.Nodup
  q_nodup : st.q.Nodup
  partition : ∀ v, v ∈ graph.vertices ↔ (v ∈ st.s ∨ v ∈ st.q)
  disjoint : ∀ v, v ∈ st.s → v ∉ st.q
  source_zero : st.distances source = 0
  outside : ∀ v, v ∉ graph.vertices → st.distances v = 0 ∧ st.predecessors v = none
  range : ∀ v, 0 ≤ st.distances v ∧ st.distances v ≤ infinity
  realized : ∀ v ∈ graph.vertices, st.distances v < infinity →
    Walk graph source v (st.distances v)
  optimal : ∀ u ∈ st.s, st.distances u < infinity ∧
    ∀ d, Walk graph source u d → st.distances u ≤ d
  relaxed : ∀ u ∈ st.s, ∀ v w, graph.Edge u v w → ¬ pending u v w →
    st.distances v ≤ st.distances u + w
  pred_source : st.predecessors source = none
  pred_some : ∀ v u, st.predecessors v = some u →
    u ∈ st.s ∧ st.distances v < infinity ∧
      ∃ w, graph.weight u v = some w ∧ st.distances v = st.distances u + w
  pred_none : ∀ v ∈ graph.vertices, v ≠ source → st.distances v < infinity →
    st.predecessors v ≠ none
  pred_before : ∀ v u, st.predecessors v = some u →
    ∀ pre post, st.s = pre ++ v :: post → u ∈ pre

/-- The graph with the one edge a → b whose weight is the largest value of a 32-bit
`int`. -/
def exampleSentinel : WeightedGraph Nat := [(0, [(1, 2147483647)]), (1, [])]

/-- The graph with the edges a → b and b → c of weight 1 and the edge a → c whose weight is
the largest value of a 32-bit `int`. -/
def exampleLimit : WeightedGraph Nat :=
  [(0, [(1, 1), (2, 2147483647)]), (1, [(2, 1)]), (2, [])]

/-- The graph with the edge a → b of weight 1 and the edge b → a whose weight is the largest
value of a 32-bit `int`. -/
def exampleBack : WeightedGraph Nat := [(0, [(1, 1)]), (1, [(0, 2147483647)])]

/-- The graph with the edge a → b of weight 1 and the edge b → c whose weight is the largest
value of a 32-bit `int`. -/
def exampleOverflow : WeightedGraph Nat :=
  [(0, [(1, 1)]), (1, [(2, 2147483647)]), (2, [])]

end Dijkstra

end GraphAlgorithms

/-! ### A table built with another equality predicate -/

/-- The table `UnorderedMap<size_t, size_t, Hash, Pred> m(5)` for the hash `k % 5` and the
predicate `a % 5 == b % 5`, an equivalence on keys under which equivalent keys have equal
hash codes, after `insert({1, 10})`. -/
def exampleModFive : UnorderedMap Nat Nat :=
  { (UnorderedMap.construct (fun _ => 5) 5 (fun k => k % 5) (fun a b => a % 5 == b % 5) :
        UnorderedMap Nat Nat) with
      _buckets := [[], [⟨0, (1, 10)⟩], [], [], []], _head := some 0, _size := 1, _alloc := 1 }

namespace UnorderedMap

variable {K V : Type}

/-- The entry for `k1` is the same in `m1` as in `m`: the search loop of `operator[]` stops
at the same node for `k1`, that node holds the same pair, `k1` is stored in both or in
neither, and the bucket count is the same. -/
def SameEntry [DecidableEq K] (m m1 : UnorderedMap K V) (k1 : K) : Prop :=
  chainFind k1 (m1.chain (m1._bucket k1)) = chainFind k1 (m.chain (m._bucket k1)) ∧
    m1.star (chainFind k1 (m1.chain (m1._bucket k1))) =
      m.star (chainFind k1 (m.chain (m._bucket k1))) ∧
    (k1 ∈ m1.keys ↔ k1 ∈ m.keys) ∧ m1.bucket_count = m.bucket_count

end UnorderedMap

/-! ### Sorting through a priority queue -/

namespace PriorityQueue

variable {T : Type}

/-- The client loop `for (const T & x : xs) q.push(x);`. -/
def push_all (q : PriorityQueue T) : List T → Option (PriorityQueue T)
  | [] => some q
  | x :: xs =>
    match q.push x with
    | some q1 => push_all q1 xs
    | none => none

/-- The client loop `while (!q.empty()) { out.push_back(q.top()); q.pop(); }`: the elements
read, in the order they were read; the first argument bounds the number of iterations
(`none` when it is used up before the queue is empty). -/
def drain : Nat → PriorityQueue T → Option (List T)
  | 0, q => if q.empty then some [] else none
  | fuel + 1, q =>
    if q.empty then some []
    else
      match q.top, q.pop with
      | some t, some q1 => (drain fuel q1).map (fun out => t :: out)
      | _, _ => none

end PriorityQueue

/-! ### `Vector`: constructors, growth, insertion and erasure

An iterator is modelled by its offset from `array`, so `begin()` is 0 and `end()` is
`size()`.  A slot that was moved from keeps its value.  Block sizes are natural numbers:
no block reaches the bound of `size_t`, nor an offset the bound of `int`. -/

namespace DynamicArray

namespace Vector

variable {T : Type}

/-- The elements of the vector: the first `size()` slots of the block. -/
def elements (v : Vector T) : List T :=
  match v.array with
  | none => []
  | some block => block.take v._size

/-- `begin()`. -/
def begin (_v : Vector T) : Nat := 0

/-- `end()`. -/
def end_ (v : Vector T) : Nat := v._size

/-- `empty()`. -/
def empty (v : Vector T) : Bool := v._size == 0

/-- `new T[n]`: a block of `n` default-initialised slots. -/
def newBlock [Inhabited T] (n : Nat) : List T := List.replicate n default

/-- The copy loops `for (size_t i = 0; i < _size; i++) dst[i] = src[i];` of `grow`, the copy
constructor and the copy assignment: the first argument is the number of iterations left,
the second is `i`; `none` when a slot outside a block is read or written. -/
def copySlots (src : Option (List T)) : Nat → Nat → List T → Option (List T)
  | 0, _, dst => some dst
  | n + 1, i, dst =>
    match src with
    | none => none
    | some block =>
      match block[i]? with
      | none => none
      | some x => if i < dst.length then copySlots src n (i + 1) (dst.set i x) else none

/-- `Vector()`. -/
def new : Vector T := { array := none, _capacity := 0, _size := 0 }

/-- `Vector(count, value)`. -/
def construct_fill (count : Nat) (value : T) : Vector T :=
  { array := if count = 0 then none else some (List.replicate count value)
    _capacity := count
    _size := count }

/-- `Vector(count)`. -/
def construct_count [Inhabited T] (count : Nat) : Vector T :=
  { array := if count = 0 then none else some (newBlock count)
    _capacity := count
    _size := count }

/-- `Vector(const Vector & other)`. -/
def copy_construct [Inhabited T] (other : Vector T) : Option (Vector T) :=
  match copySlots other.array other._size 0 (newBlock other._capacity) with
  | none => none
  | some block => some { array := some block, _capacity := other._capacity, _size := other._size }

/-- `operator=(const Vector & other)` for `this != &other`: the block of `this` is deleted
and the steps of the copy constructor follow. -/
def copy_assign [Inhabited T] (_self other : Vector T) : Option (Vector T) :=
  match copySlots other.array other._size 0 (newBlock other._capacity) with
  | none => none
  | some block => some { array := some block, _capacity := other._capacity, _size := other._size }

/-- `grow()`. -/
def grow [Inhabited T] (v : Vector T) : Option (Vector T) :=
  let newCapacity : Nat :=
    match v.array with
    | none => 1
    | some _ => 2 * v._capacity
  match copySlots v.array v._size 0 (newBlock newCapacity) with
  | none => none
  | some newArray => some { array := some newArray, _capacity := newCapacity, _size := v._size }

/-- `push_back(value)` (both overloads); `none` when `array[_size]` is outside the
block. -/
def push_back [Inhabited T] (v : Vector T) (value : T) : Option (Vector T) :=
  match (if v._size = v._capacity then v.grow else some v) with
  | none => none
  | some v1 =>
    match v1.array with
    | none => none
    | some block =>
      if v1._size < block.length then
        some { v1 with array := some (block.set v1._size value), _size := v1._size + 1 }
      else none

/-- `pop_back()`. -/
def pop_back (v : Vector T) : Vector T :=
  if v._size > 0 then { v with _size := v._size - 1 } else v

/-- `clear()`. -/
def clear (v : Vector T) : Vector T := { v with _size := 0 }

/-- The loop `while (curr != this->end()) { T temp = *curr; *curr = prev; prev = temp;
curr++; }` of the three `insert` overloads, for `end()` at offset `last`: the block, `curr`
and `prev` when the loop ends.  The first argument bounds the number of iterations; `none`
when it is used up, or when `*curr` is outside the block. -/
def shiftLoop (last : Nat) : Nat → Nat → T → List T → Option (List T × Nat × T)
  | 0, curr, prev, block => if curr = last then some (block, curr, prev) else none
  | fuel + 1, curr, prev, block =>
    if curr = last then some (block, curr, prev)
    else
      match block[curr]? with
      | none => none
      | some temp => shiftLoop last fuel (curr + 1) temp (block.set curr prev)

/-- `insert(pos, value)` (both overloads): the vector after the call and the iterator
returned. -/
def insert [Inhabited T] (fuel : Nat) (v : Vector T) (pos : Nat) (value : T) :
    Option (Vector T × Nat) :=
  match (if v._size = v._capacity then v.grow else some v) with
  | none => none
  | some v1 =>
    match v1.array with
    | none => none
    | some block =>
      match shiftLoop v1._size fuel pos value block with
      | none => none
      | some (block1, curr, prev) =>
        if curr < block1.length then
          some ({ v1 with array := some (block1.set curr prev), _size := v1._size + 1 }, pos)
        else none

/-- The loop `while (_size + count > _capacity) this->grow();`; the first argument bounds
the number of iterations. -/
def growUntil [Inhabited T] : Nat → Vector T → Nat → Option (Vector T)
  | 0, v, count => if v._size + count > v._capacity then none else some v
  | fuel + 1, v, count =>
    if v._size + count > v._capacity then
      match v.grow with
      | none => none
      | some v1 => growUntil fuel v1 count
    else some v

/-- The first `for` loop of `insert(pos, count, value)`, which moves the elements from `pos`
on one slot up `count` times: the first argument is the number of iterations left, the
second is `i`, the last is `_size`. -/
def shiftRounds (fuel pos : Nat) : Nat → Nat → List T → Nat → Option (List T × Nat)
  | 0, _, block, size => some (block, size)
  | n + 1, i, block, size =>
    match block[pos + i]? with
    | none => none
    | some first =>
      match shiftLoop size fuel (pos + i + 1) first block with
      | none => none
      | some (block1, curr, prev) =>
        if curr < block1.length then
          shiftRounds fuel pos n (i + 1) (block1.set curr prev) (size + 1)
        else none

/-- The second `for` loop of `insert(pos, count, value)`, `*(pos + i) = value`. -/
def fillSlots (pos : Nat) (value : T) : Nat → Nat → List T → Option (List T)
  | 0, _, block => some block
  | n + 1, i, block =>
    if pos + i < block.length then fillSlots pos value n (i + 1) (block.set (pos + i) value)
    else none

/-- `insert(pos, count, value)`: the vector after the call and the iterator returned; the
first argument bounds the number of iterations of each `while` loop. -/
def insert_count [Inhabited T] (fuel : Nat) (v : Vector T) (pos count : Nat) (value : T) :
    Option (Vector T × Nat) :=
  match growUntil fuel v count with
  | none => none
  | some v1 =>
    match v1.array with
    | none => if count = 0 then some (v1, pos) else none
    | some block =>
      match shiftRounds fuel pos count 0 block v1._size with
      | none => none
      | some (block1, size1) =>
        match fillSlots pos value count 0 block1 with
        | none => none
        | some block2 => some ({ v1 with array := some block2, _size := size1 }, pos)

/-- The loop `while (curr != pos) { T temp = *curr; *curr = prev; prev = temp; curr--; }`
of `erase(pos)`, where `prev` is a reference to the slot `last`; the first argument is
`curr`.  `none` when `curr` leaves the block. -/
def eraseLoop (pos last : Nat) : Nat → List T → Option (List T)
  | 0, block => if 0 = pos then some block else none
  | curr + 1, block =>
    if curr + 1 = pos then some block
    else
      match block[curr + 1]?, block[last]? with
      | some temp, some prev =>
        eraseLoop pos last curr ((block.set (curr + 1) prev).set last temp)
      | _, _ => none

/-- `erase(pos)`: the vector after the call and the iterator returned; `none` when
`end() - 1` or `end() - 2` is not a pointer into the block, or a slot outside the block is
read or written. -/
def erase (v : Vector T) (pos : Nat) : Option (Vector T × Nat) :=
  if v._size = 0 then none
  else if pos = v._size - 1 then some ({ v with _size := v._size - 1 }, v._size - 1)
  else if v._size < 2 then none
  else
    match v.array with
    | none => none
    | some block =>
      match eraseLoop pos (v._size - 1) (v._size - 2) block with
      | none => none
      | some block1 =>
        match block1[v._size - 1]? with
        | none => none
        | some prev =>
          if pos < block1.length then
            some ({ v with array := some (block1.set pos prev), _size := v._size - 1 }, pos)
          else none

/-- The vector `Vector<T> b(a)` for a default-constructed `a`: a block of no slots. -/
def emptyCopy : Vector Nat := { array := some [], _capacity := 0, _size := 0 }

end Vector

end DynamicArray

/-! ## `BinarySearchTree` (src/binary-search-tree/BinarySearchTree.h)

A `node_ptr` is the tree below it: `null` for `nullptr`, or the node with its `element` and
the trees `left` and `right`.  Nodes are reached only through their parent, so a tree is
a value. -/

/-- A `node_ptr`: null, or a `BinaryNode` with its element and its two children. -/
inductive BinaryNode (K V : Type) where
  | null : BinaryNode K V
  | node (element : K × V) (left right : BinaryNode K V) : BinaryNode K V

/-- The class `BinarySearchTree`: its three data members. -/
structure BinarySearchTree (K V : Type) where
  _root : BinaryNode K V
  _size : Nat
  comp : K → K → Bool

namespace BinarySearchTree

variable {K V : Type}

/-- The private `min(t)`: the element of the node returned; `none` for a null `t`, which is
dereferenced. -/
def min_at : BinaryNode K V → Option (K × V)
  | .null => none
  | .node element left _ =>
    match left with
    | .null => some element
    | .node _ _ _ => min_at left

/-- The private `insert(x, t)`: the tree at `t` and `_size` after the call.  A null `t`
is `_root` itself, every recursive call being made on a child that is not null. -/
def insert_at [DecidableEq K] (comp : K → K → Bool) (x : K × V) :
    BinaryNode K V → Nat → BinaryNode K V × Nat
  | .null, size => (.node x .null .null, size + 1)
  | .node element left right, size =>
    if comp element.1 x.1 then
      match right with
      | .null => (.node element left (.node x .null .null), size + 1)
      | .node _ _ _ =>
        ((.node element left (insert_at comp x right size).1), (insert_at comp x right size).2)
    else if comp x.1 element.1 then
      match left with
      | .null => (.node element (.node x .null .null) right, size + 1)
      | .node _ _ _ =>
        ((.node element (insert_at comp x left size).1 right), (insert_at comp x left size).2)
    else if element.1 = x.1 then (.node (element.1, x.2) left right, size)
    else (.node element left right, size)

/-- The private `erase(x, t)`: the tree at `t` after the call.  The first argument bounds
the depth of the recursion (`none` when it is used up); `none` also when `t` is null at
`t->element = element`. -/
def erase_at [DecidableEq K] (comp : K → K → Bool) :
    Nat → K → BinaryNode K V → Option (BinaryNode K V)
  | 0, _, _ => none
  | _ + 1, _, .null => some .null
  | fuel + 1, x, .node element left right =>
    if comp element.1 x then
      (erase_at comp fuel x right).map (fun right1 => .node element left right1)
    else if comp x element.1 then
      (erase_at comp fuel x left).map (fun left1 => .node element left1 right)
    else if element.1 = x then
      match right, left with
      | .node _ _ _, .node _ _ _ =>
        match min_at right with
        | none => none
        | some element1 =>
          match erase_at comp fuel element1.1 (.node element left right) with
          | some (.node _ left1 right1) => some (.node element1 left1 right1)
          | _ => none
      | _, _ =>
        match left with
        | .node _ _ _ => some left
        | .null => some right
    else some (.node element left right)

/-- The private `contains(x, t)`. -/
def contains_at [DecidableEq K] (comp : K → K → Bool) (x : K) : BinaryNode K V → Bool
  | .null => false
  | .node element left right =>
    if element.1 = x then true
    else if comp element.1 x then contains_at comp x right
    else contains_at comp x left

/-- `BinarySearchTree()`, for the comparator `comp`. -/
def new (comp : K → K → Bool) : BinarySearchTree K V :=
  { _root := .null, _size := 0, comp := comp }

/-- `empty()`. -/
def empty (t : BinarySearchTree K V) : Bool := t._size == 0

/-- `size()`. -/
def size (t : BinarySearchTree K V) : Nat := t._size

/-- `contains(x)`. -/
def contains [DecidableEq K] (t : BinarySearchTree K V) (x : K) : Bool :=
  contains_at t.comp x t._root

/-- `insert(x)`. -/
def insert [DecidableEq K] (t : BinarySearchTree K V) (x : K × V) : BinarySearchTree K V :=
  { t with
      _root := (insert_at t.comp x t._root t._size).1
      _size := (insert_at t.comp x t._root t._size).2 }

/-- `erase(x)`: `erase(x, _root); _size--;`. -/
def erase [DecidableEq K] (fuel : Nat) (t : BinarySearchTree K V) (x : K) :
    Option (BinarySearchTree K V) :=
  match erase_at t.comp fuel x t._root with
  | none => none
  | some root => some { t with _root := root, _size := size_decr t._size }

end BinarySearchTree

namespace BinaryNode

variable {K V : Type}

/-- The elements of the nodes of a tree, in order: left subtree, node, right subtree. -/
def elements : BinaryNode K V → List (K × V)
  | .null => []
  | .node element left right => elements left ++ element :: elements right

/-- The keys of the nodes of a tree. -/
def keys (t : BinaryNode K V) : List K := t.elements.map (fun e => e.1)

/-- The number of nodes of a tree. -/
def nodeCount (t : BinaryNode K V) : Nat := t.elements.length

/-- The height of a tree: the number of nodes on its longest path from the root. -/
def height : BinaryNode K V → Nat
  | .null => 0
  | .node _ left right => Nat.max (height left) (height right) + 1

/-- The binary-search-tree ordering: at every node all keys in the left subtree compare
less than the key of the node, and the key of the node compares less than all keys in the
right subtree. -/
def Ordered (comp : K → K → Bool) : BinaryNode K V → Prop
  | .null => True
  | .node element left right =>
    (∀ k ∈ left.keys, comp k element.1 = true) ∧
      (∀ k ∈ right.keys, comp element.1 k = true) ∧ Ordered comp left ∧ Ordered comp right

end BinaryNode

namespace BinarySearchTree

variable {K V : Type}

/-- The requirement on `Comparator`: a strict total order. -/
structure StrictTotalOrder (comp : K → K → Bool) : Prop where
  irrefl : ∀ a, comp a a = false
  trans : ∀ a b c, comp a b = true → comp b c = true → comp a c = true
  total : ∀ a b, a ≠ b → comp a b = true ∨ comp b a = true

/-- A call made on a tree: `insert(x)` or `erase(key)`. -/
inductive Call (K V : Type) where
  | insert (x : K × V) : Call K V
  | erase (key : K) : Call K V

/-- Whether `k` was inserted and not erased afterwards by the calls `calls`, listed from
the last call made to the first. -/
def inserted [DecidableEq K] (k : K) : List (Call K V) → Bool
  | [] => false
  | Call.insert x :: calls => decide (x.1 = k) || inserted k calls
  | Call.erase key :: calls => !decide (key = k) && inserted k calls

/-- The trees reached from an empty tree by `insert` and `erase` calls, with the calls
made, listed from the last one to the first. -/
inductive ReachedBy [DecidableEq K] : List (Call K V) → BinarySearchTree K V → Prop
  | new (comp : K → K → Bool) : ReachedBy [] (BinarySearchTree.new comp)
  | insert (calls : List (Call K V)) (t : BinarySearchTree K V) (x : K × V) :
      ReachedBy calls t → ReachedBy (Call.insert x :: calls) (t.insert x)
  | erase (calls : List (Call K V)) (t t1 : BinarySearchTree K V) (fuel : Nat) (key : K) :
      ReachedBy calls t → t.erase fuel key = some t1 → ReachedBy (Call.erase key :: calls) t1

/-- The tree after `insert((2, 20))`, `insert((1, 10))`, `insert((3, 30))` on an empty
tree of numbers under `<`. -/
def exampleTree : BinarySearchTree Nat Nat :=
  { _root := .node (2, 20) (.node (1, 10) .null .null) (.node (3, 30) .null .null)
    _size := 3
    comp := fun a b => decide (a < b) }

end BinarySearchTree

namespace BinarySearchTree

/-- The tree after `erase(5)` on an empty tree of numbers under `<`. -/
def exampleErasedEmpty : BinarySearchTree Nat Nat :=
  { _root := .null, _size := 2 ^ 64 - 1, comp := fun a b => decide (a < b) }

end BinarySearchTree

/-! ### Lists of chains -/

section ListLemmas

variable {α β : Type}

theorem flatten_set_perm_cons {L : List (List α)} {i : Nat} {c : List α} {x : α}
    (hi : i < L.length) (h : c.Perm (x :: L.getD i [])) :
    (L.set i c).flatten.Perm (x :: L.flatten) := by
  induction L generalizing i with
  | nil => simp at hi
  | cons l L ih =>
    cases i with
    | zero =>
      simp only [List.set_cons_zero, List.flatten_cons]
      simp only [List.getD_cons_zero] at h
      exact (h.append_right _).trans (by simp)
    | succ i =>
      simp only [List.set_cons_succ, List.flatten_cons]
      simp only [List.getD_cons_succ] at h
      have hi2 : i < L.length := by simpa using hi
      exact ((ih hi2 h).append_left l).trans (List.perm_middle)

theorem flatten_perm_cons_set {L : List (List α)} {i : Nat} {c : List α} {x : α}
    (hi : i < L.length) (h : (L.getD i []).Perm (x :: c)) :
    L.flatten.Perm (x :: (L.set i c).flatten) := by
  induction L generalizing i with
  | nil => simp at hi
  | cons l L ih =>
    cases i with
    | zero =>
      simp only [List.set_cons_zero, List.flatten_cons]
      simp only [List.getD_cons_zero] at h
      exact (h.append_right _).trans (by simp)
    | succ i =>
      simp only [List.set_cons_succ, List.flatten_cons]
      simp only [List.getD_cons_succ] at h
      have hi2 : i < L.length := by simpa using hi
      exact ((ih hi2 h).append_left l).trans (List.perm_middle)

theorem map_flatten_set_eq (f : α → β) {L : List (List α)} {i : Nat} {c : List α}
    (h : c.map f = (L.getD i []).map f) :
    (L.set i c).flatten.map f = L.flatten.map f := by
  induction L generalizing i with
  | nil => simp
  | cons l L ih =>
    cases i with
    | zero =>
      simp only [List.getD_cons_zero] at h
      simp [h]
    | succ i =>
      simp only [List.getD_cons_succ] at h
      simp [ih h]

theorem getD_set_self {L : List (List α)} {i : Nat} {c : List α} (hi : i < L.length) :
    (L.set i c).getD i [] = c := by
  simp [List.getD_eq_getElem?_getD, List.getElem?_set, hi]

theorem getD_set_ne {L : List (List α)} {i j : Nat} {c : List α} (hij : i ≠ j) :
    (L.set i c).getD j [] = L.getD j [] := by
  simp [List.getD_eq_getElem?_getD, List.getElem?_set, hij]

theorem getD_mem_flatten {L : List (List α)} {i : Nat} {x : α} (h : x ∈ L.getD i []) :
    x ∈ L.flatten := by
  rw [List.getD_eq_getElem?_getD] at h
  rcases hget : L[i]? with _ | c
  · simp [hget] at h
  · simp only [hget, Option.getD_some] at h
    exact List.mem_flatten.2 ⟨c, List.getElem?_mem hget, h⟩

theorem mem_flatten_getD {L : List (List α)} {x : α} (h : x ∈ L.flatten) :
    ∃ i, i < L.length ∧ x ∈ L.getD i [] := by
  obtain ⟨c, hc, hx⟩ := List.mem_flatten.1 h
  obtain ⟨i, hi, rfl⟩ := List.getElem_of_mem hc
  exact ⟨i, hi, by simpa [List.getD_eq_getElem?_getD, List.getElem?_eq_getElem hi] using hx⟩

end ListLemmas

/-! ### The chain loops -/

section ChainLemmas

variable {K V : Type}

theorem chainFind_eq_none [DecidableEq K] {key : K} {chain : List (HashNode K V)} :
    chainFind key chain = none ↔ key ∉ chain.map (fun n => n.val.1) := by
  induction chain with
  | nil => simp [chainFind]
  | cons n rest ih =>
    by_cases hk : n.val.1 = key
    · simp [chainFind, hk]
    · simp [chainFind, hk, ih, Ne.symm hk]

theorem chainFind_eq_some [DecidableEq K] {key : K} {chain : List (HashNode K V)} {a : Nat}
    (h : chainFind key chain = some a) :
    ∃ pre x post, chain = pre ++ x :: post ∧ x.val.1 = key ∧
      key ∉ pre.map (fun n => n.val.1) ∧ x.addr = a := by
  induction chain with
  | nil => simp [chainFind] at h
  | cons n rest ih =>
    by_cases hk : n.val.1 = key
    · simp only [chainFind, hk, if_true, Option.some.injEq] at h
      exact ⟨[], n, rest, rfl, hk, by simp, h⟩
    · simp only [chainFind, hk, if_false] at h
      obtain ⟨pre, x, post, hc, hx, hpre, ha⟩ := ih h
      refine ⟨n :: pre, x, post, by simp [hc], hx, ?_, ha⟩
      simp only [List.map_cons, List.mem_cons, not_or]
      exact ⟨Ne.symm hk, hpre⟩

theorem chainAssign_eq_none [DecidableEq K] [DecidableEq V] {key : K} {v : V}
    {chain : List (HashNode K V)} :
    chainAssign key v chain = none ↔ key ∉ chain.map (fun n => n.val.1) := by
  induction chain with
  | nil => simp [chainAssign]
  | cons n rest ih =>
    by_cases hk : n.val.1 = key
    · simp [chainAssign, hk]
    · simp only [chainAssign, hk, if_false, List.map_cons, List.mem_cons, not_or]
      rcases hrec : chainAssign key v rest with _ | ⟨a, rest1⟩
      · simp only [true_iff]
        exact ⟨Ne.symm hk, ih.1 hrec⟩
      · simp only [false_iff, not_and, not_not, reduceCtorEq]
        intro _
        by_contra hnot
        rw [ih.2 hnot] at hrec
        cases hrec

theorem chainAssign_eq_some [DecidableEq K] [DecidableEq V] {key : K} {v : V}
    {chain chain1 : List (HashNode K V)} {a : Nat}
    (h : chainAssign key v chain = some (a, chain1)) :
    ∃ pre x post, chain = pre ++ x :: post ∧ x.val.1 = key ∧
      key ∉ pre.map (fun n => n.val.1) ∧ x.addr = a ∧
      chain1 = pre ++ (⟨a, (key, v)⟩ : HashNode K V) :: post := by
  induction chain generalizing chain1 with
  | nil => simp [chainAssign] at h
  | cons n rest ih =>
    by_cases hk : n.val.1 = key
    · simp only [chainAssign, hk, if_true, Option.some.injEq, Prod.mk.injEq] at h
      obtain ⟨ha, hc⟩ := h
      refine ⟨[], n, rest, rfl, hk, by simp, ha, ?_⟩
      rw [← hc, ← ha]
      by_cases hv : n.val.2 = v
      · obtain ⟨na, nk, nv⟩ := n
        simp only at hk hv
        simp [hk, hv]
      · simp [hv, hk]
    · simp only [chainAssign, hk, if_false] at h
      rcases hrec : chainAssign key v rest with _ | ⟨b, rest1⟩
      · simp [hrec] at h
      · simp only [hrec, Option.some.injEq, Prod.mk.injEq] at h
        obtain ⟨hb, hc⟩ := h
        subst hb
        obtain ⟨pre, x, post, hch, hx, hpre, hxa, hr⟩ := ih hrec
        refine ⟨n :: pre, x, post, by simp [hch], hx, ?_, hxa, by simp [← hc, hr]⟩
        simp only [List.map_cons, List.mem_cons, not_or]
        exact ⟨Ne.symm hk, hpre⟩

theorem chainAssign_fst [DecidableEq K] [DecidableEq V] (key : K) (v : V)
    (chain : List (HashNode K V)) :
    (chainAssign key v chain).map Prod.fst = chainFind key chain := by
  induction chain with
  | nil => simp [chainAssign, chainFind]
  | cons n rest ih =>
    by_cases hk : n.val.1 = key
    · simp [chainAssign, chainFind, hk]
    · simp only [chainAssign, chainFind, hk, if_false]
      rw [← ih]
      rcases chainAssign key v rest with _ | ⟨b, rest1⟩ <;> simp

theorem chainUnlink_eq_none [DecidableEq K] {key : K} {chain : List (HashNode K V)} :
    chainUnlink key chain = none ↔ key ∉ chain.map (fun n => n.val.1) := by
  induction chain with
  | nil => simp [chainUnlink]
  | cons n rest ih =>
    by_cases hk : n.val.1 = key
    · simp [chainUnlink, hk]
    · simp only [chainUnlink, hk, if_false, List.map_cons, List.mem_cons, not_or]
      rcases hrec : chainUnlink key rest with _ | ⟨c, rest1⟩
      · simp only [true_iff]
        exact ⟨Ne.symm hk, ih.1 hrec⟩
      · simp only [false_iff, not_and, not_not, reduceCtorEq]
        intro _
        by_contra hnot
        rw [ih.2 hnot] at hrec
        cases hrec

theorem chainUnlink_eq_some [DecidableEq K] {key : K} {chain chain1 : List (HashNode K V)}
    {c : HashNode K V} (h : chainUnlink key chain = some (c, chain1)) :
    ∃ pre post, chain = pre ++ c :: post ∧ c.val.1 = key ∧
      key ∉ pre.map (fun n => n.val.1) ∧ chain1 = pre ++ post := by
  induction chain generalizing chain1 with
  | nil => simp [chainUnlink] at h
  | cons n rest ih =>
    by_cases hk : n.val.1 = key
    · simp only [chainUnlink, hk, if_true, Option.some.injEq, Prod.mk.injEq] at h
      obtain ⟨hc, hr⟩ := h
      subst hc
      exact ⟨[], rest, rfl, hk, by simp, by simp [hr]⟩
    · simp only [chainUnlink, hk, if_false] at h
      rcases hrec : chainUnlink key rest with _ | ⟨b, rest1⟩
      · simp [hrec] at h
      · simp only [hrec, Option.some.injEq, Prod.mk.injEq] at h
        obtain ⟨hb, hc⟩ := h
        subst hb
        obtain ⟨pre, post, hch, hx, hpre, hr⟩ := ih hrec
        refine ⟨n :: pre, post, by simp [hch], hx, ?_, by simp [← hc, hr]⟩
        simp only [List.map_cons, List.mem_cons, not_or]
        exact ⟨Ne.symm hk, hpre⟩

theorem chainLookup_eq_none {p : Nat} {chain : List (HashNode K V)} :
    chainLookup p chain = none ↔ p ∉ chain.map HashNode.addr := by
  induction chain with
  | nil => simp [chainLookup]
  | cons n rest ih =>
    by_cases hk : n.addr = p
    · simp [chainLookup, hk]
    · simp [chainLookup, hk, ih, Ne.symm hk]

theorem chainLookup_eq_some {p : Nat} {chain : List (HashNode K V)} {n : HashNode K V}
    {next : Option Nat} (h : chainLookup p chain = some (n, next)) :
    ∃ pre post, chain = pre ++ n :: post ∧ n.addr = p ∧ p ∉ pre.map HashNode.addr ∧
      next = chainHead post := by
  induction chain with
  | nil => simp [chainLookup] at h
  | cons x rest ih =>
    by_cases hk : x.addr = p
    · simp only [chainLookup, hk, if_true, Option.some.injEq, Prod.mk.injEq] at h
      obtain ⟨hx, hn⟩ := h
      subst hx
      exact ⟨[], rest, rfl, hk, by simp, hn.symm⟩
    · simp only [chainLookup, hk, if_false] at h
      obtain ⟨pre, post, hch, hx, hpre, hn⟩ := ih h
      refine ⟨x :: pre, post, by simp [hch], hx, ?_, hn⟩
      simp only [List.map_cons, List.mem_cons, not_or]
      exact ⟨Ne.symm hk, hpre⟩

theorem chainLookup_append_cons {pre post : List (HashNode K V)} {n : HashNode K V}
    (hpre : n.addr ∉ pre.map HashNode.addr) :
    chainLookup n.addr (pre ++ n :: post) = some (n, chainHead post) := by
  induction pre with
  | nil => simp [chainLookup]
  | cons x pre ih =>
    simp only [List.map_cons, List.mem_cons, not_or] at hpre
    simp [chainLookup, Ne.symm hpre.1, ih hpre.2]

theorem heapLookup_eq_none {p : Nat} {L : List (List (HashNode K V))} :
    heapLookup p L = none ↔ p ∉ L.flatten.map HashNode.addr := by
  induction L with
  | nil => simp [heapLookup]
  | cons l L ih =>
    simp only [heapLookup, List.flatten_cons, List.map_append, List.mem_append, not_or]
    rcases hl : chainLookup p l with _ | r
    · simp only [ih]
      exact ⟨fun h => ⟨chainLookup_eq_none.1 hl, h⟩, fun h => h.2⟩
    · simp only [false_iff, not_and, reduceCtorEq]
      intro h
      rw [chainLookup_eq_none.2 h] at hl
      cases hl

theorem heapLookup_eq_some {p : Nat} {L : List (List (HashNode K V))} {n : HashNode K V}
    {next : Option Nat} (h : heapLookup p L = some (n, next)) :
    ∃ i, i < L.length ∧ chainLookup p (L.getD i []) = some (n, next) := by
  induction L with
  | nil => simp [heapLookup] at h
  | cons l L ih =>
    simp only [heapLookup] at h
    rcases hl : chainLookup p l with _ | r
    · simp only [hl] at h
      obtain ⟨i, hi, hc⟩ := ih h
      exact ⟨i + 1, by simpa using hi, by simpa using hc⟩
    · simp only [hl, Option.some.injEq] at h
      subst h
      exact ⟨0, by simp, by simpa using hl⟩

theorem heapLookup_of_chainLookup {p : Nat} {L : List (List (HashNode K V))}
    {r : HashNode K V × Option Nat} {i : Nat}
    (hnd : (L.flatten.map HashNode.addr).Nodup)
    (h : chainLookup p (L.getD i []) = some r) : heapLookup p L = some r := by
  induction L generalizing i with
  | nil => simp [chainLookup] at h
  | cons l L ih =>
    simp only [List.flatten_cons, List.map_append] at hnd
    cases i with
    | zero =>
      simp only [List.getD_cons_zero] at h
      simp [heapLookup, h]
    | succ i =>
      simp only [List.getD_cons_succ] at h
      have hp : p ∈ (L.getD i []).map HashNode.addr := by
        by_contra hnot
        rw [chainLookup_eq_none.2 hnot] at h
        cases h
      have hpL : p ∈ L.flatten.map HashNode.addr := by
        obtain ⟨x, hx, hxp⟩ := List.mem_map.1 hp
        exact List.mem_map.2 ⟨x, getD_mem_flatten hx, hxp⟩
      have hpl : p ∉ l.map HashNode.addr := fun hin =>
        (List.nodup_append.1 hnd).2.2 hin hpL
      simp [heapLookup, chainLookup_eq_none.2 hpl, ih (List.nodup_append.1 hnd).2.1 h]

end ChainLemmas

/-! ### The representation invariant is preserved -/

namespace UnorderedMap

variable {K V : Type}

theorem _bucket_lt (m : UnorderedMap K V) (key : K) (h : 0 < m._bucket_count) :
    m._bucket key < m._bucket_count := Nat.mod_lt _ h

theorem mem_allNodes_of_mem_chain {m : UnorderedMap K V} {i : Nat} {n : HashNode K V}
    (h : n ∈ m.chain i) : n ∈ m.allNodes := getD_mem_flatten h

theorem WellFormed.of_set {m m1 : UnorderedMap K V} {b : Nat} {chain1 : List (HashNode K V)}
    (hwf : WellFormed m) (hN : m1._bucket_count = m._bucket_count) (hH : m1._hash = m._hash)
    (hB : m1._buckets = m._buckets.set b chain1) (hb : b < m._bucket_count)
    (hplace : ∀ n ∈ chain1, m._bucket n.val.1 = b)
    (hkeys : (chain1.map (fun n => n.val.1)).Nodup)
    (haddr : (m1.allNodes.map HashNode.addr).Nodup)
    (hlt : ∀ n ∈ m1.allNodes, n.addr < m1._alloc)
    (hsize : m1._size = m1.allNodes.length) : WellFormed m1 := by
  have hbl : b < m._buckets.length := by rw [hwf.length_buckets]; exact hb
  have hchain : ∀ i, m1.chain i = if b = i then chain1 else m.chain i := by
    intro i
    unfold chain
    rw [hB]
    by_cases hbi : b = i
    · subst hbi
      rw [getD_set_self hbl, if_pos rfl]
    · rw [getD_set_ne hbi, if_neg hbi]
  refine ⟨?_, ?_, ?_, ?_, haddr, hlt, hsize⟩
  · rw [hB, List.length_set, hN]
    exact hwf.length_buckets
  · rw [hN]
    exact hwf.bucket_count_pos
  · intro i n hn
    rw [hchain] at hn
    have hbk : m1._bucket n.val.1 = m._bucket n.val.1 := by
      simp [_bucket, hN, hH]
    rw [hbk]
    by_cases hbi : b = i
    · rw [if_pos hbi] at hn
      rw [← hbi]
      exact hplace n hn
    · rw [if_neg hbi] at hn
      exact hwf.placement i n hn
  · intro i
    rw [hchain]
    by_cases hbi : b = i
    · rw [if_pos hbi]
      exact hkeys
    · rw [if_neg hbi]
      exact hwf.keys_nodup i

theorem WellFormed.overwrite [DecidableEq K] [DecidableEq V] {m m1 : UnorderedMap K V}
    {b a : Nat} {key : K} {v : V} {chain1 : List (HashNode K V)}
    (hwf : WellFormed m) (hN : m1._bucket_count = m._bucket_count) (hH : m1._hash = m._hash)
    (hA : m1._alloc = m._alloc) (hS : m1._size = m._size)
    (hB : m1._buckets = m._buckets.set b chain1) (hb : b < m._bucket_count)
    (hassign : chainAssign key v (m.chain b) = some (a, chain1)) : WellFormed m1 := by
  obtain ⟨pre, x, post, hch, hx, -, hxa, hc1⟩ := chainAssign_eq_some hassign
  have hmapk : chain1.map (fun n => n.val.1) = (m.chain b).map (fun n => n.val.1) := by
    rw [hch, hc1]
    simp [hx]
  have hmapa : chain1.map HashNode.addr = (m.chain b).map HashNode.addr := by
    rw [hch, hc1]
    simp [hxa]
  have hall : m1.allNodes.map HashNode.addr = m.allNodes.map HashNode.addr := by
    unfold allNodes
    rw [hB]
    exact map_flatten_set_eq _ hmapa
  refine hwf.of_set hN hH hB hb ?_ ?_ ?_ ?_ ?_
  · intro n hn
    have : n.val.1 ∈ (m.chain b).map (fun n => n.val.1) := by
      rw [← hmapk]
      exact List.mem_map.2 ⟨n, hn, rfl⟩
    obtain ⟨n0, hn0, hk0⟩ := List.mem_map.1 this
    rw [← hk0]
    exact hwf.placement b n0 hn0
  · rw [hmapk]
    exact hwf.keys_nodup b
  · rw [hall]
    exact hwf.addr_nodup
  · intro n hn
    have : n.addr ∈ m.allNodes.map HashNode.addr := by
      rw [← hall]
      exact List.mem_map.2 ⟨n, hn, rfl⟩
    obtain ⟨n0, hn0, ha0⟩ := List.mem_map.1 this
    rw [hA, ← ha0]
    exact hwf.addr_lt n0 hn0
  · have hlen := congrArg List.length hall
    simp only [List.length_map] at hlen
    rw [hS, hlen]
    exact hwf.size_eq

theorem WellFormed.prepend {m m1 : UnorderedMap K V} {value : K × V}
    (hwf : WellFormed m) (hN : m1._bucket_count = m._bucket_count) (hH : m1._hash = m._hash)
    (hA : m1._alloc = m._alloc + 1) (hS : m1._size = m._size + 1)
    (hB : m1._buckets = m._buckets.set (m._bucket value.1)
      (⟨m._alloc, value⟩ :: m.chain (m._bucket value.1)))
    (hnew : value.1 ∉ (m.chain (m._bucket value.1)).map (fun n => n.val.1)) :
    WellFormed m1 := by
  have hb : m._bucket value.1 < m._bucket_count := m._bucket_lt _ hwf.bucket_count_pos
  have hbl : m._bucket value.1 < m._buckets.length := by rw [hwf.length_buckets]; exact hb
  have hperm : m1.allNodes.Perm ((⟨m._alloc, value⟩ : HashNode K V) :: m.allNodes) := by
    unfold allNodes
    rw [hB]
    exact flatten_set_perm_cons hbl (List.Perm.refl _)
  refine hwf.of_set hN hH hB hb ?_ ?_ ?_ ?_ ?_
  · intro n hn
    rcases List.mem_cons.1 hn with rfl | hn
    · rfl
    · exact hwf.placement _ n hn
  · simp only [List.map_cons, List.nodup_cons]
    exact ⟨hnew, hwf.keys_nodup _⟩
  · refine ((hperm.map HashNode.addr).nodup_iff).2 ?_
    simp only [List.map_cons, List.nodup_cons]
    refine ⟨?_, hwf.addr_nodup⟩
    intro hin
    obtain ⟨n0, hn0, ha0⟩ := List.mem_map.1 hin
    have := hwf.addr_lt n0 hn0
    omega
  · intro n hn
    rw [hA]
    rcases List.mem_cons.1 (hperm.mem_iff.1 hn) with rfl | hn
    · exact Nat.lt_succ_self _
    · exact Nat.lt_succ_of_lt (hwf.addr_lt n hn)
  · rw [hS, hperm.length_eq, List.length_cons, hwf.size_eq]

theorem WellFormed.unlink [DecidableEq K] {m m1 : UnorderedMap K V}
    {b : Nat} {key : K} {c : HashNode K V} {chain1 : List (HashNode K V)}
    (hwf : WellFormed m) (hN : m1._bucket_count = m._bucket_count) (hH : m1._hash = m._hash)
    (hA : m1._alloc = m._alloc) (hS : m1._size = size_decr m._size)
    (hB : m1._buckets = m._buckets.set b chain1) (hb : b < m._bucket_count)
    (hunlink : chainUnlink key (m.chain b) = some (c, chain1)) : WellFormed m1 := by
  obtain ⟨pre, post, hch, -, -, hc1⟩ := chainUnlink_eq_some hunlink
  have hbl : b < m._buckets.length := by rw [hwf.length_buckets]; exact hb
  have hsub : chain1.Sublist (m.chain b) := by
    rw [hch, hc1]
    exact List.Sublist.append_left (List.sublist_cons_self c post) pre
  have hperm : m.allNodes.Perm (c :: m1.allNodes) := by
    unfold allNodes
    rw [hB]
    refine flatten_perm_cons_set hbl ?_
    show (m.chain b).Perm (c :: chain1)
    rw [hch, hc1]
    exact List.perm_middle
  refine hwf.of_set hN hH hB hb ?_ ?_ ?_ ?_ ?_
  · intro n hn
    exact hwf.placement b n (hsub.subset hn)
  · exact (hwf.keys_nodup b).sublist (hsub.map _)
  · have := ((hperm.map HashNode.addr).nodup_iff).1 hwf.addr_nodup
    simp only [List.map_cons, List.nodup_cons] at this
    exact this.2
  · intro n hn
    rw [hA]
    exact hwf.addr_lt n (hperm.mem_iff.2 (List.mem_cons_of_mem _ hn))
  · have hlen := hperm.length_eq
    simp only [List.length_cons] at hlen
    rw [hS, hwf.size_eq, hlen, size_decr]
    simp

end UnorderedMap

namespace UnorderedMap

variable {K V : Type}

theorem WellFormed.construct (next_greater_prime : Nat → Nat) (bucket_count : Nat)
    (hash : K → Nat) (equal : K → K → Bool) (hpos : 0 < next_greater_prime bucket_count) :
    WellFormed (UnorderedMap.construct next_greater_prime bucket_count hash equal :
      UnorderedMap K V) := by
  have hall : (UnorderedMap.construct next_greater_prime bucket_count hash equal :
      UnorderedMap K V).allNodes = [] := by
    simp [allNodes, UnorderedMap.construct]
  have hchain : ∀ i, (UnorderedMap.construct next_greater_prime bucket_count hash equal :
      UnorderedMap K V).chain i = [] := by
    intro i
    simp only [chain, UnorderedMap.construct, List.getD_eq_getElem?_getD]
    rcases hget : (List.replicate (next_greater_prime bucket_count)
      ([] : List (HashNode K V)))[i]? with _ | c
    · rfl
    · have := List.getElem?_mem hget
      simp only [List.mem_replicate] at this
      simp [this.2]
  refine ⟨by simp [UnorderedMap.construct], hpos, ?_, ?_, ?_, ?_, ?_⟩
  · intro i n hn
    rw [hchain] at hn
    cases hn
  · intro i
    rw [hchain]
    exact List.nodup_nil
  · rw [hall]
    exact List.nodup_nil
  · intro n hn
    rw [hall] at hn
    cases hn
  · rw [hall]
    rfl

theorem WellFormed.insert [DecidableEq K] [DecidableEq V] {m m1 : UnorderedMap K V}
    {value : K × V} {r : iterator × Bool} (hwf : WellFormed m)
    (h : m.insert value = some (m1, r)) : WellFormed m1 := by
  have hb := m._bucket_lt value.1 hwf.bucket_count_pos
  unfold UnorderedMap.insert at h
  simp only at h
  split at h
  · next curr chain1 hassign =>
    simp only [Option.some.injEq, Prod.mk.injEq] at h
    obtain ⟨rfl, -⟩ := h
    exact hwf.overwrite rfl rfl rfl rfl rfl hb hassign
  · next hassign =>
    have hnew := chainAssign_eq_none.1 hassign
    split at h
    · split at h
      · cases h
      · split at h <;>
        · simp only [Option.some.injEq, Prod.mk.injEq] at h
          obtain ⟨rfl, -⟩ := h
          exact hwf.prepend rfl rfl rfl rfl rfl hnew
    · simp only [Option.some.injEq, Prod.mk.injEq] at h
      obtain ⟨rfl, -⟩ := h
      exact hwf.prepend rfl rfl rfl rfl rfl hnew

theorem WellFormed._insert_into_bucket [DecidableEq K] [DecidableEq V]
    {m m1 : UnorderedMap K V} {value : K × V} {p : Nat} (hwf : WellFormed m)
    (h : m._insert_into_bucket (m._bucket value.1) value = some (m1, p)) :
    WellFormed m1 := by
  have hb := m._bucket_lt value.1 hwf.bucket_count_pos
  unfold UnorderedMap._insert_into_bucket at h
  simp only at h
  split at h
  · cases h
  · next head_bucket _ =>
    have hscan : WellFormed
        (match chainAssign value.1 value.2 (m.chain (m._bucket value.1)) with
          | some (curr, chain1) =>
            (({ m with _buckets := m._buckets.set (m._bucket value.1) chain1 } :
              UnorderedMap K V), curr)
          | none =>
            (({ m with
                _buckets := m._buckets.set (m._bucket value.1)
                  (⟨m._alloc, value⟩ :: m.chain (m._bucket value.1))
                _size := m._size + 1
                _alloc := m._alloc + 1 } : UnorderedMap K V), m._alloc)).1 := by
      split
      · next curr chain1 hassign => exact hwf.overwrite rfl rfl rfl rfl rfl hb hassign
      · next hassign =>
        exact hwf.prepend rfl rfl rfl rfl rfl (chainAssign_eq_none.1 hassign)
    split at h
    · simp only [Option.some.injEq, Prod.mk.injEq] at h
      obtain ⟨rfl, -⟩ := h
      exact ⟨hscan.1, hscan.2, hscan.3, hscan.4, hscan.5, hscan.6, hscan.7⟩
    · simp only [Option.some.injEq, Prod.mk.injEq] at h
      obtain ⟨rfl, -⟩ := h
      exact hscan

theorem WellFormed.insert_move [DecidableEq K] [DecidableEq V] {m m1 : UnorderedMap K V}
    {value : K × V} {r : iterator × Bool} (hwf : WellFormed m)
    (h : m.insert_move value = some (m1, r)) : WellFormed m1 := by
  have hb := m._bucket_lt value.1 hwf.bucket_count_pos
  unfold UnorderedMap.insert_move at h
  simp only at h
  split at h
  · next curr chain1 hassign =>
    simp only [Option.some.injEq, Prod.mk.injEq] at h
    obtain ⟨rfl, -⟩ := h
    exact hwf.overwrite rfl rfl rfl rfl rfl hb hassign
  · split at h
    · cases h
    · next m2 insertedNode hins =>
      simp only [Option.some.injEq, Prod.mk.injEq] at h
      obtain ⟨rfl, -⟩ := h
      exact hwf._insert_into_bucket hins

theorem WellFormed.index [DecidableEq K] [DecidableEq V] [Inhabited V]
    {m m1 : UnorderedMap K V} {key : K} {p : Nat} (hwf : WellFormed m)
    (h : m.index key = some (m1, p)) : WellFormed m1 := by
  unfold UnorderedMap.index at h
  simp only at h
  split at h
  · simp only [Option.some.injEq, Prod.mk.injEq] at h
    obtain ⟨rfl, -⟩ := h
    exact hwf
  · have h2 : m._insert_into_bucket (m._bucket (key, (default : V)).1) (key, default) =
        some (m1, p) := h
    exact hwf._insert_into_bucket h2

theorem WellFormed.erase [DecidableEq K] {m : UnorderedMap K V} (key : K)
    (hwf : WellFormed m) : WellFormed (m.erase key).1 := by
  have hb := m._bucket_lt key hwf.bucket_count_pos
  unfold UnorderedMap.erase
  simp only
  split
  · next c chain1 hunlink => exact hwf.unlink rfl rfl rfl rfl rfl hb hunlink
  · exact hwf

theorem WellFormed.erase_at [DecidableEq K] {m m1 : UnorderedMap K V} {pos r : iterator}
    (hwf : WellFormed m) (h : m.erase_at pos = some (m1, r)) : WellFormed m1 := by
  unfold UnorderedMap.erase_at at h
  split at h
  · simp only [Option.some.injEq, Prod.mk.injEq] at h
    obtain ⟨rfl, -⟩ := h
    exact hwf
  · split at h
    · cases h
    · next x next hx =>
      have hb := m._bucket_lt x.val.1 hwf.bucket_count_pos
      simp only at h
      split at h
      · simp only [Option.some.injEq, Prod.mk.injEq] at h
        obtain ⟨rfl, -⟩ := h
        exact hwf
      · next curr chain1 hunlink =>
        split at h <;>
        · simp only [Option.some.injEq, Prod.mk.injEq] at h
          obtain ⟨rfl, -⟩ := h
          exact hwf.unlink rfl rfl rfl rfl rfl hb hunlink

theorem clearBuckets_eq (buckets : List (List (HashNode K V))) (left i : Nat)
    (h : i + left = buckets.length) :
    clearBuckets buckets left i = buckets.take i ++ List.replicate left [] := by
  induction left generalizing buckets i with
  | zero =>
    have : i = buckets.length := by omega
    simp [clearBuckets, this]
  | succ left ih =>
    have hi : i < buckets.length := by omega
    rw [clearBuckets, ih _ _ (by rw [List.length_set]; omega)]
    rw [List.set_eq_take_cons_drop _ hi, List.take_append_eq_append_take]
    simp only [List.length_take, Nat.min_eq_left (Nat.le_of_lt hi)]
    rw [List.take_of_length_le (by simp)]
    have h1 : i + 1 - i = 1 := by omega
    simp [h1, List.replicate_succ]

theorem WellFormed.clear {m : UnorderedMap K V} (hwf : WellFormed m) :
    WellFormed m.clear := by
  have hB : m.clear._buckets = List.replicate m._bucket_count [] := by
    show clearBuckets m._buckets m._bucket_count 0 = _
    rw [clearBuckets_eq _ _ _ (by simpa using hwf.length_buckets.symm)]
    simp
  have hall : m.clear.allNodes = [] := by
    simp [allNodes, hB]
  have hchain : ∀ i, m.clear.chain i = [] := by
    intro i
    simp only [chain, hB, List.getD_eq_getElem?_getD]
    rcases hget : (List.replicate m._bucket_count ([] : List (HashNode K V)))[i]? with _ | c
    · rfl
    · have := List.getElem?_mem hget
      simp only [List.mem_replicate] at this
      simp [this.2]
  refine ⟨by rw [hB]; simp [UnorderedMap.clear], hwf.bucket_count_pos, ?_, ?_, ?_, ?_, ?_⟩
  · intro i n hn
    rw [hchain] at hn
    cases hn
  · intro i
    rw [hchain]
    exact List.nodup_nil
  · rw [hall]
    exact List.nodup_nil
  · intro n hn
    rw [hall] at hn
    cases hn
  · rw [hall]
    have := hwf.bucket_count_pos
    simp only [UnorderedMap.clear, List.length_nil]
    rw [if_neg (by omega)]

theorem Reachable.wellFormed [DecidableEq K] [DecidableEq V] [Inhabited V]
    {m : UnorderedMap K V} (h : Reachable m) : WellFormed m := by
  induction h with
  | construct ngp c hash equal hpos => exact WellFormed.construct ngp c hash equal hpos
  | insert m m1 value r _ hstep ih => exact ih.insert hstep
  | insert_move m m1 value r _ hstep ih => exact ih.insert_move hstep
  | index m m1 key p _ hstep ih => exact ih.index hstep
  | erase m key _ ih => exact ih.erase key
  | erase_at m m1 pos r _ hstep ih => exact ih.erase_at hstep
  | clear m _ ih => exact ih.clear

end UnorderedMap

/-! ### Keys, nodes and lookups in a well-formed table -/

section ListLemmas2

variable {α β : Type}

theorem getD_sublist_flatten (L : List (List α)) (i : Nat) : (L.getD i []).Sublist L.flatten := by
  rw [List.getD_eq_getElem?_getD]
  rcases hget : L[i]? with _ | c
  · simp
  · simpa using List.sublist_flatten_of_mem (List.getElem?_mem hget)

theorem sum_map_range_getD_length (L : List (List α)) :
    ((List.range L.length).map (fun i => (L.getD i []).length)).sum = L.flatten.length := by
  rw [List.length_flatten]
  congr 1
  apply List.ext_getElem
  · simp
  · intro n h1 h2
    simp only [List.length_map, List.length_range] at h1
    simp [List.getElem?_eq_getElem h1]

theorem append_cons_unique (f : α → β) {l pre pre1 post post1 : List α} {x c : α}
    (hnd : (l.map f).Nodup) (h1 : l = pre ++ x :: post) (h2 : l = pre1 ++ c :: post1)
    (hf : f x = f c) : pre = pre1 ∧ x = c ∧ post = post1 := by
  induction pre generalizing l pre1 with
  | nil =>
    cases pre1 with
    | nil =>
      rw [h1] at h2
      simp only [List.nil_append, List.cons.injEq] at h2
      exact ⟨rfl, h2.1, h2.2⟩
    | cons a pre1 =>
      exfalso
      rw [h1] at h2
      simp only [List.nil_append, List.cons_append, List.cons.injEq] at h2
      rw [h1] at hnd
      simp only [List.nil_append, List.map_cons, List.nodup_cons] at hnd
      apply hnd.1
      rw [h2.2, hf]
      exact List.mem_map.2 ⟨c, by simp, rfl⟩
  | cons a pre ih =>
    cases pre1 with
    | nil =>
      exfalso
      rw [h2] at h1
      simp only [List.nil_append, List.cons_append, List.cons.injEq] at h1
      rw [h2] at hnd
      simp only [List.nil_append, List.map_cons, List.nodup_cons] at hnd
      apply hnd.1
      rw [h1.2, ← hf]
      exact List.mem_map.2 ⟨x, by simp, rfl⟩
    | cons a1 pre1 =>
      rw [h1] at h2 hnd
      simp only [List.cons_append, List.cons.injEq] at h2
      simp only [List.cons_append, List.map_cons, List.nodup_cons] at hnd
      obtain ⟨hp, hx, hpost⟩ := ih hnd.2 rfl h2.2
      exact ⟨by rw [h2.1, hp], hx, hpost⟩

end ListLemmas2

namespace UnorderedMap

variable {K V : Type}

theorem WellFormed.chain_addr_nodup {m : UnorderedMap K V} (hwf : WellFormed m) (i : Nat) :
    ((m.chain i).map HashNode.addr).Nodup :=
  hwf.addr_nodup.sublist ((getD_sublist_flatten m._buckets i).map _)

theorem mem_chain_of_mem_allNodes {m : UnorderedMap K V} {n : HashNode K V}
    (h : n ∈ m.allNodes) : ∃ i, i < m._buckets.length ∧ n ∈ m.chain i :=
  mem_flatten_getD h

/-- A stored key sits in the chain it hashes to. -/
theorem WellFormed.mem_keys_iff {m : UnorderedMap K V} (hwf : WellFormed m) (k : K) :
    k ∈ m.keys ↔ k ∈ (m.chain (m._bucket k)).map (fun n => n.val.1) := by
  constructor
  · intro h
    obtain ⟨n, hn, hk⟩ := List.mem_map.1 h
    obtain ⟨i, -, hi⟩ := mem_chain_of_mem_allNodes hn
    have := hwf.placement i n hi
    rw [hk] at this
    rw [this]
    exact List.mem_map.2 ⟨n, hi, hk⟩
  · intro h
    obtain ⟨n, hn, hk⟩ := List.mem_map.1 h
    exact List.mem_map.2 ⟨n, mem_allNodes_of_mem_chain hn, hk⟩

theorem WellFormed.keys_nodup_all {m : UnorderedMap K V} (hwf : WellFormed m) :
    m.keys.Nodup := by
  unfold keys allNodes
  rw [List.map_flatten, List.nodup_flatten]
  constructor
  · intro l hl
    obtain ⟨c, hc, rfl⟩ := List.mem_map.1 hl
    obtain ⟨i, hi, rfl⟩ := List.getElem_of_mem hc
    have := hwf.keys_nodup i
    rw [chain, List.getD_eq_getElem _ _ hi] at this
    exact this
  · rw [List.pairwise_map, List.pairwise_iff_getElem]
    intro i j hi hj hij k hki hkj
    obtain ⟨n, hn, hnk⟩ := List.mem_map.1 hki
    obtain ⟨n1, hn1, hnk1⟩ := List.mem_map.1 hkj
    have h1 := hwf.placement i n (by rw [chain, List.getD_eq_getElem _ _ hi]; exact hn)
    have h2 := hwf.placement j n1 (by rw [chain, List.getD_eq_getElem _ _ hj]; exact hn1)
    rw [hnk] at h1
    rw [hnk1] at h2
    omega

theorem WellFormed.sum_bucket_size {m : UnorderedMap K V} (hwf : WellFormed m) :
    ((List.range m.bucket_count).map m.bucket_size).sum = m.allNodes.length := by
  have := sum_map_range_getD_length m._buckets
  rw [hwf.length_buckets] at this
  exact this

/-- Reading through a pointer to a linked node gives that node and its chain successor. -/
theorem WellFormed.deref_of_chain {m : UnorderedMap K V} (hwf : WellFormed m) {i : Nat}
    {pre post : List (HashNode K V)} {n : HashNode K V} (h : m.chain i = pre ++ n :: post) :
    m.deref n.addr = some (n, chainHead post) := by
  have hnd := hwf.chain_addr_nodup i
  rw [h] at hnd
  simp only [List.map_append, List.map_cons] at hnd
  have hpre : n.addr ∉ pre.map HashNode.addr := fun hin =>
    (List.nodup_append.1 hnd).2.2 hin (List.mem_cons_self _ _)
  refine heapLookup_of_chainLookup hwf.addr_nodup (i := i) ?_
  show chainLookup n.addr (m.chain i) = _
  rw [h]
  exact chainLookup_append_cons hpre

/-- A live pointer is a pointer to a node of the chain its key hashes to. -/
theorem WellFormed.chain_of_deref {m : UnorderedMap K V} (hwf : WellFormed m) {p : Nat}
    {n : HashNode K V} {next : Option Nat} (h : m.deref p = some (n, next)) :
    ∃ pre post, m.chain (m._bucket n.val.1) = pre ++ n :: post ∧ n.addr = p ∧
      next = chainHead post := by
  obtain ⟨i, -, hc⟩ := heapLookup_eq_some h
  obtain ⟨pre, post, hch, hp, -, hnext⟩ := chainLookup_eq_some hc
  have hmem : n ∈ m.chain i := by
    show n ∈ m._buckets.getD i []
    rw [hch]
    simp
  have := hwf.placement i n hmem
  rw [this]
  exact ⟨pre, post, hch, hp, hnext⟩

theorem star_of_deref {m : UnorderedMap K V} {p : Nat} {n : HashNode K V} {next : Option Nat}
    (h : m.deref p = some (n, next)) : m.star (some p) = some n.val := by
  simp [star, h]

end UnorderedMap

/-! ### The example tables are reachable -/

namespace UnorderedMap

theorem exampleEmpty_reachable : Reachable exampleEmpty :=
  Reachable.construct (fun _ => 5) 5 (fun k => k) (fun a b => a == b) (by decide)

theorem exampleOne_reachable : Reachable exampleOne :=
  Reachable.insert exampleEmpty exampleOne (1, 10) (some 0, true) exampleEmpty_reachable rfl

theorem exampleErased_reachable : Reachable exampleErased :=
  Reachable.erase exampleOne 1 exampleOne_reachable

end UnorderedMap

/-! ### The search loop, and `find` -/

namespace UnorderedMap

variable {K V : Type}

/-- In a well-formed table the search loop run for a stored key stops at the node of that
key. -/
theorem WellFormed.search_stored [DecidableEq K] {m : UnorderedMap K V} (hwf : WellFormed m)
    {k : K} (hk : k ∈ m.keys) :
    ∃ pre x post, m.chain (m._bucket k) = pre ++ x :: post ∧ x.val.1 = k ∧
      chainFind k (m.chain (m._bucket k)) = some x.addr ∧
      m.deref x.addr = some (x, chainHead post) := by
  have hin := (hwf.mem_keys_iff k).1 hk
  rcases hf : chainFind k (m.chain (m._bucket k)) with _ | a
  · exact absurd hin (chainFind_eq_none.1 hf)
  · obtain ⟨pre, x, post, hch, hx, -, hxa⟩ := chainFind_eq_some hf
    refine ⟨pre, x, post, hch, hx, ?_, hwf.deref_of_chain hch⟩
    rw [hxa]

/-- In a well-formed table the search loop run for a key that is not stored reaches the end
of the chain. -/
theorem WellFormed.search_absent [DecidableEq K] {m : UnorderedMap K V} (hwf : WellFormed m)
    {k : K} (hk : k ∉ m.keys) : chainFind k (m.chain (m._bucket k)) = none :=
  chainFind_eq_none.2 (fun hin => hk ((hwf.mem_keys_iff k).2 hin))

/-- The search loop of `_find` and `operator[]` on a reachable table: it stops at the node
whose key is `k` when `k` is stored (reading through it gives that node's pair), and at the
end of the chain when `k` is not stored. -/
theorem search_spec [DecidableEq K] [DecidableEq V] [Inhabited V]
    (m : UnorderedMap K V) (h : Reachable m) (k : K) :
    (k ∈ m.keys → ∃ n ∈ m.allNodes, n.val.1 = k ∧
        chainFind k (m.chain (m._bucket k)) = some n.addr ∧
        m.star (chainFind k (m.chain (m._bucket k))) = some n.val) ∧
      (k ∉ m.keys → chainFind k (m.chain (m._bucket k)) = none) := by
  have hwf := h.wellFormed
  refine ⟨?_, ?_⟩
  · intro hk
    obtain ⟨pre, x, post, hch, hx, hf, hd⟩ := hwf.search_stored hk
    refine ⟨x, mem_allNodes_of_mem_chain (i := m._bucket k) (by rw [hch]; simp), hx, hf, ?_⟩
    rw [hf]
    exact star_of_deref hd
  · intro hk
    exact hwf.search_absent hk

/-- No call of `_find` or `find` has a defined result. -/
theorem find_undefined [DecidableEq K] (m : UnorderedMap K V) (k : K) :
    m._find k = none ∧ m.find k = none := by
  have h : m._find k = none := by
    unfold _find
    cases chainFind k (m.chain (m._bucket k)) <;> rfl
  refine ⟨h, ?_⟩
  unfold find
  rw [h]

/-- C2, at the failing input.  On the reachable table after `insert({1, 10})` the search
loop stops at the node of the stored key 1 and at the end of the chain for the key 6, but
neither `find(1)` nor `find(6)` has a defined result: `_find` returns the node found as a
reference to its local `curr`, and the miss as `nullptr` for the return type `HashNode*&`,
so the function has no instantiation. -/
theorem find_stored_and_absent_undefined :
    Reachable exampleOne ∧ 1 ∈ exampleOne.keys ∧ 6 ∉ exampleOne.keys ∧
      chainFind 1 (exampleOne.chain (exampleOne._bucket 1)) = some 0 ∧
      exampleOne._find 1 = none ∧ exampleOne.find 1 = none ∧
      chainFind 6 (exampleOne.chain (exampleOne._bucket 6)) = none ∧
      exampleOne._find 6 = none ∧ exampleOne.find 6 = none :=
  ⟨Reachable.insert exampleEmpty exampleOne (1, 10) (some 0, true)
      (Reachable.construct (fun _ => 5) 5 (fun k => k) (fun a b => a == b) (by decide)) rfl,
    by decide, by decide, rfl, rfl, rfl, rfl, rfl, rfl⟩

end UnorderedMap

/-! ### `insert` -/

namespace UnorderedMap

variable {K V : Type}

theorem insert_of_assign [DecidableEq K] [DecidableEq V] {m : UnorderedMap K V}
    {k : K} {v : V} {a : Nat} {chain1 : List (HashNode K V)}
    (h : chainAssign k v (m.chain (m._bucket k)) = some (a, chain1)) :
    m.insert (k, v) =
      some ({ m with _buckets := m._buckets.set (m._bucket k) chain1 }, (some a, false)) := by
  unfold UnorderedMap.insert
  simp only [h]

theorem insert_move_of_assign [DecidableEq K] [DecidableEq V] {m : UnorderedMap K V}
    {k : K} {v : V} {a : Nat} {chain1 : List (HashNode K V)}
    (h : chainAssign k v (m.chain (m._bucket k)) = some (a, chain1)) :
    m.insert_move (k, v) =
      some ({ m with _buckets := m._buckets.set (m._bucket k) chain1 }, (some a, false)) := by
  unfold UnorderedMap.insert_move
  simp only [h]

/-- Linking a node into a chain keeps every live pointer live. -/
theorem deref_isSome_of_set_cons {m : UnorderedMap K V} (hwf : WellFormed m) {h b : Nat}
    (hb : b < m._bucket_count) (x : HashNode K V)
    (hlive : ∃ n ∈ m.allNodes, n.addr = h) :
    heapLookup h (m._buckets.set b (x :: m.chain b)) ≠ none := by
  intro hnone
  apply heapLookup_eq_none.1 hnone
  have hbl : b < m._buckets.length := by rw [hwf.length_buckets]; exact hb
  have hperm : (m._buckets.set b (x :: m.chain b)).flatten.Perm (x :: m.allNodes) :=
    flatten_set_perm_cons hbl (List.Perm.refl _)
  obtain ⟨n, hn, hnh⟩ := hlive
  exact List.mem_map.2 ⟨n, hperm.mem_iff.2 (List.mem_cons_of_mem _ hn), hnh⟩

theorem WellFormed.insert_new [DecidableEq K] [DecidableEq V] {m : UnorderedMap K V}
    (hwf : WellFormed m) (hhead : HeadLive m) {value : K × V}
    (hnew : chainAssign value.1 value.2 (m.chain (m._bucket value.1)) = none) :
    ∃ hd, m.insert value =
      some ({ m with
                _buckets := m._buckets.set (m._bucket value.1)
                  (⟨m._alloc, value⟩ :: m.chain (m._bucket value.1))
                _alloc := m._alloc + 1
                _head := hd
                _size := m._size + 1 }, (some m._alloc, true)) := by
  have hb := m._bucket_lt value.1 hwf.bucket_count_pos
  unfold UnorderedMap.insert
  simp only [hnew]
  rcases hh : m._head with _ | h
  · exact ⟨_, rfl⟩
  · simp only
    have hlive := deref_isSome_of_set_cons hwf hb ⟨m._alloc, value⟩ (hhead h hh)
    unfold deref
    simp only
    rcases hl : heapLookup h (m._buckets.set (m._bucket value.1)
        (⟨m._alloc, value⟩ :: m.chain (m._bucket value.1))) with _ | ⟨hn, hnext⟩
    · exact absurd hl hlive
    · simp only
      split
      · exact ⟨_, rfl⟩
      · exact ⟨some h, by rw [← hh]⟩

theorem _insert_into_bucket_new [DecidableEq K] [DecidableEq V]
    {m : UnorderedMap K V} (hhead : HeadLive m) {value : K × V}
    (hnew : chainAssign value.1 value.2 (m.chain (m._bucket value.1)) = none) :
    ∃ hd, m._insert_into_bucket (m._bucket value.1) value =
      some ({ m with
                _buckets := m._buckets.set (m._bucket value.1)
                  (⟨m._alloc, value⟩ :: m.chain (m._bucket value.1))
                _alloc := m._alloc + 1
                _head := hd
                _size := m._size + 1 }, m._alloc) := by
  unfold UnorderedMap._insert_into_bucket
  simp only [hnew]
  rcases hh : m._head with _ | h
  · simp only [true_or, if_true]
    exact ⟨_, rfl⟩
  · simp only [reduceCtorEq, false_or]
    obtain ⟨n, hn, hnh⟩ := hhead h hh
    rcases hl : m.deref h with _ | ⟨x, xnext⟩
    · exfalso
      apply heapLookup_eq_none.1 hl
      exact List.mem_map.2 ⟨n, hn, hnh⟩
    · simp only [Option.map_some']
      split
      · exact ⟨_, rfl⟩
      · exact ⟨some h, by rw [← hh]⟩

theorem insert_move_new [DecidableEq K] [DecidableEq V] {m : UnorderedMap K V}
    (hhead : HeadLive m) {value : K × V}
    (hnew : chainAssign value.1 value.2 (m.chain (m._bucket value.1)) = none) :
    ∃ hd, m.insert_move value =
      some ({ m with
                _buckets := m._buckets.set (m._bucket value.1)
                  (⟨m._alloc, value⟩ :: m.chain (m._bucket value.1))
                _alloc := m._alloc + 1
                _head := hd
                _size := m._size + 1 }, (some m._alloc, true)) := by
  obtain ⟨hd, h⟩ := _insert_into_bucket_new hhead hnew
  refine ⟨hd, ?_⟩
  unfold UnorderedMap.insert_move
  simp only [hnew, h]

end UnorderedMap

namespace UnorderedMap

variable {K V : Type}

theorem WellFormed.insertedNew_of_eq {m : UnorderedMap K V} (hwf : WellFormed m) {k : K} {v : V}
    (hk : k ∉ m.keys) {hd : Option Nat}
    {res : Option (UnorderedMap K V × (iterator × Bool))}
    (hres : res =
      some ({ m with
                _buckets := m._buckets.set (m._bucket (k, v).1)
                  (⟨m._alloc, (k, v)⟩ :: m.chain (m._bucket (k, v).1))
                _alloc := m._alloc + 1
                _head := hd
                _size := m._size + 1 }, (some m._alloc, true))) :
    InsertedNew m k v res := by
  have hb := m._bucket_lt k hwf.bucket_count_pos
  have hbl : m._bucket k < m._buckets.length := by rw [hwf.length_buckets]; exact hb
  have hnew : (k, v).1 ∉ (m.chain (m._bucket (k, v).1)).map (fun n => n.val.1) :=
    fun hin => hk ((hwf.mem_keys_iff k).2 hin)
  have hwf1 : WellFormed ({ m with
                _buckets := m._buckets.set (m._bucket (k, v).1)
                  (⟨m._alloc, (k, v)⟩ :: m.chain (m._bucket (k, v).1))
                _alloc := m._alloc + 1
                _head := hd
                _size := m._size + 1 } : UnorderedMap K V) :=
    hwf.prepend rfl rfl rfl rfl rfl hnew
  refine ⟨{ m with
              _buckets := m._buckets.set (m._bucket (k, v).1)
                (⟨m._alloc, (k, v)⟩ :: m.chain (m._bucket (k, v).1))
              _alloc := m._alloc + 1
              _head := hd
              _size := m._size + 1 }, m._alloc, hres, ?_, ?_, ?_, rfl⟩
  · have hc : ({ m with
                _buckets := m._buckets.set (m._bucket (k, v).1)
                  (⟨m._alloc, (k, v)⟩ :: m.chain (m._bucket (k, v).1))
                _alloc := m._alloc + 1
                _head := hd
                _size := m._size + 1 } : UnorderedMap K V).chain (m._bucket k) =
        [] ++ (⟨m._alloc, (k, v)⟩ : HashNode K V) :: m.chain (m._bucket k) :=
      getD_set_self hbl
    exact star_of_deref (hwf1.deref_of_chain hc)
  · exact getD_set_self hbl
  · intro i hi
    exact getD_set_ne (Ne.symm hi)

theorem WellFormed.overwritten_of_eq [DecidableEq K] [DecidableEq V] {m : UnorderedMap K V}
    (hwf : WellFormed m) {k : K} {v : V} {a : Nat} {chain1 : List (HashNode K V)}
    (hassign : chainAssign k v (m.chain (m._bucket k)) = some (a, chain1))
    {res : Option (UnorderedMap K V × (iterator × Bool))}
    (hres : res =
      some ({ m with _buckets := m._buckets.set (m._bucket k) chain1 }, (some a, false))) :
    Overwritten m k v res := by
  have hb := m._bucket_lt k hwf.bucket_count_pos
  have hbl : m._bucket k < m._buckets.length := by rw [hwf.length_buckets]; exact hb
  have hwf1 : WellFormed ({ m with _buckets := m._buckets.set (m._bucket k) chain1 } :
      UnorderedMap K V) := hwf.overwrite rfl rfl rfl rfl rfl hb hassign
  obtain ⟨pre, x, post, hch, hx, -, hxa, hc1⟩ := chainAssign_eq_some hassign
  have hchain : ∀ i, ({ m with _buckets := m._buckets.set (m._bucket k) chain1 } :
      UnorderedMap K V).chain i = if m._bucket k = i then chain1 else m.chain i := by
    intro i
    by_cases hbi : m._bucket k = i
    · rw [if_pos hbi, ← hbi]
      exact getD_set_self hbl
    · rw [if_neg hbi]
      exact getD_set_ne hbi
  refine ⟨{ m with _buckets := m._buckets.set (m._bucket k) chain1 }, x,
    mem_allNodes_of_mem_chain (i := m._bucket k) (by rw [hch]; simp), hx, ?_, ?_,
    ?_, ?_, rfl, rfl, rfl⟩
  · rw [hxa]
    exact hres
  · rw [hxa]
    have hc : ({ m with _buckets := m._buckets.set (m._bucket k) chain1 } :
        UnorderedMap K V).chain (m._bucket k) =
        pre ++ (⟨a, (k, v)⟩ : HashNode K V) :: post := by
      rw [hchain, if_pos rfl, hc1]
    exact star_of_deref (hwf1.deref_of_chain hc)
  · intro i
    rw [hchain]
    by_cases hbi : m._bucket k = i
    · rw [if_pos hbi, ← hbi, hc1, hch]
      simp [hxa]
    · rw [if_neg hbi]
  · intro i
    rw [hchain]
    by_cases hbi : m._bucket k = i
    · rw [if_pos hbi, ← hbi, hc1, hch]
      simp [hx]
    · rw [if_neg hbi]

/-- For a well-formed table whose head reference is null or live and a pair `(k, v)`
whose key is not stored, `insert` (either overload) returns a cursor at a node holding
`(k, v)` together with `true`; that node is the first of chain `hash(k) mod N`, followed by
the former chain in its order; every other chain is unchanged; `size()` grows by one. -/
theorem insert_new_key [DecidableEq K] [DecidableEq V] (m : UnorderedMap K V) (k : K) (v : V)
    (hwf : WellFormed m) (hhead : HeadLive m) (hk : k ∉ m.keys) :
    InsertedNew m k v (m.insert (k, v)) ∧ InsertedNew m k v (m.insert_move (k, v)) := by
  have hnew : chainAssign (k, v).1 (k, v).2 (m.chain (m._bucket (k, v).1)) = none :=
    chainAssign_eq_none.2 (fun hin => hk ((hwf.mem_keys_iff k).2 hin))
  obtain ⟨hd, h1⟩ := hwf.insert_new hhead hnew
  obtain ⟨hd2, h2⟩ := insert_move_new hhead hnew
  exact ⟨hwf.insertedNew_of_eq hk h1, hwf.insertedNew_of_eq hk h2⟩

/-- C4. For a well-formed table in which `k` is stored, `insert(k, v)` (either overload)
returns a cursor at the node that already holds `k` together with `false`; that node now
holds `(k, v)`; no node is created or moved (every chain has the same nodes and keys in the
same order) and `size()` and the head reference are unchanged. -/
theorem insert_existing_key [DecidableEq K] [DecidableEq V] (m : UnorderedMap K V) (k : K)
    (v : V) (hwf : WellFormed m) (hk : k ∈ m.keys) :
    Overwritten m k v (m.insert (k, v)) ∧ Overwritten m k v (m.insert_move (k, v)) := by
  have hin := (hwf.mem_keys_iff k).1 hk
  rcases hassign : chainAssign k v (m.chain (m._bucket k)) with _ | ⟨a, chain1⟩
  · exact absurd hin (chainAssign_eq_none.1 hassign)
  · exact ⟨hwf.overwritten_of_eq hassign (insert_of_assign hassign),
      hwf.overwritten_of_eq hassign (insert_move_of_assign hassign)⟩

end UnorderedMap

/-! ### `erase` -/

section ScanLemmas

variable {K V : Type}

theorem scanBuckets_spec (L : List (List (HashNode K V))) (left i : Nat) :
    i ≤ scanBuckets L left i ∧ scanBuckets L left i ≤ i + left ∧
      (∀ j, i ≤ j → j < scanBuckets L left i → L.getD j [] = []) ∧
      (scanBuckets L left i < i + left → L.getD (scanBuckets L left i) [] ≠ []) := by
  induction left generalizing i with
  | zero =>
    refine ⟨Nat.le_refl _, Nat.le_refl _, ?_, ?_⟩
    · intro j h1 h2
      simp only [scanBuckets] at h2
      omega
    · intro h
      simp only [scanBuckets] at h
      omega
  | succ left ih =>
    by_cases he : (L.getD i []).isEmpty = true
    · have hrec : scanBuckets L (left + 1) i = scanBuckets L left (i + 1) := by
        simp only [scanBuckets, he, if_true]
      rw [hrec]
      obtain ⟨h1, h2, h3, h4⟩ := ih (i + 1)
      refine ⟨by omega, by omega, ?_, ?_⟩
      · intro j hj1 hj2
        by_cases hji : j = i
        · rw [hji]
          exact List.isEmpty_iff.1 he
        · exact h3 j (by omega) hj2
      · intro h
        exact h4 (by omega)
    · have hrec : scanBuckets L (left + 1) i = i := by
        simp only [scanBuckets, he, if_false]
        simp
      rw [hrec]
      refine ⟨Nat.le_refl _, by omega, ?_, ?_⟩
      · intro j h1 h2
        omega
      · intro _ hnil
        exact he (List.isEmpty_iff.2 hnil)

theorem scanBuckets_set_lt (L : List (List (HashNode K V))) (b : Nat) (c : List (HashNode K V))
    (left i : Nat) (hbi : b < i) :
    scanBuckets (L.set b c) left i = scanBuckets L left i := by
  induction left generalizing i with
  | zero => rfl
  | succ left ih =>
    simp only [scanBuckets]
    rw [getD_set_ne (Nat.ne_of_lt hbi), ih (i + 1) (by omega)]

end ScanLemmas

namespace UnorderedMap

variable {K V : Type}

/-- The successor computed after a node of bucket `b` was unlinked is the successor
computed before: the scan only reads buckets after `b`. -/
theorem successor_set {m m1 : UnorderedMap K V} {chain1 : List (HashNode K V)}
    (next : Option Nat) (val : K × V)
    (hN : m1._bucket_count = m._bucket_count) (hH : m1._hash = m._hash)
    (hB : m1._buckets = m._buckets.set (m._bucket val.1) chain1) :
    m1.successor next val = m.successor next val := by
  have hbk : m1._bucket val.1 = m._bucket val.1 := by simp [_bucket, hN, hH]
  unfold successor
  cases next with
  | some q => rfl
  | none =>
    simp only [hbk, hN, hB, chain]
    have hs := scanBuckets_set_lt m._buckets (m._bucket val.1) chain1
      (m._bucket_count - (m._bucket val.1 + 1)) (m._bucket val.1 + 1) (Nat.lt_succ_self _)
    have hle := (scanBuckets_spec m._buckets
      (m._bucket_count - (m._bucket val.1 + 1)) (m._bucket val.1 + 1)).1
    rw [hs, getD_set_ne (by omega)]

/-- The successor of a node of bucket `b` whose `next` link is null, in the spec's words:
the first node of the first non-empty bucket after `b`, the end sentinel if there is
none. -/
theorem WellFormed.successor_none {m : UnorderedMap K V} (hwf : WellFormed m) (val : K × V) :
    (∀ j, m._bucket val.1 < j → j < m._bucket_count → m.chain j ≠ [] →
        (∀ i, m._bucket val.1 < i → i < j → m.chain i = []) →
        m.successor none val = chainHead (m.chain j)) ∧
      ((∀ j, m._bucket val.1 < j → j < m._bucket_count → m.chain j = []) →
        m.successor none val = none) := by
  have hb := m._bucket_lt val.1 hwf.bucket_count_pos
  obtain ⟨h1, h2, h3, h4⟩ := scanBuckets_spec m._buckets
    (m._bucket_count - (m._bucket val.1 + 1)) (m._bucket val.1 + 1)
  have hsum : m._bucket val.1 + 1 + (m._bucket_count - (m._bucket val.1 + 1)) =
      m._bucket_count := by omega
  rw [hsum] at h2 h4
  constructor
  · intro j hj1 hj2 hne hbefore
    have hr : scanBuckets m._buckets (m._bucket_count - (m._bucket val.1 + 1))
        (m._bucket val.1 + 1) = j := by
      by_contra hnej
      rcases Nat.lt_or_gt_of_ne hnej with hlt | hgt
      · exact h4 (by omega) (hbefore _ (by omega) hlt)
      · exact hne (h3 j (by omega) hgt)
    simp only [successor, hr]
    rw [if_neg (by omega)]
  · intro hall
    have hr : m._bucket_count ≤ scanBuckets m._buckets
        (m._bucket_count - (m._bucket val.1 + 1)) (m._bucket val.1 + 1) := by
      by_contra hlt
      exact h4 (by omega) (hall _ (by omega) (by omega))
    simp only [successor]
    rw [if_pos hr]

theorem WellFormed.unlink_of_chain [DecidableEq K] {m : UnorderedMap K V} (hwf : WellFormed m)
    {x : HashNode K V} {pre post : List (HashNode K V)}
    (hch : m.chain (m._bucket x.val.1) = pre ++ x :: post) :
    chainUnlink x.val.1 (m.chain (m._bucket x.val.1)) = some (x, pre ++ post) := by
  rcases hu : chainUnlink x.val.1 (m.chain (m._bucket x.val.1)) with _ | ⟨c, chain1⟩
  · exfalso
    apply chainUnlink_eq_none.1 hu
    rw [hch]
    simp
  · obtain ⟨pre1, post1, hch1, hc, -, hc1⟩ := chainUnlink_eq_some hu
    obtain ⟨hp, hxc, hpost⟩ := append_cons_unique (fun n => n.val.1)
      (hwf.keys_nodup (m._bucket x.val.1)) hch hch1 hc.symm
    rw [hc1, ← hp, ← hxc, ← hpost]

theorem size_decr_add_one {s : Nat} (h : 0 < s) : size_decr s + 1 = s := by
  unfold size_decr
  rw [if_neg (by omega)]
  omega

theorem WellFormed.size_pos_of_mem {m : UnorderedMap K V} (hwf : WellFormed m)
    {x : HashNode K V} (hx : x ∈ m.allNodes) : 0 < m._size := by
  rw [hwf.size_eq]
  exact List.length_pos_of_mem hx

/-- C7. For a well-formed table, `erase(k)` returns 1 when `k` is stored and 0 when it is
not.  In the first case the one node with key `k` is taken out of chain `hash(k) mod N`,
the rest of that chain keeps its order, every other chain is unchanged and `size()` drops
by one; in the second case the table is unchanged. -/
theorem erase_key_spec [DecidableEq K] (m : UnorderedMap K V) (k : K) (hwf : WellFormed m) :
    (k ∈ m.keys → (m.erase k).2 = 1 ∧
        ∃ pre x post, m.chain (m._hash k % m._bucket_count) = pre ++ x :: post ∧
          x.val.1 = k ∧ k ∉ (pre ++ post).map (fun n => n.val.1) ∧
          (m.erase k).1.chain (m._hash k % m._bucket_count) = pre ++ post ∧
          (∀ i, i ≠ m._hash k % m._bucket_count → (m.erase k).1.chain i = m.chain i) ∧
          (m.erase k).1.size + 1 = m.size) ∧
      (k ∉ m.keys → (m.erase k).2 = 0 ∧ (m.erase k).1 = m) := by
  have hb := m._bucket_lt k hwf.bucket_count_pos
  have hbl : m._bucket k < m._buckets.length := by rw [hwf.length_buckets]; exact hb
  constructor
  · intro hk
    have hin := (hwf.mem_keys_iff k).1 hk
    rcases hu : chainUnlink k (m.chain (m._bucket k)) with _ | ⟨c, chain1⟩
    · exact absurd hin (chainUnlink_eq_none.1 hu)
    · obtain ⟨pre, post, hch, hc, -, hc1⟩ := chainUnlink_eq_some hu
      have herase : m.erase k =
          ({ m with
              _buckets := m._buckets.set (m._bucket k) chain1
              _size := size_decr m._size }, 1) := by
        unfold UnorderedMap.erase
        simp only [hu]
      have hnd := hwf.keys_nodup (m._bucket k)
      rw [hch] at hnd
      simp only [List.map_append, List.map_cons] at hnd
      have hnd2 := (List.nodup_middle.1 hnd)
      rw [List.nodup_cons] at hnd2
      rw [herase]
      refine ⟨rfl, pre, c, post, hch, hc, ?_, ?_, ?_, ?_⟩
      · rw [← hc, List.map_append]
        exact hnd2.1
      · rw [← hc1]
        exact getD_set_self hbl
      · intro i hi
        exact getD_set_ne (Ne.symm hi)
      · exact size_decr_add_one (hwf.size_pos_of_mem (x := c)
          (mem_allNodes_of_mem_chain (i := m._bucket k) (by rw [hch]; simp)))
  · intro hk
    have hu : chainUnlink k (m.chain (m._bucket k)) = none :=
      chainUnlink_eq_none.2 (fun hin => hk ((hwf.mem_keys_iff k).2 hin))
    have herase : m.erase k = (m, 0) := by
      unfold UnorderedMap.erase
      simp only [hu]
    rw [herase]
    exact ⟨rfl, rfl⟩

/-- C8. For a well-formed table and a cursor at a live node `x`, `erase(cursor)` takes
exactly `x` out of its chain (the rest of the chain keeps its order, the other chains are
unchanged, `size()` drops by one) and returns the cursor that incrementing the argument
would have given before the call: the node after `x` in its chain if there is one, else the
first node of the first non-empty bucket of higher index, else the end sentinel. -/
theorem erase_at_spec [DecidableEq K] (m : UnorderedMap K V) (p : Nat) (x : HashNode K V)
    (next : Option Nat) (hwf : WellFormed m) (hx : m.deref p = some (x, next)) :
    ∃ m1 r pre post, m.erase_at (some p) = some (m1, r) ∧
      m.increment (some p) = some r ∧
      x.addr = p ∧
      m.chain (m._hash x.val.1 % m._bucket_count) = pre ++ x :: post ∧
      m1.chain (m._hash x.val.1 % m._bucket_count) = pre ++ post ∧
      (∀ i, i ≠ m._hash x.val.1 % m._bucket_count → m1.chain i = m.chain i) ∧
      m1.size + 1 = m.size ∧
      (∀ y rest, post = y :: rest → r = some y.addr) ∧
      (post = [] → ∀ j, m._hash x.val.1 % m._bucket_count < j → j < m.bucket_count →
        m.chain j ≠ [] → (∀ i, m._hash x.val.1 % m._bucket_count < i → i < j → m.chain i = []) →
        r = chainHead (m.chain j)) ∧
      (post = [] → (∀ j, m._hash x.val.1 % m._bucket_count < j → j < m.bucket_count →
        m.chain j = []) → r = m.end_) := by
  have hb := m._bucket_lt x.val.1 hwf.bucket_count_pos
  have hbl : m._bucket x.val.1 < m._buckets.length := by rw [hwf.length_buckets]; exact hb
  obtain ⟨pre, post, hch, hxp, hnext⟩ := hwf.chain_of_deref hx
  have hu := hwf.unlink_of_chain hch
  have hsucc : ∀ hd : Option Nat, ({ m with
        _buckets := m._buckets.set (m._bucket x.val.1) (pre ++ post)
        _head := hd
        _size := size_decr m._size } : UnorderedMap K V).successor next x.val =
      m.successor next x.val := fun hd => successor_set next x.val rfl rfl rfl
  have hinc : m.increment (some p) = some (m.successor next x.val) := by
    simp only [increment, hx]
  have hsize : size_decr m._size + 1 = m._size :=
    size_decr_add_one (hwf.size_pos_of_mem (x := x)
      (mem_allNodes_of_mem_chain (i := m._bucket x.val.1) (by rw [hch]; simp)))
  have hr1 : ∀ y rest, post = y :: rest → m.successor next x.val = some y.addr := by
    intro y rest hpost
    rw [hnext, hpost]
    rfl
  have hnone : post = [] → next = none := by
    intro hpost
    rw [hnext, hpost]
    rfl
  have hr2 : post = [] → ∀ j, m._bucket x.val.1 < j → j < m._bucket_count →
      m.chain j ≠ [] → (∀ i, m._bucket x.val.1 < i → i < j → m.chain i = []) →
      m.successor next x.val = chainHead (m.chain j) := by
    intro hpost
    rw [hnone hpost]
    exact (hwf.successor_none x.val).1
  have hr3 : post = [] → (∀ j, m._bucket x.val.1 < j → j < m._bucket_count →
      m.chain j = []) → m.successor next x.val = none := by
    intro hpost
    rw [hnone hpost]
    exact (hwf.successor_none x.val).2
  by_cases hhead : m._head = some x.addr
  · refine ⟨{ m with
                _buckets := m._buckets.set (m._bucket x.val.1) (pre ++ post)
                _size := size_decr m._size
                _head := m.successor next x.val }, m.successor next x.val, pre, post,
      ?_, hinc, hxp, hch, getD_set_self hbl, fun i hi => getD_set_ne (Ne.symm hi), hsize,
      hr1, hr2, hr3⟩
    unfold UnorderedMap.erase_at
    simp only [hx, hu, hhead, if_true, hsucc]
  · refine ⟨{ m with
                _buckets := m._buckets.set (m._bucket x.val.1) (pre ++ post)
                _size := size_decr m._size }, m.successor next x.val, pre, post,
      ?_, hinc, hxp, hch, getD_set_self hbl, fun i hi => getD_set_ne (Ne.symm hi), hsize,
      hr1, hr2, hr3⟩
    unfold UnorderedMap.erase_at
    simp only [hx, hu, hhead, if_false, hsucc]

end UnorderedMap

/-! ### `insert` followed by the search loop and `erase`, when the call is defined -/

namespace UnorderedMap

variable {K V : Type}

/-- In a well-formed table the node the search loop stops at for `k` is the one node with
key `k`. -/
theorem WellFormed.search_of_star [DecidableEq K] {m : UnorderedMap K V} (hwf : WellFormed m)
    {p : Nat} {k : K} {v : V} (hs : m.star (some p) = some (k, v)) :
    chainFind k (m.chain (m._bucket k)) = some p := by
  rcases hd : m.deref p with _ | ⟨n, next⟩
  · simp [star, hd] at hs
  · have hval : n.val = (k, v) := by simpa [star, hd] using hs
    have hkey : n.val.1 = k := by rw [hval]
    obtain ⟨pre, post, hch, hnp, -⟩ := hwf.chain_of_deref hd
    rw [hkey] at hch
    have hk : k ∈ m.keys :=
      List.mem_map.2 ⟨n, mem_allNodes_of_mem_chain (i := m._bucket k) (by rw [hch]; simp), hkey⟩
    obtain ⟨pre1, x, post1, hch1, hx, hf, -⟩ := hwf.search_stored hk
    obtain ⟨-, hxn, -⟩ := append_cons_unique (fun n => n.val.1)
      (hwf.keys_nodup (m._bucket k)) hch1 hch (hx.trans hkey.symm)
    rw [hf, hxn, hnp]

/-- The shape of a defined `insert` of a key that is not in its chain. -/
theorem insert_new_shape [DecidableEq K] [DecidableEq V] {m m1 : UnorderedMap K V}
    {value : K × V} {r : iterator × Bool}
    (hnew : chainAssign value.1 value.2 (m.chain (m._bucket value.1)) = none)
    (h : m.insert value = some (m1, r)) :
    ∃ hd, m.insert value =
      some ({ m with
                _buckets := m._buckets.set (m._bucket value.1)
                  (⟨m._alloc, value⟩ :: m.chain (m._bucket value.1))
                _alloc := m._alloc + 1
                _head := hd
                _size := m._size + 1 }, (some m._alloc, true)) := by
  unfold UnorderedMap.insert at h ⊢
  simp only [hnew] at h ⊢
  split at h
  · next hp hh =>
    split at h
    · cases h
    · next hn hnext hl =>
      simp only [hh, hl]
      split
      · exact ⟨_, rfl⟩
      · exact ⟨some hp, rfl⟩
  · exact ⟨_, rfl⟩

/-- The shape of a defined `insert(value_type &&)` of a key that is not in its chain. -/
theorem insert_move_new_shape [DecidableEq K] [DecidableEq V] {m m1 : UnorderedMap K V}
    {value : K × V} {r : iterator × Bool}
    (hnew : chainAssign value.1 value.2 (m.chain (m._bucket value.1)) = none)
    (h : m.insert_move value = some (m1, r)) :
    ∃ hd, m.insert_move value =
      some ({ m with
                _buckets := m._buckets.set (m._bucket value.1)
                  (⟨m._alloc, value⟩ :: m.chain (m._bucket value.1))
                _alloc := m._alloc + 1
                _head := hd
                _size := m._size + 1 }, (some m._alloc, true)) := by
  rcases hh : m._head with _ | hp
  · unfold UnorderedMap.insert_move UnorderedMap._insert_into_bucket
    simp only [hnew, hh, true_or, if_true]
    exact ⟨_, rfl⟩
  · rcases hl : m.deref hp with _ | ⟨x, xnext⟩
    · exfalso
      unfold UnorderedMap.insert_move UnorderedMap._insert_into_bucket at h
      simp [hnew, hh, hl] at h
    · unfold UnorderedMap.insert_move UnorderedMap._insert_into_bucket
      simp only [hnew, hh, hl, Option.map_some', reduceCtorEq, false_or]
      split
      · next heq =>
        split at heq <;> cases heq
      · next m2 node heq =>
        split at heq
        · simp only [Option.some.injEq, Prod.mk.injEq] at heq
          obtain ⟨rfl, rfl⟩ := heq
          exact ⟨_, rfl⟩
        · simp only [Option.some.injEq, Prod.mk.injEq] at heq
          obtain ⟨rfl, rfl⟩ := heq
          exact ⟨some hp, by rw [← hh]⟩

/-- A defined `insert` (either overload) on a well-formed table either links a new node or
overwrites the node of the key. -/
theorem WellFormed.insert_cases [DecidableEq K] [DecidableEq V] {m : UnorderedMap K V}
    (hwf : WellFormed m) (k : K) (v : V) :
    (∀ m1 r, m.insert (k, v) = some (m1, r) →
        InsertedNew m k v (m.insert (k, v)) ∨ Overwritten m k v (m.insert (k, v))) ∧
      (∀ m1 r, m.insert_move (k, v) = some (m1, r) →
        InsertedNew m k v (m.insert_move (k, v)) ∨
          Overwritten m k v (m.insert_move (k, v))) := by
  rcases hassign : chainAssign k v (m.chain (m._bucket k)) with _ | ⟨a, chain1⟩
  · have hk : k ∉ m.keys := fun hin =>
      chainAssign_eq_none.1 hassign ((hwf.mem_keys_iff k).1 hin)
    constructor
    · intro m1 r h
      obtain ⟨hd, h1⟩ := insert_new_shape hassign h
      exact Or.inl (hwf.insertedNew_of_eq hk h1)
    · intro m1 r h
      obtain ⟨hd, h1⟩ := insert_move_new_shape hassign h
      exact Or.inl (hwf.insertedNew_of_eq hk h1)
  · exact ⟨fun _ _ _ => Or.inr (hwf.overwritten_of_eq hassign (insert_of_assign hassign)),
      fun _ _ _ => Or.inr (hwf.overwritten_of_eq hassign (insert_move_of_assign hassign))⟩

/-- On a table whose head reference is null or live, `insert` (either overload) has a
defined result. -/
theorem WellFormed.insert_defined [DecidableEq K] [DecidableEq V] {m : UnorderedMap K V}
    (hwf : WellFormed m) (hhead : HeadLive m) (value : K × V) :
    (∃ m1 r, m.insert value = some (m1, r)) ∧ (∃ m1 r, m.insert_move value = some (m1, r)) := by
  rcases hassign : chainAssign value.1 value.2 (m.chain (m._bucket value.1)) with
    _ | ⟨a, chain1⟩
  · obtain ⟨hd, h1⟩ := hwf.insert_new hhead hassign
    obtain ⟨hd2, h2⟩ := insert_move_new hhead hassign
    exact ⟨⟨_, _, h1⟩, ⟨_, _, h2⟩⟩
  · exact ⟨⟨_, _, insert_of_assign hassign⟩, ⟨_, _, insert_move_of_assign hassign⟩⟩

/-- Round trip: on the well-formed table `m1` a defined insertion of `(k, v)` produced,
the search loop of `operator[]` run for `k` stops at the node of the returned cursor, not
at the end of the chain, and that node reads `(k, v)`. -/
theorem WellFormed.search_after_result [DecidableEq K] {m m1 : UnorderedMap K V}
    (hwf1 : WellFormed m1) {k : K} {v : V} {r : iterator × Bool}
    {res : Option (UnorderedMap K V × (iterator × Bool))} (h : res = some (m1, r))
    (hcase : InsertedNew m k v res ∨ Overwritten m k v res) :
    chainFind k (m1.chain (m1._bucket k)) = r.1 ∧
      chainFind k (m1.chain (m1._bucket k)) ≠ m1.end_ ∧
      m1.star (chainFind k (m1.chain (m1._bucket k))) = some (k, v) := by
  have hstar : ∃ p, r.1 = some p ∧ m1.star (some p) = some (k, v) := by
    rcases hcase with hnew | hover
    · obtain ⟨m2, p, hres, hs, -⟩ := hnew
      rw [h] at hres
      simp only [Option.some.injEq, Prod.mk.injEq] at hres
      obtain ⟨rfl, rfl⟩ := hres
      exact ⟨p, rfl, hs⟩
    · obtain ⟨m2, n, -, -, hres, hs, -⟩ := hover
      rw [h] at hres
      simp only [Option.some.injEq, Prod.mk.injEq] at hres
      obtain ⟨rfl, rfl⟩ := hres
      exact ⟨n.addr, rfl, hs⟩
  obtain ⟨p, hp, hs⟩ := hstar
  have hf := hwf1.search_of_star hs
  rw [hf, hp]
  exact ⟨rfl, by simp [end_], hs⟩

/-- Round trip: whenever `insert(k, v)` has a defined result on a well-formed table, the
search loop run for `k` on the resulting table stops at the node of the returned cursor,
not at the end of the chain, and that node reads `(k, v)`. -/
theorem WellFormed.search_after_insert [DecidableEq K] [DecidableEq V] {m m1 : UnorderedMap K V}
    (hwf : WellFormed m) {k : K} {v : V} {r : iterator × Bool}
    (h : m.insert (k, v) = some (m1, r)) :
    chainFind k (m1.chain (m1._bucket k)) = r.1 ∧
      chainFind k (m1.chain (m1._bucket k)) ≠ m1.end_ ∧
      m1.star (chainFind k (m1.chain (m1._bucket k))) = some (k, v) :=
  (hwf.insert h).search_after_result h ((hwf.insert_cases k v).1 m1 r h)

/-- The same round trip for `insert(value_type &&)`. -/
theorem WellFormed.search_after_insert_move [DecidableEq K] [DecidableEq V]
    {m m1 : UnorderedMap K V} (hwf : WellFormed m) {k : K} {v : V} {r : iterator × Bool}
    (h : m.insert_move (k, v) = some (m1, r)) :
    chainFind k (m1.chain (m1._bucket k)) = r.1 ∧
      chainFind k (m1.chain (m1._bucket k)) ≠ m1.end_ ∧
      m1.star (chainFind k (m1.chain (m1._bucket k))) = some (k, v) :=
  (hwf.insert_move h).search_after_result h ((hwf.insert_cases k v).2 m1 r h)

theorem erase_of_unlink_none [DecidableEq K] {m : UnorderedMap K V} {k : K}
    (hu : chainUnlink k (m.chain (m._bucket k)) = none) : m.erase k = (m, 0) := by
  unfold UnorderedMap.erase
  simp only [hu]

theorem WellFormed.not_mem_keys_erase [DecidableEq K] {m : UnorderedMap K V}
    (hwf : WellFormed m) (k : K) : k ∉ (m.erase k).1.keys := by
  have hwf1 := hwf.erase k
  have hb := m._bucket_lt k hwf.bucket_count_pos
  have hbl : m._bucket k < m._buckets.length := by rw [hwf.length_buckets]; exact hb
  intro hin
  have hin1 := (hwf1.mem_keys_iff k).1 hin
  rcases hu : chainUnlink k (m.chain (m._bucket k)) with _ | ⟨c, chain1⟩
  · have he : m.erase k = (m, 0) := by
      unfold UnorderedMap.erase
      simp only [hu]
    rw [he] at hin1
    exact chainUnlink_eq_none.1 hu hin1
  · have he : m.erase k =
        ({ m with
            _buckets := m._buckets.set (m._bucket k) chain1
            _size := size_decr m._size }, 1) := by
      unfold UnorderedMap.erase
      simp only [hu]
    rw [he] at hin1
    have hc : ({ m with
            _buckets := m._buckets.set (m._bucket k) chain1
            _size := size_decr m._size } : UnorderedMap K V).chain (m._bucket k) = chain1 :=
      getD_set_self hbl
    have hin2 : k ∈ chain1.map (fun n => n.val.1) := by
      rw [← hc]
      exact hin1
    obtain ⟨pre, post, hch, hck, -, hc1⟩ := chainUnlink_eq_some hu
    have hnd := hwf.keys_nodup (m._bucket k)
    rw [hch] at hnd
    simp only [List.map_append, List.map_cons] at hnd
    have hnd2 := List.nodup_middle.1 hnd
    rw [List.nodup_cons, hck] at hnd2
    apply hnd2.1
    rw [hc1, List.map_append] at hin2
    exact hin2

/-- After `erase(k)` on a well-formed table the search loop run for `k` reaches the end of
the chain and a second `erase(k)` returns 0. -/
theorem WellFormed.search_after_erase [DecidableEq K] {m : UnorderedMap K V}
    (hwf : WellFormed m) (k : K) :
    chainFind k ((m.erase k).1.chain ((m.erase k).1._bucket k)) = (m.erase k).1.end_ ∧
      ((m.erase k).1.erase k).2 = 0 := by
  have hwf2 := hwf.erase k
  have hk := hwf.not_mem_keys_erase k
  refine ⟨hwf2.search_absent hk, ?_⟩
  have hu : chainUnlink k ((m.erase k).1.chain ((m.erase k).1._bucket k)) = none :=
    chainUnlink_eq_none.2 (fun hin => hk ((hwf2.mem_keys_iff k).2 hin))
  rw [erase_of_unlink_none hu]

/-- Whenever `insert(k, v)` (either overload) has a defined result on a well-formed table,
after a following `erase(k)` the search loop run for `k` reaches the end of the chain and a
second `erase(k)` returns 0. -/
theorem WellFormed.search_after_insert_erase [DecidableEq K] [DecidableEq V]
    {m : UnorderedMap K V} (hwf : WellFormed m) (k : K) (v : V) :
    (∀ m1 r, m.insert (k, v) = some (m1, r) →
        chainFind k ((m1.erase k).1.chain ((m1.erase k).1._bucket k)) = (m1.erase k).1.end_ ∧
          ((m1.erase k).1.erase k).2 = 0) ∧
      (∀ m1 r, m.insert_move (k, v) = some (m1, r) →
        chainFind k ((m1.erase k).1.chain ((m1.erase k).1._bucket k)) = (m1.erase k).1.end_ ∧
          ((m1.erase k).1.erase k).2 = 0) :=
  ⟨fun _ _ h => (hwf.insert h).search_after_erase k,
    fun _ _ h => (hwf.insert_move h).search_after_erase k⟩

end UnorderedMap

/-! ### The traversal order -/

section TraversalLists

variable {K V : Type}

theorem flatten_split {α : Type} (L : List (List α)) (b : Nat) (hb : b < L.length) :
    L.flatten = (L.take b).flatten ++ (L.getD b [] ++ (L.drop (b + 1)).flatten) := by
  have h1 : L = L.take b ++ L.getD b [] :: L.drop (b + 1) := by
    rw [List.getD_eq_getElem _ _ hb, ← List.drop_eq_getElem_cons hb, List.take_append_drop]
  calc L.flatten = (L.take b ++ L.getD b [] :: L.drop (b + 1)).flatten := by rw [← h1]
    _ = _ := by rw [List.flatten_append, List.flatten_cons]

theorem chainHead_append {c : List (HashNode K V)} (hc : c ≠ []) (d : List (HashNode K V)) :
    chainHead (c ++ d) = chainHead c := by
  cases c with
  | nil => exact absurd rfl hc
  | cons x c => rfl

/-- The bucket scan of `operator++` finds the first node of the rest of the table. -/
theorem chainHead_flatten_drop (L : List (List (HashNode K V))) (left i : Nat)
    (h : i + left = L.length) :
    chainHead (L.drop i).flatten =
      if scanBuckets L left i ≥ L.length then none
      else chainHead (L.getD (scanBuckets L left i) []) := by
  induction left generalizing i with
  | zero =>
    have hi : i = L.length := by omega
    simp only [scanBuckets]
    rw [if_pos (by omega), hi, List.drop_length]
    rfl
  | succ left ih =>
    have hi : i < L.length := by omega
    rw [List.drop_eq_getElem_cons hi, List.flatten_cons]
    have hget : L.getD i [] = L[i] := List.getD_eq_getElem _ _ hi
    by_cases he : (L.getD i []).isEmpty = true
    · have hrec : scanBuckets L (left + 1) i = scanBuckets L left (i + 1) := by
        simp only [scanBuckets, he, if_true]
      have hnil : L[i] = [] := by
        rw [← hget]
        exact List.isEmpty_iff.1 he
      rw [hrec, hnil, List.nil_append]
      exact ih (i + 1) (by omega)
    · have hrec : scanBuckets L (left + 1) i = i := by
        simp only [scanBuckets, he, if_false]
        simp
      have hne : L[i] ≠ [] := by
        rw [← hget]
        exact fun hnil => he (List.isEmpty_iff.2 hnil)
      rw [hrec, if_neg (by omega), chainHead_append hne, hget]

end TraversalLists

namespace UnorderedMap

variable {K V : Type}

/-- The successor `operator++` computes for a linked node is the first of the nodes that
follow it in the table: the rest of its chain, then the chains of the buckets after it. -/
theorem WellFormed.successor_eq {m : UnorderedMap K V} (hwf : WellFormed m)
    {x : HashNode K V} {pre post : List (HashNode K V)}
    (_hch : m.chain (m._bucket x.val.1) = pre ++ x :: post) :
    m.successor (chainHead post) x.val =
      chainHead (post ++ (m._buckets.drop (m._bucket x.val.1 + 1)).flatten) := by
  have hb := m._bucket_lt x.val.1 hwf.bucket_count_pos
  cases post with
  | cons y rest => rfl
  | nil =>
    have hsum : m._bucket x.val.1 + 1 + (m._bucket_count - (m._bucket x.val.1 + 1)) =
        m._buckets.length := by
      rw [hwf.length_buckets]
      omega
    have hd := chainHead_flatten_drop m._buckets
      (m._bucket_count - (m._bucket x.val.1 + 1)) (m._bucket x.val.1 + 1) hsum
    rw [hwf.length_buckets] at hd
    rw [List.nil_append, hd]
    rfl

/-- A node of the table splits the list of all nodes at its place in its chain. -/
theorem WellFormed.global_split {m : UnorderedMap K V} (hwf : WellFormed m)
    {x : HashNode K V} {A B : List (HashNode K V)} (hall : m.allNodes = A ++ x :: B) :
    ∃ pre post, m.chain (m._bucket x.val.1) = pre ++ x :: post ∧
      A = (m._buckets.take (m._bucket x.val.1)).flatten ++ pre ∧
      B = post ++ (m._buckets.drop (m._bucket x.val.1 + 1)).flatten := by
  have hb := m._bucket_lt x.val.1 hwf.bucket_count_pos
  have hbl : m._bucket x.val.1 < m._buckets.length := by rw [hwf.length_buckets]; exact hb
  have hx : x ∈ m.allNodes := by rw [hall]; simp
  obtain ⟨i, -, hi⟩ := mem_chain_of_mem_allNodes hx
  have hp := hwf.placement i x hi
  rw [← hp] at hi
  obtain ⟨pre, post, hch⟩ := List.append_of_mem hi
  have hsplit : m.allNodes = ((m._buckets.take (m._bucket x.val.1)).flatten ++ pre) ++
      x :: (post ++ (m._buckets.drop (m._bucket x.val.1 + 1)).flatten) := by
    show m._buckets.flatten = _
    rw [flatten_split m._buckets _ hbl]
    show _ ++ (m.chain (m._bucket x.val.1) ++ _) = _
    rw [hch]
    simp
  obtain ⟨hA, -, hB⟩ := append_cons_unique HashNode.addr hwf.addr_nodup hall hsplit rfl
  exact ⟨pre, post, hch, hA, hB⟩

/-- The loop from a node of the table to `end()` visits that node and all nodes after it
in the table, in order. -/
theorem WellFormed.traverse_suffix {m : UnorderedMap K V} (hwf : WellFormed m)
    (A B : List (HashNode K V)) (hall : m.allNodes = A ++ B) (fuel : Nat)
    (hfuel : B.length ≤ fuel) :
    m.traverse fuel (chainHead B) = some (B.map (fun n => n.val)) := by
  induction B generalizing A fuel with
  | nil =>
    cases fuel <;> rfl
  | cons x B ih =>
    cases fuel with
    | zero => simp at hfuel
    | succ fuel =>
      obtain ⟨pre, post, hch, -, hB⟩ := hwf.global_split hall
      have hd := hwf.deref_of_chain hch
      have hs := hwf.successor_eq hch
      rw [← hB] at hs
      have hrec := ih (A ++ [x]) (by rw [hall]; simp) fuel (by simpa using hfuel)
      show m.traverse (fuel + 1) (some x.addr) = _
      simp only [traverse, hd, hs, hrec, Option.map_some', List.map_cons]

/-- In a well-formed table whose head reference is at the first node of the lowest
non-empty bucket, the loop from `begin()` to `end()` visits every node once, bucket by
bucket in ascending order and each chain front to back: exactly `size()` pairs with
pairwise distinct keys and non-decreasing bucket indices. -/
theorem WellFormed.traverse_begin {m : UnorderedMap K V} (hwf : WellFormed m)
    (hhead : HeadFirst m) (fuel : Nat) (hfuel : m.size ≤ fuel) :
    m.traverse fuel m.begin = some (m.allNodes.map (fun n => n.val)) ∧
      (m.allNodes.map (fun n => n.val)).length = m.size ∧
      ((m.allNodes.map (fun n => n.val)).map Prod.fst).Nodup ∧
      ((m.allNodes.map (fun n => n.val)).map (fun kv => m.bucket kv.1)).Pairwise
        (fun a b => a ≤ b) := by
  refine ⟨?_, ?_, ?_, ?_⟩
  · have := hwf.traverse_suffix [] m.allNodes rfl fuel (by
      rw [← hwf.size_eq]
      exact hfuel)
    rw [← hhead] at this
    exact this
  · rw [List.length_map]
    exact hwf.size_eq.symm
  · have := hwf.keys_nodup_all
    simpa [keys, List.map_map] using this
  · rw [List.map_map, List.pairwise_map]
    show List.Pairwise _ m._buckets.flatten
    rw [List.pairwise_flatten]
    constructor
    · intro l hl
      obtain ⟨i, hi, rfl⟩ := List.getElem_of_mem hl
      apply List.pairwise_of_forall_mem_list
      intro a ha b hb
      have h1 := hwf.placement i a (by rw [chain, List.getD_eq_getElem _ _ hi]; exact ha)
      have h2 := hwf.placement i b (by rw [chain, List.getD_eq_getElem _ _ hi]; exact hb)
      show m._bucket a.val.1 ≤ m._bucket b.val.1
      omega
    · rw [List.pairwise_iff_getElem]
      intro i j hi hj hij a ha b hb
      have h1 := hwf.placement i a (by rw [chain, List.getD_eq_getElem _ _ hi]; exact ha)
      have h2 := hwf.placement j b (by rw [chain, List.getD_eq_getElem _ _ hj]; exact hb)
      show m._bucket a.val.1 ≤ m._bucket b.val.1
      omega

end UnorderedMap

/-! ### The head reference when no node is erased by key -/

namespace UnorderedMap

variable {K V : Type}

theorem flatten_set_split {α : Type} (L : List (List α)) (b : Nat) (c : List α)
    (hb : b < L.length) :
    (L.set b c).flatten = (L.take b).flatten ++ (c ++ (L.drop (b + 1)).flatten) := by
  rw [List.set_eq_take_cons_drop c hb, List.flatten_append, List.flatten_cons]

theorem chainHead_eq_of_map_addr {l1 l2 : List (HashNode K V)}
    (h : l1.map HashNode.addr = l2.map HashNode.addr) : chainHead l1 = chainHead l2 := by
  cases l1 with
  | nil =>
    cases l2 with
    | nil => rfl
    | cons y l2 => simp at h
  | cons x l1 =>
    cases l2 with
    | nil => simp at h
    | cons y l2 =>
      simp only [List.map_cons, List.cons.injEq] at h
      simp [chainHead, h.1]

theorem HeadFirst.headLive {m : UnorderedMap K V} (h : HeadFirst m) : HeadLive m := by
  intro p hp
  unfold HeadFirst at h
  rw [hp] at h
  cases hall : m.allNodes with
  | nil =>
    rw [hall] at h
    cases h
  | cons x rest =>
    rw [hall] at h
    exact ⟨x, by simp, (Option.some.inj h).symm⟩

/-- Overwriting a mapped value keeps the head reference at the first node. -/
theorem headFirst_overwrite [DecidableEq K] [DecidableEq V]
    {m : UnorderedMap K V} (hhead : HeadFirst m) {k : K} {v : V} {a : Nat}
    {chain1 : List (HashNode K V)}
    (hassign : chainAssign k v (m.chain (m._bucket k)) = some (a, chain1)) :
    HeadFirst ({ m with _buckets := m._buckets.set (m._bucket k) chain1 } : UnorderedMap K V) := by
  obtain ⟨pre, x, post, hch, -, -, hxa, hc1⟩ := chainAssign_eq_some hassign
  have hmapa : chain1.map HashNode.addr = (m.chain (m._bucket k)).map HashNode.addr := by
    rw [hch, hc1]
    simp [hxa]
  have hall : (m._buckets.set (m._bucket k) chain1).flatten.map HashNode.addr =
      m._buckets.flatten.map HashNode.addr := map_flatten_set_eq _ hmapa
  show m._head = chainHead (m._buckets.set (m._bucket k) chain1).flatten
  rw [chainHead_eq_of_map_addr hall]
  exact hhead

/-- The head reference `insert` and `_insert_into_bucket` choose after linking a new node
is the first node of the table. -/
theorem WellFormed.headFirst_prepend {m : UnorderedMap K V} (hwf : WellFormed m)
    (hhead : HeadFirst m) (value : K × V) :
    chainHead (m._buckets.set (m._bucket value.1)
        (⟨m._alloc, value⟩ :: m.chain (m._bucket value.1))).flatten =
      match m._head with
      | none => some m._alloc
      | some h =>
        match m.deref h with
        | none => none
        | some (hn, _) =>
          if m._bucket value.1 ≤ m._bucket hn.val.1 then some m._alloc else some h := by
  have hb := m._bucket_lt value.1 hwf.bucket_count_pos
  have hbl : m._bucket value.1 < m._buckets.length := by rw [hwf.length_buckets]; exact hb
  rw [flatten_set_split _ _ _ hbl]
  have hsplit := flatten_split m._buckets _ hbl
  rcases hh : m._head with _ | h
  · have hnil : m.allNodes = [] := by
      unfold HeadFirst at hhead
      rw [hh] at hhead
      cases hall : m.allNodes with
      | nil => rfl
      | cons x rest =>
        rw [hall] at hhead
        cases hhead
    have htake : (m._buckets.take (m._bucket value.1)).flatten = [] := by
      have : m._buckets.flatten = [] := hnil
      rw [hsplit] at this
      exact (List.append_eq_nil.1 this).1
    rw [htake]
    rfl
  · unfold HeadFirst at hhead
    rw [hh] at hhead
    cases hall : m.allNodes with
    | nil =>
      rw [hall] at hhead
      cases hhead
    | cons x rest =>
      rw [hall] at hhead
      have hxh : x.addr = h := (Option.some.inj hhead).symm
      have hall2 : m.allNodes = [] ++ x :: rest := hall
      obtain ⟨pre, post, hch, hA, -⟩ := hwf.global_split hall2
      have hpre : pre = [] := (List.append_eq_nil.1 hA.symm).2
      have htake0 : (m._buckets.take (m._bucket x.val.1)).flatten = [] :=
        (List.append_eq_nil.1 hA.symm).1
      have hd := hwf.deref_of_chain hch
      rw [hxh] at hd
      simp only [hd]
      by_cases hle : m._bucket value.1 ≤ m._bucket x.val.1
      · rw [if_pos hle]
        have htake : (m._buckets.take (m._bucket value.1)).flatten = [] := by
          have hpre2 : m._buckets.take (m._bucket value.1) =
              (m._buckets.take (m._bucket x.val.1)).take (m._bucket value.1) := by
            rw [List.take_take, Nat.min_eq_left hle]
          rw [hpre2, List.flatten_eq_nil_iff]
          intro l hl
          exact List.flatten_eq_nil_iff.1 htake0 l (List.mem_of_mem_take hl)
        rw [htake]
        rfl
      · rw [if_neg hle]
        have hne : (m._buckets.take (m._bucket value.1)).flatten ≠ [] := by
          intro hnil
          have hxin : x ∈ (m._buckets.take (m._bucket value.1)).flatten := by
            have hlt : m._bucket x.val.1 < m._bucket value.1 := by omega
            have hxb := m._bucket_lt x.val.1 hwf.bucket_count_pos
            have hxl : m._bucket x.val.1 < (m._buckets.take (m._bucket value.1)).length := by
              rw [List.length_take, hwf.length_buckets]
              omega
            apply getD_mem_flatten (i := m._bucket x.val.1)
            rw [List.getD_eq_getElem _ _ hxl, List.getElem_take]
            have : m.chain (m._bucket x.val.1) = m._buckets[m._bucket x.val.1] :=
              List.getD_eq_getElem _ _ (by rw [hwf.length_buckets]; exact hxb)
            rw [← this, hch]
            simp
          rw [hnil] at hxin
          cases hxin
        rw [chainHead_append hne]
        have : chainHead m.allNodes = chainHead (m._buckets.take (m._bucket value.1)).flatten := by
          show chainHead m._buckets.flatten = _
          rw [hsplit, chainHead_append hne]
        rw [← this, hall]
        exact congrArg some hxh

end UnorderedMap

namespace UnorderedMap

variable {K V : Type}

theorem heapLookup_set_cons {L : List (List (HashNode K V))} {b h : Nat} {x : HashNode K V}
    (hne : x.addr ≠ h) (hb : b < L.length) :
    heapLookup h (L.set b (x :: L.getD b [])) = heapLookup h L := by
  induction L generalizing b with
  | nil => simp at hb
  | cons l L ih =>
    cases b with
    | zero =>
      simp only [List.set_cons_zero, List.getD_cons_zero, heapLookup, chainLookup, hne, if_false]
    | succ b =>
      simp only [List.set_cons_succ, List.getD_cons_succ, heapLookup]
      rw [ih (by simpa using hb)]

theorem WellFormed.headFirst_insert [DecidableEq K] [DecidableEq V] {m m1 : UnorderedMap K V}
    (hwf : WellFormed m) (hhead : HeadFirst m) {value : K × V} {r : iterator × Bool}
    (h : m.insert value = some (m1, r)) : HeadFirst m1 := by
  have hb := m._bucket_lt value.1 hwf.bucket_count_pos
  have hbl : m._bucket value.1 < m._buckets.length := by rw [hwf.length_buckets]; exact hb
  have hpre := hwf.headFirst_prepend hhead value
  unfold UnorderedMap.insert at h
  simp only at h
  split at h
  · next curr chain1 hassign =>
    simp only [Option.some.injEq, Prod.mk.injEq] at h
    obtain ⟨rfl, -⟩ := h
    exact headFirst_overwrite hhead hassign
  · split at h
    · next hp hh =>
      obtain ⟨n, hn, hnp⟩ := hhead.headLive hp hh
      have hne : (⟨m._alloc, value⟩ : HashNode K V).addr ≠ hp := by
        have := hwf.addr_lt n hn
        rw [hnp] at this
        exact Nat.ne_of_gt this
      have hlook : heapLookup hp (m._buckets.set (m._bucket value.1)
          (⟨m._alloc, value⟩ :: m.chain (m._bucket value.1))) = m.deref hp :=
        heapLookup_set_cons hne hbl
      simp only [deref] at h
      rw [hlook] at h
      rw [hh] at hpre
      simp only at hpre
      split at h
      · cases h
      · next hnode hnext hd =>
        rw [hd] at hpre
        simp only at hpre
        split at h
        · next hle =>
          rw [if_pos hle] at hpre
          simp only [Option.some.injEq, Prod.mk.injEq] at h
          obtain ⟨rfl, -⟩ := h
          exact hpre.symm
        · next hle =>
          rw [if_neg hle] at hpre
          simp only [Option.some.injEq, Prod.mk.injEq] at h
          obtain ⟨rfl, -⟩ := h
          exact hh.trans hpre.symm
    · next hh =>
      rw [hh] at hpre
      simp only [Option.some.injEq, Prod.mk.injEq] at h
      obtain ⟨rfl, -⟩ := h
      exact hpre.symm

theorem WellFormed.headFirst__insert_into_bucket [DecidableEq K] [DecidableEq V]
    {m m1 : UnorderedMap K V} (hwf : WellFormed m) (hhead : HeadFirst m) {value : K × V}
    {p : Nat} (hnew : chainAssign value.1 value.2 (m.chain (m._bucket value.1)) = none)
    (h : m._insert_into_bucket (m._bucket value.1) value = some (m1, p)) : HeadFirst m1 := by
  have hpre := hwf.headFirst_prepend hhead value
  unfold UnorderedMap._insert_into_bucket at h
  simp only [hnew] at h
  rcases hh : m._head with _ | hp
  · rw [hh] at hpre
    simp only [hh, true_or, if_true, Option.some.injEq, Prod.mk.injEq] at h
    obtain ⟨rfl, -⟩ := h
    exact hpre.symm
  · rw [hh] at hpre
    simp only at hpre
    simp only [hh, reduceCtorEq, false_or] at h
    rcases hd : m.deref hp with _ | ⟨hnode, hnext⟩
    · simp [hd] at h
    · rw [hd] at hpre
      simp only at hpre
      simp only [hd, Option.map_some'] at h
      by_cases hle : m._bucket value.1 ≤ m._bucket hnode.val.1
      · rw [if_pos hle] at hpre
        simp only [hle, if_true, Option.some.injEq, Prod.mk.injEq] at h
        obtain ⟨rfl, -⟩ := h
        exact hpre.symm
      · rw [if_neg hle] at hpre
        simp only [hle, if_false, Option.some.injEq, Prod.mk.injEq] at h
        obtain ⟨rfl, -⟩ := h
        exact hpre.symm

theorem WellFormed.headFirst_insert_move [DecidableEq K] [DecidableEq V]
    {m m1 : UnorderedMap K V} (hwf : WellFormed m) (hhead : HeadFirst m) {value : K × V}
    {r : iterator × Bool} (h : m.insert_move value = some (m1, r)) : HeadFirst m1 := by
  unfold UnorderedMap.insert_move at h
  simp only at h
  split at h
  · next curr chain1 hassign =>
    simp only [Option.some.injEq, Prod.mk.injEq] at h
    obtain ⟨rfl, -⟩ := h
    exact headFirst_overwrite hhead hassign
  · next hnew =>
    split at h
    · cases h
    · next m2 node hins =>
      simp only [Option.some.injEq, Prod.mk.injEq] at h
      obtain ⟨rfl, -⟩ := h
      exact hwf.headFirst__insert_into_bucket hhead hnew hins

theorem WellFormed.headFirst_index [DecidableEq K] [DecidableEq V] [Inhabited V]
    {m m1 : UnorderedMap K V} (hwf : WellFormed m) (hhead : HeadFirst m) {key : K} {p : Nat}
    (h : m.index key = some (m1, p)) : HeadFirst m1 := by
  unfold UnorderedMap.index at h
  simp only at h
  split at h
  · simp only [Option.some.injEq, Prod.mk.injEq] at h
    obtain ⟨rfl, -⟩ := h
    exact hhead
  · next hfind =>
    have hnew : chainAssign (key, (default : V)).1 (key, (default : V)).2
        (m.chain (m._bucket (key, (default : V)).1)) = none := by
      have := chainAssign_fst key (default : V) (m.chain (m._bucket key))
      rw [hfind] at this
      rcases hca : chainAssign key (default : V) (m.chain (m._bucket key)) with _ | r
      · rfl
      · rw [hca] at this
        cases this
    exact hwf.headFirst__insert_into_bucket hhead hnew h

/-- The head reference after unlinking the node `x`: the successor of `x` if `x` was the
head node, the old head otherwise; either way the first node of what is left. -/
theorem WellFormed.headFirst_unlink {m : UnorderedMap K V} (hwf : WellFormed m)
    (hhead : HeadFirst m) {x : HashNode K V} {pre post : List (HashNode K V)}
    (hch : m.chain (m._bucket x.val.1) = pre ++ x :: post) :
    chainHead (m._buckets.set (m._bucket x.val.1) (pre ++ post)).flatten =
      if m._head = some x.addr then m.successor (chainHead post) x.val else m._head := by
  have hb := m._bucket_lt x.val.1 hwf.bucket_count_pos
  have hbl : m._bucket x.val.1 < m._buckets.length := by rw [hwf.length_buckets]; exact hb
  have hall : m.allNodes = ((m._buckets.take (m._bucket x.val.1)).flatten ++ pre) ++
      x :: (post ++ (m._buckets.drop (m._bucket x.val.1 + 1)).flatten) := by
    show m._buckets.flatten = _
    rw [flatten_split m._buckets _ hbl]
    show _ ++ (m.chain (m._bucket x.val.1) ++ _) = _
    rw [hch]
    simp
  have hnew : (m._buckets.set (m._bucket x.val.1) (pre ++ post)).flatten =
      ((m._buckets.take (m._bucket x.val.1)).flatten ++ pre) ++
        (post ++ (m._buckets.drop (m._bucket x.val.1 + 1)).flatten) := by
    rw [flatten_set_split _ _ _ hbl]
    simp
  rw [hnew, hwf.successor_eq hch]
  unfold HeadFirst at hhead
  rw [hhead, hall]
  have hnd := hwf.addr_nodup
  rw [hall] at hnd
  cases hA : (m._buckets.take (m._bucket x.val.1)).flatten ++ pre with
  | nil =>
    simp only [List.nil_append, chainHead, if_true]
  | cons a A =>
    rw [hA] at hnd
    have hne : a.addr ≠ x.addr := by
      intro heq
      simp only [List.cons_append, List.map_cons, List.nodup_cons, List.map_append,
        List.mem_append, List.mem_cons, List.mem_map] at hnd
      exact hnd.1 (Or.inr (Or.inl heq))
    simp only [List.cons_append, chainHead, Option.some.injEq, hne, if_false]

theorem WellFormed.headFirst_erase_at [DecidableEq K] {m m1 : UnorderedMap K V}
    (hwf : WellFormed m) (hhead : HeadFirst m) {pos r : iterator}
    (h : m.erase_at pos = some (m1, r)) : HeadFirst m1 := by
  unfold UnorderedMap.erase_at at h
  split at h
  · simp only [Option.some.injEq, Prod.mk.injEq] at h
    obtain ⟨rfl, -⟩ := h
    exact hhead
  · split at h
    · cases h
    · next x next hx =>
      obtain ⟨pre, post, hch, hxp, hnext⟩ := hwf.chain_of_deref hx
      have hu := hwf.unlink_of_chain hch
      have hfirst := hwf.headFirst_unlink hhead hch
      have hsucc : ∀ hd : Option Nat, ({ m with
          _buckets := m._buckets.set (m._bucket x.val.1) (pre ++ post)
          _head := hd
          _size := size_decr m._size } : UnorderedMap K V).successor next x.val =
          m.successor next x.val := fun hd => successor_set next x.val rfl rfl rfl
      simp only [hu] at h
      by_cases hhx : m._head = some x.addr
      · rw [if_pos hhx] at hfirst
        simp only [hhx, if_true, Option.some.injEq, Prod.mk.injEq] at h
        obtain ⟨rfl, -⟩ := h
        show _ = chainHead (m._buckets.set (m._bucket x.val.1) (pre ++ post)).flatten
        rw [hfirst, ← hnext]
        exact (hsucc (some x.addr)).trans rfl
      · rw [if_neg hhx] at hfirst
        simp only [hhx, if_false, Option.some.injEq, Prod.mk.injEq] at h
        obtain ⟨rfl, -⟩ := h
        exact hfirst.symm

theorem ReachableByCursor.invariants [DecidableEq K] [DecidableEq V] [Inhabited V]
    {m : UnorderedMap K V} (h : ReachableByCursor m) : WellFormed m ∧ HeadFirst m := by
  induction h with
  | construct ngp c hash equal hpos =>
    refine ⟨WellFormed.construct ngp c hash equal hpos, ?_⟩
    show none = chainHead (List.replicate (ngp c) ([] : List (HashNode K V))).flatten
    have : (List.replicate (ngp c) ([] : List (HashNode K V))).flatten = [] := by simp
    rw [this]
    rfl
  | insert m m1 value r _ hstep ih => exact ⟨ih.1.insert hstep, ih.1.headFirst_insert ih.2 hstep⟩
  | insert_move m m1 value r _ hstep ih =>
    exact ⟨ih.1.insert_move hstep, ih.1.headFirst_insert_move ih.2 hstep⟩
  | index m m1 key p _ hstep ih => exact ⟨ih.1.index hstep, ih.1.headFirst_index ih.2 hstep⟩
  | erase_at m m1 pos r _ hstep ih =>
    exact ⟨ih.1.erase_at hstep, ih.1.headFirst_erase_at ih.2 hstep⟩

/-- Without `erase(key)` and `clear`, `begin()` is `end()` exactly when `size()` is 0, and
the loop from `begin()` to `end()` visits exactly the `size()` stored pairs. -/
theorem ReachableByCursor.begin_and_traverse [DecidableEq K] [DecidableEq V] [Inhabited V]
    {m : UnorderedMap K V} (h : ReachableByCursor m) :
    (m.begin = m.end_ ↔ m.size = 0) ∧ m.begin = chainHead m.allNodes ∧
      m.traverse m.size m.begin = some (m.allNodes.map (fun n => n.val)) ∧
      (m.allNodes.map (fun n => n.val)).length = m.size := by
  obtain ⟨hwf, hhead⟩ := h.invariants
  have ht := hwf.traverse_begin hhead m.size (Nat.le_refl _)
  refine ⟨?_, hhead, ht.1, ht.2.1⟩
  show m._head = none ↔ m._size = 0
  rw [hhead, hwf.size_eq]
  cases m.allNodes with
  | nil => simp [chainHead]
  | cons x rest => simp [chainHead]

end UnorderedMap

/-! ### The stale head reference

`erase(const Key &)` unlinks and deletes the node without looking at `_head`, and `clear()`
deletes every node without resetting it, whereas `erase(iterator)` moves `_head` to the
successor when it deletes the head node. -/

namespace UnorderedMap

theorem exampleTwo_reachable : Reachable exampleTwo :=
  Reachable.insert exampleOne exampleTwo (2, 20) (some 1, true) exampleOne_reachable rfl

theorem exampleTwoErased_reachable : Reachable exampleTwoErased :=
  Reachable.erase exampleTwo 1 exampleTwo_reachable

theorem exampleEmpty_headLive : HeadLive exampleEmpty := by
  intro h hh
  cases hh

theorem exampleOne_headLive : HeadLive exampleOne := by
  intro h hh
  refine ⟨⟨0, (1, 10)⟩, ?_, Option.some.inj hh⟩
  simp [allNodes, exampleOne]

theorem insert_new_key_example :
    WellFormed exampleOne ∧ HeadLive exampleOne ∧ 6 ∉ exampleOne.keys ∧
      InsertedNew exampleOne 6 60 (exampleOne.insert (6, 60)) ∧
      InsertedNew exampleOne 6 60 (exampleOne.insert_move (6, 60)) :=
  ⟨exampleOne_reachable.wellFormed, exampleOne_headLive, by decide,
    insert_new_key exampleOne 6 60 exampleOne_reachable.wellFormed exampleOne_headLive
      (by decide)⟩

theorem insert_existing_key_witness :
    WellFormed exampleOne ∧ 1 ∈ exampleOne.keys ∧
      Overwritten exampleOne 1 11 (exampleOne.insert (1, 11)) ∧
      Overwritten exampleOne 1 11 (exampleOne.insert_move (1, 11)) :=
  ⟨exampleOne_reachable.wellFormed, by decide,
    insert_existing_key exampleOne 1 11 exampleOne_reachable.wellFormed (by decide)⟩

theorem erase_key_spec_witness :
    WellFormed exampleTwo ∧
      ((1 ∈ exampleTwo.keys → (exampleTwo.erase 1).2 = 1 ∧
          ∃ pre x post,
            exampleTwo.chain (exampleTwo._hash 1 % exampleTwo._bucket_count) = pre ++ x :: post ∧
            x.val.1 = 1 ∧ 1 ∉ (pre ++ post).map (fun n => n.val.1) ∧
            (exampleTwo.erase 1).1.chain (exampleTwo._hash 1 % exampleTwo._bucket_count) =
              pre ++ post ∧
            (∀ i, i ≠ exampleTwo._hash 1 % exampleTwo._bucket_count →
              (exampleTwo.erase 1).1.chain i = exampleTwo.chain i) ∧
            (exampleTwo.erase 1).1.size + 1 = exampleTwo.size) ∧
        (1 ∉ exampleTwo.keys → (exampleTwo.erase 1).2 = 0 ∧ (exampleTwo.erase 1).1 = exampleTwo)) :=
  ⟨exampleTwo_reachable.wellFormed, erase_key_spec exampleTwo 1 exampleTwo_reachable.wellFormed⟩

theorem erase_at_spec_witness :
    WellFormed exampleTwo ∧ exampleTwo.deref 0 = some (⟨0, (1, 10)⟩, none) ∧
      ∃ m1 r pre post, exampleTwo.erase_at (some 0) = some (m1, r) ∧
        exampleTwo.increment (some 0) = some r ∧
        (⟨0, (1, 10)⟩ : HashNode Nat Nat).addr = 0 ∧
        exampleTwo.chain (exampleTwo._hash 1 % exampleTwo._bucket_count) =
          pre ++ ⟨0, (1, 10)⟩ :: post ∧
        m1.chain (exampleTwo._hash 1 % exampleTwo._bucket_count) = pre ++ post ∧
        (∀ i, i ≠ exampleTwo._hash 1 % exampleTwo._bucket_count →
          m1.chain i = exampleTwo.chain i) ∧
        m1.size + 1 = exampleTwo.size ∧
        (∀ y rest, post = y :: rest → r = some y.addr) ∧
        (post = [] → ∀ j, exampleTwo._hash 1 % exampleTwo._bucket_count < j →
          j < exampleTwo.bucket_count → exampleTwo.chain j ≠ [] →
          (∀ i, exampleTwo._hash 1 % exampleTwo._bucket_count < i → i < j →
            exampleTwo.chain i = []) →
          r = chainHead (exampleTwo.chain j)) ∧
        (post = [] → (∀ j, exampleTwo._hash 1 % exampleTwo._bucket_count < j →
          j < exampleTwo.bucket_count → exampleTwo.chain j = []) → r = exampleTwo.end_) :=
  ⟨exampleTwo_reachable.wellFormed, rfl,
    erase_at_spec exampleTwo 0 ⟨0, (1, 10)⟩ none exampleTwo_reachable.wellFormed rfl⟩

/-- C5. The table reached by `insert({1, 10})`, `erase(1)` on a fresh five-bucket table
keeps the pointer to the deleted node in `_head`; on it `insert({6, 60})` (either overload)
reads `_head->val` and has no defined result, so there is no table in which `find(6)` could
be looked at. -/
theorem insert_after_erase_head_undefined :
    Reachable exampleErased ∧ exampleErased._head = some 0 ∧ exampleErased.deref 0 = none ∧
      exampleErased.insert (6, 60) = none ∧ exampleErased.insert_move (6, 60) = none :=
  ⟨exampleErased_reachable, rfl, rfl, rfl, rfl⟩

/-- C6. On the reachable table left by `insert({1, 10})`, `insert({2, 20})`, `erase(1)`, the
sequence `insert({7, 70})`, `erase(7)`, `find(7)`, `erase(7)` has no defined result: its first
call reads the deleted node `_head` points to. -/
theorem insert_erase_find_after_erase_head_undefined :
    Reachable exampleTwoErased ∧
      (exampleTwoErased.insert (7, 70)).map
        (fun r => (((r.1.erase 7).1.find 7).map (fun f => f.2),
          ((r.1.erase 7).1.erase 7).2)) = none ∧
      (exampleTwoErased.insert_move (7, 70)).map
        (fun r => (((r.1.erase 7).1.find 7).map (fun f => f.2),
          ((r.1.erase 7).1.erase 7).2)) = none :=
  ⟨exampleTwoErased_reachable, rfl, rfl⟩

/-- C9. After `insert({1, 10})`, `erase(1)` the table has `size() == 0` while `begin()` is
not `end()`; the same holds after `insert({1, 10})`, `clear()`; and after `insert({1, 10})`,
`insert({2, 20})`, `erase(1)` the table has `size() == 1` while `begin()` is not at the first
node of the lowest non-empty bucket (it is at no live node at all). -/
theorem begin_stale_after_erase :
    (Reachable exampleErased ∧ exampleErased.size = 0 ∧
        exampleErased.begin ≠ exampleErased.end_) ∧
      (Reachable exampleOne.clear ∧ exampleOne.clear.size = 0 ∧
        exampleOne.clear.begin ≠ exampleOne.clear.end_) ∧
      (Reachable exampleTwoErased ∧ exampleTwoErased.size = 1 ∧
        exampleTwoErased.begin = some 0 ∧ chainHead exampleTwoErased.allNodes = some 1 ∧
        exampleTwoErased.star exampleTwoErased.begin = none) :=
  ⟨⟨exampleErased_reachable, rfl, by decide⟩,
    ⟨Reachable.clear exampleOne exampleOne_reachable, rfl, by decide⟩,
    ⟨exampleTwoErased_reachable, rfl, rfl, rfl, rfl⟩⟩

/-- C10. After `insert({1, 10})`, `insert({2, 20})`, `erase(1)` the table has `size() == 1`,
but the loop from `begin()` to `end()` starts at the deleted node: it does not visit the
one stored pair, and no number of iterations completes it.  After `insert({1, 10})`,
`erase(1)` the table has `size() == 0` and the loop still enters its body. -/
theorem traverse_stale_after_erase :
    Reachable exampleTwoErased ∧ exampleTwoErased.size = 1 ∧
      exampleTwoErased.keys = [2] ∧
      exampleTwoErased.begin ≠ exampleTwoErased.end_ ∧
      exampleTwoErased.increment exampleTwoErased.begin = none ∧
      (∀ fuel, exampleTwoErased.traverse fuel exampleTwoErased.begin = none) ∧
      exampleErased.size = 0 ∧ exampleErased.begin ≠ exampleErased.end_ ∧
      (∀ fuel, exampleErased.traverse fuel exampleErased.begin = none) := by
  refine ⟨exampleTwoErased_reachable, rfl, rfl, by decide, rfl, ?_, rfl, by decide, ?_⟩
  · intro fuel
    cases fuel <;> rfl
  · intro fuel
    cases fuel <;> rfl

end UnorderedMap

/-! ### `clear`, `erase` of the end cursor, construction, move -/

namespace UnorderedMap

variable {K V : Type}

theorem clear_buckets {m : UnorderedMap K V} (hlen : m._buckets.length = m._bucket_count) :
    m.clear._buckets = List.replicate m._bucket_count [] := by
  show clearBuckets m._buckets m._bucket_count 0 = _
  rw [clearBuckets_eq _ _ _ (by simpa using hlen.symm)]
  simp

theorem getD_replicate_nil (n i : Nat) :
    (List.replicate n ([] : List (HashNode K V))).getD i [] = [] := by
  rw [List.getD_eq_getElem?_getD]
  rcases hget : (List.replicate n ([] : List (HashNode K V)))[i]? with _ | c
  · rfl
  · have := List.getElem?_mem hget
    simp only [List.mem_replicate] at this
    simp [this.2]

/-- For a well-formed table, after `clear()` `size()` is 0, the bucket array still has
`bucket_count()` slots and every bucket chain is empty (`bucket_size(n) == 0` for every
`n`, and the search loop reaches the end of the chain for every key), and `bucket_count()`
is what it was. -/
theorem clear_spec [DecidableEq K] (m : UnorderedMap K V) (hwf : WellFormed m) :
    m.clear.size = 0 ∧ m.clear._buckets.length = m.bucket_count ∧
      (∀ n, m.clear.chain n = []) ∧ (∀ n, m.clear.bucket_size n = 0) ∧
      (∀ k, chainFind k (m.clear.chain (m.clear._bucket k)) = none) ∧
      m.clear.bucket_count = m.bucket_count := by
  have hB := clear_buckets hwf.length_buckets
  have hchain : ∀ i, m.clear.chain i = [] := by
    intro i
    show m.clear._buckets.getD i [] = []
    rw [hB]
    exact getD_replicate_nil _ _
  refine ⟨?_, ?_, hchain, ?_, ?_, rfl⟩
  · have := hwf.bucket_count_pos
    show (if m._bucket_count = 0 then m._size else 0) = 0
    rw [if_neg (by omega)]
  · rw [hB]
    simp [bucket_count]
  · intro n
    show (m.clear.chain n).length = 0
    rw [hchain]
    rfl
  · intro k
    rw [hchain]
    rfl

/-- C18. `erase(cursor)` with the end sentinel returns the end sentinel and leaves the table
(chains, `size()`, head) as it was. -/
theorem erase_at_end [DecidableEq K] (m : UnorderedMap K V) :
    m.erase_at m.end_ = some (m, m.end_) := rfl

theorem primeSearch_spec (fuel n : Nat) (h : ∃ p, Nat.Prime p ∧ n ≤ p ∧ p ≤ n + fuel) :
    Nat.Prime (primeSearch fuel n) ∧ n ≤ primeSearch fuel n ∧
      ∀ p, Nat.Prime p → n ≤ p → primeSearch fuel n ≤ p := by
  induction fuel generalizing n with
  | zero =>
    obtain ⟨p, hp, h1, h2⟩ := h
    have hpn : p = n := by omega
    subst hpn
    exact ⟨hp, Nat.le_refl _, fun q _ hq => hq⟩
  | succ fuel ih =>
    by_cases hn : Nat.Prime n
    · have e : primeSearch (fuel + 1) n = n := by simp [primeSearch, hn]
      rw [e]
      exact ⟨hn, Nat.le_refl _, fun q _ hq => hq⟩
    · have e : primeSearch (fuel + 1) n = primeSearch fuel (n + 1) := by
        simp [primeSearch, hn]
      rw [e]
      obtain ⟨p, hp, h1, h2⟩ := h
      have hne : p ≠ n := fun heq => hn (heq ▸ hp)
      obtain ⟨i1, i2, i3⟩ := ih (n + 1) ⟨p, hp, by omega, by omega⟩
      refine ⟨i1, by omega, ?_⟩
      intro q hq hnq
      have hqn : q ≠ n := fun heq => hn (heq ▸ hq)
      exact i3 q hq (by omega)

theorem next_greater_prime_spec (c : Nat) :
    Nat.Prime (next_greater_prime c) ∧ c ≤ next_greater_prime c ∧
      ∀ p, Nat.Prime p → c ≤ p → next_greater_prime c ≤ p := by
  apply primeSearch_spec
  by_cases hc : c = 0
  · exact ⟨2, Nat.prime_two, by omega, by omega⟩
  · obtain ⟨p, hp, h1, h2⟩ := Nat.exists_prime_lt_and_le_two_mul c hc
    exact ⟨p, hp, by omega, by omega⟩

/-- C19. For every requested capacity `c`, right after construction `bucket_count()` is a
prime, is at least `c`, and is the smallest prime that is at least `c` (5 for the request
5); `size()` is 0 and `begin()` is `end()`. -/
theorem construct_spec (c : Nat) (hash : K → Nat) (equal : K → K → Bool) :
    Nat.Prime (construct next_greater_prime c hash equal : UnorderedMap K V).bucket_count ∧
      c ≤ (construct next_greater_prime c hash equal : UnorderedMap K V).bucket_count ∧
      (∀ p, Nat.Prime p → c ≤ p →
        (construct next_greater_prime c hash equal : UnorderedMap K V).bucket_count ≤ p) ∧
      (construct next_greater_prime 5 hash equal : UnorderedMap K V).bucket_count = 5 ∧
      (construct next_greater_prime c hash equal : UnorderedMap K V).size = 0 ∧
      (construct next_greater_prime c hash equal : UnorderedMap K V).begin =
        (construct next_greater_prime c hash equal : UnorderedMap K V).end_ := by
  obtain ⟨h1, h2, h3⟩ := next_greater_prime_spec c
  refine ⟨h1, h2, h3, ?_, rfl, rfl⟩
  show next_greater_prime 5 = 5
  have h5 := next_greater_prime_spec 5
  have := h5.2.2 5 (by norm_num) (Nat.le_refl _)
  omega

/-- The table a move leaves behind is a well-formed empty table. -/
theorem WellFormed.emptied {m m1 : UnorderedMap K V} (hwf : WellFormed m)
    (hN : m1._bucket_count = m._bucket_count)
    (hB : m1._buckets = List.replicate m._bucket_count []) (hS : m1._size = 0) :
    WellFormed m1 := by
  have hall : m1.allNodes = [] := by
    simp [allNodes, hB]
  have hchain : ∀ i, m1.chain i = [] := by
    intro i
    show m1._buckets.getD i [] = []
    rw [hB]
    exact getD_replicate_nil _ _
  refine ⟨by rw [hB, hN]; simp, by rw [hN]; exact hwf.bucket_count_pos, ?_, ?_, ?_, ?_, ?_⟩
  · intro i n hn
    rw [hchain] at hn
    cases hn
  · intro i
    rw [hchain]
    exact List.nodup_nil
  · rw [hall]
    exact List.nodup_nil
  · intro n hn
    rw [hall] at hn
    cases hn
  · rw [hall, hS]
    rfl

/-- C15. After move construction from `src`, and after move assignment from `src` to a
distinct table, the destination holds `src`'s bucket chains, `size()`, head reference and
bucket count, and `src` is an empty table of its former bucket count: `size()` is 0, every
bucket is empty, `begin()` is `end()`; it is well-formed whenever `src` was. -/
theorem move_spec (self src : UnorderedMap K V) :
    ((move_construct src).1._buckets = src._buckets ∧ (move_construct src).1.size = src.size ∧
        (move_construct src).1._head = src._head ∧
        (move_construct src).1.bucket_count = src.bucket_count ∧
        (move_construct src).2.size = 0 ∧ (∀ n, (move_construct src).2.bucket_size n = 0) ∧
        (move_construct src).2.begin = (move_construct src).2.end_ ∧
        (move_construct src).2.bucket_count = src.bucket_count ∧
        (WellFormed src → WellFormed (move_construct src).2 ∧
          WellFormed (move_construct src).1)) ∧
      ((move_assign self src).1._buckets = src._buckets ∧
        (move_assign self src).1.size = src.size ∧
        (move_assign self src).1._head = src._head ∧
        (move_assign self src).1.bucket_count = src.bucket_count ∧
        (move_assign self src).2.size = 0 ∧ (∀ n, (move_assign self src).2.bucket_size n = 0) ∧
        (move_assign self src).2.begin = (move_assign self src).2.end_ ∧
        (move_assign self src).2.bucket_count = src.bucket_count ∧
        (WellFormed src → WellFormed (move_assign self src).2 ∧
          WellFormed (move_assign self src).1)) := by
  have hsize : ∀ n, ((List.replicate src._bucket_count ([] : List (HashNode K V))).getD n
      []).length = 0 := by
    intro n
    rw [getD_replicate_nil]
    rfl
  refine ⟨⟨rfl, rfl, rfl, rfl, rfl, hsize, rfl, rfl, ?_⟩,
    ⟨rfl, rfl, rfl, rfl, rfl, hsize, rfl, rfl, ?_⟩⟩
  · intro hwf
    exact ⟨hwf.emptied rfl rfl rfl,
      ⟨hwf.length_buckets, hwf.bucket_count_pos, hwf.placement, hwf.keys_nodup,
        hwf.addr_nodup, hwf.addr_lt, hwf.size_eq⟩⟩
  · intro hwf
    exact ⟨hwf.emptied rfl rfl rfl,
      ⟨hwf.length_buckets, hwf.bucket_count_pos, hwf.placement, hwf.keys_nodup,
        hwf.addr_nodup, hwf.addr_lt, hwf.size_eq⟩⟩

theorem move_spec_witness :
    WellFormed exampleTwo ∧
      (WellFormed (move_construct exampleTwo).2 ∧ WellFormed (move_construct exampleTwo).1) ∧
      (WellFormed (move_assign exampleOne exampleTwo).2 ∧
        WellFormed (move_assign exampleOne exampleTwo).1) ∧
      (move_assign exampleOne exampleTwo).1._buckets = exampleTwo._buckets ∧
      (move_assign exampleOne exampleTwo).2.size = 0 :=
  ⟨exampleTwo_reachable.wellFormed,
    (move_spec exampleOne exampleTwo).1.2.2.2.2.2.2.2.2 exampleTwo_reachable.wellFormed,
    (move_spec exampleOne exampleTwo).2.2.2.2.2.2.2.2.2 exampleTwo_reachable.wellFormed,
    (move_spec exampleOne exampleTwo).2.1, (move_spec exampleOne exampleTwo).2.2.2.2.2.1⟩

theorem clear_spec_example :
    WellFormed exampleTwo ∧ exampleTwo.clear.size = 0 ∧
      exampleTwo.clear._buckets.length = exampleTwo.bucket_count ∧
      (∀ n, exampleTwo.clear.chain n = []) ∧
      (∀ n, exampleTwo.clear.bucket_size n = 0) ∧
      (∀ k, chainFind k (exampleTwo.clear.chain (exampleTwo.clear._bucket k)) = none) ∧
      exampleTwo.clear.bucket_count = exampleTwo.bucket_count :=
  ⟨exampleTwo_reachable.wellFormed, clear_spec exampleTwo exampleTwo_reachable.wellFormed⟩

/-- C11. In the table left by `insert({1, 10})`, `insert({2, 20})`, `begin()` is at the first
node in traversal order, the node of key 1, whose traversal successor is the node of key 2.
After `erase(1)` `begin()` is still the cursor it was: it is at the erased node, which is no
live node, and not at the successor.  In the table left by `insert({1, 10})` alone,
`erase(1)` removes the only entry and `begin()` is not `end()`. -/
theorem begin_after_erase_head_key :
    (HeadFirst exampleTwo ∧ exampleTwo.star exampleTwo.begin = some (1, 10) ∧
        exampleTwo.increment exampleTwo.begin = some (some 1) ∧
        exampleTwo.star (some 1) = some (2, 20) ∧
        (exampleTwo.erase 1).2 = 1 ∧
        (exampleTwo.erase 1).1.begin = exampleTwo.begin ∧
        (exampleTwo.erase 1).1.begin ≠ some 1 ∧
        (exampleTwo.erase 1).1.star (exampleTwo.erase 1).1.begin = none) ∧
      (HeadFirst exampleOne ∧ exampleOne.star exampleOne.begin = some (1, 10) ∧
        (exampleOne.erase 1).2 = 1 ∧ (exampleOne.erase 1).1.size = 0 ∧
        (exampleOne.erase 1).1.begin ≠ (exampleOne.erase 1).1.end_) :=
  ⟨⟨rfl, rfl, rfl, rfl, rfl, rfl, by decide, rfl⟩, ⟨rfl, rfl, rfl, rfl, by decide⟩⟩

/-- C17. In the table left by `insert({1, 10})`, `insert({2, 20})`, `clear()` empties every
chain and zeroes `size()` but leaves the head reference at the deleted node of key 1:
`begin()` is not `end()`, and the loop from `begin()` to `end()` enters its body and reads
that deleted node. -/
theorem begin_stale_after_clear :
    Reachable exampleTwo.clear ∧ exampleTwo.clear.size = 0 ∧
      exampleTwo.clear.allNodes = [] ∧
      exampleTwo.clear._head = exampleTwo._head ∧
      exampleTwo.clear.begin = some 0 ∧
      exampleTwo.clear.begin ≠ exampleTwo.clear.end_ ∧
      exampleTwo.clear.star exampleTwo.clear.begin = none ∧
      (∀ fuel, exampleTwo.clear.traverse fuel exampleTwo.clear.begin = none) := by
  refine ⟨Reachable.clear exampleTwo exampleTwo_reachable, rfl, rfl, rfl, rfl, by decide,
    rfl, ?_⟩
  intro fuel
  cases fuel <;> rfl

end UnorderedMap

/-! ## `PriorityQueue`: the heap property -/

namespace PriorityQueue

variable {T : Type}

theorem parent_pos {i : Nat} (h : 0 < i) : parent i = (i - 1) / 2 := by
  unfold parent
  rw [if_neg (by omega)]

theorem StrictWeakOrdering.asymm {comp : T → T → Bool} (h : StrictWeakOrdering comp)
    {a b : T} (hab : comp a b = true) : comp b a = false := by
  by_contra hba
  have hba2 : comp b a = true := by simpa using hba
  have := h.trans a b a hab hba2
  rw [h.irrefl a] at this
  cases this

/-- In a strict weak ordering "not less" is transitive. -/
theorem StrictWeakOrdering.not_lt_trans {comp : T → T → Bool} (h : StrictWeakOrdering comp)
    {a b c : T} (hab : comp a b = false) (hbc : comp b c = false) : comp a c = false := by
  by_contra hac
  have hac2 : comp a c = true := by simpa using hac
  by_cases hba : comp b a = true
  · have := h.trans b a c hba hac2
    rw [hbc] at this
    cases this
  · by_cases hcb : comp c b = true
    · have := h.trans a c b hac2 hcb
      rw [hab] at this
      cases this
    · have := (h.incomp_trans a b c hab (by simpa using hba) hbc (by simpa using hcb)).1
      rw [hac2] at this
      cases this

theorem swap_spec {l l1 : List T} {i j : Nat} (h : swap l i j = some l1) :
    l1.length = l.length ∧
      ∀ k, l1[k]? = if k = j then l[i]? else if k = i then l[j]? else l[k]? := by
  unfold swap at h
  rcases hi : l[i]? with _ | a
  · simp [hi] at h
  · rcases hj : l[j]? with _ | b
    · simp [hi, hj] at h
    · simp only [hi, hj, Option.some.injEq] at h
      subst h
      have hil : i < l.length := (List.getElem?_eq_some.1 hi).1
      have hjl : j < l.length := (List.getElem?_eq_some.1 hj).1
      refine ⟨by simp, ?_⟩
      intro k
      by_cases hkj : k = j
      · subst hkj
        simp [List.getElem?_set, hjl]
      · by_cases hki : k = i
        · subst hki
          simp [List.getElem?_set, hkj, Ne.symm hkj, hil]
        · simp [List.getElem?_set, hkj, hki, Ne.symm hkj, Ne.symm hki]

theorem swap_defined {l : List T} {i j : Nat} (hi : i < l.length) (hj : j < l.length) :
    ∃ l1, swap l i j = some l1 := by
  unfold swap
  rw [List.getElem?_eq_getElem hi, List.getElem?_eq_getElem hj]
  exact ⟨_, rfl⟩

theorem count_set_add {l : List T} [DecidableEq T] (x y : T) (k : Nat) (hk : k < l.length) :
    (l.set k y).count x + (if l[k] = x then 1 else 0) =
      l.count x + (if y = x then 1 else 0) := by
  rw [List.count_set y x l k hk]
  have hpos : (if l[k] = x then 1 else 0) ≤ l.count x := by
    by_cases hx : l[k] = x
    · rw [if_pos hx]
      have hmem : x ∈ l := hx ▸ List.getElem_mem hk
      exact List.count_pos_iff.2 hmem
    · rw [if_neg hx]
      exact Nat.zero_le _
  simp only [beq_iff_eq]
  omega

theorem swap_perm {l l1 : List T} {i j : Nat} (h : swap l i j = some l1) : l1.Perm l := by
  classical
  unfold swap at h
  rcases hi : l[i]? with _ | a
  · simp [hi] at h
  · rcases hj : l[j]? with _ | b
    · simp [hi, hj] at h
    · have hil : i < l.length := (List.getElem?_eq_some.1 hi).1
      have hjl : j < l.length := (List.getElem?_eq_some.1 hj).1
      simp only [hi, hj, Option.some.injEq] at h
      subst h
      have hai : l[i] = a := (List.getElem?_eq_some.1 hi).2
      have hbj : l[j] = b := (List.getElem?_eq_some.1 hj).2
      rw [List.perm_iff_count]
      intro x
      have h1 := count_set_add x b i hil
      have hjl2 : j < (l.set i b).length := by simpa using hjl
      have h2 := count_set_add x a j hjl2
      have hget : (l.set i b)[j] = if i = j then b else l[j] := List.getElem_set hjl2
      rw [hget] at h2
      rw [hai] at h1
      by_cases hij : i = j
      · rw [if_pos hij] at h2
        omega
      · rw [if_neg hij, hbj] at h2
        omega

theorem compAt_eq {comp : T → T → Bool} {l : List T} {i j : Nat} {a b : T}
    (hi : l[i]? = some a) (hj : l[j]? = some b) : compAt comp l i j = some (comp a b) := by
  simp [compAt, hi, hj]

/-- The loop of `upheap` restores the heap property when it is violated at `index` only
and the parent of `index` dominates the children of `index`. -/
theorem upheapLoop_spec {comp : T → T → Bool} (hswo : StrictWeakOrdering comp)
    (fuel : Nat) (l : List T) (i : Nat) (hi : i < l.length) (hfuel : i ≤ fuel)
    (h1 : ∀ j a b, 0 < j → j ≠ i → l[parent j]? = some a → l[j]? = some b → comp a b = false)
    (h2 : ∀ j a b, 0 < i → 0 < j → parent j = i → l[parent i]? = some a → l[j]? = some b →
      comp a b = false) :
    ∃ l1, upheapLoop comp fuel l i = some l1 ∧ MaxHeap comp l1 ∧ l1.Perm l := by
  induction fuel generalizing l i with
  | zero =>
    have hi0 : i = 0 := by omega
    subst hi0
    refine ⟨l, by simp [upheapLoop], ?_, List.Perm.refl _⟩
    intro j a b hj ha hb
    exact h1 j a b hj (by omega) ha hb
  | succ fuel ih =>
    by_cases hi0 : i = 0
    · subst hi0
      refine ⟨l, by simp [upheapLoop], ?_, List.Perm.refl _⟩
      intro j a b hj ha hb
      exact h1 j a b hj (by omega) ha hb
    · have hipos : 0 < i := by omega
      have hp : parent i = (i - 1) / 2 := parent_pos hipos
      have hpi : parent i < i := by rw [hp]; omega
      have hpl : parent i < l.length := by omega
      have hgp : l[parent i]? = some l[parent i] := List.getElem?_eq_getElem hpl
      have hgi : l[i]? = some l[i] := List.getElem?_eq_getElem hi
      by_cases hc : comp l[parent i] l[i] = true
      · obtain ⟨l1, hl1⟩ := swap_defined hpl hi
        obtain ⟨hlen, hget⟩ := swap_spec hl1
        have hstep : upheapLoop comp (fuel + 1) l i = upheapLoop comp fuel l1 (parent i) := by
          simp [upheapLoop, hipos, compAt_eq hgp hgi, hc, hl1]
        have hg1 : ∀ k, l1[k]? =
            if k = i then some l[parent i] else if k = parent i then some l[i] else l[k]? := by
          intro k
          rw [hget k, hgp, hgi]
        have k1 : ∀ j a b, 0 < j → j ≠ parent i → l1[parent j]? = some a → l1[j]? = some b →
            comp a b = false := by
          intro j a b hj hjp ha hb
          have hpj : parent j = (j - 1) / 2 := parent_pos hj
          rw [hg1] at ha hb
          by_cases hji : j = i
          · subst hji
            rw [if_pos rfl] at hb
            rw [if_neg (by omega), if_pos rfl] at ha
            simp only [Option.some.injEq] at ha hb
            subst ha hb
            exact hswo.asymm hc
          · rw [if_neg hji, if_neg hjp] at hb
            by_cases hq : parent j = parent i
            · rw [if_neg (by omega), if_pos hq] at ha
              simp only [Option.some.injEq] at ha
              subst ha
              have hold := h1 j l[parent i] b hj hji (by rw [hq]; exact hgp) hb
              by_contra hcon
              have hcon2 : comp l[i] b = true := by simpa using hcon
              have := hswo.trans _ _ _ hc hcon2
              rw [hold] at this
              cases this
            · by_cases hqi : parent j = i
              · rw [if_pos hqi] at ha
                simp only [Option.some.injEq] at ha
                subst ha
                exact h2 j l[parent i] b hipos hj hqi hgp hb
              · rw [if_neg hqi, if_neg hq] at ha
                exact h1 j a b hj hji ha hb
        have k2 : ∀ j a b, 0 < parent i → 0 < j → parent j = parent i →
            l1[parent (parent i)]? = some a → l1[j]? = some b → comp a b = false := by
          intro j a b hppos hj hjp ha hb
          have hpj : parent j = (j - 1) / 2 := parent_pos hj
          have hpp : parent (parent i) = (parent i - 1) / 2 := parent_pos hppos
          rw [hg1] at ha hb
          rw [if_neg (by omega), if_neg (by omega)] at ha
          have hgpar : comp a l[parent i] = false := h1 (parent i) a l[parent i] hppos
            (by omega) ha hgp
          by_cases hji : j = i
          · subst hji
            rw [if_pos rfl] at hb
            simp only [Option.some.injEq] at hb
            subst hb
            exact hgpar
          · rw [if_neg hji, if_neg (by omega)] at hb
            have hold := h1 j l[parent i] b hj hji (by rw [hjp]; exact hgp) hb
            exact hswo.not_lt_trans hgpar hold
        obtain ⟨l2, hl2, hheap, hperm⟩ := ih l1 (parent i) (by omega) (by omega) k1 k2
        exact ⟨l2, hstep.trans hl2, hheap, hperm.trans (swap_perm hl1)⟩
      · have hcf : comp l[parent i] l[i] = false := by simpa using hc
        refine ⟨l, by simp [upheapLoop, hipos, compAt_eq hgp hgi, hcf], ?_, List.Perm.refl _⟩
        intro j a b hj ha hb
        by_cases hji : j = i
        · subst hji
          rw [hgp] at ha
          rw [hgi] at hb
          simp only [Option.some.injEq] at ha hb
          subst ha hb
          exact hcf
        · exact h1 j a b hj hji ha hb

end PriorityQueue

namespace PriorityQueue

variable {T : Type}

/-- One iteration of the loop of `downheap` that swaps `index` with its child `m`: the
heap property is then violated below `m` only. -/
theorem downheap_step {comp : T → T → Bool} (hswo : StrictWeakOrdering comp)
    {l l1 : List T} {i m : Nat} (hi : i < l.length) (hm : m < l.length)
    (hmpos : 0 < m) (hpm : parent m = i) (hc : comp l[i] l[m] = true)
    (hsib : ∀ s b, 0 < s → parent s = i → s ≠ m → l[s]? = some b → comp l[m] b = false)
    (h1 : ∀ j a b, 0 < j → parent j ≠ i → l[parent j]? = some a → l[j]? = some b →
      comp a b = false)
    (h2 : ∀ j a b, 0 < i → 0 < j → parent j = i → l[parent i]? = some a → l[j]? = some b →
      comp a b = false)
    (hswap : swap l i m = some l1) :
    (∀ j a b, 0 < j → parent j ≠ m → l1[parent j]? = some a → l1[j]? = some b →
        comp a b = false) ∧
      (∀ j a b, 0 < m → 0 < j → parent j = m → l1[parent m]? = some a → l1[j]? = some b →
        comp a b = false) := by
  have hgi : l[i]? = some l[i] := List.getElem?_eq_getElem hi
  have hgm : l[m]? = some l[m] := List.getElem?_eq_getElem hm
  have hpmv : parent m = (m - 1) / 2 := parent_pos hmpos
  have him : i < m := by omega
  obtain ⟨hlen, hget⟩ := swap_spec hswap
  have hg1 : ∀ k, l1[k]? =
      if k = m then some l[i] else if k = i then some l[m] else l[k]? := by
    intro k
    rw [hget k, hgi, hgm]
  constructor
  · intro j a b hj hq ha hb
    have hpj : parent j = (j - 1) / 2 := parent_pos hj
    rw [hg1] at ha hb
    by_cases hjm : j = m
    · subst hjm
      rw [if_pos rfl] at hb
      rw [if_neg (by omega), if_pos hpm] at ha
      simp only [Option.some.injEq] at ha hb
      subst ha hb
      exact hswo.asymm hc
    · rw [if_neg hjm] at hb
      rw [if_neg hq] at ha
      by_cases hji : j = i
      · subst hji
        rw [if_pos rfl] at hb
        rw [if_neg (by omega)] at ha
        simp only [Option.some.injEq] at hb
        subst hb
        exact h2 m a l[m] hj hmpos hpm ha hgm
      · rw [if_neg hji] at hb
        by_cases hqi : parent j = i
        · rw [if_pos hqi] at ha
          simp only [Option.some.injEq] at ha
          subst ha
          exact hsib j b hj hqi hjm hb
        · rw [if_neg hqi] at ha
          exact h1 j a b hj hqi ha hb
  · intro j a b _ hj hq ha hb
    have hpj : parent j = (j - 1) / 2 := parent_pos hj
    rw [hg1] at ha hb
    rw [hpm, if_neg (by omega), if_pos rfl] at ha
    rw [if_neg (by omega), if_neg (by omega)] at hb
    simp only [Option.some.injEq] at ha
    subst ha
    exact h1 j l[m] b hj (by omega) (by rw [hq]; exact hgm) hb

/-- The loop of `downheap` restores the heap property when it is violated between `index`
and its children only and the parent of `index` dominates the children of `index`. -/
theorem downheapLoop_spec {comp : T → T → Bool} (hswo : StrictWeakOrdering comp)
    (fuel : Nat) (l : List T) (i : Nat) (hfuel : l.length ≤ i + fuel)
    (h1 : ∀ j a b, 0 < j → parent j ≠ i → l[parent j]? = some a → l[j]? = some b →
      comp a b = false)
    (h2 : ∀ j a b, 0 < i → 0 < j → parent j = i → l[parent i]? = some a → l[j]? = some b →
      comp a b = false) :
    ∃ l1, downheapLoop comp fuel l i = some l1 ∧ MaxHeap comp l1 ∧ l1.Perm l := by
  induction fuel generalizing l i with
  | zero =>
    refine ⟨l, ?_, ?_, List.Perm.refl _⟩
    · simp only [downheapLoop, left_child]
      rw [if_pos (by omega)]
    · intro j a b hj ha hb
      have hjl : j < l.length := (List.getElem?_eq_some.1 hb).1
      have hpj : parent j = (j - 1) / 2 := parent_pos hj
      exact h1 j a b hj (by omega) ha hb
  | succ fuel ih =>
    by_cases hleaf : left_child i ≥ l.length
    · refine ⟨l, ?_, ?_, List.Perm.refl _⟩
      · simp only [downheapLoop]
        rw [if_pos hleaf]
      · intro j a b hj ha hb
        have hjl : j < l.length := (List.getElem?_eq_some.1 hb).1
        have hpj : parent j = (j - 1) / 2 := parent_pos hj
        unfold left_child at hleaf
        exact h1 j a b hj (by omega) ha hb
    · have hleft : 2 * i + 1 < l.length := by
        unfold left_child at hleaf
        omega
      have hi : i < l.length := by omega
      have hgi : l[i]? = some l[i] := List.getElem?_eq_getElem hi
      have hgl : l[2 * i + 1]? = some l[2 * i + 1] := List.getElem?_eq_getElem hleft
      have hpl : parent (2 * i + 1) = i := by
        rw [parent_pos (by omega)]
        omega
      have hchild : ∀ s, 0 < s → parent s = i → s = 2 * i + 1 ∨ s = 2 * i + 2 := by
        intro s hs hps
        rw [parent_pos hs] at hps
        omega
      -- the loop continues after swapping with the child `m`
      have hcont : ∀ m (hm : m < l.length), 0 < m → parent m = i → i < m →
          comp l[i] l[m] = true →
          (∀ s b, 0 < s → parent s = i → s ≠ m → l[s]? = some b → comp l[m] b = false) →
          ∀ l1, swap l i m = some l1 →
          ∃ l2, downheapLoop comp fuel l1 m = some l2 ∧ MaxHeap comp l2 ∧ l2.Perm l := by
        intro m hm hmpos hpm him hc hsib l1 hswap
        obtain ⟨k1, k2⟩ := downheap_step hswo hi hm hmpos hpm hc hsib h1 h2 hswap
        have hlen := (swap_spec hswap).1
        obtain ⟨l2, hl2, hheap, hperm⟩ := ih l1 m (by omega) k1 k2
        exact ⟨l2, hl2, hheap, hperm.trans (swap_perm hswap)⟩
      -- the loop ends when neither child is greater
      have hstop : comp l[i] l[2 * i + 1] = false →
          (∀ hr : 2 * i + 2 < l.length, comp l[i] l[2 * i + 2] = false) → MaxHeap comp l := by
        intro hcl hcr j a b hj ha hb
        by_cases hq : parent j = i
        · have hjl : j < l.length := (List.getElem?_eq_some.1 hb).1
          rw [hq, hgi] at ha
          simp only [Option.some.injEq] at ha
          subst ha
          have hbv : l[j] = b := (List.getElem?_eq_some.1 hb).2
          rcases hchild j hj hq with hjv | hjv
          · subst hjv
            rw [← hbv]
            exact hcl
          · subst hjv
            rw [← hbv]
            exact hcr hjl
        · exact h1 j a b hj hq ha hb
      by_cases hright : 2 * i + 2 < l.length
      · have hgr : l[2 * i + 2]? = some l[2 * i + 2] := List.getElem?_eq_getElem hright
        have hpr : parent (2 * i + 2) = i := by
          rw [parent_pos (by omega)]
          omega
        by_cases hxr : comp l[i] l[2 * i + 2] = true
        · by_cases hrl : comp l[2 * i + 2] l[2 * i + 1] = true
          · -- both tests succeed: swap with the left child
            obtain ⟨l1, hl1⟩ := swap_defined hi hleft
            have hc : comp l[i] l[2 * i + 1] = true := hswo.trans _ _ _ hxr hrl
            obtain ⟨l2, hl2, hheap, hperm⟩ := hcont (2 * i + 1) hleft (by omega) hpl (by omega)
              hc (by
                intro s b hs hps hne hsb
                rcases hchild s hs hps with hsv | hsv
                · exact absurd hsv hne
                · subst hsv
                  rw [hgr] at hsb
                  simp only [Option.some.injEq] at hsb
                  subst hsb
                  exact hswo.asymm hrl) l1 hl1
            refine ⟨l2, ?_, hheap, hperm⟩
            rw [← hl2]
            simp [downheapLoop, left_child, right_child, hleft, hright, Nat.not_le.2 hleft,
              compAt_eq hgi hgr, hxr, compAt_eq hgr hgl, hrl, hl1, Nat.mul_add]
          · -- only the first test succeeds: swap with the right child
            have hrlf : comp l[2 * i + 2] l[2 * i + 1] = false := by simpa using hrl
            obtain ⟨l1, hl1⟩ := swap_defined hi hright
            obtain ⟨l2, hl2, hheap, hperm⟩ := hcont (2 * i + 2) hright (by omega) hpr (by omega)
              hxr (by
                intro s b hs hps hne hsb
                rcases hchild s hs hps with hsv | hsv
                · subst hsv
                  rw [hgl] at hsb
                  simp only [Option.some.injEq] at hsb
                  subst hsb
                  exact hrlf
                · exact absurd hsv hne) l1 hl1
            refine ⟨l2, ?_, hheap, hperm⟩
            rw [← hl2]
            simp [downheapLoop, left_child, right_child, hleft, hright, Nat.not_le.2 hleft,
              compAt_eq hgi hgr, hxr, compAt_eq hgr hgl, hrlf, hl1, Nat.mul_add]
        · have hxrf : comp l[i] l[2 * i + 2] = false := by simpa using hxr
          by_cases hxl : comp l[i] l[2 * i + 1] = true
          · -- only the second test succeeds: swap with the left child
            obtain ⟨l1, hl1⟩ := swap_defined hi hleft
            obtain ⟨l2, hl2, hheap, hperm⟩ := hcont (2 * i + 1) hleft (by omega) hpl (by omega)
              hxl (by
                intro s b hs hps hne hsb
                rcases hchild s hs hps with hsv | hsv
                · exact absurd hsv hne
                · subst hsv
                  rw [hgr] at hsb
                  simp only [Option.some.injEq] at hsb
                  subst hsb
                  by_contra hcon
                  have hcon2 : comp l[2 * i + 1] l[2 * i + 2] = true := by simpa using hcon
                  have := hswo.trans _ _ _ hxl hcon2
                  rw [hxrf] at this
                  cases this) l1 hl1
            refine ⟨l2, ?_, hheap, hperm⟩
            rw [← hl2]
            simp [downheapLoop, left_child, right_child, hleft, hright, Nat.not_le.2 hleft,
              compAt_eq hgi hgr, hxrf, compAt_eq hgi hgl, hxl, hl1, Nat.mul_add]
          · have hxlf : comp l[i] l[2 * i + 1] = false := by simpa using hxl
            refine ⟨l, ?_, hstop hxlf (fun _ => hxrf), List.Perm.refl _⟩
            simp [downheapLoop, left_child, right_child, hleft, hright, Nat.not_le.2 hleft,
              compAt_eq hgi hgr, hxrf, compAt_eq hgi hgl, hxlf, Nat.mul_add]
      · by_cases hxl : comp l[i] l[2 * i + 1] = true
        · -- there is no right child: swap with the left child
          obtain ⟨l1, hl1⟩ := swap_defined hi hleft
          obtain ⟨l2, hl2, hheap, hperm⟩ := hcont (2 * i + 1) hleft (by omega) hpl (by omega)
            hxl (by
              intro s b hs hps hne hsb
              rcases hchild s hs hps with hsv | hsv
              · exact absurd hsv hne
              · subst hsv
                have := (List.getElem?_eq_some.1 hsb).1
                omega) l1 hl1
          refine ⟨l2, ?_, hheap, hperm⟩
          rw [← hl2]
          simp [downheapLoop, left_child, right_child, hleft, hright, Nat.not_le.2 hleft,
            compAt_eq hgi hgl, hxl, hl1, Nat.mul_add]
        · have hxlf : comp l[i] l[2 * i + 1] = false := by simpa using hxl
          refine ⟨l, ?_, hstop hxlf (fun hr => absurd hr hright), List.Perm.refl _⟩
          simp [downheapLoop, left_child, right_child, hleft, hright, Nat.not_le.2 hleft,
            compAt_eq hgi hgl, hxlf, Nat.mul_add]

end PriorityQueue

namespace PriorityQueue

variable {T : Type}

/-- `push` on a heap gives a heap holding the old elements and the new one. -/
theorem push_spec {q : PriorityQueue T} (hswo : StrictWeakOrdering q.comp)
    (hheap : MaxHeap q.comp q.c) (value : T) :
    ∃ q1, q.push value = some q1 ∧ q1.comp = q.comp ∧ MaxHeap q1.comp q1.c ∧
      q1.c.Perm (q.c ++ [value]) := by
  have hlen : (q.c ++ [value]).length - 1 = q.c.length := by simp
  have hold : ∀ k, k < q.c.length → (q.c ++ [value])[k]? = q.c[k]? := by
    intro k hk
    exact List.getElem?_append_left hk
  obtain ⟨l1, hl1, hh, hperm⟩ := upheapLoop_spec hswo q.c.length (q.c ++ [value]) q.c.length
    (by simp) (Nat.le_refl _)
    (by
      intro j a b hj hne ha hb
      have hjl : j < (q.c ++ [value]).length := (List.getElem?_eq_some.1 hb).1
      have hjl2 : j < q.c.length := by
        simp only [List.length_append, List.length_singleton] at hjl
        omega
      have hpj : parent j = (j - 1) / 2 := parent_pos hj
      rw [hold _ (by omega)] at ha
      rw [hold _ hjl2] at hb
      exact hheap j a b hj ha hb)
    (by
      intro j a b hipos hj hpj ha hb
      have hjl : j < (q.c ++ [value]).length := (List.getElem?_eq_some.1 hb).1
      simp only [List.length_append, List.length_singleton] at hjl
      rw [parent_pos hj] at hpj
      omega)
  refine ⟨{ q with c := l1 }, ?_, rfl, hh, hperm⟩
  unfold push upheap
  rw [hlen, hl1]

theorem getElem?_dropLast {l : List T} (k : Nat) :
    l.dropLast[k]? = if k < l.length - 1 then l[k]? else none := by
  rw [List.dropLast_eq_take, List.getElem?_take]

/-- `pop` on a heap gives a heap; on a non-empty heap it holds the old elements but the
first. -/
theorem pop_spec {q : PriorityQueue T} (hswo : StrictWeakOrdering q.comp)
    (hheap : MaxHeap q.comp q.c) :
    ∃ q1, q.pop = some q1 ∧ q1.comp = q.comp ∧ MaxHeap q1.comp q1.c ∧
      (q.c = [] → q1 = q) ∧ (∀ t, q.top = some t → (t :: q1.c).Perm q.c) := by
  by_cases hemp : q.c = []
  · refine ⟨q, ?_, rfl, hheap, fun _ => rfl, ?_⟩
    · unfold pop
      simp [hemp]
    · intro t ht
      simp [top, hemp] at ht
  · have hpos : 0 < q.c.length := List.length_pos.2 hemp
    obtain ⟨l1, hl1⟩ := swap_defined hpos (Nat.sub_lt hpos Nat.one_pos)
    obtain ⟨hlen, hget⟩ := swap_spec hl1
    have hd : ∀ k, k < q.c.length - 1 → 0 < k → l1.dropLast[k]? = q.c[k]? := by
      intro k hk hk0
      rw [getElem?_dropLast, hlen, if_pos hk, hget k, if_neg (by omega), if_neg (by omega)]
    have hdlen : l1.dropLast.length = q.c.length - 1 := by simp [hlen]
    obtain ⟨l2, hl2, hh, hperm⟩ := downheapLoop_spec hswo (l1.dropLast.length - 0) l1.dropLast 0
      (by omega)
      (by
        intro j a b hj hq ha hb
        have hjl : j < l1.dropLast.length := (List.getElem?_eq_some.1 hb).1
        have hpj : parent j = (j - 1) / 2 := parent_pos hj
        rw [hd _ (by omega) (by omega)] at ha
        rw [hd _ (by omega) hj] at hb
        exact hheap j a b hj ha hb)
      (by
        intro j a b h0
        omega)
    refine ⟨{ q with c := l2 }, ?_, rfl, hh, fun h => absurd h hemp, ?_⟩
    · unfold pop
      rw [if_neg (by simpa using hemp)]
      simp only [hl1]
      unfold downheap
      rw [hl2]
    · intro t ht
      have hlast : l1[q.c.length - 1]? = some t := by
        rw [hget, if_pos rfl]
        exact ht
      have hl1ne : l1 ≠ [] := by
        intro hnil
        rw [hnil] at hlen
        simp only [List.length_nil] at hlen
        omega
      have hsplit : l1 = l1.dropLast ++ [t] := by
        have h1 := (List.dropLast_append_getLast hl1ne).symm
        have h2 : l1.getLast hl1ne = t := by
          rw [List.getLast_eq_getElem]
          have := (List.getElem?_eq_some.1 hlast).2
          simp only [hlen]
          exact this
        rw [h2] at h1
        exact h1
      have hp1 : (t :: l1.dropLast).Perm l1 := by
        rw [hsplit]
        simp only [List.dropLast_concat]
        exact (List.perm_append_singleton t l1.dropLast).symm
      exact ((List.Perm.cons t hperm).trans hp1).trans (swap_perm hl1)

/-- In a heap no element compares greater than the first. -/
theorem MaxHeap.top_max {comp : T → T → Bool} (hswo : StrictWeakOrdering comp) {l : List T}
    (hheap : MaxHeap comp l) {t : T} (ht : l[0]? = some t) :
    ∀ x ∈ l, comp t x = false := by
  have key : ∀ (n i : Nat) (b : T), i ≤ n → l[i]? = some b → comp t b = false := by
    intro n
    induction n with
    | zero =>
      intro i b hi hb
      have hi0 : i = 0 := by omega
      subst hi0
      rw [ht] at hb
      simp only [Option.some.injEq] at hb
      subst hb
      exact hswo.irrefl t
    | succ n ih =>
      intro i b hi hb
      by_cases hi0 : i = 0
      · subst hi0
        rw [ht] at hb
        simp only [Option.some.injEq] at hb
        subst hb
        exact hswo.irrefl t
      · have hipos : 0 < i := by omega
        have hil : i < l.length := (List.getElem?_eq_some.1 hb).1
        have hp : parent i = (i - 1) / 2 := parent_pos hipos
        have hpl : parent i < l.length := by omega
        have hgp : l[parent i]? = some l[parent i] := List.getElem?_eq_getElem hpl
        have h1 := ih (parent i) l[parent i] (by omega) hgp
        have h2 := hheap i l[parent i] b hipos hgp hb
        exact hswo.not_lt_trans h1 h2
  intro x hx
  obtain ⟨i, hi⟩ := List.mem_iff_getElem?.1 hx
  exact key i i x (Nat.le_refl _) hi

theorem push_comp {q q1 : PriorityQueue T} {value : T} (h : q.push value = some q1) :
    q1.comp = q.comp := by
  unfold push at h
  rcases hu : upheap q.comp (q.c ++ [value]) ((q.c ++ [value]).length - 1) with _ | c1
  · rw [hu] at h
    cases h
  · rw [hu] at h
    simp only [Option.some.injEq] at h
    rw [← h]

theorem pop_comp {q q1 : PriorityQueue T} (h : q.pop = some q1) : q1.comp = q.comp := by
  unfold pop at h
  by_cases hemp : q.c.isEmpty = true
  · rw [if_pos hemp] at h
    simp only [Option.some.injEq] at h
    rw [← h]
  · rw [if_neg hemp] at h
    rcases hs : swap q.c 0 (q.c.length - 1) with _ | c1
    · rw [hs] at h
      cases h
    · rw [hs] at h
      simp only at h
      rcases hd : downheap q.comp c1.dropLast 0 with _ | c2
      · rw [hd] at h
        cases h
      · rw [hd] at h
        simp only [Option.some.injEq] at h
        rw [← h]

theorem Reachable.maxHeap {q : PriorityQueue T} (h : Reachable q) :
    StrictWeakOrdering q.comp → MaxHeap q.comp q.c := by
  induction h with
  | new comp =>
    intro _ i a b _ _ hb
    simp [PriorityQueue.new] at hb
  | push q q1 value _ hstep ih =>
    intro hswo
    have hcomp : q1.comp = q.comp := push_comp hstep
    rw [hcomp] at hswo
    obtain ⟨q2, hq2, -, hh, -⟩ := push_spec hswo (ih hswo) value
    rw [hstep] at hq2
    simp only [Option.some.injEq] at hq2
    rw [hq2]
    exact hh
  | pop q q1 _ hstep ih =>
    intro hswo
    have hcomp : q1.comp = q.comp := pop_comp hstep
    rw [hcomp] at hswo
    obtain ⟨q2, hq2, -, hh, -⟩ := pop_spec hswo (ih hswo)
    rw [hstep] at hq2
    simp only [Option.some.injEq] at hq2
    rw [hq2]
    exact hh

theorem exampleQueue_reachable : Reachable exampleQueue :=
  Reachable.push { c := [7, 3], comp := fun a b => decide (a < b) } exampleQueue 5
    (Reachable.push { c := [3], comp := fun a b => decide (a < b) } _ 7
      (Reachable.push (PriorityQueue.new (fun a b => decide (a < b))) _ 3
        (Reachable.new _) rfl) rfl) rfl

theorem exampleQueue_strictWeakOrdering : StrictWeakOrdering exampleQueue.comp := by
  refine ⟨?_, ?_, ?_⟩
  · intro a
    simp [exampleQueue]
  · intro a b c hab hbc
    simp only [exampleQueue, decide_eq_true_eq] at hab hbc ⊢
    omega
  · intro a b c h1 h2 h3 h4
    simp only [exampleQueue, decide_eq_false_iff_not] at h1 h2 h3 h4 ⊢
    omega

/-- C20. For every queue reached from an empty queue by `push` and `pop` calls, with a
strict weak ordering as `Compare`, the container has the max-heap property (no element
compares less than its child, for every index above 0), `top()` is an element of the
container that compares less than no stored element when the queue is not empty, and
`push` and `pop` have a defined result. -/
theorem heap_property (q : PriorityQueue T) (hreach : Reachable q)
    (hswo : StrictWeakOrdering q.comp) :
    (∀ i, 0 < i → i < q.size → ∀ a b, q.c[parent i]? = some a → q.c[i]? = some b →
        q.comp a b = false) ∧
      (∀ t, q.top = some t → ∀ x ∈ q.c, q.comp t x = false) ∧
      (q.empty = false → ∃ t, q.top = some t ∧ t ∈ q.c) ∧
      (∀ value, ∃ q1, q.push value = some q1) ∧ (∃ q1, q.pop = some q1) := by
  have hheap := hreach.maxHeap hswo
  refine ⟨fun i hi _ a b ha hb => hheap i a b hi ha hb, fun t ht => hheap.top_max hswo ht,
    ?_, ?_, ?_⟩
  · intro hne
    have hpos : 0 < q.c.length := by
      simp only [empty, beq_eq_false_iff_ne, ne_eq] at hne
      omega
    exact ⟨q.c[0], List.getElem?_eq_getElem hpos, List.getElem_mem hpos⟩
  · intro value
    obtain ⟨q1, hq1, -⟩ := push_spec hswo hheap value
    exact ⟨q1, hq1⟩
  · obtain ⟨q1, hq1, -⟩ := pop_spec hswo hheap
    exact ⟨q1, hq1⟩

theorem heap_property_witness :
    Reachable exampleQueue ∧ StrictWeakOrdering exampleQueue.comp ∧
      (∀ i, 0 < i → i < exampleQueue.size → ∀ a b, exampleQueue.c[parent i]? = some a →
        exampleQueue.c[i]? = some b → exampleQueue.comp a b = false) ∧
      (∀ t, exampleQueue.top = some t → ∀ x ∈ exampleQueue.c, exampleQueue.comp t x = false) ∧
      (exampleQueue.empty = false → ∃ t, exampleQueue.top = some t ∧ t ∈ exampleQueue.c) ∧
      (∀ value, ∃ q1, exampleQueue.push value = some q1) ∧
      (∃ q1, exampleQueue.pop = some q1) :=
  ⟨exampleQueue_reachable, exampleQueue_strictWeakOrdering,
    heap_property exampleQueue exampleQueue_reachable exampleQueue_strictWeakOrdering⟩

end PriorityQueue

/-! ### `operator[]` on an absent key, and writing through the reference -/

section StoreLemmas

variable {K V : Type}

theorem chainStore_eq_none {p : Nat} {v : V} {chain : List (HashNode K V)} :
    chainStore p v chain = none ↔ p ∉ chain.map HashNode.addr := by
  induction chain with
  | nil => simp [chainStore]
  | cons n rest ih =>
    by_cases hk : n.addr = p
    · simp [chainStore, hk]
    · simp only [chainStore, hk, if_false, List.map_cons, List.mem_cons, not_or]
      rcases hrec : chainStore p v rest with _ | rest1
      · simp only [true_iff]
        exact ⟨Ne.symm hk, ih.1 hrec⟩
      · simp only [false_iff, not_and, not_not, reduceCtorEq]
        intro _
        by_contra hnot
        rw [ih.2 hnot] at hrec
        cases hrec

theorem chainStore_append_cons {pre post : List (HashNode K V)} {n : HashNode K V} (v : V)
    (hpre : n.addr ∉ pre.map HashNode.addr) :
    chainStore n.addr v (pre ++ n :: post) =
      some (pre ++ (⟨n.addr, (n.val.1, v)⟩ : HashNode K V) :: post) := by
  induction pre with
  | nil => simp [chainStore]
  | cons x pre ih =>
    simp only [List.map_cons, List.mem_cons, not_or] at hpre
    simp [chainStore, Ne.symm hpre.1, ih hpre.2]

theorem heapStore_of_chainStore {p : Nat} {v : V} {L : List (List (HashNode K V))}
    {chain1 : List (HashNode K V)} {i : Nat}
    (hnd : (L.flatten.map HashNode.addr).Nodup)
    (h : chainStore p v (L.getD i []) = some chain1) :
    heapStore p v L = some (L.set i chain1) := by
  induction L generalizing i with
  | nil => simp [chainStore] at h
  | cons l L ih =>
    simp only [List.flatten_cons, List.map_append] at hnd
    cases i with
    | zero =>
      simp only [List.getD_cons_zero] at h
      simp [heapStore, h]
    | succ i =>
      simp only [List.getD_cons_succ] at h
      have hp : p ∈ (L.getD i []).map HashNode.addr := by
        by_contra hnot
        rw [chainStore_eq_none.2 hnot] at h
        cases h
      have hpL : p ∈ L.flatten.map HashNode.addr := by
        obtain ⟨x, hx, hxp⟩ := List.mem_map.1 hp
        exact List.mem_map.2 ⟨x, getD_mem_flatten hx, hxp⟩
      have hpl : p ∉ l.map HashNode.addr := fun hin =>
        (List.nodup_append.1 hnd).2.2 hin hpL
      simp [heapStore, chainStore_eq_none.2 hpl, ih (List.nodup_append.1 hnd).2.1 h]

end StoreLemmas

namespace UnorderedMap

variable {K V : Type}

/-- In a well-formed table, the overwrite loop run for the key of a linked node finds that
node. -/
theorem WellFormed.assign_of_chain [DecidableEq K] [DecidableEq V] {m : UnorderedMap K V}
    (hwf : WellFormed m) {n : HashNode K V} {pre post : List (HashNode K V)} (v : V)
    (hch : m.chain (m._bucket n.val.1) = pre ++ n :: post) :
    chainAssign n.val.1 v (m.chain (m._bucket n.val.1)) =
      some (n.addr, pre ++ (⟨n.addr, (n.val.1, v)⟩ : HashNode K V) :: post) := by
  rcases hu : chainAssign n.val.1 v (m.chain (m._bucket n.val.1)) with _ | ⟨a, chain1⟩
  · exfalso
    apply chainAssign_eq_none.1 hu
    rw [hch]
    simp
  · obtain ⟨pre1, x, post1, hch1, hx, -, hxa, hc1⟩ := chainAssign_eq_some hu
    obtain ⟨hp, hxn, hpost⟩ := append_cons_unique (fun n => n.val.1)
      (hwf.keys_nodup (m._bucket n.val.1)) hch1 hch hx
    rw [hc1, hp, hpost, ← hxa, hxn]

/-- Writing through a reference to the mapped value of a live node: the node then holds the
written value, the table stays well-formed, and the search loop run for its key stops at
that node. -/
theorem WellFormed.store_spec [DecidableEq K] [DecidableEq V] {m : UnorderedMap K V}
    (hwf : WellFormed m) {p : Nat} {k : K} {v0 : V} (hs : m.star (some p) = some (k, v0))
    (v : V) :
    ∃ m2, m.store p v = some m2 ∧ WellFormed m2 ∧ m2.star (some p) = some (k, v) ∧
      chainFind k (m2.chain (m2._bucket k)) = some p ∧ m2.size = m.size ∧
      m2._head = m._head := by
  rcases hd : m.deref p with _ | ⟨n, next⟩
  · simp [star, hd] at hs
  · have hval : n.val = (k, v0) := by simpa [star, hd] using hs
    have hkey : n.val.1 = k := by rw [hval]
    obtain ⟨pre, post, hch, hnp, -⟩ := hwf.chain_of_deref hd
    have hb := m._bucket_lt n.val.1 hwf.bucket_count_pos
    have hbl : m._bucket n.val.1 < m._buckets.length := by rw [hwf.length_buckets]; exact hb
    have hnd := hwf.chain_addr_nodup (m._bucket n.val.1)
    rw [hch] at hnd
    simp only [List.map_append, List.map_cons] at hnd
    have hpre : n.addr ∉ pre.map HashNode.addr := fun hin =>
      (List.nodup_append.1 hnd).2.2 hin (List.mem_cons_self _ _)
    obtain ⟨chain2, hchain2⟩ : ∃ c, c = pre ++ (⟨n.addr, (n.val.1, v)⟩ : HashNode K V) :: post :=
      ⟨_, rfl⟩
    have hcs : chainStore n.addr v (m._buckets.getD (m._bucket n.val.1) []) = some chain2 := by
      show chainStore n.addr v (m.chain (m._bucket n.val.1)) = _
      rw [hch, hchain2]
      exact chainStore_append_cons v hpre
    have hhs := heapStore_of_chainStore hwf.addr_nodup hcs
    have hassign : chainAssign n.val.1 v (m.chain (m._bucket n.val.1)) =
        some (n.addr, chain2) := by
      rw [hchain2]
      exact hwf.assign_of_chain v hch
    have hwf2 : WellFormed
        ({ m with _buckets := m._buckets.set (m._bucket n.val.1) chain2 } : UnorderedMap K V) :=
      hwf.overwrite rfl rfl rfl rfl rfl hb hassign
    have hc2 : ({ m with _buckets := m._buckets.set (m._bucket n.val.1) chain2 } :
        UnorderedMap K V).chain (m._bucket n.val.1) =
        pre ++ (⟨n.addr, (n.val.1, v)⟩ : HashNode K V) :: post := by
      rw [← hchain2]
      exact getD_set_self hbl
    have hstar2 := star_of_deref (hwf2.deref_of_chain hc2)
    have hstar3 : ({ m with _buckets := m._buckets.set (m._bucket n.val.1) chain2 } :
        UnorderedMap K V).star (some p) = some (k, v) := by
      rw [← hnp, ← hkey]
      exact hstar2
    refine ⟨{ m with _buckets := m._buckets.set (m._bucket n.val.1) chain2 }, ?_, hwf2, hstar3,
      hwf2.search_of_star hstar3, rfl, rfl⟩
    unfold store
    rw [← hnp, hhs]

/-- When the search loop stops at `p`, `operator[]` returns `p` and leaves the table as it
is. -/
theorem index_of_search [DecidableEq K] [DecidableEq V] [Inhabited V] {m : UnorderedMap K V}
    {k : K} {p : Nat} (h : chainFind k (m.chain (m._bucket k)) = some p) :
    m.index k = some (m, p) := by
  unfold UnorderedMap.index
  simp only [h]

/-- For a well-formed table whose head reference is null or live and a key `k` that is not
stored, `operator[](k)` links a new node holding `(k, T{})` at the front of chain
`hash(k) mod N` (`size()` grows by one, the other chains are unchanged) and returns a
reference to its mapped value; a second `operator[](k)` returns the same node and changes
nothing; and after a value is written through the reference, `operator[](k)` returns the
node, which reads that value. -/
theorem index_absent_key [DecidableEq K] [DecidableEq V] [Inhabited V] (m : UnorderedMap K V)
    (k : K) (hwf : WellFormed m) (hhead : HeadLive m) (hk : k ∉ m.keys) :
    ∃ m1 p, m.index k = some (m1, p) ∧ m1.size = m.size + 1 ∧
      m1.chain (m._hash k % m._bucket_count) =
        ⟨p, (k, default)⟩ :: m.chain (m._hash k % m._bucket_count) ∧
      (∀ i, i ≠ m._hash k % m._bucket_count → m1.chain i = m.chain i) ∧
      m1.star (some p) = some (k, default) ∧
      m1.index k = some (m1, p) ∧
      ∀ v, ∃ m2, m1.store p v = some m2 ∧ m2.index k = some (m2, p) ∧
        m2.star (some p) = some (k, v) ∧ m2.size = m1.size := by
  have hnotin : k ∉ (m.chain (m._bucket k)).map (fun n => n.val.1) :=
    fun hin => hk ((hwf.mem_keys_iff k).2 hin)
  have hfind : chainFind k (m.chain (m._bucket k)) = none := chainFind_eq_none.2 hnotin
  have hnew : chainAssign (k, (default : V)).1 (k, (default : V)).2
      (m.chain (m._bucket (k, (default : V)).1)) = none := chainAssign_eq_none.2 hnotin
  obtain ⟨hd, hins⟩ := _insert_into_bucket_new hhead hnew
  have hindex : m.index k = m._insert_into_bucket (m._bucket k) (k, default) := by
    unfold UnorderedMap.index
    simp only [hfind]
  have hwf1 := hwf._insert_into_bucket hins
  obtain ⟨m1, p, hres, hstar, hchain, hother, hsize⟩ :=
    hwf.insertedNew_of_eq hk (rfl : some (_, (some m._alloc, true)) = some
      (({ m with
          _buckets := m._buckets.set (m._bucket (k, (default : V)).1)
            (⟨m._alloc, (k, default)⟩ :: m.chain (m._bucket (k, (default : V)).1))
          _alloc := m._alloc + 1
          _head := hd
          _size := m._size + 1 } : UnorderedMap K V), (some m._alloc, true)))
  simp only [Option.some.injEq, Prod.mk.injEq, and_true] at hres
  obtain ⟨hm1, hp⟩ := hres
  subst hm1
  subst hp
  have hf := hwf1.search_of_star hstar
  refine ⟨_, m._alloc, by rw [hindex]; exact hins, hsize, hchain, hother, hstar,
    index_of_search hf, ?_⟩
  intro v
  obtain ⟨m2, hst, -, hs2, hf2, hsz, -⟩ := hwf1.store_spec hstar v
  exact ⟨m2, hst, index_of_search hf2, hs2, hsz⟩

end UnorderedMap

/-! ### Chain order: keys inserted into one bucket -/

namespace UnorderedMap

variable {K V : Type}

/-- The local loop from a node of a chain to `end(n)` visits that node and the nodes after
it in the chain, in order. -/
theorem WellFormed.local_traverse_suffix {m : UnorderedMap K V} (hwf : WellFormed m) (i : Nat)
    (pre post : List (HashNode K V)) (hch : m.chain i = pre ++ post) (fuel : Nat)
    (hfuel : post.length ≤ fuel) :
    m.local_traverse fuel (chainHead post) = some (post.map (fun n => n.val)) := by
  induction post generalizing pre fuel with
  | nil => cases fuel <;> rfl
  | cons x post ih =>
    cases fuel with
    | zero => simp at hfuel
    | succ fuel =>
      have hd := hwf.deref_of_chain hch
      have hrec := ih (pre ++ [x]) (by rw [hch]; simp) fuel (by simpa using hfuel)
      show m.local_traverse (fuel + 1) (some x.addr) = _
      simp only [local_traverse, local_star, local_increment, hd, hrec, Option.map_some',
        List.map_cons]

/-- When every chain but that of bucket `b` is empty, the table's nodes are the nodes of
chain `b`. -/
theorem allNodes_eq_chain {m : UnorderedMap K V} {b : Nat} (h : ∀ i, i ≠ b → m.chain i = []) :
    m.allNodes = m.chain b := by
  by_cases hb : b < m._buckets.length
  · have hsplit := flatten_split m._buckets b hb
    have htake : (m._buckets.take b).flatten = [] := by
      rw [List.flatten_eq_nil_iff]
      intro l hl
      obtain ⟨k, hk, rfl⟩ := List.getElem_of_mem hl
      have hkb : k < b := by
        rw [List.length_take] at hk
        omega
      have := h k (by omega)
      rw [chain, List.getD_eq_getElem _ _ (by omega)] at this
      rw [List.getElem_take]
      exact this
    have hdrop : (m._buckets.drop (b + 1)).flatten = [] := by
      rw [List.flatten_eq_nil_iff]
      intro l hl
      obtain ⟨k, hk, rfl⟩ := List.getElem_of_mem hl
      rw [List.length_drop] at hk
      have := h (b + 1 + k) (by omega)
      rw [chain, List.getD_eq_getElem _ _ (by omega)] at this
      rw [List.getElem_drop]
      exact this
    show m._buckets.flatten = m._buckets.getD b []
    rw [hsplit, htake, hdrop]
    simp
  · have hall : m._buckets.flatten = [] := by
      rw [List.flatten_eq_nil_iff]
      intro l hl
      obtain ⟨k, hk, rfl⟩ := List.getElem_of_mem hl
      have := h k (by omega)
      rw [chain, List.getD_eq_getElem _ _ hk] at this
      exact this
    have hcb : m.chain b = [] := by
      show m._buckets.getD b [] = []
      rw [List.getD_eq_getElem?_getD, List.getElem?_eq_none (by omega)]
      rfl
    rw [hcb]
    exact hall

/-- Inserting pairs with new keys of bucket `b` into a table whose other chains are empty:
every call is defined and prepends to chain `b`. -/
theorem insert_all_spec [DecidableEq K] [DecidableEq V] (b : Nat) (kvs : List (K × V)) :
    ∀ (m : UnorderedMap K V) (acc : List (K × V)), WellFormed m → HeadFirst m →
      (m.chain b).map (fun n => n.val) = acc.reverse →
      (∀ i, i ≠ b → m.chain i = []) →
      ((acc ++ kvs).map Prod.fst).Nodup →
      (∀ kv ∈ kvs, m._hash kv.1 % m._bucket_count = b) →
      ∃ m1, m.insert_all kvs = some m1 ∧ WellFormed m1 ∧ HeadFirst m1 ∧
        (m1.chain b).map (fun n => n.val) = (acc ++ kvs).reverse ∧
        (∀ i, i ≠ b → m1.chain i = []) := by
  induction kvs with
  | nil =>
    intro m acc hwf hhead hchain hother _ _
    exact ⟨m, rfl, hwf, hhead, by simpa using hchain, hother⟩
  | cons kv kvs ih =>
    intro m acc hwf hhead hchain hother hnd hb
    have hbk : m._hash kv.1 % m._bucket_count = b := hb kv (List.mem_cons_self _ _)
    have hk : kv.1 ∉ m.keys := by
      intro hin
      have hin2 := (hwf.mem_keys_iff kv.1).1 hin
      have hbk2 : m._bucket kv.1 = b := hbk
      rw [hbk2] at hin2
      have hkeys : (m.chain b).map (fun n => n.val.1) = acc.reverse.map Prod.fst := by
        rw [← hchain, List.map_map]
        rfl
      rw [hkeys] at hin2
      simp only [List.map_append, List.map_cons] at hnd
      have hdisj := (List.nodup_append.1 hnd).2.2
      have hin3 : kv.1 ∈ acc.map Prod.fst := by
        simpa using hin2
      exact hdisj hin3 (List.mem_cons_self _ _)
    have hnew : chainAssign kv.1 kv.2 (m.chain (m._bucket kv.1)) = none :=
      chainAssign_eq_none.2 (fun hin => hk ((hwf.mem_keys_iff kv.1).2 hin))
    obtain ⟨hd, hins⟩ := hwf.insert_new hhead.headLive hnew
    have hwf1 := hwf.insert hins
    have hhead1 := hwf.headFirst_insert hhead hins
    have hbl : m._bucket kv.1 < m._buckets.length := by
      rw [hwf.length_buckets]
      exact m._bucket_lt kv.1 hwf.bucket_count_pos
    have hbk2 : m._bucket kv.1 = b := hbk
    obtain ⟨m1, hm1⟩ : ∃ m1 : UnorderedMap K V, m1 = { m with
        _buckets := m._buckets.set (m._bucket kv.1) (⟨m._alloc, kv⟩ :: m.chain (m._bucket kv.1))
        _alloc := m._alloc + 1
        _head := hd
        _size := m._size + 1 } := ⟨_, rfl⟩
    rw [← hm1] at hins hwf1 hhead1
    have hc1 : m1.chain b = ⟨m._alloc, kv⟩ :: m.chain b := by
      rw [hm1, ← hbk2]
      exact getD_set_self hbl
    have hother1 : ∀ i, i ≠ b → m1.chain i = [] := by
      intro i hi
      have : m1.chain i = m.chain i := by
        rw [hm1]
        exact getD_set_ne (by rw [hbk2]; exact Ne.symm hi)
      rw [this]
      exact hother i hi
    obtain ⟨m2, hm2, hwf2, hhead2, hchain2, hother2⟩ := ih m1 (acc ++ [kv]) hwf1 hhead1
      (by rw [hc1]; simp [hchain]) hother1 (by simpa using hnd)
      (by
        intro kv2 hkv2
        have := hb kv2 (List.mem_cons_of_mem _ hkv2)
        rw [hm1]
        exact this)
    refine ⟨m2, ?_, hwf2, hhead2, by simpa using hchain2, hother2⟩
    show (match m.insert kv with
      | none => none
      | some (m1, _) => insert_all m1 kvs) = some m2
    rw [hins]
    exact hm2

/-- C12. For pairwise distinct keys that all hash to bucket `b`, inserting the pairs in
order into a freshly constructed table is defined, gives `bucket_size(b) == n` and
`size() == n`, and both the local iteration of bucket `b` and the iteration from `begin()`
to `end()` visit the pairs most recently inserted first. -/
theorem insert_all_same_bucket [DecidableEq K] [DecidableEq V]
    (next_greater_prime : Nat → Nat) (bucket_count : Nat) (hash : K → Nat)
    (equal : K → K → Bool) (kvs : List (K × V)) (b : Nat)
    (hpos : 0 < next_greater_prime bucket_count)
    (hnd : (kvs.map Prod.fst).Nodup)
    (hb : ∀ kv ∈ kvs, hash kv.1 % next_greater_prime bucket_count = b) :
    ∃ m, (construct next_greater_prime bucket_count hash equal).insert_all kvs = some m ∧
      m.bucket_size b = kvs.length ∧ m.size = kvs.length ∧
      m.local_traverse kvs.length (m.local_begin b) = some kvs.reverse ∧
      m.traverse kvs.length m.begin = some kvs.reverse := by
  have hwf0 := WellFormed.construct (V := V) next_greater_prime bucket_count hash equal hpos
  have hchain0 : ∀ i, (construct next_greater_prime bucket_count hash equal :
      UnorderedMap K V).chain i = [] := fun i => getD_replicate_nil _ _
  have hhead0 : HeadFirst (construct next_greater_prime bucket_count hash equal :
      UnorderedMap K V) := by
    show none = chainHead (construct next_greater_prime bucket_count hash equal :
      UnorderedMap K V).allNodes
    rw [allNodes_eq_chain (b := b) (fun i _ => hchain0 i), hchain0]
    rfl
  obtain ⟨m, hm, hwf, hhead, hchain, hother⟩ := insert_all_spec b kvs _ [] hwf0 hhead0
    (by rw [hchain0]; rfl) (fun i _ => hchain0 i) (by simpa using hnd) hb
  have hall := allNodes_eq_chain hother
  have hlen : (m.chain b).length = kvs.length := by
    have := congrArg List.length hchain
    simpa using this
  have hsize : m.size = kvs.length := by
    show m._size = _
    rw [hwf.size_eq, hall, hlen]
  refine ⟨m, hm, hlen, hsize, ?_, ?_⟩
  · have := hwf.local_traverse_suffix b [] (m.chain b) rfl kvs.length (by omega)
    rw [hchain] at this
    exact this
  · have := (hwf.traverse_begin hhead kvs.length (by omega)).1
    rw [hall, hchain] at this
    exact this

theorem insert_all_same_bucket_witness :
    0 < (fun _ : Nat => 5) 5 ∧
      (([(1, "a"), (6, "b"), (11, "c")] : List (Nat × String)).map Prod.fst).Nodup ∧
      (∀ kv ∈ ([(1, "a"), (6, "b"), (11, "c")] : List (Nat × String)),
        (fun k : Nat => k) kv.1 % (fun _ : Nat => 5) 5 = 1) ∧
      ∃ m, (construct (fun _ => 5) 5 (fun k : Nat => k) (fun a b => a == b)).insert_all
          [(1, "a"), (6, "b"), (11, "c")] = some m ∧
        m.bucket_size 1 = 3 ∧ m.size = 3 ∧
        m.local_traverse 3 (m.local_begin 1) = some [(11, "c"), (6, "b"), (1, "a")] ∧
        m.traverse 3 m.begin = some [(11, "c"), (6, "b"), (1, "a")] :=
  ⟨by decide, by decide, by decide,
    insert_all_same_bucket (fun _ => 5) 5 (fun k : Nat => k) (fun a b => a == b)
      [(1, "a"), (6, "b"), (11, "c")] 1 (by decide) (by decide) (by decide)⟩

theorem index_absent_key_example :
    WellFormed exampleOne ∧ HeadLive exampleOne ∧ 6 ∉ exampleOne.keys ∧
      ∃ m1 p, exampleOne.index 6 = some (m1, p) ∧ m1.size = exampleOne.size + 1 ∧
        m1.chain (exampleOne._hash 6 % exampleOne._bucket_count) =
          ⟨p, (6, default)⟩ :: exampleOne.chain (exampleOne._hash 6 % exampleOne._bucket_count) ∧
        (∀ i, i ≠ exampleOne._hash 6 % exampleOne._bucket_count →
          m1.chain i = exampleOne.chain i) ∧
        m1.star (some p) = some (6, default) ∧
        m1.index 6 = some (m1, p) ∧
        ∀ v, ∃ m2, m1.store p v = some m2 ∧ m2.index 6 = some (m2, p) ∧
          m2.star (some p) = some (6, v) ∧ m2.size = m1.size :=
  ⟨exampleOne_reachable.wellFormed, exampleOne_headLive, by decide,
    index_absent_key exampleOne 6 exampleOne_reachable.wellFormed exampleOne_headLive
      (by decide)⟩

end UnorderedMap

/-! ### Copy construction -/

section CopyLemmas

variable {K V : Type}

theorem copyChain_map_val (a : Nat) (chain : List (HashNode K V)) :
    (copyChain a chain).map (fun n => n.val) = chain.map (fun n => n.val) := by
  induction chain generalizing a with
  | nil => rfl
  | cons x rest ih => simp [copyChain, ih]

theorem copyChain_map_addr (a : Nat) (chain : List (HashNode K V)) :
    (copyChain a chain).map HashNode.addr = List.range' a chain.length := by
  induction chain generalizing a with
  | nil => rfl
  | cons x rest ih => simp [copyChain, ih, List.range'_succ]

theorem copyFrom_length (a : Nat) (L : List (List (HashNode K V))) :
    (copyFrom a L).length = L.length := by
  induction L generalizing a with
  | nil => rfl
  | cons c L ih => simp [copyFrom, ih]

theorem copyFrom_getD_map_val (a : Nat) (L : List (List (HashNode K V))) (j : Nat) :
    ((copyFrom a L).getD j []).map (fun n => n.val) = (L.getD j []).map (fun n => n.val) := by
  induction L generalizing a j with
  | nil => rfl
  | cons c L ih =>
    cases j with
    | zero => simp only [copyFrom, List.getD_cons_zero, copyChain_map_val]
    | succ j => simp only [copyFrom, List.getD_cons_succ, ih]

theorem copyFrom_flatten_map_addr (a : Nat) (L : List (List (HashNode K V))) :
    (copyFrom a L).flatten.map HashNode.addr = List.range' a L.flatten.length := by
  induction L generalizing a with
  | nil => rfl
  | cons c L ih =>
    simp only [copyFrom, List.flatten_cons, List.map_append, copyChain_map_addr, ih,
      List.length_append]
    have h := List.range'_append a c.length L.flatten.length 1
    simp only [Nat.one_mul] at h
    rw [h, Nat.add_comm]

theorem chainHead_copyFrom (a : Nat) (L : List (List (HashNode K V))) :
    chainHead (copyFrom a L).flatten = if L.flatten.isEmpty then none else some a := by
  induction L generalizing a with
  | nil => rfl
  | cons c L ih =>
    cases c with
    | nil =>
      simp only [copyFrom, copyChain, List.flatten_cons, List.nil_append, List.length_nil,
        Nat.add_zero]
      exact ih a
    | cons x rest =>
      simp [copyFrom, copyChain, chainHead]

/-- The outer loop of the copy constructor from index `i` on: the buckets before `i` are
kept, the others are the copies of the source's chains, and `_head` is set at the first
node copied if `isHead` is still set. -/
theorem copyBuckets_spec (src : List (List (HashNode K V))) (left i : Nat)
    (st : CopyState K V) (hi : i + left = src.length) (hlen : st.buckets.length = src.length)
    (hempty : st.buckets.drop i = List.replicate left []) :
    (copyBuckets src left i st).buckets = st.buckets.take i ++ copyFrom st.alloc (src.drop i) ∧
      (copyBuckets src left i st).alloc = st.alloc + (src.drop i).flatten.length ∧
      (copyBuckets src left i st).head =
        if (st.isHead && !(src.drop i).flatten.isEmpty) = true then some st.alloc else st.head := by
  induction left generalizing i st with
  | zero =>
    have hil : i = src.length := by omega
    subst hil
    simp [copyBuckets, copyFrom, List.drop_length, List.take_of_length_le (Nat.le_of_eq hlen)]
  | succ left ih =>
    have hil : i < src.length := by omega
    have hdrop : src.drop i = src.getD i [] :: src.drop (i + 1) := by
      rw [List.getD_eq_getElem _ _ hil]
      exact List.drop_eq_getElem_cons hil
    have hbi : st.buckets.drop i = st.buckets.getD i [] :: st.buckets.drop (i + 1) := by
      rw [List.getD_eq_getElem _ _ (by omega)]
      exact List.drop_eq_getElem_cons (by omega)
    rw [hbi, List.replicate_succ] at hempty
    simp only [List.cons.injEq] at hempty
    obtain ⟨hb0, hrest⟩ := hempty
    have htake : st.buckets.take (i + 1) = st.buckets.take i ++ [st.buckets.getD i []] := by
      rw [List.getD_eq_getElem _ _ (by omega), List.take_succ, List.getElem?_eq_getElem (by omega)]
      rfl
    rcases hc : src.getD i [] with _ | ⟨curr, rest⟩
    · have hstep : copyBuckets src (left + 1) i st = copyBuckets src left (i + 1) st := by
        simp only [copyBuckets, hc]
      obtain ⟨h1, h2, h3⟩ := ih (i + 1) st (by omega) hlen hrest
      rw [hstep, h1, h2, h3, hdrop, hc, htake, hb0]
      simp [copyFrom, copyChain]
    · obtain ⟨st1, hst1⟩ : ∃ st1 : CopyState K V, st1 =
          { buckets := st.buckets.set i (copyChain st.alloc (curr :: rest))
            head := if st.isHead then some st.alloc else st.head
            isHead := false
            alloc := st.alloc + (curr :: rest).length } := ⟨_, rfl⟩
      have hstep : copyBuckets src (left + 1) i st = copyBuckets src left (i + 1) st1 := by
        rw [hst1]
        simp only [copyBuckets, hc]
      have hlen1 : st1.buckets.length = src.length := by
        rw [hst1]
        simp [hlen]
      have hrest1 : st1.buckets.drop (i + 1) = List.replicate left [] := by
        rw [hst1]
        simp only
        rw [List.drop_set_of_lt _ _ (Nat.lt_succ_self i)]
        exact hrest
      have htake1 : st1.buckets.take (i + 1) =
          st.buckets.take i ++ [copyChain st.alloc (curr :: rest)] := by
        rw [hst1]
        simp only
        rw [List.set_eq_take_cons_drop _ (by omega : i < st.buckets.length)]
        rw [List.take_append_eq_append_take]
        simp [List.length_take, Nat.min_eq_left (by omega : i ≤ st.buckets.length)]
      obtain ⟨h1, h2, h3⟩ := ih (i + 1) st1 (by omega) hlen1 hrest1
      rw [hstep, h1, h2, h3, hdrop, hc, htake1]
      have ha : st1.alloc = st.alloc + (curr :: rest).length := by rw [hst1]
      have hh : st1.head = if st.isHead then some st.alloc else st.head := by rw [hst1]
      have hf : st1.isHead = false := by rw [hst1]
      refine ⟨?_, ?_, ?_⟩
      · simp [copyFrom, ha]
      · simp [ha]
        omega
      · rw [hf, hh]
        simp

end CopyLemmas

namespace UnorderedMap

variable {K V : Type}

theorem copy_construct_buckets (g : Option Nat) (other : UnorderedMap K V)
    (hlen : other._buckets.length = other._bucket_count) :
    (copy_construct g other)._buckets = copyFrom other._alloc other._buckets ∧
      (copy_construct g other)._alloc = other._alloc + other.allNodes.length ∧
      (copy_construct g other)._head =
        if other.allNodes.isEmpty then g else some other._alloc := by
  obtain ⟨h1, h2, h3⟩ := copyBuckets_spec other._buckets other._bucket_count 0
    { buckets := List.replicate other._bucket_count []
      head := g
      isHead := true
      alloc := other._alloc }
    (by omega) (by simp [hlen]) (by simp)
  simp only [List.take_zero, List.nil_append, List.drop_zero, Bool.true_and] at h1 h2 h3
  refine ⟨h1, h2, ?_⟩
  show (copyBuckets other._buckets other._bucket_count 0 _).head = _
  rw [h3]
  unfold allNodes
  cases other._buckets.flatten.isEmpty <;> rfl

/-- The copy constructor on a table of the data model: same bucket count and size, every
chain holds the source's entries in the source's order, the copy is a table of the data model
whose nodes are all allocated after the source's nodes, and `_head` is the first node of the
first non-empty bucket when the source holds an entry, but is left as it was found when the
source holds none. -/
theorem copy_construct_spec (g : Option Nat) (other : UnorderedMap K V)
    (hwf : WellFormed other) :
    (copy_construct g other).bucket_count = other.bucket_count ∧
      (copy_construct g other).size = other.size ∧
      (∀ i, ((copy_construct g other).chain i).map (fun n => n.val) =
        (other.chain i).map (fun n => n.val)) ∧
      WellFormed (copy_construct g other) ∧
      (∀ n ∈ (copy_construct g other).allNodes, other._alloc ≤ n.addr) ∧
      (other.allNodes ≠ [] → HeadFirst (copy_construct g other)) ∧
      (other.allNodes = [] → (copy_construct g other).begin = g) := by
  obtain ⟨hb, ha, hh⟩ := copy_construct_buckets g other hwf.length_buckets
  have hchain : ∀ i, ((copy_construct g other).chain i).map (fun n => n.val) =
      (other.chain i).map (fun n => n.val) := by
    intro i
    unfold chain
    rw [hb]
    exact copyFrom_getD_map_val _ _ i
  have hkeys : ∀ i, ((copy_construct g other).chain i).map (fun n => n.val.1) =
      (other.chain i).map (fun n => n.val.1) := by
    intro i
    have h := congrArg (List.map (fun p : K × V => p.1)) (hchain i)
    simpa [List.map_map] using h
  have haddr : ((copy_construct g other).allNodes.map HashNode.addr) =
      List.range' other._alloc other.allNodes.length := by
    unfold allNodes
    rw [hb]
    exact copyFrom_flatten_map_addr _ _
  have hlenAll : (copy_construct g other).allNodes.length = other.allNodes.length := by
    have h := congrArg List.length haddr
    simpa using h
  have hmem : ∀ n ∈ (copy_construct g other).allNodes,
      other._alloc ≤ n.addr ∧ n.addr < other._alloc + other.allNodes.length := by
    intro n hn
    have h : n.addr ∈ (copy_construct g other).allNodes.map HashNode.addr :=
      List.mem_map_of_mem _ hn
    rw [haddr, List.mem_range'_1] at h
    exact h
  refine ⟨rfl, rfl, hchain, ?_, fun n hn => (hmem n hn).1, ?_, ?_⟩
  · refine ⟨?_, hwf.bucket_count_pos, ?_, ?_, ?_, ?_, ?_⟩
    · rw [hb, copyFrom_length]
      exact hwf.length_buckets
    · intro i n hn
      have h1 : n.val.1 ∈ ((copy_construct g other).chain i).map (fun n => n.val.1) :=
        List.mem_map_of_mem (fun n => n.val.1) hn
      rw [hkeys i] at h1
      obtain ⟨n0, hn0, hk0⟩ := List.mem_map.1 h1
      have h2 := hwf.placement i n0 hn0
      rw [hk0] at h2
      exact h2
    · intro i
      rw [hkeys i]
      exact hwf.keys_nodup i
    · rw [haddr]
      exact List.nodup_range' _ _
    · intro n hn
      rw [ha]
      exact (hmem n hn).2
    · show other._size = _
      rw [hlenAll]
      exact hwf.size_eq
  · intro hne
    unfold HeadFirst
    rw [hh]
    have h := chainHead_copyFrom other._alloc other._buckets
    unfold allNodes at hne ⊢
    rw [hb, h]
    cases hf : other._buckets.flatten with
    | nil => exact absurd hf hne
    | cons x rest => rfl
  · intro he
    show (copy_construct g other)._head = g
    rw [hh, he]
    rfl

/-- C14. Copy construction from an empty source: the function over the code. The copy of a
freshly constructed table has the source's bucket count and size and holds no node, but its
`begin()` is whatever its storage held before the constructor ran (here a stale reference
`7`), not `end()`: the copy constructor assigns `_head` only when it copies a first node. -/
theorem copy_of_empty_head_uninitialised :
    (copy_construct (some 7) exampleEmpty).bucket_count = exampleEmpty.bucket_count ∧
      (copy_construct (some 7) exampleEmpty).size = 0 ∧
      (copy_construct (some 7) exampleEmpty).allNodes = [] ∧
      exampleEmpty.begin = exampleEmpty.end_ ∧
      (copy_construct (some 7) exampleEmpty).begin = some 7 ∧
      (copy_construct (some 7) exampleEmpty).begin ≠ (copy_construct (some 7) exampleEmpty).end_ ∧
      (copy_construct (some 7) exampleEmpty).traverse 1
        (copy_construct (some 7) exampleEmpty).begin = none := by
  refine ⟨rfl, rfl, rfl, rfl, rfl, ?_, rfl⟩
  intro h
  exact Option.noConfusion h

end UnorderedMap

/-! ### Bucket placement in reachable tables; `operator[]` on a stored key -/

namespace UnorderedMap

variable {K V : Type}

/-- Two nodes of a well-formed table with the same key are the same node, in the same
chain. -/
theorem WellFormed.node_unique {m : UnorderedMap K V} (hwf : WellFormed m) {i j : Nat}
    {n n1 : HashNode K V} (hn : n ∈ m.chain i) (hn1 : n1 ∈ m.chain j)
    (hk : n.val.1 = n1.val.1) : i = j ∧ n = n1 := by
  have hi := hwf.placement i n hn
  have hj := hwf.placement j n1 hn1
  have hij : i = j := by rw [← hi, ← hj, hk]
  subst hij
  refine ⟨rfl, ?_⟩
  exact List.inj_on_of_nodup_map (hwf.keys_nodup i) hn hn1 hk

/-- C30. In a well-formed table in which `k` is stored with value `v`, `operator[](k)`
returns the node holding `(k, v)`, a node of the chain of `k`, and the table after the call
is the table before it: `size()`, the head reference and every chain are unchanged. -/
theorem index_stored_key [DecidableEq K] [DecidableEq V] [Inhabited V]
    (m : UnorderedMap K V) (k : K) (v : V) (hwf : WellFormed m)
    (hk : ∃ n ∈ m.allNodes, n.val = (k, v)) :
    ∃ p, m.index k = some (m, p) ∧ m.star (some p) = some (k, v) ∧
      ∃ x ∈ m.chain (m.bucket k), x.addr = p ∧ x.val = (k, v) := by
  obtain ⟨n, hn, hnv⟩ := hk
  have hkeys : k ∈ m.keys := List.mem_map.2 ⟨n, hn, by rw [hnv]⟩
  obtain ⟨pre, x, post, hch, hxk, hfind, hderef⟩ := hwf.search_stored hkeys
  obtain ⟨i, -, hi⟩ := mem_chain_of_mem_allNodes hn
  have hxmem : x ∈ m.chain (m._bucket k) := by
    rw [hch]
    simp
  have hxn : x = n := (hwf.node_unique hxmem hi (by rw [hxk, hnv])).2
  refine ⟨x.addr, ?_, ?_, x, hxmem, rfl, by rw [hxn, hnv]⟩
  · unfold UnorderedMap.index
    simp only [hfind]
  · unfold star
    simp only [hderef, Option.map_some']
    rw [hxn, hnv]

theorem exampleTwo_mem_allNodes :
    (⟨1, (2, 20)⟩ : HashNode Nat Nat) ∈ exampleTwo.allNodes := by
  show _ ∈ [(⟨0, (1, 10)⟩ : HashNode Nat Nat), ⟨1, (2, 20)⟩]
  simp

theorem index_stored_key_witness :
    (∃ n ∈ exampleTwo.allNodes, n.val = (2, 20)) ∧
      ∃ p, exampleTwo.index 2 = some (exampleTwo, p) ∧
        exampleTwo.star (some p) = some (2, 20) ∧
        ∃ x ∈ exampleTwo.chain (exampleTwo.bucket 2), x.addr = p ∧ x.val = (2, 20) :=
  ⟨⟨⟨1, (2, 20)⟩, exampleTwo_mem_allNodes, rfl⟩,
    index_stored_key exampleTwo 2 20 exampleTwo_reachable.wellFormed
      ⟨⟨1, (2, 20)⟩, exampleTwo_mem_allNodes, rfl⟩⟩

end UnorderedMap

/-! ### Head maintenance by `erase` and `insert` -/

namespace UnorderedMap

variable {K V : Type}

theorem WellFormed.chain_split_of_mem {m : UnorderedMap K V} (hwf : WellFormed m)
    {x : HashNode K V} (hx : x ∈ m.allNodes) :
    ∃ pre post, m.chain (m._bucket x.val.1) = pre ++ x :: post := by
  obtain ⟨i, -, hi⟩ := mem_chain_of_mem_allNodes hx
  have hb := hwf.placement i x hi
  rw [← hb] at hi
  exact List.append_of_mem hi

/-- The table `erase(key)` leaves when the node `x` with that key is unlinked. -/
theorem WellFormed.erase_eq [DecidableEq K] {m : UnorderedMap K V} (hwf : WellFormed m)
    {x : HashNode K V} {pre post : List (HashNode K V)}
    (hch : m.chain (m._bucket x.val.1) = pre ++ x :: post) :
    m.erase x.val.1 =
      ({ m with
          _buckets := m._buckets.set (m._bucket x.val.1) (pre ++ post)
          _size := size_decr m._size }, 1) := by
  have hu := hwf.unlink_of_chain hch
  unfold UnorderedMap.erase
  simp only [hu]

/-- The result of `erase(cursor)` at the live node `x`. -/
theorem WellFormed.erase_at_eq [DecidableEq K] {m : UnorderedMap K V} (hwf : WellFormed m)
    {x : HashNode K V} {pre post : List (HashNode K V)}
    (hch : m.chain (m._bucket x.val.1) = pre ++ x :: post) :
    m.erase_at (some x.addr) =
      some ({ m with
          _buckets := m._buckets.set (m._bucket x.val.1) (pre ++ post)
          _size := size_decr m._size
          _head := if m._head = some x.addr then m.successor (chainHead post) x.val
            else m._head }, m.successor (chainHead post) x.val) := by
  have hu := hwf.unlink_of_chain hch
  have hd := hwf.deref_of_chain hch
  have hs : ({ m with
      _buckets := m._buckets.set (m._bucket x.val.1) (pre ++ post)
      _size := size_decr m._size } : UnorderedMap K V).successor (chainHead post) x.val =
      m.successor (chainHead post) x.val :=
    successor_set (chainHead post) x.val rfl rfl rfl
  unfold UnorderedMap.erase_at
  simp only [hd, hu]
  by_cases hh : m._head = some x.addr
  · rw [if_pos hh, if_pos hh, hs]
  · rw [if_neg hh, if_neg hh, hs]

/-- C26. In a well-formed table whose head references the first node in traversal order,
erasing a stored node `x` other than the one the head references, by its key or by a cursor
at it, takes one entry out, leaves the head reference as it was, and the head still
references the first node in traversal order of the remaining table. -/
theorem erase_non_head [DecidableEq K] (m : UnorderedMap K V) (x : HashNode K V)
    (hwf : WellFormed m) (hhead : HeadFirst m) (hx : x ∈ m.allNodes)
    (hne : m._head ≠ some x.addr) :
    ((m.erase x.val.1).2 = 1 ∧ (m.erase x.val.1).1.size + 1 = m.size ∧
        (m.erase x.val.1).1._head = m._head ∧ HeadFirst (m.erase x.val.1).1) ∧
      ∃ m1 r, m.erase_at (some x.addr) = some (m1, r) ∧ m1.size + 1 = m.size ∧
        m1._head = m._head ∧ HeadFirst m1 := by
  obtain ⟨pre, post, hch⟩ := hwf.chain_split_of_mem hx
  have hfirst := hwf.headFirst_unlink hhead hch
  rw [if_neg hne] at hfirst
  have hsize := size_decr_add_one (hwf.size_pos_of_mem hx)
  refine ⟨?_, ?_⟩
  · rw [hwf.erase_eq hch]
    exact ⟨rfl, hsize, rfl, hfirst.symm⟩
  · refine ⟨_, _, hwf.erase_at_eq hch, hsize, ?_, ?_⟩
    · show (if m._head = some x.addr then _ else m._head) = m._head
      rw [if_neg hne]
    · show (if m._head = some x.addr then _ else m._head) = _
      rw [if_neg hne]
      exact hfirst.symm

/-- C25. In a non-empty well-formed table whose head references the first node in
traversal order, `erase(begin())` returns the cursor `++begin()` gives before the call, the
head reference becomes that cursor, the remaining nodes are the former nodes without the
first, and the head again references the first node in traversal order of the remaining
table (`end()` if it became empty). -/
theorem erase_begin [DecidableEq K] (m : UnorderedMap K V) (hwf : WellFormed m)
    (hhead : HeadFirst m) (hne : 0 < m.size) :
    ∃ m1 r, m.erase_at m.begin = some (m1, r) ∧ m.increment m.begin = some r ∧
      m1.begin = r ∧ m1.allNodes = m.allNodes.tail ∧ m1.size + 1 = m.size ∧
      HeadFirst m1 ∧ (m1.size = 0 → m1.begin = m1.end_) := by
  have hlen : 0 < m.allNodes.length := by
    rw [← hwf.size_eq]
    exact hne
  rcases hall : m.allNodes with _ | ⟨x, B⟩
  · rw [hall] at hlen
    exact absurd hlen (by simp)
  have hx : x ∈ m.allNodes := by
    rw [hall]
    exact List.mem_cons_self _ _
  have hall0 : m.allNodes = [] ++ x :: B := hall
  obtain ⟨pre, post, hch, hA, hB⟩ := hwf.global_split hall0
  obtain ⟨htake, hpre⟩ := List.append_eq_nil.1 hA.symm
  subst hpre
  have hb := m._bucket_lt x.val.1 hwf.bucket_count_pos
  have hhd : m._head = some x.addr := by
    rw [hhead, hall]
    rfl
  have hbegin : m.begin = some x.addr := hhd
  have herase := hwf.erase_at_eq hch
  rw [if_pos hhd] at herase
  have hwf1 := hwf.erase_at herase
  have hhead1 := hwf.headFirst_erase_at hhead herase
  have hall1 : (m._buckets.set (m._bucket x.val.1) ([] ++ post)).flatten = B := by
    rw [flatten_set_split _ _ _ (by rw [hwf.length_buckets]; exact hb), htake, hB]
    rfl
  refine ⟨_, _, by rw [hbegin]; exact herase, ?_, rfl, ?_, ?_, hhead1, ?_⟩
  · rw [hbegin]
    unfold increment
    simp only [hwf.deref_of_chain hch]
    rfl
  · show (m._buckets.set (m._bucket x.val.1) ([] ++ post)).flatten = (x :: B).tail
    rw [hall1]
    rfl
  · exact size_decr_add_one (hwf.size_pos_of_mem hx)
  · intro hz
    have h0 := hwf1.size_eq
    have hz1 : (m._buckets.set (m._bucket x.val.1) ([] ++ post)).flatten.length = 0 := by
      have : size_decr m._size = 0 := hz
      rw [← this]
      exact h0.symm
    have hnil := List.length_eq_zero.1 hz1
    have := hhead1
    unfold HeadFirst allNodes at this
    simp only at this
    rw [hnil] at this
    exact this

theorem erase_non_head_witness :
    (WellFormed exampleTwo ∧ HeadFirst exampleTwo ∧
        (⟨1, (2, 20)⟩ : HashNode Nat Nat) ∈ exampleTwo.allNodes ∧
        exampleTwo._head ≠ some 1) ∧
      ((exampleTwo.erase 2).2 = 1 ∧ (exampleTwo.erase 2).1.size + 1 = exampleTwo.size ∧
        (exampleTwo.erase 2).1._head = exampleTwo._head ∧ HeadFirst (exampleTwo.erase 2).1) ∧
      ∃ m1 r, exampleTwo.erase_at (some 1) = some (m1, r) ∧ m1.size + 1 = exampleTwo.size ∧
        m1._head = exampleTwo._head ∧ HeadFirst m1 :=
  ⟨⟨exampleTwo_reachable.wellFormed, rfl, exampleTwo_mem_allNodes, by decide⟩,
    erase_non_head exampleTwo ⟨1, (2, 20)⟩ exampleTwo_reachable.wellFormed rfl
      exampleTwo_mem_allNodes (by decide)⟩

theorem erase_begin_witness :
    (WellFormed exampleTwo ∧ HeadFirst exampleTwo ∧ 0 < exampleTwo.size) ∧
      ∃ m1 r, exampleTwo.erase_at exampleTwo.begin = some (m1, r) ∧
        exampleTwo.increment exampleTwo.begin = some r ∧
        m1.begin = r ∧ m1.allNodes = exampleTwo.allNodes.tail ∧
        m1.size + 1 = exampleTwo.size ∧ HeadFirst m1 ∧ (m1.size = 0 → m1.begin = m1.end_) :=
  ⟨⟨exampleTwo_reachable.wellFormed, rfl, by decide⟩,
    erase_begin exampleTwo exampleTwo_reachable.wellFormed rfl (by decide)⟩

end UnorderedMap

namespace UnorderedMap

variable {K V : Type}

/-- Where the first node in traversal order is once a new node is linked at the front of
the chain of its key. -/
theorem WellFormed.head_after_prepend {m : UnorderedMap K V} (hwf : WellFormed m)
    (hhead : HeadFirst m) (value : K × V) (hd : Option Nat)
    (h : hd = chainHead (m._buckets.set (m._bucket value.1)
        (⟨m._alloc, value⟩ :: m.chain (m._bucket value.1))).flatten) :
    (hd = some m._alloc ↔
        (m.size = 0 ∨ ∃ h hn nx, m._head = some h ∧ m.deref h = some (hn, nx) ∧
          m.bucket value.1 ≤ m.bucket hn.val.1)) ∧
      (hd ≠ some m._alloc → hd = m._head) := by
  rw [hwf.headFirst_prepend hhead value] at h
  rcases hh : m._head with _ | hp
  · rw [hh] at h
    simp only at h
    have hnil : m.allNodes = [] := by
      have h0 : chainHead m.allNodes = none := by rw [← hhead, hh]
      rcases hall : m.allNodes with _ | ⟨y, rest⟩
      · rfl
      · rw [hall] at h0
        cases h0
    have hsz : m.size = 0 := by
      show m._size = 0
      rw [hwf.size_eq, hnil]
      rfl
    exact ⟨⟨fun _ => Or.inl hsz, fun _ => h⟩, fun hne => absurd h hne⟩
  · obtain ⟨n, hn, hna⟩ := hhead.headLive hp hh
    have hlt : hp < m._alloc := by
      rw [← hna]
      exact hwf.addr_lt n hn
    have hpos : m.size ≠ 0 := by
      have := hwf.size_pos_of_mem hn
      show m._size ≠ 0
      omega
    rw [hh] at h
    simp only at h
    rcases hl : m.deref hp with _ | ⟨x, xnext⟩
    · exfalso
      apply heapLookup_eq_none.1 hl
      exact List.mem_map.2 ⟨n, hn, hna⟩
    · rw [hl] at h
      simp only at h
      by_cases hle : m._bucket value.1 ≤ m._bucket x.val.1
      · rw [if_pos hle] at h
        exact ⟨⟨fun _ => Or.inr ⟨hp, x, xnext, rfl, hl, hle⟩, fun _ => h⟩,
          fun hne => absurd h hne⟩
      · rw [if_neg hle] at h
        refine ⟨⟨fun he => ?_, fun hr => ?_⟩, fun _ => h⟩
        · rw [h] at he
          simp only [Option.some.injEq] at he
          omega
        · rcases hr with hz | ⟨h1, hn1, nx1, e1, e2, e3⟩
          · exact absurd hz hpos
          · simp only [Option.some.injEq] at e1
            subst e1
            rw [hl] at e2
            simp only [Option.some.injEq, Prod.mk.injEq] at e2
            obtain ⟨e2, -⟩ := e2
            subst e2
            exact absurd e3 hle

/-- C24. In a well-formed table whose head is null when the table is empty and otherwise
references the first node of the lowest-index non-empty bucket, inserting a key that is not
stored (through either `insert` overload, or `operator[]`) creates the node `p`; the head
is retargeted to `p` exactly when the table was empty or the bucket of the key is at most
the bucket of the node the head references, is left unchanged otherwise, and in both cases
references the first node of the lowest-index non-empty bucket afterwards. -/
theorem insert_head_maintenance [DecidableEq K] [DecidableEq V] [Inhabited V]
    (m : UnorderedMap K V) (k : K) (v : V) (hwf : WellFormed m) (hhead : HeadFirst m)
    (hk : k ∉ m.keys) :
    ∃ m1 m2 m3 p, m.insert (k, v) = some (m1, (some p, true)) ∧
      m.insert_move (k, v) = some (m2, (some p, true)) ∧
      m.index k = some (m3, p) ∧ m._head ≠ some p ∧
      HeadRetargeted m k p m1 ∧ HeadRetargeted m k p m2 ∧ HeadRetargeted m k p m3 := by
  have hlive := hhead.headLive
  have hnotin : k ∉ (m.chain (m._bucket k)).map (fun n => n.val.1) :=
    fun hin => hk ((hwf.mem_keys_iff k).2 hin)
  have hnew : chainAssign (k, v).1 (k, v).2 (m.chain (m._bucket (k, v).1)) = none :=
    chainAssign_eq_none.2 hnotin
  have hnewd : chainAssign (k, (default : V)).1 (k, (default : V)).2
      (m.chain (m._bucket (k, (default : V)).1)) = none := chainAssign_eq_none.2 hnotin
  have hfind : chainFind k (m.chain (m._bucket k)) = none := chainFind_eq_none.2 hnotin
  obtain ⟨hd1, h1⟩ := hwf.insert_new hlive hnew
  obtain ⟨hd2, h2⟩ := insert_move_new hlive hnew
  obtain ⟨hd3, h3⟩ := _insert_into_bucket_new hlive hnewd
  have hindex : m.index k = m._insert_into_bucket (m._bucket k) (k, default) := by
    unfold UnorderedMap.index
    simp only [hfind]
  have f1 := hwf.headFirst_insert hhead h1
  have f2 := hwf.headFirst_insert_move hhead h2
  have f3 := hwf.headFirst__insert_into_bucket hhead hnewd h3
  have c1 := hwf.head_after_prepend hhead (k, v) hd1 f1
  have c2 := hwf.head_after_prepend hhead (k, v) hd2 f2
  have c3 := hwf.head_after_prepend hhead (k, default) hd3 f3
  have hfresh : m._head ≠ some m._alloc := by
    intro he
    obtain ⟨n, hn, hna⟩ := hlive _ he
    have := hwf.addr_lt n hn
    omega
  exact ⟨_, _, _, m._alloc, h1, h2, by rw [hindex]; exact h3, hfresh,
    ⟨c1.1, c1.2, f1⟩, ⟨c2.1, c2.2, f2⟩, ⟨c3.1, c3.2, f3⟩⟩

theorem exampleTwo_headFirst : HeadFirst exampleTwo := rfl

theorem insert_head_maintenance_witness :
    (WellFormed exampleTwo ∧ HeadFirst exampleTwo ∧ 7 ∉ exampleTwo.keys) ∧
      ∃ m1 m2 m3 p, exampleTwo.insert (7, 70) = some (m1, (some p, true)) ∧
        exampleTwo.insert_move (7, 70) = some (m2, (some p, true)) ∧
        exampleTwo.index 7 = some (m3, p) ∧ exampleTwo._head ≠ some p ∧
        HeadRetargeted exampleTwo 7 p m1 ∧ HeadRetargeted exampleTwo 7 p m2 ∧
        HeadRetargeted exampleTwo 7 p m3 :=
  ⟨⟨exampleTwo_reachable.wellFormed, exampleTwo_headFirst, by decide⟩,
    insert_head_maintenance exampleTwo 7 70 exampleTwo_reachable.wellFormed
      exampleTwo_headFirst (by decide)⟩

end UnorderedMap

/-! ### Advancing a cursor -/

namespace UnorderedMap

variable {K V : Type}

/-- The bucket scan of `operator++` from a node without a chain successor, in a table whose
bucket array has a slot for the bucket of the node. -/
theorem successor_scan (m : UnorderedMap K V) (val : K × V)
    (hb : m._bucket val.1 < m._bucket_count) :
    (∀ j, m._bucket val.1 < j → j < m._bucket_count → m.chain j ≠ [] →
        (∀ i, m._bucket val.1 < i → i < j → m.chain i = []) →
        m.successor none val = chainHead (m.chain j)) ∧
      ((∀ j, m._bucket val.1 < j → j < m._bucket_count → m.chain j = []) →
        m.successor none val = none) := by
  obtain ⟨h1, h2, h3, h4⟩ := scanBuckets_spec m._buckets
    (m._bucket_count - (m._bucket val.1 + 1)) (m._bucket val.1 + 1)
  have hsum : m._bucket val.1 + 1 + (m._bucket_count - (m._bucket val.1 + 1)) =
      m._bucket_count := by omega
  rw [hsum] at h2 h4
  constructor
  · intro j hj1 hj2 hne hbefore
    have hr : scanBuckets m._buckets (m._bucket_count - (m._bucket val.1 + 1))
        (m._bucket val.1 + 1) = j := by
      by_contra hnej
      rcases Nat.lt_or_gt_of_ne hnej with hlt | hgt
      · exact h4 (by omega) (hbefore _ (by omega) hlt)
      · exact hne (h3 j (by omega) hgt)
    simp only [successor, hr]
    rw [if_neg (by omega)]
  · intro hall
    have hr : m._bucket_count ≤ scanBuckets m._buckets
        (m._bucket_count - (m._bucket val.1 + 1)) (m._bucket val.1 + 1) := by
      by_contra hlt
      exact h4 (by omega) (hall _ (by omega) (by omega))
    simp only [successor]
    rw [if_pos hr]

/-- C27. In a table whose bucket array has `bucket_count()` slots and in which every node
sits in the chain its key hashes to, for a cursor at the live node `x`: `x` is in the chain
of bucket `b = bucket(x.key)`; `++` moves the cursor to the node after `x` in that chain
when there is one, otherwise to the first node of the lowest-index non-empty bucket after
`b`, otherwise to `end()`.  The postfix form moves the cursor to the same position and
returns the position the cursor had. -/
theorem increment_spec (m : UnorderedMap K V) (p : Nat) (x : HashNode K V)
    (next : Option Nat) (hlen : m._buckets.length = m._bucket_count)
    (hplace : ∀ i n, n ∈ m.chain i → m._bucket n.val.1 = i)
    (hx : m.deref p = some (x, next)) :
    ∃ pre post r, m.chain (m.bucket x.val.1) = pre ++ x :: post ∧ x.addr = p ∧
      m.increment (some p) = some r ∧ m.increment_post (some p) = some (r, some p) ∧
      (∀ y rest, post = y :: rest → r = some y.addr) ∧
      (post = [] → ∀ j, m.bucket x.val.1 < j → j < m.bucket_count → m.chain j ≠ [] →
        (∀ i, m.bucket x.val.1 < i → i < j → m.chain i = []) → r = chainHead (m.chain j)) ∧
      (post = [] → (∀ j, m.bucket x.val.1 < j → j < m.bucket_count → m.chain j = []) →
        r = m.end_) := by
  obtain ⟨i, -, hc⟩ := heapLookup_eq_some hx
  obtain ⟨pre, post, hch, hp, -, hnext⟩ := chainLookup_eq_some hc
  have hmem : x ∈ m.chain i := by
    show x ∈ m._buckets.getD i []
    rw [hch]
    simp
  have hi := hplace i x hmem
  have hch1 : m.chain (m._bucket x.val.1) = pre ++ x :: post := by
    rw [hi]
    exact hch
  have hb : m._bucket x.val.1 < m._bucket_count := by
    rw [hi, ← hlen]
    by_contra hge
    have hnil : m._buckets.getD i [] = [] := by
      rw [List.getD_eq_default _ _ (by omega)]
    rw [hnil] at hch
    simp at hch
  obtain ⟨s1, s2⟩ := successor_scan m x.val hb
  refine ⟨pre, post, m.successor next x.val, hch1, hp, ?_, ?_, ?_, ?_, ?_⟩
  · unfold increment
    simp only [hx]
  · unfold increment_post
    simp only [hx]
  · intro y rest hpost
    rw [hnext, hpost]
    rfl
  · intro hpost j hj1 hj2 hne hbefore
    rw [hnext, hpost]
    exact s1 j hj1 hj2 hne hbefore
  · intro hpost hall
    rw [hnext, hpost]
    exact s2 hall

theorem increment_spec_witness :
    (exampleTwo._buckets.length = exampleTwo._bucket_count ∧
        (∀ i n, n ∈ exampleTwo.chain i → exampleTwo._bucket n.val.1 = i) ∧
        exampleTwo.deref 0 = some (⟨0, (1, 10)⟩, none)) ∧
      ∃ pre post r,
        exampleTwo.chain (exampleTwo.bucket (1, 10).1) = pre ++ ⟨0, (1, 10)⟩ :: post ∧
        (⟨0, (1, 10)⟩ : HashNode Nat Nat).addr = 0 ∧
        exampleTwo.increment (some 0) = some r ∧
        exampleTwo.increment_post (some 0) = some (r, some 0) ∧
        (∀ y rest, post = y :: rest → r = some y.addr) ∧
        (post = [] → ∀ j, exampleTwo.bucket (1, 10).1 < j → j < exampleTwo.bucket_count →
          exampleTwo.chain j ≠ [] →
          (∀ i, exampleTwo.bucket (1, 10).1 < i → i < j → exampleTwo.chain i = []) →
          r = chainHead (exampleTwo.chain j)) ∧
        (post = [] → (∀ j, exampleTwo.bucket (1, 10).1 < j → j < exampleTwo.bucket_count →
          exampleTwo.chain j = []) → r = exampleTwo.end_) :=
  ⟨⟨rfl, exampleTwo_reachable.wellFormed.placement, rfl⟩,
    increment_spec exampleTwo 0 ⟨0, (1, 10)⟩ none rfl
      exampleTwo_reachable.wellFormed.placement rfl⟩

end UnorderedMap

/-! ### Copy assignment -/

section AssignLemmas

variable {K V : Type}

/-- The outer loop of the copy assignment from index `i` on: the buckets before `i` are
kept and the others are the copies of the source's chains. -/
theorem assignBuckets_spec (src : List (List (HashNode K V))) (left i : Nat)
    (st : AssignState K V) (hi : i + left = src.length)
    (hlen : st.buckets.length = src.length)
    (hempty : st.buckets.drop i = List.replicate left []) :
    (assignBuckets src left i st).buckets =
        st.buckets.take i ++ copyFrom st.alloc (src.drop i) ∧
      (assignBuckets src left i st).alloc = st.alloc + (src.drop i).flatten.length := by
  induction left generalizing i st with
  | zero =>
    have hil : i = src.length := by omega
    subst hil
    simp [assignBuckets, copyFrom, List.drop_length,
      List.take_of_length_le (Nat.le_of_eq hlen)]
  | succ left ih =>
    have hil : i < src.length := by omega
    have hdrop : src.drop i = src.getD i [] :: src.drop (i + 1) := by
      rw [List.getD_eq_getElem _ _ hil]
      exact List.drop_eq_getElem_cons hil
    have hbi : st.buckets.drop i = st.buckets.getD i [] :: st.buckets.drop (i + 1) := by
      rw [List.getD_eq_getElem _ _ (by omega)]
      exact List.drop_eq_getElem_cons (by omega)
    rw [hbi, List.replicate_succ] at hempty
    simp only [List.cons.injEq] at hempty
    obtain ⟨hb0, hrest⟩ := hempty
    have htake : st.buckets.take (i + 1) = st.buckets.take i ++ [st.buckets.getD i []] := by
      rw [List.getD_eq_getElem _ _ (by omega), List.take_succ,
        List.getElem?_eq_getElem (by omega)]
      rfl
    rcases hc : src.getD i [] with _ | ⟨curr, rest⟩
    · have hstep : assignBuckets src (left + 1) i st = assignBuckets src left (i + 1) st := by
        simp only [assignBuckets, hc]
      obtain ⟨h1, h2⟩ := ih (i + 1) st (by omega) hlen hrest
      rw [hstep, h1, h2, hdrop, hc, htake, hb0]
      simp [copyFrom, copyChain]
    · obtain ⟨st1, hst1⟩ : ∃ st1 : AssignState K V, st1 =
          { buckets := st.buckets.set i (copyChain st.alloc (curr :: rest))
            head := some st.alloc
            alloc := st.alloc + (curr :: rest).length } := ⟨_, rfl⟩
      have hstep : assignBuckets src (left + 1) i st = assignBuckets src left (i + 1) st1 := by
        rw [hst1]
        simp only [assignBuckets, hc, if_true]
      have hlen1 : st1.buckets.length = src.length := by
        rw [hst1]
        simp [hlen]
      have hrest1 : st1.buckets.drop (i + 1) = List.replicate left [] := by
        rw [hst1]
        simp only
        rw [List.drop_set_of_lt _ _ (Nat.lt_succ_self i)]
        exact hrest
      have htake1 : st1.buckets.take (i + 1) =
          st.buckets.take i ++ [copyChain st.alloc (curr :: rest)] := by
        rw [hst1]
        simp only
        rw [List.set_eq_take_cons_drop _ (by omega : i < st.buckets.length)]
        rw [List.take_append_eq_append_take]
        simp [List.length_take, Nat.min_eq_left (by omega : i ≤ st.buckets.length)]
      obtain ⟨h1, h2⟩ := ih (i + 1) st1 (by omega) hlen1 hrest1
      rw [hstep, h1, h2, hdrop, hc, htake1]
      have ha : st1.alloc = st.alloc + (curr :: rest).length := by rw [hst1]
      refine ⟨?_, ?_⟩
      · simp [copyFrom, ha]
      · simp [ha]
        omega

end AssignLemmas

namespace UnorderedMap

variable {K V : Type}

/-- The copy assignment from a table whose bucket array has `bucket_count()` slots: same
bucket count and size, and every chain of the result holds the entries of the source's
chain in the source's order. -/
theorem copy_assign_chains (self other : UnorderedMap K V)
    (hlen : other._buckets.length = other._bucket_count) :
    (copy_assign self other).bucket_count = other.bucket_count ∧
      (copy_assign self other).size = other.size ∧
      ∀ i, ((copy_assign self other).chain i).map (fun n => n.val) =
        (other.chain i).map (fun n => n.val) := by
  obtain ⟨h1, -⟩ := assignBuckets_spec other._buckets other._bucket_count 0
    { buckets := List.replicate other._bucket_count []
      head := self.clear._head
      alloc := Nat.max self._alloc other._alloc }
    (by omega) (by simp [hlen]) (by simp)
  simp only [List.take_zero, List.nil_append, List.drop_zero] at h1
  refine ⟨rfl, rfl, ?_⟩
  intro i
  show ((assignBuckets other._buckets other._bucket_count 0 _).buckets.getD i []).map _ = _
  rw [h1]
  exact copyFrom_getD_map_val _ _ i

/-- C29. Copy assignment `a = b` with `b` the table holding `(1, 10)` in bucket 1 and
`(2, 20)` in bucket 2, and `a` a freshly constructed table: `a` gets the bucket count, the
size and the chains of `b`, but its head references the first node of bucket 2, the last
non-empty bucket, not the first node of bucket 1; iterating `a` from `begin()` visits
`(2, 20)` only, where iterating `b` visits `(1, 10)`, `(2, 20)`.  With `b` empty and `a` the
table holding `(1, 10)`, `a.begin()` is still the cursor at the deleted node of `a`, not
`end()`. -/
theorem copy_assign_head_last_bucket :
    ((copy_assign exampleEmpty exampleTwo).bucket_count = exampleTwo.bucket_count ∧
        (copy_assign exampleEmpty exampleTwo).size = exampleTwo.size ∧
        (copy_assign exampleEmpty exampleTwo).allNodes.map (fun n => n.val) =
          [(1, 10), (2, 20)] ∧
        exampleTwo.traverse 2 exampleTwo.begin = some [(1, 10), (2, 20)] ∧
        (copy_assign exampleEmpty exampleTwo).begin ≠
          chainHead (copy_assign exampleEmpty exampleTwo).allNodes ∧
        (copy_assign exampleEmpty exampleTwo).star (copy_assign exampleEmpty exampleTwo).begin =
          some (2, 20) ∧
        (copy_assign exampleEmpty exampleTwo).traverse 2
          (copy_assign exampleEmpty exampleTwo).begin = some [(2, 20)]) ∧
      ((copy_assign exampleOne exampleEmpty).size = 0 ∧
        (copy_assign exampleOne exampleEmpty).allNodes = [] ∧
        (copy_assign exampleOne exampleEmpty).begin = exampleOne.begin ∧
        (copy_assign exampleOne exampleEmpty).begin ≠ (copy_assign exampleOne exampleEmpty).end_) := by
  refine ⟨⟨rfl, rfl, rfl, rfl, ?_, rfl, rfl⟩, ⟨rfl, rfl, rfl, ?_⟩⟩
  · intro h
    have h1 : (copy_assign exampleEmpty exampleTwo).begin = some 3 := rfl
    have h2 : chainHead (copy_assign exampleEmpty exampleTwo).allNodes = some 2 := rfl
    rw [h1, h2] at h
    exact absurd h (by decide)
  · intro h
    have h1 : (copy_assign exampleOne exampleEmpty).begin = some 0 := rfl
    rw [h1] at h
    exact Option.noConfusion h

end UnorderedMap

/-! ### `Vector::at` -/

namespace DynamicArray

namespace Vector

variable {T : Type}

/-- In a vector of the data model every position below `size()` is a slot of the block. -/
theorem WellFormed.slot_defined {v : Vector T} (hwf : WellFormed v) {pos : Nat}
    (hpos : pos < v._size) : ∃ x, v.slot pos = some x := by
  unfold slot
  rcases ha : v.array with _ | block
  · have := hwf.null_capacity ha
    have := hwf.size_le
    omega
  · have hl := hwf.block_length block ha
    have hlt : pos < block.length := by
      have := hwf.size_le
      omega
    exact ⟨block[pos], by simp [List.getElem?_eq_getElem hlt]⟩

/-- C23. For a vector of the data model, `at(pos)` throws `out_of_range` exactly when
`pos >= size()`; otherwise it returns the element stored in slot `pos` of the block, and
the vector after the call is the vector before it. -/
theorem at_spec (v : Vector T) (pos : Nat) (hwf : WellFormed v) :
    ((∃ e, v.at_ pos = some (Except.error e)) ↔ v.size ≤ pos) ∧
      (v.size ≤ pos →
        v.at_ pos = some (Except.error (Exception.out_of_range "given position is out of bounds"))) ∧
      (pos < v.size → ∃ x, v.slot pos = some x ∧ v.at_ pos = some (Except.ok (v, x))) := by
  have herr : v.size ≤ pos → v.at_ pos =
      some (Except.error (Exception.out_of_range "given position is out of bounds")) := by
    intro h
    unfold at_
    rw [if_pos (Or.inr h : pos < 0 ∨ pos ≥ v._size)]
  have hok : pos < v.size → ∃ x, v.slot pos = some x ∧ v.at_ pos = some (Except.ok (v, x)) := by
    intro h
    obtain ⟨x, hx⟩ := hwf.slot_defined h
    refine ⟨x, hx, ?_⟩
    unfold at_
    have hn : ¬ (pos < 0 ∨ pos ≥ v._size) := by
      intro hc
      rcases hc with hc | hc
      · omega
      · exact absurd h (Nat.not_lt.2 hc)
    rw [if_neg hn]
    simp only [hx]
  refine ⟨⟨?_, fun h => ⟨_, herr h⟩⟩, herr, hok⟩
  rintro ⟨e, he⟩
  by_contra hlt
  obtain ⟨x, -, hx⟩ := hok (Nat.lt_of_not_le hlt)
  rw [hx] at he
  cases he

theorem exampleVector_wellFormed : WellFormed exampleVector :=
  ⟨by decide, fun block h => by cases h; rfl, fun h => by cases h⟩

theorem at_spec_witness :
    WellFormed exampleVector ∧
      (((∃ e, exampleVector.at_ 1 = some (Except.error e)) ↔ exampleVector.size ≤ 1) ∧
      (exampleVector.size ≤ 1 →
        exampleVector.at_ 1 =
          some (Except.error (Exception.out_of_range "given position is out of bounds"))) ∧
      (1 < exampleVector.size →
        ∃ x, exampleVector.slot 1 = some x ∧
          exampleVector.at_ 1 = some (Except.ok (exampleVector, x)))) :=
  ⟨exampleVector_wellFormed, at_spec exampleVector 1 exampleVector_wellFormed⟩

end Vector

end DynamicArray

/-! ### Graphs -/

namespace GraphAlgorithms

variable {T : Type}

theorem WeightedGraph.Edge.source_vertex {graph : WeightedGraph T} {u v : T} {w : Int}
    (h : graph.Edge u v w) : u ∈ graph.vertices := by
  obtain ⟨adj, hadj, -⟩ := h
  exact List.mem_map.2 ⟨(u, adj), hadj, rfl⟩

theorem WeightedGraph.Adj.source_mem {graph : WeightedGraph T} {u v : T}
    (h : graph.Adj u v) : u ∈ graph.vertices := by
  obtain ⟨w, hw⟩ := h
  exact hw.source_vertex

variable [DecidableEq T]

theorem WeightedGraph.at_mem {graph : WeightedGraph T} {u : T} {adj : List (T × Int)}
    (h : graph.at_ u = some adj) : (u, adj) ∈ graph := by
  induction graph with
  | nil => cases h
  | cons entry rest ih =>
    unfold WeightedGraph.at_ at h
    by_cases he : entry.1 = u
    · rw [if_pos he] at h
      simp only [Option.some.injEq] at h
      have : entry = (u, adj) := Prod.ext he h
      rw [this]
      exact List.mem_cons_self _ _
    · rw [if_neg he] at h
      exact List.mem_cons_of_mem _ (ih h)

theorem WeightedGraph.at_of_mem {graph : WeightedGraph T} (hnd : graph.vertices.Nodup)
    {u : T} {adj : List (T × Int)} (h : (u, adj) ∈ graph) : graph.at_ u = some adj := by
  induction graph with
  | nil => cases h
  | cons entry rest ih =>
    have hnd1 : entry.1 ∉ WeightedGraph.vertices rest ∧ (WeightedGraph.vertices rest).Nodup :=
      List.nodup_cons.1 hnd
    unfold WeightedGraph.at_
    rcases List.mem_cons.1 h with he | hr
    · rw [← he]
      simp
    · have hne : entry.1 ≠ u := by
        intro heq
        apply hnd1.1
        rw [heq]
        exact List.mem_map.2 ⟨(u, adj), hr, rfl⟩
      rw [if_neg hne]
      exact ih hnd1.2 hr

theorem WeightedGraph.at_isSome {graph : WeightedGraph T} {u : T}
    (h : u ∈ graph.vertices) : ∃ adj, graph.at_ u = some adj := by
  induction graph with
  | nil => cases h
  | cons entry rest ih =>
    unfold WeightedGraph.at_
    by_cases he : entry.1 = u
    · exact ⟨entry.2, by rw [if_pos he]⟩
    · rw [if_neg he]
      apply ih
      rcases List.mem_cons.1 h with h1 | h1
      · exact absurd h1.symm he
      · exact h1

theorem WeightedGraph.adj_iff {graph : WeightedGraph T} {u v : T} :
    graph.Adj u v ↔ ∃ adj, (u, adj) ∈ graph ∧ 0 < adj.countP (fun e => e.1 = v) := by
  constructor
  · rintro ⟨w, adj, hadj, hmem⟩
    exact ⟨adj, hadj, List.countP_pos_iff.2 ⟨(v, w), hmem, by simp⟩⟩
  · rintro ⟨adj, hadj, hpos⟩
    obtain ⟨e, he, hev⟩ := List.countP_pos_iff.1 hpos
    simp only [decide_eq_true_eq] at hev
    refine ⟨e.2, adj, hadj, ?_⟩
    rw [← hev]
    exact he

/-! ### In-degrees -/

theorem countTargets_apply (adj : List (T × Int)) (indegrees : T → Int) (v : T) :
    countTargets adj indegrees v = indegrees v + (adj.countP (fun e => e.1 = v) : Int) := by
  induction adj generalizing indegrees with
  | nil => simp [countTargets]
  | cons edge rest ih =>
    unfold countTargets
    rw [ih, List.countP_cons]
    by_cases hv : edge.1 = v
    · subst hv
      simp
      omega
    · rw [Function.update_noteq (Ne.symm hv)]
      simp [hv]

theorem zeroEntries_zero (entries : List (T × List (T × Int))) :
    zeroEntries entries (fun _ => (0 : Int)) = fun _ => 0 := by
  induction entries with
  | nil => rfl
  | cons curr rest ih =>
    unfold zeroEntries
    have : Function.update (fun _ : T => (0 : Int)) curr.1 0 = fun _ => 0 := by
      funext x
      by_cases hx : x = curr.1
      · rw [hx, Function.update_same]
      · rw [Function.update_noteq hx]
    rw [this, ih]

theorem indegreeOutside_nonneg (res : List T) (v : T) (graph : WeightedGraph T) :
    0 ≤ indegreeOutside res v graph := by
  induction graph with
  | nil => simp [indegreeOutside]
  | cons entry rest ih =>
    unfold indegreeOutside
    split <;> omega

theorem countEntries_spec (graph : WeightedGraph T) (hnd : graph.vertices.Nodup)
    (entries : List (T × List (T × Int))) (hsub : ∀ e ∈ entries, e ∈ graph)
    (indegrees : T → Int) :
    countEntries graph entries indegrees =
      some (fun v => indegrees v + indegreeOutside [] v entries) := by
  induction entries generalizing indegrees with
  | nil => simp [countEntries, indegreeOutside]
  | cons curr rest ih =>
    have hat : graph.at_ curr.1 = some curr.2 :=
      WeightedGraph.at_of_mem hnd (hsub curr (List.mem_cons_self _ _))
    unfold countEntries
    simp only [hat]
    rw [ih (fun e he => hsub e (List.mem_cons_of_mem _ he))]
    congr 1
    funext v
    rw [countTargets_apply]
    simp [indegreeOutside]
    omega

theorem computeIndegrees_spec (graph : WeightedGraph T) (hnd : graph.vertices.Nodup) :
    computeIndegrees graph = some (fun v => indegreeOutside [] v graph) := by
  unfold computeIndegrees
  rw [zeroEntries_zero, countEntries_spec graph hnd graph (fun _ h => h)]
  simp

theorem indegreeOutside_of_not_mem (res : List T) (u v : T) (graph : WeightedGraph T)
    (hu : u ∉ graph.vertices) :
    indegreeOutside (res ++ [u]) v graph = indegreeOutside res v graph := by
  induction graph with
  | nil => rfl
  | cons entry rest ih =>
    have hne : entry.1 ≠ u := fun h => hu (by rw [← h]; exact List.mem_cons_self _ _)
    have hrest : u ∉ WeightedGraph.vertices rest := fun h => hu (List.mem_cons_of_mem _ h)
    unfold indegreeOutside
    rw [ih hrest]
    have : entry.1 ∈ res ++ [u] ↔ entry.1 ∈ res := by simp [hne]
    simp only [this]

/-- Moving the vertex `u` into `res` takes the edges out of `u` off every count. -/
theorem indegreeOutside_step (res : List T) (u v : T) (graph : WeightedGraph T)
    (hnd : graph.vertices.Nodup) {adj : List (T × Int)} (hat : graph.at_ u = some adj)
    (hu : u ∉ res) :
    indegreeOutside res v graph =
      indegreeOutside (res ++ [u]) v graph + (adj.countP (fun e => e.1 = v) : Int) := by
  induction graph with
  | nil => cases hat
  | cons entry rest ih =>
    have hnd1 : entry.1 ∉ WeightedGraph.vertices rest ∧ (WeightedGraph.vertices rest).Nodup :=
      List.nodup_cons.1 hnd
    unfold WeightedGraph.at_ at hat
    unfold indegreeOutside
    by_cases he : entry.1 = u
    · rw [if_pos he] at hat
      simp only [Option.some.injEq] at hat
      have hrest : u ∉ WeightedGraph.vertices rest := by
        rw [← he]
        exact hnd1.1
      rw [indegreeOutside_of_not_mem res u v rest hrest]
      have h1 : entry.1 ∉ res := by rw [he]; exact hu
      have h2 : entry.1 ∈ res ++ [u] := by simp [he]
      rw [if_neg h1, if_pos h2, hat]
      omega
    · rw [if_neg he] at hat
      rw [ih hnd1.2 hat]
      have : entry.1 ∈ res ++ [u] ↔ entry.1 ∈ res := by simp [he]
      simp only [this]
      omega

theorem indegreeOutside_eq_zero {res : List T} {v : T} {graph : WeightedGraph T} :
    indegreeOutside res v graph = 0 ↔ ∀ u, graph.Adj u v → u ∈ res := by
  induction graph with
  | nil =>
    simp only [indegreeOutside, true_iff]
    rintro u ⟨w, adj, hadj, -⟩
    cases hadj
  | cons entry rest ih =>
    unfold indegreeOutside
    have hnn := indegreeOutside_nonneg res v rest
    constructor
    · intro h u hu
      obtain ⟨adj, hadj, hpos⟩ := WeightedGraph.adj_iff.1 hu
      rcases List.mem_cons.1 hadj with he | hr
      · by_contra hnot
        have hnot1 : entry.1 ∉ res := by rw [← he]; exact hnot
        rw [if_neg hnot1, ← he] at h
        simp only at h
        omega
      · have h0 : indegreeOutside res v rest = 0 := by
          split at h <;> omega
        exact (ih.1 h0) u (WeightedGraph.adj_iff.2 ⟨adj, hr, hpos⟩)
    · intro h
      have h0 : indegreeOutside res v rest = 0 := by
        apply ih.2
        intro u hu
        obtain ⟨adj, hadj, hpos⟩ := WeightedGraph.adj_iff.1 hu
        exact h u (WeightedGraph.adj_iff.2 ⟨adj, List.mem_cons_of_mem _ hadj, hpos⟩)
      rw [h0]
      by_cases hin : entry.1 ∈ res
      · rw [if_pos hin]
        rfl
      · rw [if_neg hin]
        have hz : entry.2.countP (fun e => e.1 = v) = 0 := by
          by_contra hpos
          apply hin
          apply h
          exact WeightedGraph.adj_iff.2 ⟨entry.2, List.mem_cons_self _ _, by omega⟩
        rw [hz]
        rfl

end GraphAlgorithms

/-! ### The loops of `topologicalSort` -/

namespace GraphAlgorithms

variable {T : Type} [DecidableEq T]

/-- The loop over the adjacency list of the vertex taken off the queue: every count drops
by the number of edges into the vertex, and the vertices pushed are, once each, the targets
whose count is 0 afterwards. -/
theorem visitAdjacent_spec (adj : List (T × Int)) (st : TopoState T)
    (hle : ∀ v, (adj.countP (fun e => e.1 = v) : Int) ≤ st.indegrees v) :
    (visitAdjacent adj st).res = st.res ∧
      (∀ v, (visitAdjacent adj st).indegrees v =
        st.indegrees v - (adj.countP (fun e => e.1 = v) : Int)) ∧
      ∃ pushed, (visitAdjacent adj st).q = st.q ++ pushed ∧ pushed.Nodup ∧
        ∀ v, v ∈ pushed ↔
          (0 < adj.countP (fun e => e.1 = v) ∧ (visitAdjacent adj st).indegrees v = 0) := by
  induction adj generalizing st with
  | nil =>
    refine ⟨rfl, fun v => by simp [visitAdjacent], [], by simp [visitAdjacent], List.nodup_nil, ?_⟩
    intro v
    simp
  | cons edge rest ih =>
    obtain ⟨st1, hst1⟩ : ∃ st1 : TopoState T, st1 =
        { st with
            indegrees := Function.update st.indegrees edge.1 (st.indegrees edge.1 - 1)
            q := if Function.update st.indegrees edge.1 (st.indegrees edge.1 - 1) edge.1 = 0
              then st.q ++ [edge.1] else st.q } := ⟨_, rfl⟩
    have hstep : visitAdjacent (edge :: rest) st = visitAdjacent rest st1 := by
      rw [hst1]
      rfl
    have hind1 : ∀ v, st1.indegrees v =
        if v = edge.1 then st.indegrees edge.1 - 1 else st.indegrees v := by
      intro v
      rw [hst1]
      simp only [Function.update_apply]
    have hres1 : st1.res = st.res := by rw [hst1]
    have hq1 : st1.q = if st.indegrees edge.1 - 1 = 0 then st.q ++ [edge.1] else st.q := by
      rw [hst1]
      simp only [Function.update_same]
    have hcount : ∀ v, ((edge :: rest).countP (fun e => e.1 = v) : Int) =
        (rest.countP (fun e => e.1 = v) : Int) + if v = edge.1 then 1 else 0 := by
      intro v
      rw [List.countP_cons]
      by_cases hv : v = edge.1
      · simp [hv]
      · have : ¬ edge.1 = v := fun h => hv h.symm
        simp [hv, this]
    have hle1 : ∀ v, (rest.countP (fun e => e.1 = v) : Int) ≤ st1.indegrees v := by
      intro v
      have h1 := hle v
      rw [hcount v] at h1
      rw [hind1 v]
      by_cases hv : v = edge.1
      · subst hv
        rw [if_pos rfl] at h1 ⊢
        omega
      · rw [if_neg hv] at h1 ⊢
        omega
    obtain ⟨i1, i2, pushed1, i3, i4, i5⟩ := ih st1 hle1
    rw [hstep]
    have hfinal : ∀ v, (visitAdjacent rest st1).indegrees v =
        st.indegrees v - ((edge :: rest).countP (fun e => e.1 = v) : Int) := by
      intro v
      rw [i2 v, hind1 v, hcount v]
      by_cases hv : v = edge.1
      · subst hv
        rw [if_pos rfl, if_pos rfl]
        omega
      · rw [if_neg hv, if_neg hv]
        omega
    refine ⟨by rw [i1, hres1], hfinal, ?_⟩
    have hpos : ∀ v, 0 < (edge :: rest).countP (fun e => e.1 = v) ↔
        (v = edge.1 ∨ 0 < rest.countP (fun e => e.1 = v)) := by
      intro v
      have := hcount v
      by_cases hv : v = edge.1
      · rw [if_pos hv] at this
        constructor
        · intro _
          exact Or.inl hv
        · intro _
          omega
      · rw [if_neg hv] at this
        constructor
        · intro h
          exact Or.inr (by omega)
        · intro h
          rcases h with h | h
          · exact absurd h hv
          · omega
    by_cases hz : st.indegrees edge.1 - 1 = 0
    · rw [if_pos hz] at hq1
      have hrest0 : rest.countP (fun e => e.1 = edge.1) = 0 := by
        have h1 := hle1 edge.1
        rw [hind1 edge.1, if_pos rfl] at h1
        omega
      have hnot : edge.1 ∉ pushed1 := by
        intro hin
        have := ((i5 edge.1).1 hin).1
        omega
      refine ⟨edge.1 :: pushed1, ?_, List.nodup_cons.2 ⟨hnot, i4⟩, ?_⟩
      · rw [i3, hq1]
        simp
      · intro v
        rw [List.mem_cons, hpos v, i5 v]
        constructor
        · rintro (h | ⟨h1, h2⟩)
          · refine ⟨Or.inl h, ?_⟩
            rw [h, i2 edge.1, hind1 edge.1, if_pos rfl, hrest0]
            omega
          · exact ⟨Or.inr h1, h2⟩
        · rintro ⟨h1 | h1, h2⟩
          · exact Or.inl h1
          · exact Or.inr ⟨h1, h2⟩
    · rw [if_neg hz] at hq1
      refine ⟨pushed1, by rw [i3, hq1], i4, ?_⟩
      intro v
      rw [hpos v, i5 v]
      constructor
      · rintro ⟨h1, h2⟩
        exact ⟨Or.inr h1, h2⟩
      · rintro ⟨h1 | h1, h2⟩
        · refine ⟨?_, h2⟩
          rw [h1] at h2 ⊢
          rw [i2 edge.1, hind1 edge.1, if_pos rfl] at h2
          omega
        · exact ⟨h1, h2⟩

end GraphAlgorithms

namespace GraphAlgorithms

variable {T : Type}

theorem length_le_of_nodup_subset {l V : List T} (hnd : l.Nodup) (hsub : ∀ v ∈ l, v ∈ V) :
    l.length ≤ V.length :=
  (List.subperm_of_subset hnd hsub).length_le

variable [DecidableEq T]

/-- The invariant holds when the `while` loop of `topologicalSort` is entered. -/
theorem TopoInv.initial (graph : WeightedGraph T) (order : List T)
    (horder : order.Perm graph.vertices) (hnd : graph.vertices.Nodup) :
    TopoInv graph
      { indegrees := fun v => indegreeOutside [] v graph
        q := order.filter (fun curr => indegreeOutside [] curr graph = 0)
        res := [] } := by
  have hond : order.Nodup := horder.nodup_iff.2 hnd
  refine ⟨?_, ?_, fun v => rfl, ?_, ?_⟩
  · simp only [List.nil_append]
    exact hond.filter _
  · intro v hv
    simp only [List.nil_append, List.mem_filter] at hv
    exact horder.mem_iff.1 hv.1
  · intro v hv
    simp only [List.nil_append, List.mem_filter, decide_eq_true_eq]
    exact ⟨fun h => h.2, fun h => ⟨horder.mem_iff.2 hv, h⟩⟩
  · intro u v _ pre post h
    simp at h

/-- One iteration of the `while` loop of `topologicalSort` keeps the invariant and adds the
vertex taken off the queue to `res`. -/
theorem TopoInv.step {graph : WeightedGraph T} {st : TopoState T} {u : T} {rest : List T}
    {adj : List (T × Int)} (hnd : graph.vertices.Nodup) (hclosed : graph.Closed)
    (hinv : TopoInv graph st) (hq : st.q = u :: rest) (hat : graph.at_ u = some adj) :
    TopoInv graph (visitAdjacent adj { st with q := rest, res := st.res ++ [u] }) ∧
      (visitAdjacent adj { st with q := rest, res := st.res ++ [u] }).res = st.res ++ [u] := by
  have hnodup := hinv.nodup
  rw [hq] at hnodup
  have hu_res : u ∉ st.res := by
    intro hin
    exact (List.nodup_append.1 hnodup).2.2 hin (List.mem_cons_self _ _)
  have hu_mem : u ∈ st.res ++ st.q := by
    rw [hq]
    simp
  have hu_vert : u ∈ graph.vertices := hinv.subset u hu_mem
  have hu_zero : st.indegrees u = 0 := (hinv.ready u hu_vert).1 hu_mem
  have hstepc : ∀ v, st.indegrees v =
      indegreeOutside (st.res ++ [u]) v graph + (adj.countP (fun e => e.1 = v) : Int) := by
    intro v
    rw [hinv.indeg v]
    exact indegreeOutside_step st.res u v graph hnd hat hu_res
  have hle : ∀ v, (adj.countP (fun e => e.1 = v) : Int) ≤
      ({ st with q := rest, res := st.res ++ [u] } : TopoState T).indegrees v := by
    intro v
    show _ ≤ st.indegrees v
    have := indegreeOutside_nonneg (st.res ++ [u]) v graph
    rw [hstepc v]
    omega
  obtain ⟨r1, r2, pushed, r3, r4, r5⟩ := visitAdjacent_spec adj _ hle
  simp only at r1 r2 r3
  have hnew : ∀ v, (visitAdjacent adj { st with q := rest, res := st.res ++ [u] }).indegrees v =
      indegreeOutside (st.res ++ [u]) v graph := by
    intro v
    rw [r2 v, hstepc v]
    omega
  have hadj_of_count : ∀ v, 0 < adj.countP (fun e => e.1 = v) → graph.Adj u v := fun v hv =>
    WeightedGraph.adj_iff.2 ⟨adj, WeightedGraph.at_mem hat, hv⟩
  have hpushed_new : ∀ v ∈ pushed, v ∈ graph.vertices ∧ v ∉ st.res ++ st.q := by
    intro v hv
    obtain ⟨hc, hz⟩ := (r5 v).1 hv
    obtain ⟨w, hw⟩ := hadj_of_count v hc
    have hvert := hclosed u v w hw
    refine ⟨hvert, ?_⟩
    intro hin
    have h0 := (hinv.ready v hvert).1 hin
    have h1 := hstepc v
    rw [hnew v] at hz
    omega
  have hmem : ∀ v, v ∈ (st.res ++ [u]) ++ (rest ++ pushed) ↔ (v ∈ st.res ++ st.q ∨ v ∈ pushed) := by
    intro v
    rw [hq]
    simp only [List.mem_append, List.mem_cons, List.mem_singleton, List.not_mem_nil, or_false]
    tauto
  refine ⟨⟨?_, ?_, ?_, ?_, ?_⟩, r1⟩
  · rw [r1, r3]
    have hperm : ((st.res ++ [u]) ++ (rest ++ pushed)) = (st.res ++ u :: rest) ++ pushed := by
      simp
    rw [hperm]
    refine List.nodup_append.2 ⟨hnodup, r4, ?_⟩
    intro a ha hb
    have := (hpushed_new a hb).2
    rw [hq] at this
    exact this ha
  · intro v hv
    rw [r1, r3] at hv
    rcases (hmem v).1 hv with h | h
    · exact hinv.subset v h
    · exact (hpushed_new v h).1
  · intro v
    rw [r1]
    exact hnew v
  · intro v hvert
    rw [r1, r3, hmem v]
    have hnn := indegreeOutside_nonneg (st.res ++ [u]) v graph
    have hs := hstepc v
    constructor
    · rintro (h | h)
      · have h0 := (hinv.ready v hvert).1 h
        rw [hnew v]
        omega
      · exact ((r5 v).1 h).2
    · intro hz
      by_cases h0 : st.indegrees v = 0
      · exact Or.inl ((hinv.ready v hvert).2 h0)
      · right
        apply (r5 v).2
        refine ⟨?_, hz⟩
        rw [hnew v] at hz
        omega
  · intro x v hxv pre post hsplit
    rw [r1] at hsplit
    rcases List.eq_nil_or_concat post with hp | ⟨L, b, hp⟩
    · subst hp
      have h1 : st.res ++ [u] = pre ++ [v] := hsplit
      obtain ⟨h2, h3⟩ := List.append_inj' h1 rfl
      simp only [List.cons.injEq, and_true] at h3
      subst h3
      rw [← h2]
      have hz : indegreeOutside st.res u graph = 0 := by
        rw [← hinv.indeg u]
        exact hu_zero
      exact indegreeOutside_eq_zero.1 hz x hxv
    · subst hp
      have h1 : st.res ++ [u] = (pre ++ v :: L) ++ [b] := by
        rw [hsplit]
        simp
      obtain ⟨h2, -⟩ := List.append_inj' h1 rfl
      exact hinv.before x v hxv pre L h2

/-- The `while` loop of `topologicalSort` comes to its end within `size()` iterations in
all, with the invariant and an empty queue. -/
theorem topoLoop_spec (graph : WeightedGraph T) (hnd : graph.vertices.Nodup)
    (hclosed : graph.Closed) (fuel : Nat) (st : TopoState T) (hinv : TopoInv graph st)
    (hfuel : graph.length ≤ fuel + st.res.length) :
    ∃ st1, topoLoop graph fuel st = some st1 ∧ TopoInv graph st1 ∧ st1.q = [] := by
  have hbound : st.res.length + st.q.length ≤ graph.length := by
    have := length_le_of_nodup_subset hinv.nodup hinv.subset
    simpa [WeightedGraph.vertices] using this
  induction fuel generalizing st with
  | zero =>
    have hq : st.q = [] := List.length_eq_zero.1 (by omega)
    refine ⟨st, ?_, hinv, hq⟩
    unfold topoLoop
    simp [hq]
  | succ fuel ih =>
    rcases hq : st.q with _ | ⟨u, rest⟩
    · refine ⟨st, ?_, hinv, hq⟩
      unfold topoLoop
      simp [hq]
    · have hu_vert : u ∈ graph.vertices := hinv.subset u (by rw [hq]; simp)
      obtain ⟨adj, hat⟩ := WeightedGraph.at_isSome hu_vert
      obtain ⟨hinv1, hres1⟩ := hinv.step hnd hclosed hq hat
      have hb1 := length_le_of_nodup_subset hinv1.nodup hinv1.subset
      have hlen1 : (visitAdjacent adj { st with q := rest, res := st.res ++ [u] }).res.length =
          st.res.length + 1 := by
        rw [hres1]
        simp
      obtain ⟨st1, h1, h2, h3⟩ := ih _ hinv1 (by omega)
        (by simpa [WeightedGraph.vertices] using hb1)
      refine ⟨st1, ?_, h2, h3⟩
      unfold topoLoop
      simp only [hq, hat]
      exact h1

/-- A non-empty finite set of vertices each of which has an edge into it from the set
holds a cycle. -/
theorem exists_cycle_of_pred (graph : WeightedGraph T) (S : List T) (hne : S ≠ [])
    (hpred : ∀ v ∈ S, ∃ u ∈ S, graph.Adj u v) : ∃ v, Relation.TransGen graph.Adj v v := by
  by_contra hno
  have hirr : ∀ v, ¬ Relation.TransGen graph.Adj v v := fun v hv => hno ⟨v, hv⟩
  let r : { v // v ∈ S } → { v // v ∈ S } → Prop :=
    fun a b => Relation.TransGen graph.Adj a.1 b.1
  have htrans : IsTrans { v // v ∈ S } r := ⟨fun a b c hab hbc => Relation.TransGen.trans hab hbc⟩
  have hirrefl : IsIrrefl { v // v ∈ S } r := ⟨fun a ha => hirr a.1 ha⟩
  have hwf : WellFounded r := Finite.wellFounded_of_trans_of_irrefl r
  obtain ⟨x, hx⟩ := List.exists_mem_of_ne_nil S hne
  obtain ⟨m, -, hmin⟩ := hwf.has_min Set.univ ⟨⟨x, hx⟩, trivial⟩
  obtain ⟨u, hu, huv⟩ := hpred m.1 m.2
  exact hmin ⟨u, hu⟩ trivial (Relation.TransGen.single huv)

/-- Under the invariant, a vertex of `res` reached along edges from `x` has `x` earlier in
`res`. -/
theorem TopoInv.before_trans {graph : WeightedGraph T} {st : TopoState T}
    (hinv : TopoInv graph st) {x v : T} (h : Relation.TransGen graph.Adj x v) :
    ∀ pre post, st.res = pre ++ v :: post → x ∈ pre := by
  induction h with
  | single hxv => exact hinv.before _ _ hxv
  | @tail y z hxy hyv ih =>
    intro pre post hsplit
    have hy := hinv.before _ _ hyv pre post hsplit
    obtain ⟨p1, p2, hp⟩ := List.append_of_mem hy
    have := ih p1 (p2 ++ z :: post) (by rw [hsplit, hp]; simp)
    rw [hp]
    exact List.mem_append_left _ this

end GraphAlgorithms

namespace GraphAlgorithms

variable {T : Type} [DecidableEq T]

/-- C21. For a graph whose entries have pairwise distinct vertices and whose edge targets
are all vertices, with `order` any order in which the loop over `indegrees` visits the
vertices and at least `size()` iterations of fuel, `topologicalSort` returns a list: when
the graph is acyclic the list is a rearrangement of the vertices without repetition in
which, for every edge `u → v`, `u` stands before `v`; when the graph has a cycle the list is
empty. -/
theorem topologicalSort_spec (graph : WeightedGraph T) (order : List T) (fuel : Nat)
    (hnd : graph.vertices.Nodup) (hclosed : graph.Closed)
    (horder : order.Perm graph.vertices) (hfuel : graph.size ≤ fuel) :
    ∃ l, topologicalSort graph order fuel = some l ∧
      (graph.Acyclic → l.Perm graph.vertices ∧ l.Nodup ∧
        ∀ u v, graph.Adj u v → ∃ a b c, l = a ++ u :: b ++ v :: c) ∧
      (¬ graph.Acyclic → l = []) := by
  have hinit := TopoInv.initial graph order horder hnd
  obtain ⟨st1, hloop, hinv, hq⟩ := topoLoop_spec graph hnd hclosed fuel _ hinit
    (by simpa [WeightedGraph.size] using hfuel)
  have hres_nd : st1.res.Nodup := by
    have := hinv.nodup
    rw [hq, List.append_nil] at this
    exact this
  have hres_sub : ∀ v ∈ st1.res, v ∈ graph.vertices := by
    intro v hv
    exact hinv.subset v (List.mem_append_left _ hv)
  have hvlen : graph.vertices.length = graph.length := by
    simp [WeightedGraph.vertices]
  have hres_le : st1.res.length ≤ graph.length := by
    rw [← hvlen]
    exact length_le_of_nodup_subset hres_nd hres_sub
  have hperm_of_len : st1.res.length = graph.length → st1.res.Perm graph.vertices := by
    intro hlen
    exact (List.subperm_of_subset hres_nd hres_sub).perm_of_length_le (by omega)
  have hresult : topologicalSort graph order fuel =
      some (if st1.res.length ≠ graph.size then [] else st1.res) := by
    unfold topologicalSort
    rw [computeIndegrees_spec graph hnd]
    simp only [hloop]
  refine ⟨_, hresult, ?_, ?_⟩
  · intro hacyc
    have hlen : st1.res.length = graph.length := by
      by_contra hne
      have hS : (graph.vertices.filter (fun v => v ∉ st1.res)) ≠ [] := by
        intro hnil
        have hall : ∀ v ∈ graph.vertices, v ∈ st1.res := by
          intro v hv
          by_contra hnot
          have : v ∈ graph.vertices.filter (fun v => v ∉ st1.res) :=
            List.mem_filter.2 ⟨hv, by simpa using hnot⟩
          rw [hnil] at this
          cases this
        have := length_le_of_nodup_subset hnd hall
        omega
      obtain ⟨v, hv⟩ := exists_cycle_of_pred graph _ hS (by
        intro v hv
        obtain ⟨hvert, hnot⟩ := List.mem_filter.1 hv
        simp only [decide_not, Bool.not_eq_eq_eq_not, Bool.not_true,
          decide_eq_false_iff_not] at hnot
        have hnz : st1.indegrees v ≠ 0 := by
          intro hz
          have := (hinv.ready v hvert).2 hz
          rw [hq, List.append_nil] at this
          exact hnot this
        rw [hinv.indeg v] at hnz
        have hex : ¬ ∀ u, graph.Adj u v → u ∈ st1.res := fun h =>
          hnz (indegreeOutside_eq_zero.2 h)
        push_neg at hex
        obtain ⟨u, huv, hu⟩ := hex
        exact ⟨u, List.mem_filter.2 ⟨huv.source_mem, by simpa using hu⟩, huv⟩)
      exact hacyc v hv
    have hperm := hperm_of_len hlen
    have hl : (if st1.res.length ≠ graph.size then [] else st1.res) = st1.res := by
      rw [if_neg (by simpa [WeightedGraph.size] using hlen)]
    rw [hl]
    refine ⟨hperm, hres_nd, ?_⟩
    intro u v huv
    obtain ⟨w, hw⟩ := huv
    have hv : v ∈ st1.res := hperm.mem_iff.2 (hclosed u v w hw)
    obtain ⟨pre, post, hsplit⟩ := List.append_of_mem hv
    have hu := hinv.before u v ⟨w, hw⟩ pre post hsplit
    obtain ⟨a, b, hab⟩ := List.append_of_mem hu
    refine ⟨a, b, post, ?_⟩
    rw [hsplit, hab]
  · intro hcyc
    unfold WeightedGraph.Acyclic at hcyc
    push_neg at hcyc
    obtain ⟨v, hv⟩ := hcyc
    have hne : st1.res.length ≠ graph.size := by
      intro hlen
      have hperm := hperm_of_len hlen
      obtain ⟨y, hvy, -⟩ := Relation.TransGen.head'_iff.1 hv
      have hvres : v ∈ st1.res := hperm.mem_iff.2 hvy.source_mem
      obtain ⟨pre, post, hsplit⟩ := List.append_of_mem hvres
      have hpre := hinv.before_trans hv pre post hsplit
      rw [hsplit] at hres_nd
      exact (List.nodup_append.1 hres_nd).2.2 hpre (List.mem_cons_self _ _)
    rw [if_pos hne]

theorem exampleDag_closed : exampleDag.Closed := by
  rintro u v w ⟨adj, hadj, hmem⟩
  simp only [exampleDag, List.mem_cons, Prod.mk.injEq, List.mem_singleton,
    List.not_mem_nil, or_false] at hadj
  rcases hadj with ⟨-, rfl⟩ | ⟨-, rfl⟩ | ⟨-, rfl⟩
  · simp only [List.mem_cons, Prod.mk.injEq, List.mem_singleton, List.not_mem_nil,
      or_false] at hmem
    rcases hmem with ⟨rfl, -⟩ | ⟨rfl, -⟩ <;> decide
  · simp only [List.mem_singleton, Prod.mk.injEq] at hmem
    obtain ⟨rfl, -⟩ := hmem
    decide
  · cases hmem

theorem topologicalSort_spec_witness :
    (exampleDag.vertices.Nodup ∧ exampleDag.Closed ∧ [2, 0, 1].Perm exampleDag.vertices ∧
        exampleDag.size ≤ 3) ∧
      ∃ l, topologicalSort exampleDag [2, 0, 1] 3 = some l ∧
        (exampleDag.Acyclic → l.Perm exampleDag.vertices ∧ l.Nodup ∧
          ∀ u v, exampleDag.Adj u v → ∃ a b c, l = a ++ u :: b ++ v :: c) ∧
        (¬ exampleDag.Acyclic → l = []) :=
  ⟨⟨by decide, exampleDag_closed, by decide, by decide⟩,
    topologicalSort_spec exampleDag [2, 0, 1] 3 (by decide) exampleDag_closed (by decide)
      (by decide)⟩

end GraphAlgorithms

/-! ### `dijkstrasAlgorithm`: weights, walks and initialisation -/

namespace GraphAlgorithms

variable {T : Type}

theorem Walk.mem_vertices {graph : WeightedGraph T} {s v : T} {d : Int}
    (h : Walk graph s v d) (hs : s ∈ graph.vertices) (hv : v ∉ graph.vertices) :
    ∃ u d1 w, Walk graph s u d1 ∧ graph.Edge u v w ∧ d = d1 + w := by
  cases h with
  | nil => exact absurd hs hv
  | snoc hwalk hedge => exact ⟨_, _, _, hwalk, hedge, rfl⟩

theorem Walk.nonneg {graph : WeightedGraph T} (hnn : graph.NonNegative) {s v : T} {d : Int}
    (h : Walk graph s v d) : 0 ≤ d := by
  induction h with
  | nil => exact le_refl 0
  | snoc _ hedge ih =>
    have := hnn _ _ _ hedge
    omega

variable [DecidableEq T]

theorem weightIn_of_mem {v : T} {w : Int} {adj : List (T × Int)}
    (hnd : (adj.map Prod.fst).Nodup) (h : (v, w) ∈ adj) : weightIn v adj = some w := by
  induction adj with
  | nil => cases h
  | cons edge rest ih =>
    have hnd1 : edge.1 ∉ rest.map Prod.fst ∧ (rest.map Prod.fst).Nodup := List.nodup_cons.1 hnd
    unfold weightIn
    rcases List.mem_cons.1 h with he | hr
    · rw [← he]
      simp
    · have hne : edge.1 ≠ v := by
        intro heq
        apply hnd1.1
        rw [heq]
        exact List.mem_map.2 ⟨(v, w), hr, rfl⟩
      rw [if_neg hne]
      exact ih hnd1.2 hr

theorem weightIn_mem {v : T} {w : Int} {adj : List (T × Int)}
    (h : weightIn v adj = some w) : (v, w) ∈ adj := by
  induction adj with
  | nil => cases h
  | cons edge rest ih =>
    unfold weightIn at h
    by_cases he : edge.1 = v
    · rw [if_pos he] at h
      simp only [Option.some.injEq] at h
      have : edge = (v, w) := Prod.ext he h
      rw [this]
      exact List.mem_cons_self _ _
    · rw [if_neg he] at h
      exact List.mem_cons_of_mem _ (ih h)

theorem WeightedGraph.weight_of_edge {graph : WeightedGraph T} (hwf : graph.WellFormed)
    {u v : T} {w : Int} (h : graph.Edge u v w) : graph.weight u v = some w := by
  obtain ⟨adj, hadj, hmem⟩ := h
  unfold WeightedGraph.weight
  rw [WeightedGraph.at_of_mem hwf.vertices_nodup hadj]
  exact weightIn_of_mem (hwf.targets_nodup _ hadj) hmem

theorem WeightedGraph.edge_of_weight {graph : WeightedGraph T} {u v : T} {w : Int}
    (h : graph.weight u v = some w) : graph.Edge u v w := by
  unfold WeightedGraph.weight at h
  rcases hat : graph.at_ u with _ | adj
  · rw [hat] at h
    cases h
  · rw [hat] at h
    exact ⟨adj, WeightedGraph.at_mem hat, weightIn_mem h⟩

theorem initEntries_spec (infinity : Int) (entries : List (T × List (T × Int)))
    (maps : (T → Int) × (T → Option T)) (v : T) :
    (initEntries infinity entries maps).1 v =
        (if v ∈ entries.map Prod.fst then infinity else maps.1 v) ∧
      (initEntries infinity entries maps).2 v =
        (if v ∈ entries.map Prod.fst then none else maps.2 v) := by
  induction entries generalizing maps with
  | nil => simp [initEntries]
  | cons entry rest ih =>
    unfold initEntries
    obtain ⟨h1, h2⟩ := ih (Function.update maps.1 entry.1 infinity,
      Function.update maps.2 entry.1 none)
    rw [h1, h2]
    simp only [List.map_cons, List.mem_cons]
    by_cases hr : v ∈ rest.map Prod.fst
    · simp [hr]
    · by_cases he : v = entry.1
      · subst he
        simp [hr]
      · simp [hr, he, Function.update_noteq he]

/-- The state in which the `while` loop of `dijkstrasAlgorithm` is entered satisfies the
invariant. -/
theorem DijkstraInv.on_entry (infinity : Int) (graph : WeightedGraph T) (source : T)
    (hwf : graph.WellFormed) (hs : source ∈ graph.vertices) (hinf : 0 < infinity) :
    ∃ distances predecessors,
      initializeSingleSource infinity graph source = .ok (distances, predecessors) ∧
      DijkstraInv infinity graph source (fun _ _ _ => False)
        { distances := distances, predecessors := predecessors, s := [],
          q := graph.vertices } := by
  obtain ⟨D, hD⟩ : ∃ D : T → Int, D =
      Function.update (initEntries infinity graph (fun _ => 0, fun _ => none)).1 source 0 :=
    ⟨_, rfl⟩
  obtain ⟨P, hP⟩ : ∃ P : T → Option T, P =
      (initEntries infinity graph (fun _ => (0 : Int), fun _ => (none : Option T))).2 :=
    ⟨_, rfl⟩
  have hd : ∀ v, D v = if v = source then 0 else if v ∈ graph.vertices then infinity else 0 := by
    intro v
    rw [hD]
    by_cases hv : v = source
    · subst hv
      simp
    · rw [Function.update_noteq hv, (initEntries_spec infinity graph _ v).1, if_neg hv]
      rfl
  have hp : ∀ v, P v = none := by
    intro v
    rw [hP, (initEntries_spec infinity graph _ v).2]
    split <;> rfl
  refine ⟨D, P, ?_, ?_⟩
  · unfold initializeSingleSource
    simp only [hs, if_true]
    rw [hD, hP]
  refine ⟨List.nodup_nil, hwf.vertices_nodup, ?_, ?_, ?_, ?_, ?_, ?_, ?_, ?_, ?_, ?_, ?_, ?_⟩
  · intro v
    simp
  · intro v hv
    cases hv
  · show D source = 0
    rw [hd source, if_pos rfl]
  · intro v hv
    refine ⟨?_, hp v⟩
    show D v = 0
    have hne : v ≠ source := fun h => hv (h ▸ hs)
    rw [hd v, if_neg hne, if_neg hv]
  · intro v
    show 0 ≤ D v ∧ D v ≤ infinity
    rw [hd v]
    split
    · omega
    · split <;> omega
  · intro v hv hlt
    have hlt1 : D v < infinity := hlt
    show Walk graph source v (D v)
    rw [hd v] at hlt1 ⊢
    by_cases hvs : v = source
    · rw [if_pos hvs, hvs]
      exact Walk.nil
    · rw [if_neg hvs, if_pos hv] at hlt1
      omega
  · intro u hu
    cases hu
  · intro u hu
    cases hu
  · exact hp source
  · intro v u hvu
    have : P v = some u := hvu
    rw [hp v] at this
    cases this
  · intro v hv hvs hlt
    have hlt1 : D v < infinity := hlt
    rw [hd v, if_neg hvs, if_pos hv] at hlt1
    omega
  · intro v u _ pre post hsplit
    simp at hsplit

end GraphAlgorithms

/-! ### `dijkstrasAlgorithm`: relaxing the edges of a visited vertex -/

namespace GraphAlgorithms

variable {T : Type} [DecidableEq T]

/-- The set of pending edges may change as long as every edge it no longer holds is
relaxed. -/
theorem DijkstraInv.pending_change {infinity : Int} {graph : WeightedGraph T} {source : T}
    {P P1 : T → T → Int → Prop} {st : DijkstraState T}
    (hinv : DijkstraInv infinity graph source P st)
    (hrel : ∀ a ∈ st.s, ∀ x y, graph.Edge a x y → ¬ P1 a x y → P a x y →
      st.distances x ≤ st.distances a + y) :
    DijkstraInv infinity graph source P1 st := by
  refine ⟨hinv.s_nodup, hinv.q_nodup, hinv.partition, hinv.disjoint, hinv.source_zero,
    hinv.outside, hinv.range, hinv.realized, hinv.optimal, ?_, hinv.pred_source,
    hinv.pred_some, hinv.pred_none, hinv.pred_before⟩
  intro a ha x y hedge hP1
  by_cases hP : P a x y
  · exact hrel a ha x y hedge hP1 hP
  · exact hinv.relaxed a ha x y hedge hP

/-- The walk to a visited vertex that its distance is the weight of. -/
theorem DijkstraInv.walk_visited {infinity : Int} {graph : WeightedGraph T} {source : T}
    {P : T → T → Int → Prop} {st : DijkstraState T}
    (hinv : DijkstraInv infinity graph source P st) {u : T} (hu : u ∈ st.s) :
    Walk graph source u (st.distances u) :=
  hinv.realized u ((hinv.partition u).2 (Or.inl hu)) (hinv.optimal u hu).1

/-- A successful `relax` of an edge from the visited vertex `u` to an unvisited vertex `v`
keeps the invariant. -/
theorem DijkstraInv.relax_update {infinity : Int} {graph : WeightedGraph T} {source : T}
    {P : T → T → Int → Prop} {st : DijkstraState T} (hwf : graph.WellFormed)
    (hinv : DijkstraInv infinity graph source P st) {u v : T} {w : Int}
    (hu : u ∈ st.s) (hv : v ∉ st.s) (hedge : graph.Edge u v w) (hw : 0 ≤ w)
    (hlt : st.distances u + w < st.distances v) :
    v ∈ st.q ∧
      DijkstraInv infinity graph source P
        { st with
            distances := Function.update st.distances v (st.distances u + w)
            predecessors := Function.update st.predecessors v (some u) } := by
  have huv : u ≠ v := fun h => hv (h ▸ hu)
  have hdu := (hinv.range u).1
  have hbelow : st.distances u + w < infinity := by
    have := (hinv.range v).2
    omega
  have hvV : v ∈ graph.vertices := by
    by_contra hnot
    have := (hinv.outside v hnot).1
    omega
  have hvs : v ≠ source := by
    intro h
    have := hinv.source_zero
    rw [← h] at this
    omega
  have hvq : v ∈ st.q := by
    rcases (hinv.partition v).1 hvV with h | h
    · exact absurd h hv
    · exact h
  have hd : ∀ x, x ≠ v → Function.update st.distances v (st.distances u + w) x =
      st.distances x := fun x hx => Function.update_noteq hx _ _
  have hdv : Function.update st.distances v (st.distances u + w) v = st.distances u + w :=
    Function.update_same _ _ _
  have hp : ∀ x, x ≠ v → Function.update st.predecessors v (some u) x =
      st.predecessors x := fun x hx => Function.update_noteq hx _ _
  have hpv : Function.update st.predecessors v (some u) v = some u :=
    Function.update_same _ _ _
  have hs_ne : ∀ a ∈ st.s, a ≠ v := fun a ha h => hv (h ▸ ha)
  refine ⟨hvq, hinv.s_nodup, hinv.q_nodup, hinv.partition, hinv.disjoint, ?_, ?_, ?_, ?_, ?_,
    ?_, ?_, ?_, ?_, ?_⟩
  · show Function.update st.distances v _ source = 0
    rw [hd source (Ne.symm hvs)]
    exact hinv.source_zero
  · intro x hx
    have hxv : x ≠ v := fun h => hx (h ▸ hvV)
    show Function.update st.distances v _ x = 0 ∧ Function.update st.predecessors v _ x = none
    rw [hd x hxv, hp x hxv]
    exact hinv.outside x hx
  · intro x
    show 0 ≤ Function.update st.distances v _ x ∧ Function.update st.distances v _ x ≤ infinity
    by_cases hxv : x = v
    · rw [hxv, hdv]
      omega
    · rw [hd x hxv]
      exact hinv.range x
  · intro x hx hxlt
    have hxlt1 : Function.update st.distances v (st.distances u + w) x < infinity := hxlt
    show Walk graph source x (Function.update st.distances v _ x)
    by_cases hxv : x = v
    · rw [hxv, hdv]
      exact Walk.snoc (hinv.walk_visited hu) hedge
    · rw [hd x hxv] at hxlt1 ⊢
      exact hinv.realized x hx hxlt1
  · intro a ha
    show Function.update st.distances v _ a < infinity ∧
      ∀ d, Walk graph source a d → Function.update st.distances v _ a ≤ d
    rw [hd a (hs_ne a ha)]
    exact hinv.optimal a ha
  · intro a ha x y hax hP
    show Function.update st.distances v _ x ≤ Function.update st.distances v _ a + y
    rw [hd a (hs_ne a ha)]
    have hold := hinv.relaxed a ha x y hax hP
    by_cases hxv : x = v
    · rw [hxv, hdv]
      rw [hxv] at hold
      omega
    · rw [hd x hxv]
      exact hold
  · show Function.update st.predecessors v _ source = none
    rw [hp source (Ne.symm hvs)]
    exact hinv.pred_source
  · intro x p hxp
    have hxp1 : Function.update st.predecessors v (some u) x = some p := hxp
    show p ∈ st.s ∧ Function.update st.distances v _ x < infinity ∧
      ∃ w1, graph.weight p x = some w1 ∧
        Function.update st.distances v _ x = Function.update st.distances v _ p + w1
    by_cases hxv : x = v
    · rw [hxv, hpv] at hxp1
      simp only [Option.some.injEq] at hxp1
      subst hxp1
      rw [hxv, hdv, hd u huv]
      exact ⟨hu, hbelow, w, WeightedGraph.weight_of_edge hwf hedge, rfl⟩
    · rw [hp x hxv] at hxp1
      obtain ⟨h1, h2, w1, h3, h4⟩ := hinv.pred_some x p hxp1
      rw [hd x hxv, hd p (hs_ne p h1)]
      exact ⟨h1, h2, w1, h3, h4⟩
  · intro x hx hxs hxlt
    have hxlt1 : Function.update st.distances v (st.distances u + w) x < infinity := hxlt
    show Function.update st.predecessors v _ x ≠ none
    by_cases hxv : x = v
    · rw [hxv, hpv]
      simp
    · rw [hd x hxv] at hxlt1
      rw [hp x hxv]
      exact hinv.pred_none x hx hxs hxlt1
  · intro x p hxp pre post hsplit
    have hxp1 : Function.update st.predecessors v (some u) x = some p := hxp
    have hsplit1 : st.s = pre ++ x :: post := hsplit
    have hxs : x ∈ st.s := by
      rw [hsplit1]
      simp
    rw [hp x (hs_ne x hxs)] at hxp1
    exact hinv.pred_before x p hxp1 pre post hsplit1

/-- The loop over the adjacency list of the vertex `u` just taken off the queue, when no sum
it forms leaves the range of the weight type, has a defined result, leaves the visited set
and the queue as they are, and relaxes every edge out of `u`. -/
theorem relaxAdjacent_spec {infinity : Int} {graph : WeightedGraph T} {source : T}
    (hwf : graph.WellFormed) (hnn : graph.NonNegative) (u : T)
    (adj : List (T × Int)) (hadj : (u, adj) ∈ graph) (todo : List (T × Int))
    (htodo : ∀ e ∈ todo, e ∈ adj) (st : DijkstraState T) (hu : u ∈ st.s)
    (hinv : DijkstraInv infinity graph source (fun a v w => a = u ∧ (v, w) ∈ todo) st)
    (hno : relaxAdjacent infinity u todo st ≠ .error .overflow) :
    ∃ st1, relaxAdjacent infinity u todo st = .ok st1 ∧
      DijkstraInv infinity graph source (fun _ _ _ => False) st1 ∧
      st1.s = st.s ∧ st1.q = st.q := by
  induction todo generalizing st with
  | nil =>
    refine ⟨st, rfl, ?_, rfl, rfl⟩
    apply hinv.pending_change
    rintro a - x y - - ⟨-, hmem⟩
    cases hmem
  | cons edge rest ih =>
    have hedge : graph.Edge u edge.1 edge.2 := ⟨adj, hadj, htodo edge (List.mem_cons_self _ _)⟩
    have hw := hnn _ _ _ hedge
    have hrest : ∀ e ∈ rest, e ∈ adj := fun e he => htodo e (List.mem_cons_of_mem _ he)
    have hwalk := hinv.walk_visited hu
    have hdu := (hinv.range u).1
    have hcases : ∀ a x y, ¬ (a = u ∧ (x, y) ∈ rest) → (a = u ∧ (x, y) ∈ edge :: rest) →
        a = u ∧ x = edge.1 ∧ y = edge.2 := by
      intro a x y h1 h2
      obtain ⟨hau, hmem⟩ := h2
      rcases List.mem_cons.1 hmem with he | hr
      · exact ⟨hau, by rw [← he], by rw [← he]⟩
      · exact absurd ⟨hau, hr⟩ h1
    by_cases hvis : edge.1 ∈ st.s
    · have hinv1 : DijkstraInv infinity graph source (fun a v w => a = u ∧ (v, w) ∈ rest) st := by
        apply hinv.pending_change
        intro a _ x y _ h1 h2
        obtain ⟨rfl, rfl, rfl⟩ := hcases a x y h1 h2
        exact (hinv.optimal edge.1 hvis).2 _ (Walk.snoc hwalk hedge)
      have heq : relaxAdjacent infinity u (edge :: rest) st =
          relaxAdjacent infinity u rest st := by
        conv_lhs => unfold relaxAdjacent
        rw [if_pos hvis]
      rw [heq] at hno ⊢
      exact ih hrest st hu hinv1 hno
    · have hnov : ¬ (st.distances u + edge.2 > infinity ∨
          st.distances u + edge.2 < -infinity - 1) := by
        intro h
        apply hno
        unfold relaxAdjacent
        rw [if_neg hvis]
        unfold relax
        simp only [if_pos h]
      by_cases hlt : st.distances u + edge.2 < st.distances edge.1
      · obtain ⟨hq, hinv0⟩ := hinv.relax_update hwf hu hvis hedge hw hlt
        have hqne : st.q.isEmpty = false := by
          rcases hql : st.q with _ | ⟨y, ys⟩
          · rw [hql] at hq
            cases hq
          · rfl
        have hinv1 : DijkstraInv infinity graph source (fun a v w => a = u ∧ (v, w) ∈ rest)
            { st with
                distances := Function.update st.distances edge.1 (st.distances u + edge.2)
                predecessors := Function.update st.predecessors edge.1 (some u) } := by
          apply hinv0.pending_change
          intro a _ x y _ h1 h2
          obtain ⟨rfl, rfl, rfl⟩ := hcases a x y h1 h2
          show Function.update st.distances edge.1 _ edge.1 ≤
            Function.update st.distances edge.1 _ a + edge.2
          have hne : a ≠ edge.1 := fun h => hvis (h ▸ hu)
          rw [Function.update_same, Function.update_noteq hne]
        have heq : relaxAdjacent infinity u (edge :: rest) st =
            relaxAdjacent infinity u rest
              { st with
                  distances := Function.update st.distances edge.1 (st.distances u + edge.2)
                  predecessors := Function.update st.predecessors edge.1 (some u) } := by
          conv_lhs => unfold relaxAdjacent
          rw [if_neg hvis]
          unfold relax updateHeap
          simp only [if_neg hnov, if_pos hlt, hqne, Bool.false_eq_true, if_false]
        rw [heq] at hno ⊢
        exact ih hrest _ hu hinv1 hno
      · have hinv1 : DijkstraInv infinity graph source
            (fun a v w => a = u ∧ (v, w) ∈ rest) st := by
          apply hinv.pending_change
          intro a _ x y _ h1 h2
          obtain ⟨rfl, rfl, rfl⟩ := hcases a x y h1 h2
          omega
        have heq : relaxAdjacent infinity u (edge :: rest) st =
            relaxAdjacent infinity u rest st := by
          conv_lhs => unfold relaxAdjacent
          rw [if_neg hvis]
          unfold relax
          simp only [if_neg hnov, if_neg hlt]
        rw [heq] at hno ⊢
        exact ih hrest st hu hinv1 hno

end GraphAlgorithms

/-! ### `dijkstrasAlgorithm`: the `while` loop -/

namespace GraphAlgorithms

variable {T : Type} [DecidableEq T]

/-- Every walk to an unvisited vertex weighs at least as much as the distance of some
vertex of the queue. -/
theorem DijkstraInv.queue_below {infinity : Int} {graph : WeightedGraph T} {source : T}
    {st : DijkstraState T} (hinv : DijkstraInv infinity graph source (fun _ _ _ => False) st)
    (hnn : graph.NonNegative) (hs : source ∈ graph.vertices) {v : T} {d : Int}
    (hwalk : Walk graph source v d) (hv : v ∈ graph.vertices) (hvs : v ∉ st.s) :
    ∃ y ∈ st.q, st.distances y ≤ d := by
  induction hwalk with
  | nil =>
    rcases (hinv.partition source).1 hs with h | h
    · exact absurd h hvs
    · exact ⟨source, h, le_of_eq hinv.source_zero⟩
  | @snoc u x d1 w hwalk1 hedge ih =>
    have hw := hnn _ _ _ hedge
    by_cases hus : u ∈ st.s
    · have h1 := (hinv.optimal u hus).2 d1 hwalk1
      have h2 := hinv.relaxed u hus x w hedge (fun h => h)
      rcases (hinv.partition x).1 hv with h | h
      · exact absurd h hvs
      · exact ⟨x, h, by omega⟩
    · obtain ⟨y, hy, hyd⟩ := ih hedge.source_vertex hus
      exact ⟨y, hy, by omega⟩

/-- Taking a vertex `u` with the least distance off the queue keeps the invariant, its
outgoing edges pending. -/
theorem DijkstraInv.pop {infinity : Int} {graph : WeightedGraph T} {source : T}
    {st : DijkstraState T} (hinv : DijkstraInv infinity graph source (fun _ _ _ => False) st)
    (hwf : graph.WellFormed) (hnn : graph.NonNegative) (hs : source ∈ graph.vertices)
    {u : T} (huq : u ∈ st.q) (hmin : ∀ y ∈ st.q, st.distances u ≤ st.distances y)
    (hfin : st.distances u ≠ infinity) {adj : List (T × Int)}
    (hat : graph.at_ u = some adj) :
    (if u ∈ st.s then st.s else st.s ++ [u]) = st.s ++ [u] ∧
      DijkstraInv infinity graph source (fun a v w => a = u ∧ (v, w) ∈ adj)
        { st with q := st.q.erase u, s := st.s ++ [u] } := by
  have hus : u ∉ st.s := fun h => hinv.disjoint u h huq
  have huV : u ∈ graph.vertices := (hinv.partition u).2 (Or.inr huq)
  refine ⟨if_neg hus, ?_, ?_, ?_, ?_, hinv.source_zero, hinv.outside, hinv.range,
    hinv.realized, ?_, ?_, hinv.pred_source, ?_, hinv.pred_none, ?_⟩
  · show (st.s ++ [u]).Nodup
    refine List.nodup_append.2 ⟨hinv.s_nodup, List.nodup_singleton u, ?_⟩
    intro a ha hb
    rw [List.mem_singleton] at hb
    exact hus (hb ▸ ha)
  · exact hinv.q_nodup.erase u
  · intro v
    show v ∈ graph.vertices ↔ (v ∈ st.s ++ [u] ∨ v ∈ st.q.erase u)
    rw [hinv.partition v, hinv.q_nodup.mem_erase_iff, List.mem_append, List.mem_singleton]
    constructor
    · rintro (h | h)
      · exact Or.inl (Or.inl h)
      · by_cases hvu : v = u
        · exact Or.inl (Or.inr hvu)
        · exact Or.inr ⟨hvu, h⟩
    · rintro ((h | h) | ⟨-, h⟩)
      · exact Or.inl h
      · exact Or.inr (h ▸ huq)
      · exact Or.inr h
  · intro v hv
    show v ∉ st.q.erase u
    have hv1 : v ∈ st.s ++ [u] := hv
    rw [hinv.q_nodup.mem_erase_iff]
    rintro ⟨hne, hq⟩
    rcases List.mem_append.1 hv1 with h | h
    · exact hinv.disjoint v h hq
    · exact hne (List.mem_singleton.1 h)
  · intro a ha
    have ha1 : a ∈ st.s ++ [u] := ha
    rcases List.mem_append.1 ha1 with h | h
    · exact hinv.optimal a h
    · rw [List.mem_singleton.1 h]
      refine ⟨lt_of_le_of_ne (hinv.range u).2 hfin, ?_⟩
      intro d hwalk
      obtain ⟨y, hy, hyd⟩ := hinv.queue_below hnn hs hwalk huV hus
      have := hmin y hy
      show st.distances u ≤ d
      omega
  · intro a ha x y hedge hpend
    have ha1 : a ∈ st.s ++ [u] := ha
    rcases List.mem_append.1 ha1 with h | h
    · exact hinv.relaxed a h x y hedge (fun h => h)
    · exfalso
      apply hpend
      have hau := List.mem_singleton.1 h
      refine ⟨hau, ?_⟩
      obtain ⟨adj1, hadj1, hmem⟩ := hedge
      rw [hau] at hadj1
      have := WeightedGraph.at_of_mem hwf.vertices_nodup hadj1
      rw [hat] at this
      simp only [Option.some.injEq] at this
      rw [this]
      exact hmem
  · intro v p hvp
    obtain ⟨h1, h2⟩ := hinv.pred_some v p hvp
    exact ⟨List.mem_append_left _ h1, h2⟩
  · intro v p hvp pre post hsplit
    have hsplit1 : st.s ++ [u] = pre ++ v :: post := hsplit
    rcases List.eq_nil_or_concat post with hp | ⟨L, b, hp⟩
    · subst hp
      have h1 : st.s ++ [u] = pre ++ [v] := hsplit1
      obtain ⟨h2, -⟩ := List.append_inj' h1 rfl
      rw [← h2]
      exact (hinv.pred_some v p hvp).1
    · subst hp
      have h1 : st.s ++ [u] = (pre ++ v :: L) ++ [b] := by
        rw [hsplit1]
        simp
      obtain ⟨h2, -⟩ := List.append_inj' h1 rfl
      exact hinv.pred_before v p hvp pre L h2

/-- The `while` loop of `dijkstrasAlgorithm`, when no sum it forms leaves the range of the
weight type, comes to its end within as many iterations as the queue holds vertices, with
the invariant, and with every vertex left on the queue at distance `infinity`. -/
theorem dijkstraLoop_spec {top : (T → Int) → List T → T} (htop : TopSpec top)
    {infinity : Int} {graph : WeightedGraph T} {source : T} (hwf : graph.WellFormed)
    (hnn : graph.NonNegative) (hs : source ∈ graph.vertices) (fuel : Nat)
    (st : DijkstraState T) (hinv : DijkstraInv infinity graph source (fun _ _ _ => False) st)
    (hfuel : st.q.length ≤ fuel)
    (hno : dijkstraLoop top infinity graph fuel st ≠ .error .overflow) :
    ∃ st1, dijkstraLoop top infinity graph fuel st = .ok st1 ∧
      DijkstraInv infinity graph source (fun _ _ _ => False) st1 ∧
      ∀ y ∈ st1.q, st1.distances y = infinity := by
  induction fuel generalizing st with
  | zero =>
    have hq : st.q = [] := List.length_eq_zero.1 (by omega)
    refine ⟨st, ?_, hinv, ?_⟩
    · unfold dijkstraLoop
      simp [hq]
    · intro y hy
      rw [hq] at hy
      cases hy
  | succ fuel ih =>
    rcases hq : st.q with _ | ⟨y0, ys⟩
    · refine ⟨st, ?_, hinv, ?_⟩
      · unfold dijkstraLoop
        simp [hq]
      · intro y hy
        rw [hq] at hy
        cases hy
    · have hne : st.q ≠ [] := by
        rw [hq]
        exact List.cons_ne_nil _ _
      have hemp : st.q.isEmpty = false := by
        rw [hq]
        rfl
      obtain ⟨huq, hmin⟩ := htop st.distances st.q hne
      by_cases hfin : st.distances (top st.distances st.q) = infinity
      · refine ⟨st, ?_, hinv, ?_⟩
        · unfold dijkstraLoop
          simp only [hemp, Bool.false_eq_true, if_false, hfin, if_true]
        · intro y hy
          have h1 := hmin y hy
          have h2 := (hinv.range y).2
          omega
      · have huV : top st.distances st.q ∈ graph.vertices :=
          (hinv.partition _).2 (Or.inr huq)
        obtain ⟨adj, hat⟩ := WeightedGraph.at_isSome huV
        obtain ⟨hs_eq, hinv1⟩ := hinv.pop hwf hnn hs huq hmin hfin hat
        have hstep : dijkstraLoop top infinity graph (fuel + 1) st =
            match relaxAdjacent infinity (top st.distances st.q) adj
                { st with q := st.q.erase (top st.distances st.q),
                          s := st.s ++ [top st.distances st.q] } with
            | .error e => .error e
            | .ok st1 => dijkstraLoop top infinity graph fuel st1 := by
          conv_lhs => unfold dijkstraLoop
          simp only [hemp, Bool.false_eq_true, if_false, hfin, hat, hs_eq]
        have hno1 : relaxAdjacent infinity (top st.distances st.q) adj
            { st with q := st.q.erase (top st.distances st.q),
                      s := st.s ++ [top st.distances st.q] } ≠ .error .overflow := by
          intro h
          apply hno
          rw [hstep, h]
        obtain ⟨st1, h1, h2, h3, h4⟩ := relaxAdjacent_spec hwf hnn
          (top st.distances st.q) adj (WeightedGraph.at_mem hat) adj (fun e he => he)
          { st with q := st.q.erase (top st.distances st.q),
                    s := st.s ++ [top st.distances st.q] }
          (List.mem_append_right _ (List.mem_singleton_self _)) hinv1 hno1
        have hlen : st1.q.length ≤ fuel := by
          rw [h4]
          show (st.q.erase (top st.distances st.q)).length ≤ fuel
          rw [List.length_erase_of_mem huq]
          omega
        rw [h1] at hstep
        rw [hstep] at hno ⊢
        exact ih st1 h2 hlen hno

/-- When the `while` loop has come to its end every vertex that a walk of weight less than
`infinity` reaches from the source is visited. -/
theorem DijkstraInv.reachable_visited {infinity : Int} {graph : WeightedGraph T} {source : T}
    {st : DijkstraState T} (hinv : DijkstraInv infinity graph source (fun _ _ _ => False) st)
    (hnn : graph.NonNegative) (hs : source ∈ graph.vertices)
    (hq : ∀ y ∈ st.q, st.distances y = infinity)
    {v : T} {d : Int} (hwalk : Walk graph source v d) (hd : d < infinity)
    (hv : v ∈ graph.vertices) : v ∈ st.s := by
  induction hwalk with
  | nil =>
    rcases (hinv.partition source).1 hs with h | h
    · exact h
    · have := hq source h
      have := hinv.source_zero
      omega
  | @snoc u x d1 w hwalk1 hedge ih =>
    have hw := hnn _ _ _ hedge
    have hus := ih (by omega) hedge.source_vertex
    have h1 := hinv.relaxed u hus x w hedge (fun h => h)
    have h2 := (hinv.optimal u hus).2 d1 hwalk1
    rcases (hinv.partition x).1 hv with h | h
    · exact h
    · have := hq x h
      omega

end GraphAlgorithms

/-! ### `dijkstrasAlgorithm`: the returned path -/

namespace GraphAlgorithms

variable {T : Type}

theorem walkBack_none (predecessors : T → Option T) (fuel : Nat) (curr : T) (res : List T)
    (h : predecessors curr = none) : walkBack predecessors fuel curr res = .ok res := by
  cases fuel with
  | zero =>
    unfold walkBack
    simp [h]
  | succ fuel =>
    unfold walkBack
    simp only [h]

variable [DecidableEq T]

theorem pathWeight_chain {graph : WeightedGraph T} {l : List T} {d : Int}
    (h : pathWeight graph l = some d) : l.Chain' graph.Adj := by
  induction l generalizing d with
  | nil => exact List.chain'_nil
  | cons u rest ih =>
    cases rest with
    | nil => exact List.chain'_singleton u
    | cons v rest1 =>
      unfold pathWeight at h
      rcases hw : graph.weight u v with _ | w
      · simp [hw] at h
      · rcases hp : pathWeight graph (v :: rest1) with _ | d1
        · simp [hw, hp] at h
        · exact List.chain'_cons.2 ⟨⟨w, WeightedGraph.edge_of_weight hw⟩, ih hp⟩

/-- Walking back along the predecessors from a visited vertex ends at the source and
builds a path whose weight is the distance of the destination. -/
theorem walkBack_spec {infinity : Int} {graph : WeightedGraph T} {source : T}
    {P : T → T → Int → Prop} {st : DijkstraState T}
    (hinv : DijkstraInv infinity graph source P st) (target : T) (fuel : Nat) (curr : T)
    (tail pre post : List T) (hsplit : st.s = pre ++ curr :: post) (hfuel : pre.length ≤ fuel)
    (hweight : pathWeight graph (curr :: tail) =
      some (st.distances target - st.distances curr))
    (hlast : (curr :: tail).getLast? = some target) :
    ∃ l, walkBack st.predecessors fuel curr (curr :: tail) = .ok l ∧
      l.head? = some source ∧ l.getLast? = some target ∧
      pathWeight graph l = some (st.distances target) := by
  have hbase : ∀ c tl front back, st.s = front ++ c :: back →
      pathWeight graph (c :: tl) = some (st.distances target - st.distances c) →
      (c :: tl).getLast? = some target → st.predecessors c = none →
      (c :: tl).head? = some source ∧ pathWeight graph (c :: tl) = some (st.distances target) := by
    intro c tl front back hs hw _ hnone
    have hcs : c ∈ st.s := by
      rw [hs]
      simp
    have hcV : c ∈ graph.vertices := (hinv.partition c).2 (Or.inl hcs)
    have hc : c = source := by
      by_contra hne
      exact hinv.pred_none c hcV hne (hinv.optimal c hcs).1 hnone
    refine ⟨by rw [hc]; rfl, ?_⟩
    rw [hw, hc, hinv.source_zero]
    simp
  induction fuel generalizing curr tail pre post with
  | zero =>
    have hpre : pre = [] := List.length_eq_zero.1 (by omega)
    have hnone : st.predecessors curr = none := by
      rcases hp : st.predecessors curr with _ | p
      · rfl
      · have := hinv.pred_before curr p hp pre post hsplit
        rw [hpre] at this
        cases this
    obtain ⟨h1, h2⟩ := hbase curr tail pre post hsplit hweight hlast hnone
    exact ⟨curr :: tail, walkBack_none _ _ _ _ hnone, h1, hlast, h2⟩
  | succ fuel ih =>
    rcases hp : st.predecessors curr with _ | p
    · obtain ⟨h1, h2⟩ := hbase curr tail pre post hsplit hweight hlast hp
      exact ⟨curr :: tail, walkBack_none _ _ _ _ hp, h1, hlast, h2⟩
    · have hmem := hinv.pred_before curr p hp pre post hsplit
      obtain ⟨-, -, w, hw, hd⟩ := hinv.pred_some curr p hp
      obtain ⟨p1, p2, hpre⟩ := List.append_of_mem hmem
      have hsplit1 : st.s = p1 ++ p :: (p2 ++ curr :: post) := by
        rw [hsplit, hpre]
        simp
      have hlen : p1.length ≤ fuel := by
        rw [hpre] at hfuel
        simp at hfuel
        omega
      have hweight1 : pathWeight graph (p :: curr :: tail) =
          some (st.distances target - st.distances p) := by
        unfold pathWeight
        simp only [hw, hweight]
        congr 1
        omega
      have hlast1 : (p :: curr :: tail).getLast? = some target := by
        rw [List.getLast?_cons_cons]
        exact hlast
      obtain ⟨l, h1, h2, h3, h4⟩ := ih p (curr :: tail) p1 (p2 ++ curr :: post) hsplit1 hlen
        hweight1 hlast1
      refine ⟨l, ?_, h2, h3, h4⟩
      unfold walkBack
      simp only [hp]
      exact h1

/-- The amended C22.  For a graph of the data model with non-negative edge weights, for
vertices `s` and `t` of the graph such that `t`, when it is reached from `s`, is reached by a
walk of weight less than `infinity`, a `top` that answers an element of the queue with the
least distance, and at least `size()` iterations of fuel, a run of `dijkstrasAlgorithm` in
which no sum leaves the range of the weight type returns a list: when `t` is reached from
`s` the list starts with `s`, ends with `t`, every two consecutive vertices are joined by an
edge, and its total weight is the least weight of a walk from `s` to `t` (the list is `[s]`
when `s = t`); when `t` is not reached from `s` the list is empty. -/
theorem dijkstrasAlgorithm_spec (top : (T → Int) → List T → T) (infinity : Int)
    (graph : WeightedGraph T) (s t : T) (fuel : Nat) (htop : TopSpec top)
    (hwf : graph.WellFormed) (hnn : graph.NonNegative)
    (hno : dijkstrasAlgorithm top infinity graph s t fuel ≠ .error .overflow)
    (hfin : (∃ d, Walk graph s t d) → ∃ d, Walk graph s t d ∧ d < infinity)
    (hinf : 0 < infinity)
    (hs : s ∈ graph.vertices) (ht : t ∈ graph.vertices) (hfuel : graph.size ≤ fuel) :
    ∃ l, dijkstrasAlgorithm top infinity graph s t fuel = .ok l ∧
      ((∃ d, Walk graph s t d) →
        ∃ d0, l.head? = some s ∧ l.getLast? = some t ∧ l.Chain' graph.Adj ∧
          pathWeight graph l = some d0 ∧ Walk graph s t d0 ∧
          ∀ d, Walk graph s t d → d0 ≤ d) ∧
      ((¬ ∃ d, Walk graph s t d) → l = []) ∧
      (s = t → l = [s]) := by
  obtain ⟨D, P, hinit, hinv0⟩ := DijkstraInv.on_entry infinity graph s hwf hs hinf
  have hvlen : graph.vertices.length = graph.length := by
    simp [WeightedGraph.vertices]
  have hrun : dijkstrasAlgorithm top infinity graph s t fuel =
      match dijkstraLoop top infinity graph fuel
          { distances := D, predecessors := P, s := [], q := graph.vertices } with
      | .error e => .error e
      | .ok st =>
        walkBack st.predecessors fuel t
          (if s = t ∨ (st.predecessors t).isSome then [t] else []) := by
    unfold dijkstrasAlgorithm
    simp only [hinit]
  have hno1 : dijkstraLoop top infinity graph fuel
      { distances := D, predecessors := P, s := [], q := graph.vertices } ≠
        .error .overflow := by
    intro h
    apply hno
    rw [hrun, h]
  obtain ⟨st, hloop, hinv, hq⟩ := dijkstraLoop_spec htop hwf hnn hs fuel
    { distances := D, predecessors := P, s := [], q := graph.vertices } hinv0
    (by show graph.vertices.length ≤ fuel; rw [hvlen]; exact hfuel) hno1
  have hdef : dijkstrasAlgorithm top infinity graph s t fuel =
      walkBack st.predecessors fuel t
        (if s = t ∨ (st.predecessors t).isSome then [t] else []) := by
    rw [hrun, hloop]
  have hst : s = t → dijkstrasAlgorithm top infinity graph s t fuel = .ok [s] := by
    intro h
    rw [hdef, if_pos (Or.inl h), ← h]
    exact walkBack_none _ _ _ _ hinv.pred_source
  by_cases hreach : ∃ d, Walk graph s t d
  · obtain ⟨d, hwalk, hd⟩ := hfin hreach
    have hts : t ∈ st.s := hinv.reachable_visited hnn hs hq hwalk hd ht
    have hres : (if s = t ∨ (st.predecessors t).isSome then [t] else []) = [t] := by
      by_cases hne : s = t
      · rw [if_pos (Or.inl hne)]
      · have := hinv.pred_none t ht (Ne.symm hne) (hinv.optimal t hts).1
        rw [if_pos (Or.inr (Option.isSome_iff_ne_none.2 this))]
    obtain ⟨pre, post, hsplit⟩ := List.append_of_mem hts
    have hslen : st.s.length ≤ graph.length := by
      rw [← hvlen]
      exact length_le_of_nodup_subset hinv.s_nodup
        (fun v hv => (hinv.partition v).2 (Or.inl hv))
    have hprelen : pre.length ≤ fuel := by
      rw [hsplit] at hslen
      simp at hslen
      have : graph.length ≤ fuel := hfuel
      omega
    obtain ⟨l, h1, h2, h3, h4⟩ := walkBack_spec hinv t fuel t [] pre post hsplit hprelen
      (by simp [pathWeight]) rfl
    have hl : dijkstrasAlgorithm top infinity graph s t fuel = .ok l := by
      rw [hdef, hres]
      exact h1
    refine ⟨l, hl, ?_, fun hno => absurd ⟨d, hwalk⟩ hno, ?_⟩
    · intro _
      exact ⟨st.distances t, h2, h3, pathWeight_chain h4, h4, hinv.walk_visited hts,
        (hinv.optimal t hts).2⟩
    · intro h
      have := hst h
      rw [hl] at this
      exact Except.ok.inj this
  · have hne : s ≠ t := by
      intro h
      apply hreach
      rw [← h]
      exact ⟨0, Walk.nil⟩
    have hnone : st.predecessors t = none := by
      rcases hp : st.predecessors t with _ | p
      · rfl
      · exfalso
        apply hreach
        exact ⟨_, hinv.realized t ht (hinv.pred_some t p hp).2.1⟩
    have hres : (if s = t ∨ (st.predecessors t).isSome then [t] else []) = [] := by
      rw [if_neg]
      rintro (h | h)
      · exact hne h
      · rw [hnone] at h
        cases h
    refine ⟨[], ?_, fun h => absurd h hreach, fun _ => rfl, fun h => absurd h hne⟩
    rw [hdef, hres]
    exact walkBack_none _ _ _ _ hnone

end GraphAlgorithms

/-! ### `dijkstrasAlgorithm`: examples -/

namespace GraphAlgorithms

theorem firstMin_spec {T : Type} (distances : T → Int) (rest : List T) (best : T) :
    firstMin distances rest best ∈ best :: rest ∧
      ∀ y ∈ best :: rest, distances (firstMin distances rest best) ≤ distances y := by
  induction rest generalizing best with
  | nil =>
    refine ⟨List.mem_cons_self _ _, ?_⟩
    intro y hy
    rw [List.mem_singleton.1 hy]
    exact le_refl _
  | cons y ys ih =>
    unfold firstMin
    by_cases hlt : distances y < distances best
    · rw [if_pos hlt]
      obtain ⟨h1, h2⟩ := ih y
      have hb := h2 y (List.mem_cons_self _ _)
      refine ⟨List.mem_cons_of_mem _ h1, ?_⟩
      intro z hz
      rcases List.mem_cons.1 hz with h | h
      · rw [h]
        omega
      · exact h2 z h
    · rw [if_neg hlt]
      obtain ⟨h1, h2⟩ := ih best
      have hb := h2 best (List.mem_cons_self _ _)
      constructor
      · rcases List.mem_cons.1 h1 with h | h
        · rw [h]
          exact List.mem_cons_self _ _
        · exact List.mem_cons_of_mem _ (List.mem_cons_of_mem _ h)
      · intro z hz
        rcases List.mem_cons.1 hz with h | h
        · rw [h]
          exact hb
        · rcases List.mem_cons.1 h with h | h
          · rw [h]
            omega
          · exact h2 z (List.mem_cons_of_mem _ h)

theorem exampleTop_spec : TopSpec exampleTop := by
  intro distances q hq
  cases q with
  | nil => exact absurd rfl hq
  | cons y rest => exact firstMin_spec distances rest y

theorem exampleLimit_edges {u v : Nat} {w : Int} (h : exampleLimit.Edge u v w) :
    (u = 0 ∧ v = 1 ∧ w = 1) ∨ (u = 0 ∧ v = 2 ∧ w = 2147483647) ∨
      (u = 1 ∧ v = 2 ∧ w = 1) := by
  obtain ⟨adj, hadj, hmem⟩ := h
  simp only [exampleLimit, List.mem_cons, Prod.mk.injEq, List.mem_singleton,
    List.not_mem_nil, or_false] at hadj
  rcases hadj with ⟨rfl, rfl⟩ | ⟨rfl, rfl⟩ | ⟨rfl, rfl⟩
  · simp only [List.mem_cons, Prod.mk.injEq, List.mem_singleton, List.not_mem_nil,
      or_false] at hmem
    rcases hmem with ⟨rfl, rfl⟩ | ⟨rfl, rfl⟩
    · exact Or.inl ⟨rfl, rfl, rfl⟩
    · exact Or.inr (Or.inl ⟨rfl, rfl, rfl⟩)
  · simp only [List.mem_singleton, Prod.mk.injEq] at hmem
    obtain ⟨rfl, rfl⟩ := hmem
    exact Or.inr (Or.inr ⟨rfl, rfl, rfl⟩)
  · cases hmem

theorem exampleLimit_wellFormed : exampleLimit.WellFormed :=
  ⟨by decide, by decide⟩

theorem exampleLimit_nonNegative : exampleLimit.NonNegative := by
  intro u v w h
  rcases exampleLimit_edges h with ⟨-, -, rfl⟩ | ⟨-, -, rfl⟩ | ⟨-, -, rfl⟩ <;> decide

theorem exampleLimit_edge01 : exampleLimit.Edge 0 1 1 :=
  ⟨[(1, 1), (2, 2147483647)], List.mem_cons_self _ _, List.mem_cons_self _ _⟩

theorem exampleLimit_edge12 : exampleLimit.Edge 1 2 1 :=
  ⟨[(2, 1)], List.mem_cons_of_mem _ (List.mem_cons_self _ _), List.mem_cons_self _ _⟩

theorem exampleLimit_walk : Walk exampleLimit 0 2 2 :=
  Walk.snoc (Walk.snoc Walk.nil exampleLimit_edge01) exampleLimit_edge12

/-- Runs of `dijkstrasAlgorithm` with the largest value of a 32-bit `int` for `infinity`.
A sum that equals `infinity` is in range (the edge a → c of `exampleLimit`); the edge b → a
of `exampleBack` enters a visited vertex and its weight is never added; the sum 1 +
2147483647 that `exampleOverflow` asks for is outside the range. -/
theorem dijkstrasAlgorithm_examples :
    dijkstrasAlgorithm exampleTop 2147483647 exampleDag 0 2 3 = .ok [0, 2] ∧
      dijkstrasAlgorithm exampleTop 2147483647 exampleLimit 0 2 3 = .ok [0, 1, 2] ∧
      pathWeight exampleLimit [0, 1, 2] = some 2 ∧
      dijkstrasAlgorithm exampleTop 2147483647 exampleBack 0 1 2 = .ok [0, 1] ∧
      dijkstrasAlgorithm exampleTop 2147483647 exampleOverflow 0 2 3 = .error .overflow ∧
      dijkstrasAlgorithm exampleTop 2147483647 exampleLimit 0 2 2 = .error .out_of_fuel ∧
      dijkstrasAlgorithm exampleTop 2147483647 exampleLimit 5 2 3 = .error .out_of_range :=
  ⟨rfl, rfl, rfl, rfl, rfl, rfl, rfl⟩

theorem exampleSentinel_edge : exampleSentinel.Edge 0 1 2147483647 :=
  ⟨[(1, 2147483647)], List.mem_cons_self _ _, List.mem_cons_self _ _⟩

theorem exampleSentinel_nonNegative : exampleSentinel.NonNegative := by
  rintro u v w ⟨adj, hadj, hmem⟩
  simp only [exampleSentinel, List.mem_cons, Prod.mk.injEq, List.mem_singleton,
    List.not_mem_nil, or_false] at hadj
  rcases hadj with ⟨rfl, rfl⟩ | ⟨rfl, rfl⟩
  · simp only [List.mem_singleton, Prod.mk.injEq] at hmem
    obtain ⟨-, rfl⟩ := hmem
    decide
  · cases hmem

/-- C22, as stated, fails.  In the graph with the vertices 0 and 1 and the one edge 0 → 1
of weight 2147483647, the largest value of a 32-bit `int` and so `infinity<T>()`, the
weights are non-negative, the vertex 1 is reached from 0 by a walk of weight 2147483647,
and the one sum the run forms, 0 + 2147483647, is in range; but `relax` compares it with the
distance `infinity` of the vertex 1 and finds it not smaller, and `dijkstrasAlgorithm`
returns the empty list, for every bound on the iterations that lets it return. -/
theorem dijkstra_sentinel_counterexample :
    exampleSentinel.WellFormed ∧ exampleSentinel.NonNegative ∧
      0 ∈ exampleSentinel.vertices ∧ 1 ∈ exampleSentinel.vertices ∧
      TopSpec exampleTop ∧
      Walk exampleSentinel 0 1 2147483647 ∧
      relax 2147483647 0 1 2147483647 (fun v => if v = 0 then 0 else 2147483647)
          (fun _ => none) =
        .ok (false, (fun v => if v = 0 then 0 else 2147483647), (fun _ => none)) ∧
      dijkstrasAlgorithm exampleTop 2147483647 exampleSentinel 0 1 2 = .ok [] ∧
      ∀ fuel,
        dijkstrasAlgorithm exampleTop 2147483647 exampleSentinel 0 1 fuel =
            .error .out_of_fuel ∨
          dijkstrasAlgorithm exampleTop 2147483647 exampleSentinel 0 1 fuel = .ok [] := by
  refine ⟨⟨by decide, by decide⟩, exampleSentinel_nonNegative, by decide, by decide,
    exampleTop_spec, ?_, rfl, rfl, ?_⟩
  · have h := Walk.snoc (Walk.nil : Walk exampleSentinel 0 0 0) exampleSentinel_edge
    simpa using h
  · intro fuel
    cases fuel with
    | zero => exact Or.inl rfl
    | succ n =>
      cases n with
      | zero => exact Or.inr rfl
      | succ k => exact Or.inr rfl

theorem dijkstrasAlgorithm_spec_witness :
    (TopSpec exampleTop ∧ exampleLimit.WellFormed ∧ exampleLimit.NonNegative ∧
        dijkstrasAlgorithm exampleTop 2147483647 exampleLimit 0 2 3 ≠ .error .overflow ∧
        ((∃ d, Walk exampleLimit 0 2 d) → ∃ d, Walk exampleLimit 0 2 d ∧ d < 2147483647) ∧
        (0 : Int) < 2147483647 ∧
        0 ∈ exampleLimit.vertices ∧ 2 ∈ exampleLimit.vertices ∧ exampleLimit.size ≤ 3) ∧
      ∃ l, dijkstrasAlgorithm exampleTop 2147483647 exampleLimit 0 2 3 = .ok l ∧
        ((∃ d, Walk exampleLimit 0 2 d) →
          ∃ d0, l.head? = some 0 ∧ l.getLast? = some 2 ∧ l.Chain' exampleLimit.Adj ∧
            pathWeight exampleLimit l = some d0 ∧ Walk exampleLimit 0 2 d0 ∧
            ∀ d, Walk exampleLimit 0 2 d → d0 ≤ d) ∧
        ((¬ ∃ d, Walk exampleLimit 0 2 d) → l = []) ∧
        ((0 : Nat) = 2 → l = [0]) :=
  ⟨⟨exampleTop_spec, exampleLimit_wellFormed, exampleLimit_nonNegative,
      fun h => Except.noConfusion (Eq.trans (Eq.symm (rfl :
        dijkstrasAlgorithm exampleTop 2147483647 exampleLimit 0 2 3 = .ok [0, 1, 2])) h),
      fun _ => ⟨2, exampleLimit_walk, by decide⟩,
      by decide, by decide, by decide, by decide⟩,
    dijkstrasAlgorithm_spec exampleTop 2147483647 exampleLimit 0 2 3 exampleTop_spec
      exampleLimit_wellFormed exampleLimit_nonNegative
      (fun h => Except.noConfusion (Eq.trans (Eq.symm (rfl :
        dijkstrasAlgorithm exampleTop 2147483647 exampleLimit 0 2 3 = .ok [0, 1, 2])) h))
      (fun _ => ⟨2, exampleLimit_walk, by decide⟩) (by decide)
      (by decide) (by decide) (by decide)⟩

end GraphAlgorithms

/-! ### Local iteration; the two `insert` overloads -/

namespace UnorderedMap

variable {K V : Type}

/-- C31. In a well-formed table, for every bucket index `n` below `bucket_count()`:
`begin(n)` is at the first node of chain `n`; at every node of chain `n` the local cursor
reads the pair of that node and `operator++` moves it to the next node of chain `n`, or to
`end(n)` from the last one; so the loop from `begin(n)` to `end(n)` visits the entries of
chain `n`, front to back, within `bucket_size(n)` steps; every entry it visits hashes to
bucket `n`; `bucket_size(n)` is the number of entries visited; and the sizes of all buckets
add up to `size()`. -/
theorem local_iteration_spec (m : UnorderedMap K V) (n : Nat) (hwf : WellFormed m)
    (_hn : n < m.bucket_count) :
    m.local_begin n = chainHead (m.chain n) ∧
      (∀ pre x post, m.chain n = pre ++ x :: post →
        m.local_star (some x.addr) = some x.val ∧
        m.local_increment (some x.addr) = some (chainHead post)) ∧
      (∀ fuel, m.bucket_size n ≤ fuel →
        m.local_traverse fuel (m.local_begin n) =
          some ((m.chain n).map (fun x => x.val))) ∧
      (∀ kv ∈ (m.chain n).map (fun x => x.val), m.bucket kv.1 = n) ∧
      m.bucket_size n = ((m.chain n).map (fun x => x.val)).length ∧
      m.local_end n = none ∧
      ((List.range m.bucket_count).map m.bucket_size).sum = m.size := by
  refine ⟨rfl, ?_, ?_, ?_, ?_, rfl, ?_⟩
  · intro pre x post hch
    have hd := hwf.deref_of_chain hch
    simp only [local_star, local_increment, hd, Option.map_some']
    exact ⟨trivial, trivial⟩
  · intro fuel hfuel
    exact hwf.local_traverse_suffix n [] (m.chain n) rfl fuel hfuel
  · intro kv hkv
    obtain ⟨x, hx, hxv⟩ := List.mem_map.1 hkv
    rw [← hxv]
    exact hwf.placement n x hx
  · simp [bucket_size]
  · rw [hwf.sum_bucket_size]
    exact hwf.size_eq.symm

theorem local_iteration_spec_witness :
    (WellFormed exampleTwo ∧ 2 < exampleTwo.bucket_count) ∧
      (exampleTwo.local_begin 2 = chainHead (exampleTwo.chain 2) ∧
      (∀ pre x post, exampleTwo.chain 2 = pre ++ x :: post →
        exampleTwo.local_star (some x.addr) = some x.val ∧
        exampleTwo.local_increment (some x.addr) = some (chainHead post)) ∧
      (∀ fuel, exampleTwo.bucket_size 2 ≤ fuel →
        exampleTwo.local_traverse fuel (exampleTwo.local_begin 2) =
          some ((exampleTwo.chain 2).map (fun x => x.val))) ∧
      (∀ kv ∈ (exampleTwo.chain 2).map (fun x => x.val), exampleTwo.bucket kv.1 = 2) ∧
      exampleTwo.bucket_size 2 = ((exampleTwo.chain 2).map (fun x => x.val)).length ∧
      exampleTwo.local_end 2 = none ∧
      ((List.range exampleTwo.bucket_count).map exampleTwo.bucket_size).sum =
        exampleTwo.size) :=
  ⟨⟨exampleTwo_reachable.wellFormed, by decide⟩,
    local_iteration_spec exampleTwo 2 exampleTwo_reachable.wellFormed (by decide)⟩

/-- The copying and the moving `insert` agree on every table whose head is not the address
the next node will get. -/
theorem insert_eq_insert_move [DecidableEq K] [DecidableEq V] (m : UnorderedMap K V)
    (value : K × V) (hlen : m._bucket value.1 < m._buckets.length)
    (hfresh : m._head ≠ some m._alloc) : m.insert value = m.insert_move value := by
  unfold UnorderedMap.insert UnorderedMap.insert_move
  rcases hassign : chainAssign value.1 value.2 (m.chain (m._bucket value.1)) with _ | ⟨a, c1⟩
  · simp only
    unfold UnorderedMap._insert_into_bucket
    simp only [hassign]
    rcases hh : m._head with _ | h
    · simp
    · have hne : (⟨m._alloc, value⟩ : HashNode K V).addr ≠ h := by
        intro he
        apply hfresh
        rw [hh]
        exact congrArg some he.symm
      have hlook : heapLookup h (m._buckets.set (m._bucket value.1)
          (⟨m._alloc, value⟩ :: m.chain (m._bucket value.1))) = heapLookup h m._buckets :=
        heapLookup_set_cons hne hlen
      simp only [deref, reduceCtorEq, false_or]
      rw [hlook]
      rcases hl : heapLookup h m._buckets with _ | ⟨hn, hnext⟩
      · simp
      · simp only [Option.map_some']
        by_cases hle : m._bucket value.1 ≤ m._bucket hn.val.1
        · simp only [if_pos hle]
        · simp only [if_neg hle]
  · simp only [hassign]

/-- C32. On a well-formed table whose head is null or an address handed out before, the
copying `insert(const value_type&)` and the moving `insert(value_type&&)` give the same
result: the same table (chains, `size()`, head reference) and the same pair of cursor and
flag, or both have no defined result; both have a defined result when the head is null or
at a live node; and when the key is already stored both overwrite the stored value. -/
theorem insert_overloads_agree [DecidableEq K] [DecidableEq V] (m : UnorderedMap K V)
    (k : K) (v : V) (hwf : WellFormed m) (hfresh : ∀ h, m._head = some h → h < m._alloc) :
    m.insert (k, v) = m.insert_move (k, v) ∧
      (HeadLive m → ∃ m1 r, m.insert (k, v) = some (m1, r) ∧
        m.insert_move (k, v) = some (m1, r) ∧ m1.star r.1 = some (k, v) ∧
        (r.2 = false ↔ k ∈ m.keys)) ∧
      (k ∈ m.keys → Overwritten m k v (m.insert (k, v)) ∧
        Overwritten m k v (m.insert_move (k, v))) := by
  have hb := m._bucket_lt k hwf.bucket_count_pos
  have hne : m._head ≠ some m._alloc := by
    intro he
    have := hfresh _ he
    omega
  have heq : m.insert (k, v) = m.insert_move (k, v) :=
    insert_eq_insert_move m (k, v) (by rw [hwf.length_buckets]; exact hb) hne
  refine ⟨heq, ?_, ?_⟩
  · intro hlive
    obtain ⟨m1, r, hins⟩ := (hwf.insert_defined hlive (k, v)).1
    obtain ⟨h1, -, h3⟩ := hwf.search_after_insert hins
    refine ⟨m1, r, hins, by rw [← heq]; exact hins, by rw [← h1]; exact h3, ?_⟩
    by_cases hk : k ∈ m.keys
    · have hnotin : k ∈ (m.chain (m._bucket k)).map (fun n => n.val.1) :=
        (hwf.mem_keys_iff k).1 hk
      rcases hassign : chainAssign k v (m.chain (m._bucket k)) with _ | ⟨a, c1⟩
      · exact absurd hnotin (chainAssign_eq_none.1 hassign)
      · have := insert_of_assign hassign
        rw [hins] at this
        simp only [Option.some.injEq, Prod.mk.injEq] at this
        obtain ⟨-, hr⟩ := this
        rw [hr]
        exact ⟨fun _ => hk, fun _ => rfl⟩
    · have hnew : chainAssign (k, v).1 (k, v).2 (m.chain (m._bucket (k, v).1)) = none :=
        chainAssign_eq_none.2 (fun hin => hk ((hwf.mem_keys_iff k).2 hin))
      obtain ⟨hd, hshape⟩ := hwf.insert_new hlive hnew
      rw [hins] at hshape
      simp only [Option.some.injEq, Prod.mk.injEq] at hshape
      obtain ⟨-, hr⟩ := hshape
      rw [hr]
      exact ⟨fun h => Bool.noConfusion h, fun h => absurd h hk⟩
  · intro hk
    have hnotin : k ∈ (m.chain (m._bucket k)).map (fun n => n.val.1) :=
      (hwf.mem_keys_iff k).1 hk
    rcases hassign : chainAssign k v (m.chain (m._bucket k)) with _ | ⟨a, c1⟩
    · exact absurd hnotin (chainAssign_eq_none.1 hassign)
    · exact ⟨hwf.overwritten_of_eq hassign (insert_of_assign hassign),
        hwf.overwritten_of_eq hassign (insert_move_of_assign hassign)⟩

theorem insert_overloads_agree_witness :
    (WellFormed exampleTwo ∧ ∀ h, exampleTwo._head = some h → h < exampleTwo._alloc) ∧
      (exampleTwo.insert (7, 70) = exampleTwo.insert_move (7, 70) ∧
      (HeadLive exampleTwo → ∃ m1 r, exampleTwo.insert (7, 70) = some (m1, r) ∧
        exampleTwo.insert_move (7, 70) = some (m1, r) ∧ m1.star r.1 = some (7, 70) ∧
        (r.2 = false ↔ 7 ∈ exampleTwo.keys)) ∧
      (7 ∈ exampleTwo.keys → Overwritten exampleTwo 7 70 (exampleTwo.insert (7, 70)) ∧
        Overwritten exampleTwo 7 70 (exampleTwo.insert_move (7, 70)))) :=
  ⟨⟨exampleTwo_reachable.wellFormed, fun h hh => by cases hh; decide⟩,
    insert_overloads_agree exampleTwo 7 70 exampleTwo_reachable.wellFormed
      (fun h hh => by cases hh; decide)⟩

end UnorderedMap

/-! ### Key matching -/

namespace UnorderedMap

variable {K V : Type}

/-- In a well-formed table the search loop run for `k` stops at the node `n` of the chain
of `k` exactly when the key of `n` is `k`. -/
theorem WellFormed.search_iff [DecidableEq K] {m : UnorderedMap K V} (hwf : WellFormed m)
    {k : K} {n : HashNode K V} (hn : n ∈ m.chain (m._bucket k)) :
    chainFind k (m.chain (m._bucket k)) = some n.addr ↔ n.val.1 = k := by
  constructor
  · intro h
    obtain ⟨pre, x, post, hch, hxk, -, hxa⟩ := chainFind_eq_some (h : chainFind k _ = _)
    have hx : x ∈ m.chain (m._bucket k) := by
      rw [hch]
      simp
    have : x = n := List.inj_on_of_nodup_map (hwf.chain_addr_nodup _) hx hn hxa
    rw [← this]
    exact hxk
  · intro h
    have hkeys : k ∈ m.keys := List.mem_map.2 ⟨n, mem_allNodes_of_mem_chain hn, h⟩
    obtain ⟨pre, x, post, hch, hxk, hfind, -⟩ := hwf.search_stored hkeys
    have hx : x ∈ m.chain (m._bucket k) := by
      rw [hch]
      simp
    have : x = n := (hwf.node_unique hx hn (by rw [hxk, h])).2
    rw [← this]
    exact hfind

/-- The node `_insert_into_bucket` returns for a key that is not in the chain is the node
it allocates. -/
theorem _insert_into_bucket_fresh [DecidableEq K] [DecidableEq V] {m m1 : UnorderedMap K V}
    {value : K × V} {p : Nat}
    (hnew : chainAssign value.1 value.2 (m.chain (m._bucket value.1)) = none)
    (h : m._insert_into_bucket (m._bucket value.1) value = some (m1, p)) : p = m._alloc := by
  unfold UnorderedMap._insert_into_bucket at h
  simp only [hnew] at h
  split at h
  · cases h
  · split at h
    · simp only [Option.some.injEq, Prod.mk.injEq] at h
      exact h.2.symm
    · simp only [Option.some.injEq, Prod.mk.injEq] at h
      exact h.2.symm

/-- The results of `erase`, `operator[]` and `insert` do not depend on the predicate the
table stores: with any other predicate in `_equal` the number `erase` returns, the node
`operator[]` returns and the pair `insert` returns are the same. -/
theorem result_without_equal [DecidableEq K] [DecidableEq V] [Inhabited V]
    (m : UnorderedMap K V) (eq1 : K → K → Bool) (k : K) (v : V) :
    (({ m with _equal := eq1 } : UnorderedMap K V).erase k).2 = (m.erase k).2 ∧
      (({ m with _equal := eq1 } : UnorderedMap K V).index k).map (fun r => r.2) =
        (m.index k).map (fun r => r.2) ∧
      (({ m with _equal := eq1 } : UnorderedMap K V).insert (k, v)).map (fun r => r.2) =
        (m.insert (k, v)).map (fun r => r.2) := by
  obtain ⟨bc, buckets, head, size, hash, eq0, alloc⟩ := m
  have hib : ∀ b (value : K × V),
      ((⟨bc, buckets, head, size, hash, eq1, alloc⟩ :
        UnorderedMap K V)._insert_into_bucket b value).map (fun r => r.2) =
      ((⟨bc, buckets, head, size, hash, eq0, alloc⟩ :
        UnorderedMap K V)._insert_into_bucket b value).map (fun r => r.2) := by
    intro b value
    simp only [_insert_into_bucket, chain, deref, _bucket]
    cases ha : chainAssign value.1 value.2 (buckets.getD b []) <;>
      rcases head with _ | h
    · simp
    · cases hl : heapLookup h buckets
      · simp [hl]
      · simp only [hl, Option.map_some', false_or, reduceCtorEq]
        split <;> simp
    · simp
    · cases hl : heapLookup h buckets
      · simp [hl]
      · simp only [hl, Option.map_some', false_or, reduceCtorEq]
        split <;> simp
  refine ⟨?_, ?_, ?_⟩
  · simp only [erase, chain, _bucket]
    cases chainUnlink k (buckets.getD (_range_hash (hash k) bc) []) <;> rfl
  · simp only [index, chain, _bucket]
    cases chainFind k (buckets.getD (_range_hash (hash k) bc) [])
    · exact hib _ _
    · rfl
  · simp only [insert, chain, deref, _bucket]
    cases chainAssign k v (buckets.getD (_range_hash (hash k) bc) [])
    · simp only
      rcases head with _ | h
      · rfl
      · simp only
        cases hl : heapLookup h (buckets.set (_range_hash (hash k) bc)
            (⟨alloc, (k, v)⟩ :: buckets.getD (_range_hash (hash k) bc) []))
        · simp [hl]
        · simp only [hl]
          split <;> simp
    · rfl

/-- The amended C33.  In a well-formed table, for a node `n` of the chain of bucket
`hash(k) mod N`: `operator[](k)` returns `n` leaving the table as it is, `insert(k, v)`
returns a cursor at `n` with `false`, and `erase(k)` removes `n` and returns 1, each exactly
when the key of `n` is `k` (Lean equality, the `==` of `Key`).  The predicate stored in
`_equal` has no part in it: the three calls return the same whatever predicate the table
stores. -/
theorem key_matching_spec [DecidableEq K] [DecidableEq V] [Inhabited V]
    (m : UnorderedMap K V) (k : K) (n : HashNode K V) (hwf : WellFormed m)
    (hn : n ∈ m.chain (m.bucket k)) :
    (m.index k = some (m, n.addr) ↔ n.val.1 = k) ∧
      (∀ v, (∃ m1, m.insert (k, v) = some (m1, (some n.addr, false))) ↔ n.val.1 = k) ∧
      (((m.erase k).2 = 1 ∧ n ∉ (m.erase k).1.allNodes) ↔ n.val.1 = k) ∧
      ∀ (eq1 : K → K → Bool) (v : V),
        (({ m with _equal := eq1 } : UnorderedMap K V).erase k).2 = (m.erase k).2 ∧
        (({ m with _equal := eq1 } : UnorderedMap K V).index k).map (fun r => r.2) =
          (m.index k).map (fun r => r.2) ∧
        (({ m with _equal := eq1 } : UnorderedMap K V).insert (k, v)).map (fun r => r.2) =
          (m.insert (k, v)).map (fun r => r.2) := by
  have hn1 : n ∈ m.chain (m._bucket k) := hn
  have hnall : n ∈ m.allNodes := mem_allNodes_of_mem_chain hn1
  have hfind := hwf.search_iff hn1
  have hlt : n.addr < m._alloc := hwf.addr_lt n hnall
  refine ⟨?_, ?_, ?_, fun eq1 v => result_without_equal m eq1 k v⟩
  · constructor
    · intro h
      rcases hf : chainFind k (m.chain (m._bucket k)) with _ | curr
      · exfalso
        have hnotin := chainFind_eq_none.1 hf
        have hnew : chainAssign (k, (default : V)).1 (k, (default : V)).2
            (m.chain (m._bucket (k, (default : V)).1)) = none := chainAssign_eq_none.2 hnotin
        have hidx : m.index k = m._insert_into_bucket (m._bucket k) (k, default) := by
          unfold UnorderedMap.index
          simp only [hf]
        rw [hidx] at h
        have := _insert_into_bucket_fresh hnew h
        omega
      · have hidx : m.index k = some (m, curr) := by
          unfold UnorderedMap.index
          simp only [hf]
        rw [hidx] at h
        simp only [Option.some.injEq, Prod.mk.injEq, true_and] at h
        apply hfind.1
        show chainFind k (m.chain (m._bucket k)) = some n.addr
        rw [hf, h]
    · intro h
      have hf : chainFind k (m.chain (m._bucket k)) = some n.addr := hfind.2 h
      unfold UnorderedMap.index
      simp only [hf]
  · intro v
    constructor
    · rintro ⟨m1, h⟩
      rcases hassign : chainAssign k v (m.chain (m._bucket k)) with _ | ⟨a, c1⟩
      · exfalso
        have hassign1 : chainAssign (k, v).1 (k, v).2
            (m.chain (m._bucket (k, v).1)) = none := hassign
        obtain ⟨hd, hshape⟩ := insert_new_shape hassign1 h
        rw [h] at hshape
        simp only [Option.some.injEq, Prod.mk.injEq, Bool.false_eq_true, and_false] at hshape
      · have hshape := insert_of_assign hassign
        rw [h] at hshape
        simp only [Option.some.injEq, Prod.mk.injEq, and_true] at hshape
        obtain ⟨pre, x, post, hch, hxk, -, hxa, -⟩ := chainAssign_eq_some hassign
        have hx : x ∈ m.chain (m._bucket k) := by
          rw [hch]
          simp
        have hax : x.addr = n.addr := by rw [hxa, hshape.2]
        have : x = n := List.inj_on_of_nodup_map (hwf.chain_addr_nodup _) hx hn1 hax
        rw [← this]
        exact hxk
    · intro h
      have hin : k ∈ (m.chain (m._bucket k)).map (fun x => x.val.1) :=
        List.mem_map.2 ⟨n, hn1, h⟩
      rcases hassign : chainAssign k v (m.chain (m._bucket k)) with _ | ⟨a, c1⟩
      · exact absurd hin (chainAssign_eq_none.1 hassign)
      · obtain ⟨pre, x, post, hch, hxk, -, hxa, -⟩ := chainAssign_eq_some hassign
        have hx : x ∈ m.chain (m._bucket k) := by
          rw [hch]
          simp
        have hxn : x = n := (hwf.node_unique hx hn1 (by rw [hxk, h])).2
        rw [insert_of_assign hassign, ← hxn, hxa]
        exact ⟨_, rfl⟩
  · have hmem1 : ∀ {x : HashNode K V} {pre post : List (HashNode K V)},
        m.chain (m._bucket x.val.1) = pre ++ x :: post → x.val.1 = k →
        ∀ y, y ∈ (m.erase k).1.allNodes ↔ (y ∈ m.allNodes ∧ y ≠ x) := by
      intro x pre post hch hxk y
      subst hxk
      have hb := m._bucket_lt x.val.1 hwf.bucket_count_pos
      have hbl : m._bucket x.val.1 < m._buckets.length := by
        rw [hwf.length_buckets]
        exact hb
      have he := hwf.erase_eq hch
      rw [he]
      show y ∈ (m._buckets.set (m._bucket x.val.1) (pre ++ post)).flatten ↔ _
      have hnd := hwf.chain_addr_nodup (m._bucket x.val.1)
      rw [hch] at hnd
      have hxnot : x ∉ pre ++ post := by
        intro hin
        simp only [List.map_append, List.map_cons] at hnd
        have h1 := List.nodup_append.1 hnd
        rcases List.mem_append.1 hin with hp | hp
        · exact h1.2.2 (List.mem_map_of_mem _ hp) (List.mem_cons_self _ _)
        · exact (List.nodup_cons.1 h1.2.1).1 (List.mem_map_of_mem _ hp)
      constructor
      · intro hy
        obtain ⟨i, hi, hyi⟩ := mem_flatten_getD hy
        by_cases hib : i = m._bucket x.val.1
        · rw [hib, getD_set_self hbl] at hyi
          refine ⟨?_, fun h => hxnot (h ▸ hyi)⟩
          apply mem_allNodes_of_mem_chain (i := m._bucket x.val.1)
          rw [hch]
          rcases List.mem_append.1 hyi with hp | hp
          · exact List.mem_append_left _ hp
          · exact List.mem_append_right _ (List.mem_cons_of_mem _ hp)
        · rw [getD_set_ne (Ne.symm hib)] at hyi
          refine ⟨getD_mem_flatten hyi, ?_⟩
          intro hyx
          have := hwf.placement i y hyi
          rw [hyx] at this
          exact hib this.symm
      · rintro ⟨hy, hyx⟩
        obtain ⟨i, -, hyi⟩ := mem_chain_of_mem_allNodes hy
        by_cases hib : i = m._bucket x.val.1
        · apply getD_mem_flatten (i := m._bucket x.val.1)
          rw [getD_set_self hbl]
          rw [hib] at hyi
          have hyi1 : y ∈ pre ++ x :: post := by
            rw [← hch]
            exact hyi
          rcases List.mem_append.1 hyi1 with hp | hp
          · exact List.mem_append_left _ hp
          · rcases List.mem_cons.1 hp with hp | hp
            · exact absurd hp hyx
            · exact List.mem_append_right _ hp
        · apply getD_mem_flatten (i := i)
          rw [getD_set_ne (Ne.symm hib)]
          exact hyi
    constructor
    · rintro ⟨h1, h2⟩
      by_cases hk : k ∈ m.keys
      · obtain ⟨pre, x, post, hch, hxk, -, -⟩ := hwf.search_stored hk
        rw [← hxk] at hch
        by_contra hne
        apply h2
        rw [hmem1 hch hxk n]
        refine ⟨hnall, ?_⟩
        intro hnx
        exact hne (by rw [hnx]; exact hxk)
      · have := (erase_key_spec m k hwf).2 hk
        rw [this.1] at h1
        cases h1
    · intro h
      have hk : k ∈ m.keys := List.mem_map.2 ⟨n, hnall, h⟩
      obtain ⟨pre, post, hch⟩ := hwf.chain_split_of_mem hnall
      refine ⟨?_, ?_⟩
      · have he := hwf.erase_eq hch
        rw [h] at he
        rw [he]
      · rw [hmem1 hch h n]
        rintro ⟨-, hne⟩
        exact hne rfl

end UnorderedMap

namespace UnorderedMap

theorem exampleModFive_reachable : Reachable exampleModFive :=
  Reachable.insert
    (UnorderedMap.construct (fun _ => 5) 5 (fun k => k % 5) (fun a b => a % 5 == b % 5))
    exampleModFive (1, 10) (some 0, true)
    (Reachable.construct (fun _ => 5) 5 (fun k => k % 5) (fun a b => a % 5 == b % 5)
      (by decide)) rfl

/-- C33, counterexample.  The table is built with the hash `k % 5` and the predicate
`a % 5 == b % 5`, an equivalence on keys under which equivalent keys have equal hash codes,
and holds `(1, 10)`.  The stored key 1 is in the bucket of 6 and `eq(1, 6)` holds, yet it is
not treated as the entry for 6: `insert({6, 60})` links a second node and reports `true`,
`operator[](6)` links a new node, and `erase(6)` returns 0. -/
theorem key_matching_counterexample :
    (UnorderedMap.construct (fun _ => 5) 5 (fun k => k % 5)
        (fun a b => a % 5 == b % 5)).insert (1, 10) = some (exampleModFive, (some 0, true)) ∧
      (∀ a, exampleModFive._equal a a = true) ∧
      (∀ a b, exampleModFive._equal a b = true → exampleModFive._equal b a = true) ∧
      (∀ a b c, exampleModFive._equal a b = true → exampleModFive._equal b c = true →
        exampleModFive._equal a c = true) ∧
      (∀ a b, exampleModFive._equal a b = true →
        exampleModFive._hash a = exampleModFive._hash b) ∧
      exampleModFive.chain (exampleModFive.bucket 6) = [⟨0, (1, 10)⟩] ∧
      exampleModFive._equal 1 6 = true ∧
      (exampleModFive.insert (6, 60)).map (fun r => (r.2, r.1.size)) =
        some ((some 1, true), 2) ∧
      (exampleModFive.index 6).map (fun r => (r.2, r.1.size)) = some (1, 2) ∧
      (exampleModFive.erase 6).2 = 0 := by
  refine ⟨rfl, ?_, ?_, ?_, ?_, rfl, rfl, rfl, rfl, rfl⟩
  · intro a
    simp [exampleModFive, construct]
  · intro a b h
    simp only [exampleModFive, construct, beq_iff_eq] at h ⊢
    exact h.symm
  · intro a b c h1 h2
    simp only [exampleModFive, construct, beq_iff_eq] at h1 h2 ⊢
    exact h1.trans h2
  · intro a b h
    simp only [exampleModFive, construct, beq_iff_eq] at h ⊢
    exact h

theorem key_matching_spec_witness :
    (⟨0, (1, 10)⟩ : HashNode Nat Nat) ∈ exampleModFive.chain (exampleModFive.bucket 6) ∧
      ((exampleModFive.index 6 = some (exampleModFive, 0) ↔ (1 : Nat) = 6) ∧
        (∀ v, (∃ m1, exampleModFive.insert (6, v) = some (m1, (some 0, false))) ↔
          (1 : Nat) = 6) ∧
        (((exampleModFive.erase 6).2 = 1 ∧
            (⟨0, (1, 10)⟩ : HashNode Nat Nat) ∉ (exampleModFive.erase 6).1.allNodes) ↔
          (1 : Nat) = 6) ∧
        ∀ (eq1 : Nat → Nat → Bool) (v : Nat),
          (({ exampleModFive with _equal := eq1 } : UnorderedMap Nat Nat).erase 6).2 =
            (exampleModFive.erase 6).2 ∧
          (({ exampleModFive with _equal := eq1 } : UnorderedMap Nat Nat).index 6).map
              (fun r => r.2) = (exampleModFive.index 6).map (fun r => r.2) ∧
          (({ exampleModFive with _equal := eq1 } : UnorderedMap Nat Nat).insert (6, v)).map
              (fun r => r.2) = (exampleModFive.insert (6, v)).map (fun r => r.2)) :=
  ⟨List.mem_singleton.2 rfl,
    key_matching_spec exampleModFive 6 ⟨0, (1, 10)⟩
      exampleModFive_reachable.wellFormed (List.mem_singleton.2 rfl)⟩

end UnorderedMap

/-! ### The frame of `insert`, `operator[]` and `erase` -/

namespace UnorderedMap

variable {K V : Type}

/-- In a well-formed table the search loop run for the key of a stored node stops at that
node, and the node can be read there. -/
theorem WellFormed.search_of_mem [DecidableEq K] {m : UnorderedMap K V} (hwf : WellFormed m)
    {n : HashNode K V} (hn : n ∈ m.allNodes) :
    chainFind n.val.1 (m.chain (m._bucket n.val.1)) = some n.addr ∧
      m.star (some n.addr) = some n.val := by
  obtain ⟨pre, post, hch⟩ := hwf.chain_split_of_mem hn
  have hmem : n ∈ m.chain (m._bucket n.val.1) := by
    rw [hch]
    simp
  exact ⟨(hwf.search_iff hmem).2 rfl, star_of_deref (hwf.deref_of_chain hch)⟩

/-- Two well-formed tables that hold the same nodes with key `k1` have the same entry for
`k1`. -/
theorem sameEntry_of_nodes [DecidableEq K] {m m1 : UnorderedMap K V} {k1 : K}
    (hwf : WellFormed m) (hwf1 : WellFormed m1) (hbc : m1._bucket_count = m._bucket_count)
    (h : ∀ n : HashNode K V, n.val.1 = k1 → (n ∈ m1.allNodes ↔ n ∈ m.allNodes)) :
    SameEntry m m1 k1 := by
  have hkeys : k1 ∈ m1.keys ↔ k1 ∈ m.keys := by
    constructor
    · intro hk
      obtain ⟨n, hn, hnk⟩ := List.mem_map.1 hk
      exact List.mem_map.2 ⟨n, (h n hnk).1 hn, hnk⟩
    · intro hk
      obtain ⟨n, hn, hnk⟩ := List.mem_map.1 hk
      exact List.mem_map.2 ⟨n, (h n hnk).2 hn, hnk⟩
  by_cases hk : k1 ∈ m.keys
  · obtain ⟨n, hn, hnk⟩ := List.mem_map.1 hk
    have h0 := hwf.search_of_mem hn
    have h1 := hwf1.search_of_mem ((h n hnk).2 hn)
    simp only [hnk] at h0 h1
    refine ⟨by rw [h0.1, h1.1], ?_, hkeys, hbc⟩
    rw [h0.1, h1.1, h0.2, h1.2]
  · have h0 : chainFind k1 (m.chain (m._bucket k1)) = none := hwf.search_absent hk
    have h1 : chainFind k1 (m1.chain (m1._bucket k1)) = none :=
      hwf1.search_absent (fun hk1 => hk (hkeys.1 hk1))
    refine ⟨by rw [h0, h1], ?_, hkeys, hbc⟩
    rw [h0, h1]
    rfl

/-- Replacing one chain by a chain with the same nodes of key `k1` keeps the nodes of key
`k1` of the table. -/
theorem nodes_of_set {m m1 : UnorderedMap K V} {b : Nat} {chain1 : List (HashNode K V)}
    {k1 : K} (hB : m1._buckets = m._buckets.set b chain1) (hbl : b < m._buckets.length)
    (hc : ∀ n : HashNode K V, n.val.1 = k1 → (n ∈ chain1 ↔ n ∈ m.chain b)) :
    ∀ n : HashNode K V, n.val.1 = k1 → (n ∈ m1.allNodes ↔ n ∈ m.allNodes) := by
  intro n hnk
  constructor
  · intro hn
    obtain ⟨i, -, hi⟩ := mem_chain_of_mem_allNodes hn
    unfold UnorderedMap.chain at hi
    rw [hB] at hi
    by_cases hib : b = i
    · rw [← hib, getD_set_self hbl] at hi
      exact mem_allNodes_of_mem_chain ((hc n hnk).1 hi)
    · rw [getD_set_ne hib] at hi
      exact getD_mem_flatten hi
  · intro hn
    obtain ⟨i, -, hi⟩ := mem_chain_of_mem_allNodes hn
    show n ∈ m1._buckets.flatten
    rw [hB]
    by_cases hib : b = i
    · apply getD_mem_flatten (i := b)
      rw [getD_set_self hbl]
      rw [← hib] at hi
      exact (hc n hnk).2 hi
    · apply getD_mem_flatten (i := i)
      rw [getD_set_ne hib]
      exact hi

/-- The frame of the three operations on a well-formed table: for distinct keys `k` and
`k1`, every defined result of `insert(k, v)` and of `operator[](k)`, and the result of
`erase(k)`, has the same entry for `k1` and the same bucket count. -/
theorem frame_when_defined [DecidableEq K] [DecidableEq V] [Inhabited V]
    (m : UnorderedMap K V) (k k1 : K) (hwf : WellFormed m) (hne : k ≠ k1) :
    (∀ v m1 r, m.insert (k, v) = some (m1, r) → SameEntry m m1 k1) ∧
      (∀ m1 p, m.index k = some (m1, p) → SameEntry m m1 k1) ∧
      SameEntry m (m.erase k).1 k1 := by
  have hb := m._bucket_lt k hwf.bucket_count_pos
  have hbl : m._bucket k < m._buckets.length := by
    rw [hwf.length_buckets]
    exact hb
  have hcons : ∀ (a : Nat) (v : V) (n : HashNode K V), n.val.1 = k1 →
      (n ∈ (⟨a, (k, v)⟩ : HashNode K V) :: m.chain (m._bucket k) ↔
        n ∈ m.chain (m._bucket k)) := by
    intro a v n hnk
    constructor
    · intro h
      rcases List.mem_cons.1 h with h | h
      · exact absurd (by rw [h] at hnk; exact hnk) hne
      · exact h
    · exact List.mem_cons_of_mem _
  refine ⟨?_, ?_, ?_⟩
  · intro v m1 r h
    have hwf1 := hwf.insert h
    rcases hassign : chainAssign k v (m.chain (m._bucket k)) with _ | ⟨a, c1⟩
    · have hassign1 : chainAssign (k, v).1 (k, v).2
          (m.chain (m._bucket (k, v).1)) = none := hassign
      obtain ⟨hd, hshape⟩ := insert_new_shape hassign1 h
      rw [h] at hshape
      simp only [Option.some.injEq, Prod.mk.injEq] at hshape
      obtain ⟨rfl, -⟩ := hshape
      exact sameEntry_of_nodes hwf hwf1 rfl (nodes_of_set rfl hbl (hcons _ v))
    · have hshape := insert_of_assign hassign
      rw [h] at hshape
      simp only [Option.some.injEq, Prod.mk.injEq] at hshape
      obtain ⟨rfl, -⟩ := hshape
      obtain ⟨pre, x, post, hch, hxk, -, -, hc1⟩ := chainAssign_eq_some hassign
      refine sameEntry_of_nodes hwf hwf1 rfl (nodes_of_set rfl hbl ?_)
      intro n hnk
      have hnx : n ≠ x := fun e => hne (by rw [← hxk, ← e, hnk])
      have hna : n ≠ (⟨a, (k, v)⟩ : HashNode K V) := fun e =>
        hne (by rw [e] at hnk; exact hnk)
      rw [hc1, hch]
      simp only [List.mem_append, List.mem_cons, hnx, hna, false_or]
  · intro m1 p h
    have hwf1 := hwf.index h
    rcases hf : chainFind k (m.chain (m._bucket k)) with _ | curr
    · have hnotin := chainFind_eq_none.1 hf
      have hnew : chainAssign (k, (default : V)).1 (k, (default : V)).2
          (m.chain (m._bucket (k, (default : V)).1)) = none := chainAssign_eq_none.2 hnotin
      have hidx : m.index k = m._insert_into_bucket (m._bucket k) (k, default) := by
        unfold UnorderedMap.index
        simp only [hf]
      rw [hidx] at h
      have hmove : m.insert_move (k, default) = some (m1, (some p, true)) := by
        unfold UnorderedMap.insert_move
        simp only [hnew, h]
      obtain ⟨hd, hshape⟩ := insert_move_new_shape hnew hmove
      rw [hmove] at hshape
      simp only [Option.some.injEq, Prod.mk.injEq] at hshape
      obtain ⟨rfl, -⟩ := hshape
      exact sameEntry_of_nodes hwf hwf1 rfl (nodes_of_set rfl hbl (hcons _ default))
    · have hidx : m.index k = some (m, curr) := by
        unfold UnorderedMap.index
        simp only [hf]
      rw [hidx] at h
      simp only [Option.some.injEq, Prod.mk.injEq] at h
      obtain ⟨rfl, -⟩ := h
      exact ⟨rfl, rfl, Iff.rfl, rfl⟩
  · have hwf1 := hwf.erase k
    by_cases hk : k ∈ m.keys
    · obtain ⟨pre, x, post, hch, hxk, -, -⟩ := hwf.search_stored hk
      subst hxk
      have he := hwf.erase_eq hch
      rw [he] at hwf1 ⊢
      refine sameEntry_of_nodes hwf hwf1 rfl (nodes_of_set rfl hbl ?_)
      intro n hnk
      have hnx : n ≠ x := fun e => hne (by rw [← e, hnk])
      rw [hch]
      simp only [List.mem_append, List.mem_cons, hnx, false_or]
    · rw [((erase_key_spec m k hwf).2 hk).2]
      exact ⟨rfl, rfl, Iff.rfl, rfl⟩

theorem frame_when_defined_example :
    SameEntry exampleTwo (exampleTwo.erase 1).1 2 :=
  (frame_when_defined exampleTwo 1 2 exampleTwo_reachable.wellFormed (by decide)).2.2

/-- C34, at the failing input.  The table `exampleTwoErased` is reached by two inserts and
`erase(1)`, which leaves `_head` at the node it freed.  The key 2 is stored with value 20,
and for the distinct key 7 neither `insert({7, 70})` nor `operator[](7)` has a defined
result, since both read `_head->val`; so there is no table after the call in which the
entry of 2 could be the same. -/
theorem frame_undefined_after_erase :
    Reachable exampleTwoErased ∧ (7 : Nat) ≠ 2 ∧
      exampleTwoErased.index 2 = some (exampleTwoErased, 1) ∧
      exampleTwoErased.star (some 1) = some (2, 20) ∧
      exampleTwoErased._head = some 0 ∧ exampleTwoErased.deref 0 = none ∧
      exampleTwoErased.insert (7, 70) = none ∧ exampleTwoErased.index 7 = none :=
  ⟨Reachable.erase exampleTwo 1
      (Reachable.insert exampleOne exampleTwo (2, 20) (some 1, true)
        (Reachable.insert exampleEmpty exampleOne (1, 10) (some 0, true)
          (Reachable.construct (fun _ => 5) 5 (fun k => k) (fun a b => a == b) (by decide))
          rfl) rfl),
    by decide, rfl, rfl, rfl, rfl, rfl, rfl⟩

end UnorderedMap

/-! ### Sorting through a priority queue -/

namespace PriorityQueue

variable {T : Type}

theorem push_all_spec (xs : List T) : ∀ (q : PriorityQueue T), StrictWeakOrdering q.comp →
    MaxHeap q.comp q.c →
    ∃ q1, push_all q xs = some q1 ∧ q1.comp = q.comp ∧ MaxHeap q1.comp q1.c ∧
      q1.c.Perm (q.c ++ xs) := by
  induction xs with
  | nil =>
    intro q _ hheap
    exact ⟨q, rfl, rfl, hheap, by simp⟩
  | cons x xs ih =>
    intro q hswo hheap
    obtain ⟨q1, hq1, hcomp, hheap1, hperm1⟩ := push_spec hswo hheap x
    have hswo1 : StrictWeakOrdering q1.comp := by
      rw [hcomp]
      exact hswo
    obtain ⟨q2, hq2, hcomp2, hheap2, hperm2⟩ := ih q1 hswo1 hheap1
    refine ⟨q2, ?_, by rw [hcomp2, hcomp], hheap2, ?_⟩
    · simp only [push_all, hq1]
      exact hq2
    · refine hperm2.trans ?_
      have : q.c ++ x :: xs = (q.c ++ [x]) ++ xs := by simp
      rw [this]
      exact List.Perm.append_right xs hperm1

theorem drain_spec : ∀ (n : Nat) (q : PriorityQueue T), q.c.length = n →
    StrictWeakOrdering q.comp → MaxHeap q.comp q.c →
    ∃ out, (∀ fuel, n ≤ fuel → drain fuel q = some out) ∧ out.Perm q.c ∧
      out.Pairwise (fun a b => q.comp a b = false) := by
  intro n
  induction n with
  | zero =>
    intro q hlen _ _
    have hnil : q.c = [] := List.length_eq_zero.1 hlen
    refine ⟨[], ?_, by rw [hnil], List.Pairwise.nil⟩
    intro fuel _
    cases fuel <;> simp [drain, empty, hlen]
  | succ n ih =>
    intro q hlen hswo hheap
    have hpos : 0 < q.c.length := by omega
    obtain ⟨t, ht⟩ : ∃ t, q.top = some t := ⟨q.c[0], by
      unfold top
      exact List.getElem?_eq_getElem hpos⟩
    obtain ⟨q1, hq1, hcomp, hheap1, -, hperm⟩ := pop_spec hswo hheap
    have hperm1 := hperm t ht
    have hlen1 : q1.c.length = n := by
      have := hperm1.length_eq
      simp only [List.length_cons] at this
      omega
    have hswo1 : StrictWeakOrdering q1.comp := by
      rw [hcomp]
      exact hswo
    obtain ⟨out1, hdrain1, hp1, hpw1⟩ := ih q1 hlen1 hswo1 hheap1
    refine ⟨t :: out1, ?_, (List.Perm.cons t hp1).trans hperm1, ?_⟩
    · intro fuel hfuel
      obtain ⟨f, rfl⟩ : ∃ f, fuel = f + 1 := ⟨fuel - 1, by omega⟩
      have hne : q.empty = false := by
        unfold empty
        simp only [beq_eq_false_iff_ne, ne_eq]
        omega
      simp only [drain, hne, ht, hq1, hdrain1 f (by omega)]
      rfl
    · refine List.Pairwise.cons ?_ ?_
      · intro x hx
        have hxq : x ∈ q.c := hperm1.subset (List.mem_cons_of_mem _ (hp1.subset hx))
        exact hheap.top_max hswo ht x hxq
      · rw [← hcomp]
        exact hpw1

/-- C35.  For a strict weak ordering `comp` and every list `xs`: pushing the elements of
`xs` one by one onto an empty queue gives a queue `q`, and reading `top()` and calling
`pop()` until `empty()` then ends (within `xs.length` iterations) with the list `out` of
the elements read, a permutation of `xs` in which no element compares less than a later
one.  On every reachable queue each `push` gives a queue with `size()` one more, and each
`pop` on a queue with top `t` gives a queue whose elements, with one `t` added, are the
elements before, with `size()` one less. -/
theorem heapsort_spec (comp : T → T → Bool) (xs : List T) (hswo : StrictWeakOrdering comp) :
    (∃ q out, push_all (PriorityQueue.new comp) xs = some q ∧ q.size = xs.length ∧
        (∀ fuel, xs.length ≤ fuel → drain fuel q = some out) ∧ out.Perm xs ∧
        out.Pairwise (fun a b => comp a b = false)) ∧
      (∀ q : PriorityQueue T, Reachable q → q.comp = comp → ∀ value,
        ∃ q1, q.push value = some q1 ∧ q1.size = q.size + 1 ∧ q1.c.Perm (q.c ++ [value])) ∧
      (∀ q : PriorityQueue T, Reachable q → q.comp = comp → ∀ t, q.top = some t →
        ∃ q1, q.pop = some q1 ∧ (t :: q1.c).Perm q.c ∧ q1.size + 1 = q.size) := by
  refine ⟨?_, ?_, ?_⟩
  · have hheap0 : MaxHeap (PriorityQueue.new comp).comp (PriorityQueue.new comp).c := by
      intro i a b _ _ hb
      simp [PriorityQueue.new] at hb
    obtain ⟨q, hq, hcomp, hheap, hperm⟩ := push_all_spec xs (PriorityQueue.new comp) hswo hheap0
    have hperm1 : q.c.Perm xs := by
      simpa [PriorityQueue.new] using hperm
    have hcomp1 : q.comp = comp := hcomp
    have hswo1 : StrictWeakOrdering q.comp := by
      rw [hcomp1]
      exact hswo
    obtain ⟨out, hdrain, hp, hpw⟩ := drain_spec q.c.length q rfl hswo1 hheap
    refine ⟨q, out, hq, hperm1.length_eq, ?_, hp.trans hperm1, ?_⟩
    · intro fuel hfuel
      exact hdrain fuel (by rw [hperm1.length_eq]; exact hfuel)
    · rw [← hcomp1]
      exact hpw
  · intro q hr hcomp value
    have hswo1 : StrictWeakOrdering q.comp := by
      rw [hcomp]
      exact hswo
    obtain ⟨q1, hq1, -, -, hperm⟩ := push_spec hswo1 (hr.maxHeap hswo1) value
    refine ⟨q1, hq1, ?_, hperm⟩
    have := hperm.length_eq
    simpa [size] using this
  · intro q hr hcomp t ht
    have hswo1 : StrictWeakOrdering q.comp := by
      rw [hcomp]
      exact hswo
    obtain ⟨q1, hq1, -, -, -, hperm⟩ := pop_spec hswo1 (hr.maxHeap hswo1)
    refine ⟨q1, hq1, hperm t ht, ?_⟩
    have := (hperm t ht).length_eq
    simpa [size] using this

end PriorityQueue

namespace PriorityQueue

theorem heapsort_example :
    push_all (PriorityQueue.new exampleQueue.comp) [3, 7, 5] = some exampleQueue ∧
      drain 3 exampleQueue = some [7, 5, 3] :=
  ⟨rfl, rfl⟩

theorem heapsort_spec_witness :
    StrictWeakOrdering exampleQueue.comp ∧
      ((∃ q out, push_all (PriorityQueue.new exampleQueue.comp) [3, 7, 5] = some q ∧
          q.size = [3, 7, 5].length ∧
          (∀ fuel, [3, 7, 5].length ≤ fuel → drain fuel q = some out) ∧
          out.Perm [3, 7, 5] ∧ out.Pairwise (fun a b => exampleQueue.comp a b = false)) ∧
        (∀ q : PriorityQueue Nat, Reachable q → q.comp = exampleQueue.comp → ∀ value,
          ∃ q1, q.push value = some q1 ∧ q1.size = q.size + 1 ∧
            q1.c.Perm (q.c ++ [value])) ∧
        (∀ q : PriorityQueue Nat, Reachable q → q.comp = exampleQueue.comp → ∀ t,
          q.top = some t →
          ∃ q1, q.pop = some q1 ∧ (t :: q1.c).Perm q.c ∧ q1.size + 1 = q.size)) :=
  ⟨exampleQueue_strictWeakOrdering,
    heapsort_spec exampleQueue.comp [3, 7, 5] exampleQueue_strictWeakOrdering⟩

end PriorityQueue

/-! ### `Vector`: erasure -/

namespace DynamicArray

namespace Vector

variable {T : Type}

theorem eraseLoop_spec (pos last : Nat) : ∀ (c : Nat) (b : List T), pos ≤ c → c < last →
    last < b.length →
    ∃ b1, eraseLoop pos last c b = some b1 ∧ b1.length = b.length ∧
      ∀ j, b1[j]? =
        if pos < j ∧ j < c then b[j + 1]?
        else if j = c ∧ pos < c then b[last]?
        else if j = last ∧ pos < c then b[pos + 1]?
        else b[j]? := by
  intro c
  induction c with
  | zero =>
    intro b hpos _ _
    have hp : pos = 0 := by omega
    subst hp
    refine ⟨b, by simp [eraseLoop], rfl, ?_⟩
    intro j
    simp
  | succ c ih =>
    intro b hpos hlast hlen
    by_cases hcp : c + 1 = pos
    · refine ⟨b, by simp [eraseLoop, hcp], rfl, ?_⟩
      intro j
      have h1 : ¬ (pos < j ∧ j < c + 1) := by omega
      have h2 : ¬ (j = c + 1 ∧ pos < c + 1) := by omega
      have h3 : ¬ (j = last ∧ pos < c + 1) := by omega
      rw [if_neg h1, if_neg h2, if_neg h3]
    · have hc1 : c + 1 < b.length := by omega
      have hget1 : b[c + 1]? = some b[c + 1] := List.getElem?_eq_getElem hc1
      have hget2 : b[last]? = some b[last] := List.getElem?_eq_getElem hlen
      obtain ⟨b0, hb0⟩ : ∃ b0, b0 = (b.set (c + 1) b[last]).set last b[c + 1] := ⟨_, rfl⟩
      have hlen0 : b0.length = b.length := by
        rw [hb0]
        simp
      have hb0get : ∀ k, b0[k]? =
          if k = last then b[c + 1]? else if k = c + 1 then b[last]? else b[k]? := by
        intro k
        rw [hb0, List.getElem?_set, List.getElem?_set]
        by_cases hk : last = k
        · subst hk
          simp [hget1, hlen]
        · by_cases hk2 : c + 1 = k
          · subst hk2
            have hk5 : ¬ c + 1 = last := fun e => hk e.symm
            simp [hk5, hk, hget2, hc1]
          · have hk3 : ¬ k = last := fun e => hk e.symm
            have hk4 : ¬ k = c + 1 := fun e => hk2 e.symm
            simp [hk, hk2, hk3, hk4]
      obtain ⟨b1, hb1, hlen1, hspec⟩ := ih b0 (by omega) (by omega) (by omega)
      refine ⟨b1, ?_, by rw [hlen1, hlen0], ?_⟩
      · simp only [eraseLoop, hcp, if_false, hget1, hget2]
        rw [← hb0]
        exact hb1
      · intro j
        rw [hspec j]
        simp only [hb0get]
        split_ifs <;> first | rfl | (exfalso; omega) | (congr 1; omega)

theorem take_eraseIdx_last (l : List T) (n : Nat) (hn : 0 < n) :
    l.take (n - 1) = (l.take n).eraseIdx (n - 1) := by
  apply List.ext_getElem?
  intro j
  rw [List.getElem?_eraseIdx, List.getElem?_take, List.getElem?_take, List.getElem?_take]
  split_ifs <;> first | rfl | (exfalso; omega)

/-- C37.  For a vector of the data model with elements `e0 .. e(n-1)`, `n = size() > 0`,
and an iterator at offset `i < n`: `erase(pos)` has a defined result, leaves the vector
holding the elements without the one at offset `i`, in their order, with `size()` one less
and the capacity as it was, and returns the iterator at offset `i`, which is `end()` of the
vector after the call when `i` was `n - 1`. -/
theorem erase_spec (v : Vector T) (i : Nat) (hwf : WellFormed v) (hi : i < v.size) :
    v.elements.length = v.size ∧
      ∃ v1, v.erase i = some (v1, i) ∧ v1.elements = v.elements.eraseIdx i ∧
        v1.size + 1 = v.size ∧ v1.capacity = v.capacity ∧ WellFormed v1 ∧
        (i + 1 = v.size → i = v1.end_) := by
  have hi1 : i < v._size := hi
  have hle := hwf.size_le
  obtain ⟨block, hblock⟩ : ∃ block, v.array = some block := by
    rcases ha : v.array with _ | block
    · have := hwf.null_capacity ha
      omega
    · exact ⟨block, rfl⟩
  have hbl : block.length = v._capacity := hwf.block_length block hblock
  have helts : v.elements = block.take v._size := by
    simp only [elements, hblock]
  have hsz0 : ¬ v._size = 0 := by omega
  refine ⟨by rw [helts, List.length_take]; show min v._size block.length = v._size; omega, ?_⟩
  by_cases hlast : i = v._size - 1
  · refine ⟨{ v with _size := v._size - 1 }, ?_, ?_, ?_, rfl, ?_, fun _ => hlast⟩
    · simp only [erase, hsz0, if_false, hlast, if_true]
    · rw [helts, hlast]
      simp only [elements, hblock]
      exact take_eraseIdx_last block v._size (by omega)
    · show v._size - 1 + 1 = v._size
      omega
    · exact ⟨by show v._size - 1 ≤ v._capacity; omega, hwf.block_length, hwf.null_capacity⟩
  · have hsz2 : ¬ v._size < 2 := by omega
    obtain ⟨b1, hb1, hlen1, hspec⟩ := eraseLoop_spec i (v._size - 1) (v._size - 2) block
      (by omega) (by omega) (by omega)
    have hlastlt : v._size - 1 < b1.length := by omega
    have hget : b1[v._size - 1]? = some b1[v._size - 1] := List.getElem?_eq_getElem hlastlt
    have hpos : i < b1.length := by omega
    refine ⟨{ v with array := some (b1.set i b1[v._size - 1]), _size := v._size - 1 },
      ?_, ?_, ?_, rfl, ?_, ?_⟩
    · simp only [erase, hsz0, if_false, hlast, hsz2, hblock, hb1, hget, hpos, if_true]
    · rw [helts]
      simp only [elements]
      apply List.ext_getElem?
      intro j
      rw [List.getElem?_eraseIdx, List.getElem?_take, List.getElem?_take,
        List.getElem?_take, List.getElem?_set]
      by_cases hij : i = j
      · subst hij
        rw [if_pos rfl, if_pos hpos, ← hget, hspec]
        split_ifs <;> first | rfl | (exfalso; omega) | (congr 1; omega)
      · rw [if_neg hij, hspec]
        split_ifs <;> first | rfl | (exfalso; omega) | (congr 1; omega)
    · show v._size - 1 + 1 = v._size
      omega
    · refine ⟨by show v._size - 1 ≤ v._capacity; omega, ?_, ?_⟩
      · intro block2 h2
        have h3 : some (b1.set i b1[v._size - 1]) = some block2 := h2
        simp only [Option.some.injEq] at h3
        rw [← h3, List.length_set, hlen1, hbl]
      · intro h2
        have h3 : some (b1.set i b1[v._size - 1]) = none := h2
        cases h3
    · intro h
      have h1 : i + 1 = v._size := h
      exact absurd (by omega) hlast

theorem erase_spec_witness :
    WellFormed exampleVector ∧ 0 < exampleVector.size ∧
      (exampleVector.elements.length = exampleVector.size ∧
        ∃ v1, exampleVector.erase 0 = some (v1, 0) ∧
          v1.elements = exampleVector.elements.eraseIdx 0 ∧
          v1.size + 1 = exampleVector.size ∧ v1.capacity = exampleVector.capacity ∧
          WellFormed v1 ∧ (0 + 1 = exampleVector.size → 0 = v1.end_)) :=
  ⟨exampleVector_wellFormed, by decide,
    erase_spec exampleVector 0 exampleVector_wellFormed (by decide)⟩

theorem erase_example :
    (exampleVector.erase 0).map (fun r => (r.1.elements, r.2)) = some ([8, 9], 0) ∧
      (exampleVector.erase 1).map (fun r => (r.1.elements, r.2)) = some ([7, 9], 1) ∧
      (exampleVector.erase 2).map (fun r => (r.1.elements, r.2, r.1.end_)) =
        some ([7, 8], 2, 2) :=
  ⟨rfl, rfl, rfl⟩

end Vector

end DynamicArray

/-! ### `Vector`: growth and insertion -/

namespace DynamicArray

namespace Vector

variable {T : Type}

theorem copySlots_spec (block : List T) : ∀ (n i : Nat) (dst : List T),
    i + n ≤ block.length → i + n ≤ dst.length →
    ∃ d1, copySlots (some block) n i dst = some d1 ∧ d1.length = dst.length ∧
      ∀ j, d1[j]? = if i ≤ j ∧ j < i + n then block[j]? else dst[j]? := by
  intro n
  induction n with
  | zero =>
    intro i dst _ _
    refine ⟨dst, rfl, rfl, ?_⟩
    intro j
    have h : ¬ (i ≤ j ∧ j < i + 0) := by omega
    rw [if_neg h]
  | succ n ih =>
    intro i dst hb hd
    have hi : i < block.length := by omega
    have hid : i < dst.length := by omega
    obtain ⟨d1, hd1, hlen1, hspec⟩ := ih (i + 1) (dst.set i block[i])
      (by omega) (by rw [List.length_set]; omega)
    refine ⟨d1, ?_, by rw [hlen1, List.length_set], ?_⟩
    · simp only [copySlots, List.getElem?_eq_getElem hi, hid, if_true]
      exact hd1
    · intro j
      rw [hspec j, List.getElem?_set]
      by_cases hij : i = j
      · subst hij
        have h1 : ¬ (i + 1 ≤ i ∧ i < i + 1 + n) := by omega
        have h2 : i ≤ i ∧ i < i + (n + 1) := by omega
        rw [if_neg h1, if_pos h2, if_pos rfl, if_pos hid, List.getElem?_eq_getElem hi]
      · rw [if_neg hij]
        split_ifs <;> first | rfl | (exfalso; omega)

theorem take_succ_set (l : List T) (n : Nat) (x : T) (h : n < l.length) :
    (l.set n x).take (n + 1) = l.take n ++ [x] := by
  rw [List.take_succ]
  have h1 : List.take n (l.set n x) = List.take n l := by
    apply List.ext_getElem?
    intro j
    rw [List.getElem?_take, List.getElem?_take, List.getElem?_set]
    split_ifs <;> first | rfl | (exfalso; omega)
  rw [h1]
  simp [List.getElem?_set, h]

/-- On a vector of the data model whose `array` is null when its capacity is 0,
`push_back(value)` has a defined result: the elements with `value` added at the end, in a
block of the same capacity when `size() < capacity()`, of capacity 1 when the capacity was
0, and of twice the capacity otherwise. -/
theorem push_back_spec [Inhabited T] (v : Vector T) (value : T) (hwf : WellFormed v)
    (hnull : v._capacity = 0 → v.array = none) :
    ∃ v1, v.push_back value = some v1 ∧ v1.elements = v.elements ++ [value] ∧
      v1.size = v.size + 1 ∧ WellFormed v1 ∧
      (v.size < v.capacity → v1.capacity = v.capacity) ∧
      (v.size = v.capacity →
        v1.capacity = if v.capacity = 0 then 1 else 2 * v.capacity) := by
  have hle := hwf.size_le
  by_cases hfull : v._size = v._capacity
  · -- the vector grows
    obtain ⟨cap1, hcap1⟩ : ∃ cap1, cap1 = (match v.array with
        | none => 1
        | some _ => 2 * v._capacity) := ⟨_, rfl⟩
    have hcapval : cap1 = if v._capacity = 0 then 1 else 2 * v._capacity := by
      rw [hcap1]
      rcases ha : v.array with _ | block
      · simp [hwf.null_capacity ha]
      · have : ¬ v._capacity = 0 := fun h0 => by
          rw [hnull h0] at ha
          cases ha
        simp [this]
    have hcappos : v._size < cap1 := by
      rw [hcapval]
      split_ifs <;> omega
    have hcopy : ∃ d1, copySlots v.array v._size 0 (newBlock cap1) = some d1 ∧
        d1.length = cap1 ∧ d1.take v._size = v.elements := by
      rcases ha : v.array with _ | block
      · have h0 : v._size = 0 := by
          have := hwf.null_capacity ha
          omega
        refine ⟨newBlock cap1, by rw [h0]; rfl, by simp [newBlock], ?_⟩
        simp [elements, ha, h0]
      · have hbl := hwf.block_length block ha
        obtain ⟨d1, hd1, hlen1, hspec⟩ := copySlots_spec block v._size 0 (newBlock cap1)
          (by omega) (by simp only [newBlock, List.length_replicate]; omega)
        refine ⟨d1, hd1, by rw [hlen1]; simp [newBlock], ?_⟩
        simp only [elements, ha]
        apply List.ext_getElem?
        intro j
        rw [List.getElem?_take, List.getElem?_take, hspec j]
        split_ifs <;> first | rfl | (exfalso; omega)
    obtain ⟨d1, hd1, hlen1, htake⟩ := hcopy
    have hgrow : v.grow = some { array := some d1, _capacity := cap1, _size := v._size } := by
      unfold grow
      simp only
      rw [← hcap1, hd1]
    have hlt : v._size < d1.length := by omega
    refine ⟨{ array := some (d1.set v._size value), _capacity := cap1, _size := v._size + 1 },
      ?_, ?_, rfl, ?_, ?_, ?_⟩
    · unfold push_back
      simp only [hfull, if_true]
      rw [← hfull, hgrow]
      simp only [hlt, if_true]
    · rw [← htake]
      show List.take (v._size + 1) (d1.set v._size value) = _
      exact take_succ_set d1 v._size value hlt
    · refine ⟨by show v._size + 1 ≤ cap1; omega, ?_, ?_⟩
      · intro block2 h2
        have h3 : some (d1.set v._size value) = some block2 := h2
        simp only [Option.some.injEq] at h3
        rw [← h3, List.length_set, hlen1]
      · intro h2
        have h3 : some (d1.set v._size value) = none := h2
        cases h3
    · intro h
      have : v._size < v._capacity := h
      omega
    · intro _
      exact hcapval
  · -- there is room
    have hlt : v._size < v._capacity := by omega
    obtain ⟨block, hblock⟩ : ∃ block, v.array = some block := by
      rcases ha : v.array with _ | block
      · have := hwf.null_capacity ha
        omega
      · exact ⟨block, rfl⟩
    have hbl := hwf.block_length block hblock
    have hltb : v._size < block.length := by omega
    refine ⟨{ v with array := some (block.set v._size value), _size := v._size + 1 },
      ?_, ?_, rfl, ?_, fun _ => rfl, ?_⟩
    · unfold push_back
      simp only [hfull, if_false, hblock, hltb, if_true]
    · simp only [elements, hblock]
      exact take_succ_set block v._size value hltb
    · refine ⟨by show v._size + 1 ≤ v._capacity; omega, ?_, ?_⟩
      · intro block2 h2
        have h3 : some (block.set v._size value) = some block2 := h2
        simp only [Option.some.injEq] at h3
        rw [← h3, List.length_set, hbl]
      · intro h2
        have h3 : some (block.set v._size value) = none := h2
        cases h3
    · intro h
      have : v._size = v._capacity := h
      omega

theorem push_back_spec_example :
    ∃ v1, (Vector.new : Vector Nat).push_back 5 = some v1 ∧ v1.elements = [5] ∧
      v1.capacity = 1 :=
  ⟨_, rfl, rfl, rfl⟩

/-- C36, at the failing input.  `Vector<T> a; Vector<T> b(a);` (and `b = a` for any `b`)
gives a vector `b` with `size() == capacity() == 0` whose `array` is the block `new T[0]`,
not null.  `grow()` tests `array`, not the capacity: it allocates `new T[2 * 0]` and leaves
the capacity 0, not 1, and `b.push_back(5)` writes `array[0]` outside the block of no
slots. -/
theorem push_back_after_empty_copy :
    copy_construct (Vector.new : Vector Nat) = some emptyCopy ∧
      copy_assign exampleVector (Vector.new : Vector Nat) = some emptyCopy ∧
      emptyCopy.size ≤ emptyCopy.capacity ∧ emptyCopy.size = emptyCopy.capacity ∧
      emptyCopy.capacity = 0 ∧ emptyCopy.array = some [] ∧
      emptyCopy.grow.map capacity = some 0 ∧ emptyCopy.push_back 5 = none :=
  ⟨rfl, rfl, by decide, rfl, rfl, rfl, rfl, rfl⟩

theorem shiftLoop_runaway (last : Nat) : ∀ (fuel curr : Nat) (prev : T) (block : List T),
    last < curr → shiftLoop last fuel curr prev block = none := by
  intro fuel
  induction fuel with
  | zero =>
    intro curr prev block h
    have hne : ¬ curr = last := by omega
    simp only [shiftLoop, hne, if_false]
  | succ fuel ih =>
    intro curr prev block h
    have hne : ¬ curr = last := by omega
    simp only [shiftLoop, hne, if_false]
    rcases hb : block[curr]? with _ | temp
    · rfl
    · exact ih (curr + 1) temp (block.set curr prev) (by omega)

theorem growUntil_size [Inhabited T] : ∀ (fuel : Nat) (v v1 : Vector T) (count : Nat),
    growUntil fuel v count = some v1 → v1._size = v._size := by
  intro fuel
  induction fuel with
  | zero =>
    intro v v1 count h
    unfold growUntil at h
    split at h
    · cases h
    · simp only [Option.some.injEq] at h
      rw [h]
  | succ fuel ih =>
    intro v v1 count h
    unfold growUntil at h
    split at h
    · rcases hg : v.grow with _ | v2
      · rw [hg] at h
        cases h
      · rw [hg] at h
        have h2 := ih v2 v1 count h
        unfold grow at hg
        simp only at hg
        split at hg
        · cases hg
        · simp only [Option.some.injEq] at hg
          rw [h2, ← hg]
    · simp only [Option.some.injEq] at h
      rw [h]

/-- From `pos == end()` and with `count > 0`, `insert(pos, count, value)` has no defined
result, whatever the bound on the iterations: the inner loop starts at `end() + 1` and
moves away from `end()`. -/
theorem insert_count_end_undefined [Inhabited T] (v : Vector T) (count : Nat) (value : T)
    (hcount : 0 < count) : ∀ fuel, v.insert_count fuel v.end_ count value = none := by
  intro fuel
  unfold insert_count
  rcases hg : growUntil fuel v count with _ | v1
  · rfl
  · have hsize := growUntil_size fuel v v1 count hg
    simp only
    rcases ha : v1.array with _ | block
    · have : ¬ count = 0 := by omega
      simp only [this, if_false]
    · obtain ⟨n, rfl⟩ : ∃ n, count = n + 1 := ⟨count - 1, by omega⟩
      simp only [shiftRounds]
      rcases hb : block[v.end_ + 0]? with _ | first
      · rfl
      · simp only
        rw [shiftLoop_runaway v1._size fuel (v.end_ + 0 + 1) first block
          (by rw [hsize]; show v._size < v._size + 0 + 1; omega)]

/-- C38, at the failing input.  On the vector holding 7, 8, 9 in a block of four slots,
`insert(end(), 1, 5)` has no defined result, whatever the bound on the iterations: the
shifting loop starts at `curr == end() + 1` and `curr != end()` stays true while it moves
on past the block.  The one-element overload `insert(end(), 5)` on the same vector gives
7, 8, 9, 5, and `insert(begin() + 1, 2, 5)` gives 7, 5, 5, 8, 9. -/
theorem insert_count_at_end :
    WellFormed exampleVector ∧ exampleVector.elements = [7, 8, 9] ∧ exampleVector.end_ = 3 ∧
      (∀ fuel, exampleVector.insert_count fuel 3 1 5 = none) ∧
      (exampleVector.insert 1 3 5).map (fun r => (r.1.elements, r.2)) =
        some ([7, 8, 9, 5], 3) ∧
      (exampleVector.insert_count 3 1 2 5).map (fun r => (r.1.elements, r.2)) =
        some ([7, 5, 5, 8, 9], 1) :=
  ⟨exampleVector_wellFormed, rfl, rfl,
    insert_count_end_undefined exampleVector 1 5 (by decide), rfl, rfl⟩

end Vector

end DynamicArray

/-! ### `BinarySearchTree`: the tree under `insert`, `erase` and `contains` -/

namespace BinaryNode

variable {K V : Type}

theorem mem_elements_node {e x : K × V} {l r : BinaryNode K V} :
    x ∈ (BinaryNode.node e l r).elements ↔ x ∈ l.elements ∨ x = e ∨ x ∈ r.elements := by
  simp [elements]

theorem mem_keys_elements {k : K} {t : BinaryNode K V} :
    k ∈ t.keys ↔ ∃ e ∈ t.elements, e.1 = k := by
  simp [keys]

theorem mem_keys_of_mem {e : K × V} {t : BinaryNode K V} (h : e ∈ t.elements) :
    e.1 ∈ t.keys := mem_keys_elements.2 ⟨e, h, rfl⟩

theorem mem_keys_node {e : K × V} {k : K} {l r : BinaryNode K V} :
    k ∈ (BinaryNode.node e l r).keys ↔ k ∈ l.keys ∨ k = e.1 ∨ k ∈ r.keys := by
  simp only [keys, elements, List.map_append, List.map_cons, List.mem_append, List.mem_cons]

theorem nodeCount_node {e : K × V} {l r : BinaryNode K V} :
    (BinaryNode.node e l r).nodeCount = l.nodeCount + r.nodeCount + 1 := by
  simp only [nodeCount, elements, List.length_append, List.length_cons]
  omega

theorem keys_null {k : K} : k ∉ (BinaryNode.null : BinaryNode K V).keys := by
  simp [keys, elements]

theorem ordered_node {comp : K → K → Bool} {e : K × V} {l r : BinaryNode K V} :
    Ordered comp (BinaryNode.node e l r) ↔
      (∀ k ∈ l.keys, comp k e.1 = true) ∧ (∀ k ∈ r.keys, comp e.1 k = true) ∧
        Ordered comp l ∧ Ordered comp r := Iff.rfl

end BinaryNode

namespace BinarySearchTree

open BinaryNode

variable {K V : Type}

theorem StrictTotalOrder.not_comp_symm {comp : K → K → Bool} (h : StrictTotalOrder comp) {a b : K}
    (hab : comp a b = true) : comp b a = false := by
  rcases hba : comp b a with _ | _
  · rfl
  · have := h.trans a b a hab hba
    rw [h.irrefl a] at this
    cases this

theorem StrictTotalOrder.ne_of_comp {comp : K → K → Bool} (h : StrictTotalOrder comp)
    {a b : K} (hab : comp a b = true) : a ≠ b := by
  intro e
  rw [e, h.irrefl b] at hab
  cases hab

variable [DecidableEq K]

/-- The recursion of the private `insert`, its tests for a null child resolved. -/
theorem insert_at_node (comp : K → K → Bool) (x e : K × V) (l r : BinaryNode K V)
    (size : Nat) :
    insert_at comp x (BinaryNode.node e l r) size =
      if comp e.1 x.1 then
        (BinaryNode.node e l (insert_at comp x r size).1, (insert_at comp x r size).2)
      else if comp x.1 e.1 then
        (BinaryNode.node e (insert_at comp x l size).1 r, (insert_at comp x l size).2)
      else if e.1 = x.1 then (BinaryNode.node (e.1, x.2) l r, size)
      else (BinaryNode.node e l r, size) := by
  by_cases h1 : comp e.1 x.1 = true
  · cases r <;> simp [insert_at, h1]
  · by_cases h2 : comp x.1 e.1 = true
    · cases l <;> simp [insert_at, h1, h2]
    · simp [insert_at, h1, h2]

theorem insert_at_spec {comp : K → K → Bool} (hsto : StrictTotalOrder comp) (x : K × V)
    (size : Nat) : ∀ t : BinaryNode K V, Ordered comp t →
    Ordered comp (insert_at comp x t size).1 ∧
      (∀ e, e ∈ (insert_at comp x t size).1.elements ↔
        e = x ∨ (e ∈ t.elements ∧ e.1 ≠ x.1)) ∧
      (x.1 ∈ t.keys → (insert_at comp x t size).1.nodeCount = t.nodeCount ∧
        (insert_at comp x t size).2 = size) ∧
      (x.1 ∉ t.keys → (insert_at comp x t size).1.nodeCount = t.nodeCount + 1 ∧
        (insert_at comp x t size).2 = size + 1) := by
  intro t
  induction t with
  | null =>
    intro _
    refine ⟨?_, ?_, ?_, ?_⟩
    · exact ⟨fun k hk => absurd hk keys_null, fun k hk => absurd hk keys_null, trivial,
        trivial⟩
    · intro e
      simp [insert_at, elements]
    · intro h
      exact absurd h keys_null
    · intro _
      exact ⟨rfl, rfl⟩
  | node e l r ihl ihr =>
    intro hord
    obtain ⟨hl, hr, hol, hor⟩ := ordered_node.1 hord
    rw [insert_at_node]
    by_cases h1 : comp e.1 x.1 = true
    · rw [if_pos h1]
      obtain ⟨ho1, he1, hin1, hout1⟩ := ihr hor
      have hne : e.1 ≠ x.1 := hsto.ne_of_comp h1
      have hlne : ∀ k ∈ l.keys, k ≠ x.1 := by
        intro k hk e1
        have h2 := hl k hk
        rw [e1, hsto.not_comp_symm h1] at h2
        cases h2
      have hkeys : x.1 ∈ (BinaryNode.node e l r).keys ↔ x.1 ∈ r.keys := by
        rw [mem_keys_node]
        constructor
        · rintro (h | h | h)
          · exact absurd rfl (hlne _ h)
          · exact absurd h.symm hne
          · exact h
        · exact fun h => Or.inr (Or.inr h)
      refine ⟨?_, ?_, ?_, ?_⟩
      · refine ordered_node.2 ⟨hl, ?_, hol, ho1⟩
        intro k hk
        obtain ⟨e1, he1mem, rfl⟩ := mem_keys_elements.1 hk
        rcases (he1 e1).1 he1mem with h | h
        · rw [h]
          exact h1
        · exact hr _ (mem_keys_of_mem h.1)
      · intro e1
        rw [mem_elements_node, mem_elements_node, he1 e1]
        constructor
        · rintro (h | h | h | h)
          · exact Or.inr ⟨Or.inl h, hlne _ (mem_keys_of_mem h)⟩
          · exact Or.inr ⟨Or.inr (Or.inl h), by rw [h]; exact hne⟩
          · exact Or.inl h
          · exact Or.inr ⟨Or.inr (Or.inr h.1), h.2⟩
        · rintro (h | ⟨h | h | h, hk⟩)
          · exact Or.inr (Or.inr (Or.inl h))
          · exact Or.inl h
          · exact Or.inr (Or.inl h)
          · exact Or.inr (Or.inr (Or.inr ⟨h, hk⟩))
      · intro h
        have := hin1 (hkeys.1 h)
        rw [nodeCount_node, nodeCount_node, this.1]
        exact ⟨rfl, this.2⟩
      · intro h
        have := hout1 (fun h2 => h (hkeys.2 h2))
        rw [nodeCount_node, nodeCount_node, this.1]
        exact ⟨by omega, this.2⟩
    · by_cases h2 : comp x.1 e.1 = true
      · rw [if_neg h1, if_pos h2]
        obtain ⟨ho1, he1, hin1, hout1⟩ := ihl hol
        have hne : x.1 ≠ e.1 := hsto.ne_of_comp h2
        have hrne : ∀ k ∈ r.keys, k ≠ x.1 := by
          intro k hk e1
          have h3 := hr k hk
          rw [e1, hsto.not_comp_symm h2] at h3
          cases h3
        have hkeys : x.1 ∈ (BinaryNode.node e l r).keys ↔ x.1 ∈ l.keys := by
          rw [mem_keys_node]
          constructor
          · rintro (h | h | h)
            · exact h
            · exact absurd h hne
            · exact absurd rfl (hrne _ h)
          · exact fun h => Or.inl h
        refine ⟨?_, ?_, ?_, ?_⟩
        · refine ordered_node.2 ⟨?_, hr, ho1, hor⟩
          intro k hk
          obtain ⟨e1, he1mem, rfl⟩ := mem_keys_elements.1 hk
          rcases (he1 e1).1 he1mem with h | h
          · rw [h]
            exact h2
          · exact hl _ (mem_keys_of_mem h.1)
        · intro e1
          rw [mem_elements_node, mem_elements_node, he1 e1]
          constructor
          · rintro ((h | h) | h | h)
            · exact Or.inl h
            · exact Or.inr ⟨Or.inl h.1, h.2⟩
            · exact Or.inr ⟨Or.inr (Or.inl h), by rw [h]; exact hne.symm⟩
            · exact Or.inr ⟨Or.inr (Or.inr h), hrne _ (mem_keys_of_mem h)⟩
          · rintro (h | ⟨h | h | h, hk⟩)
            · exact Or.inl (Or.inl h)
            · exact Or.inl (Or.inr ⟨h, hk⟩)
            · exact Or.inr (Or.inl h)
            · exact Or.inr (Or.inr h)
        · intro h
          have := hin1 (hkeys.1 h)
          rw [nodeCount_node, nodeCount_node, this.1]
          exact ⟨rfl, this.2⟩
        · intro h
          have := hout1 (fun h3 => h (hkeys.2 h3))
          rw [nodeCount_node, nodeCount_node, this.1]
          exact ⟨by omega, this.2⟩
      · have heq : e.1 = x.1 := by
          by_contra hne
          rcases hsto.total e.1 x.1 hne with h | h
          · exact h1 h
          · exact h2 h
        have hx : ((e.1, x.2) : K × V) = x := by rw [heq]
        rw [if_neg h1, if_neg h2, if_pos heq, hx]
        have hlne : ∀ k ∈ l.keys, k ≠ x.1 := by
          intro k hk e1
          have h3 := hl k hk
          rw [e1, heq, hsto.irrefl] at h3
          cases h3
        have hrne : ∀ k ∈ r.keys, k ≠ x.1 := by
          intro k hk e1
          have h3 := hr k hk
          rw [e1, heq, hsto.irrefl] at h3
          cases h3
        refine ⟨?_, ?_, ?_, ?_⟩
        · refine ordered_node.2 ⟨?_, ?_, hol, hor⟩
          · intro k hk
            have := hl k hk
            rw [heq] at this
            exact this
          · intro k hk
            have := hr k hk
            rw [heq] at this
            exact this
        · intro e1
          rw [mem_elements_node, mem_elements_node]
          constructor
          · rintro (h | h | h)
            · exact Or.inr ⟨Or.inl h, hlne _ (mem_keys_of_mem h)⟩
            · exact Or.inl h
            · exact Or.inr ⟨Or.inr (Or.inr h), hrne _ (mem_keys_of_mem h)⟩
          · rintro (h | ⟨h | h | h, hk⟩)
            · exact Or.inr (Or.inl h)
            · exact Or.inl h
            · exact absurd (by rw [h]; exact heq) hk
            · exact Or.inr (Or.inr h)
        · intro _
          rw [nodeCount_node, nodeCount_node]
          exact ⟨rfl, rfl⟩
        · intro h
          exact absurd (mem_keys_node.2 (Or.inr (Or.inl heq.symm))) h

theorem contains_at_iff {comp : K → K → Bool} (hsto : StrictTotalOrder comp) (x : K) :
    ∀ t : BinaryNode K V, Ordered comp t → (contains_at comp x t = true ↔ x ∈ t.keys) := by
  intro t
  induction t with
  | null =>
    intro _
    simp [contains_at, keys, elements]
  | node e l r ihl ihr =>
    intro hord
    obtain ⟨hl, hr, hol, hor⟩ := ordered_node.1 hord
    rw [mem_keys_node]
    by_cases h0 : e.1 = x
    · simp [contains_at, h0]
    · by_cases h1 : comp e.1 x = true
      · rw [contains_at, if_neg h0, if_pos h1, ihr hor]
        constructor
        · exact fun h => Or.inr (Or.inr h)
        · rintro (h | h | h)
          · have := hl x h
            rw [hsto.not_comp_symm h1] at this
            cases this
          · exact absurd h.symm h0
          · exact h
      · rw [contains_at, if_neg h0, if_neg h1, ihl hol]
        constructor
        · exact fun h => Or.inl h
        · rintro (h | h | h)
          · exact h
          · exact absurd h.symm h0
          · exact absurd (hr x h) h1

end BinarySearchTree

namespace BinarySearchTree

open BinaryNode

variable {K V : Type}

theorem height_node {e : K × V} {l r : BinaryNode K V} :
    (BinaryNode.node e l r).height = max l.height r.height + 1 := rfl

theorem min_at_node_of_ne {e : K × V} {l r : BinaryNode K V} (h : l ≠ BinaryNode.null) :
    min_at (BinaryNode.node e l r) = min_at l := by
  cases l with
  | null => exact absurd rfl h
  | node _ _ _ => rfl

variable [DecidableEq K]

theorem erase_at_node (comp : K → K → Bool) (fuel : Nat) (x : K) (e : K × V)
    (l r : BinaryNode K V) :
    erase_at comp (fuel + 1) x (BinaryNode.node e l r) =
      if comp e.1 x then
        (erase_at comp fuel x r).map (fun right1 => BinaryNode.node e l right1)
      else if comp x e.1 then
        (erase_at comp fuel x l).map (fun left1 => BinaryNode.node e left1 r)
      else if e.1 = x then
        match r, l with
        | .node _ _ _, .node _ _ _ =>
          match min_at r with
          | none => none
          | some element1 =>
            match erase_at comp fuel element1.1 (BinaryNode.node e l r) with
            | some (.node _ left1 right1) => some (BinaryNode.node element1 left1 right1)
            | _ => none
        | _, _ =>
          match l with
          | .node _ _ _ => some l
          | .null => some r
      else some (BinaryNode.node e l r) := by
  rfl

theorem erase_found_null_left {comp : K → K → Bool} {fuel : Nat} {x : K} {e : K × V}
    {r : BinaryNode K V} (h1 : ¬ comp e.1 x = true) (h2 : ¬ comp x e.1 = true)
    (h3 : e.1 = x) :
    erase_at comp (fuel + 1) x (BinaryNode.node e .null r) = some r := by
  rw [erase_at_node, if_neg h1, if_neg h2, if_pos h3]
  cases r <;> rfl

theorem erase_found_null_right {comp : K → K → Bool} {fuel : Nat} {x : K} {e : K × V}
    {l : BinaryNode K V} (h1 : ¬ comp e.1 x = true) (h2 : ¬ comp x e.1 = true)
    (h3 : e.1 = x) :
    erase_at comp (fuel + 1) x (BinaryNode.node e l .null) = some l := by
  rw [erase_at_node, if_neg h1, if_neg h2, if_pos h3]
  cases l <;> rfl

theorem erase_found_two {comp : K → K → Bool} {fuel : Nat} {x : K} {e : K × V}
    {l r : BinaryNode K V} (h1 : ¬ comp e.1 x = true) (h2 : ¬ comp x e.1 = true)
    (h3 : e.1 = x) (hl : l ≠ BinaryNode.null) (hr : r ≠ BinaryNode.null) :
    erase_at comp (fuel + 1) x (BinaryNode.node e l r) =
      match min_at r with
      | none => none
      | some element1 =>
        match erase_at comp fuel element1.1 (BinaryNode.node e l r) with
        | some (.node _ left1 right1) => some (BinaryNode.node element1 left1 right1)
        | _ => none := by
  rw [erase_at_node, if_neg h1, if_neg h2, if_pos h3]
  cases l with
  | null => exact absurd rfl hl
  | node _ _ _ =>
    cases r with
    | null => exact absurd rfl hr
    | node _ _ _ => rfl

/-- Erasing the least key of an ordered tree that is not null: the call the private `erase`
makes for a node with two children. -/
theorem erase_min_spec {comp : K → K → Bool} (hsto : StrictTotalOrder comp) :
    ∀ r : BinaryNode K V, r ≠ BinaryNode.null → Ordered comp r →
    ∃ m r1, min_at r = some m ∧
      (∀ fuel, r.height ≤ fuel → erase_at comp fuel m.1 r = some r1) ∧
      (∀ e, e ∈ r.elements ↔ e = m ∨ e ∈ r1.elements) ∧
      (∀ k ∈ r1.keys, comp m.1 k = true) ∧ Ordered comp r1 ∧ r1.height ≤ r.height ∧
      r.nodeCount = r1.nodeCount + 1 := by
  intro r
  induction r with
  | null =>
    intro h
    exact absurd rfl h
  | node e l r ihl _ =>
    intro _ hord
    obtain ⟨hl, hr, hol, hor⟩ := ordered_node.1 hord
    by_cases hln : l = BinaryNode.null
    · subst hln
      refine ⟨e, r, rfl, ?_, ?_, hr, hor, ?_, ?_⟩
      · intro fuel hfuel
        obtain ⟨f, rfl⟩ : ∃ f, fuel = f + 1 := ⟨fuel - 1, by rw [height_node] at hfuel; omega⟩
        have hirr : ¬ comp e.1 e.1 = true := by
          rw [hsto.irrefl]
          exact Bool.false_ne_true
        exact erase_found_null_left hirr hirr rfl
      · intro e1
        rw [mem_elements_node]
        simp [elements]
      · rw [height_node]
        omega
      · rw [nodeCount_node]
        simp [nodeCount, elements]
    · obtain ⟨m, l1, hmin, herase, helts, hkeys, hol1, hh1, hcount⟩ := ihl hln hol
      have hmem : m ∈ l.elements := (helts m).2 (Or.inl rfl)
      have hme : comp m.1 e.1 = true := hl _ (mem_keys_of_mem hmem)
      have hem : ¬ comp e.1 m.1 = true := by
        rw [hsto.not_comp_symm hme]
        exact Bool.false_ne_true
      refine ⟨m, BinaryNode.node e l1 r, ?_, ?_, ?_, ?_, ?_, ?_, ?_⟩
      · rw [min_at_node_of_ne hln]
        exact hmin
      · intro fuel hfuel
        rw [height_node] at hfuel
        obtain ⟨f, rfl⟩ : ∃ f, fuel = f + 1 := ⟨fuel - 1, by omega⟩
        rw [erase_at_node, if_neg hem, if_pos hme, herase f (by omega)]
        rfl
      · intro e1
        rw [mem_elements_node, mem_elements_node, helts e1]
        constructor
        · rintro ((h | h) | h | h)
          · exact Or.inl h
          · exact Or.inr (Or.inl h)
          · exact Or.inr (Or.inr (Or.inl h))
          · exact Or.inr (Or.inr (Or.inr h))
        · rintro (h | h | h | h)
          · exact Or.inl (Or.inl h)
          · exact Or.inl (Or.inr h)
          · exact Or.inr (Or.inl h)
          · exact Or.inr (Or.inr h)
      · intro k hk
        rcases mem_keys_node.1 hk with h | h | h
        · exact hkeys k h
        · rw [h]
          exact hme
        · exact hsto.trans _ _ _ hme (hr k h)
      · refine ordered_node.2 ⟨?_, hr, hol1, hor⟩
        intro k hk
        obtain ⟨e1, he1, rfl⟩ := mem_keys_elements.1 hk
        exact hl _ (mem_keys_of_mem ((helts e1).2 (Or.inr he1)))
      · rw [height_node, height_node]
        omega
      · rw [nodeCount_node, nodeCount_node, hcount]
        omega

/-- The private `erase` on an ordered tree: with a bound above the height of the tree the
result is defined, it is the same for every such bound, and it is the ordered tree of the
elements whose key is not `x`. -/
theorem erase_at_ordered {comp : K → K → Bool} (hsto : StrictTotalOrder comp) (x : K) :
    ∀ t : BinaryNode K V, Ordered comp t →
    ∃ t1, (∀ fuel, t.height < fuel → erase_at comp fuel x t = some t1) ∧
      Ordered comp t1 ∧ (∀ e, e ∈ t1.elements ↔ e ∈ t.elements ∧ e.1 ≠ x) ∧
      t1.height ≤ t.height ∧ (x ∈ t.keys → t1.nodeCount + 1 = t.nodeCount) ∧
      (x ∉ t.keys → t1 = t) := by
  intro t
  induction t with
  | null =>
    intro _
    refine ⟨BinaryNode.null, ?_, trivial, ?_, Nat.le_refl _, ?_, fun _ => rfl⟩
    · intro fuel hfuel
      obtain ⟨f, rfl⟩ : ∃ f, fuel = f + 1 := ⟨fuel - 1, by omega⟩
      rfl
    · intro e
      simp [elements]
    · intro h
      exact absurd h keys_null
  | node e l r ihl ihr =>
    intro hord
    obtain ⟨hl, hr, hol, hor⟩ := ordered_node.1 hord
    by_cases h1 : comp e.1 x = true
    · obtain ⟨r1, herase, hor1, helts, hh1, hin, hout⟩ := ihr hor
      have hne : e.1 ≠ x := hsto.ne_of_comp h1
      have hlne : ∀ k ∈ l.keys, k ≠ x := by
        intro k hk e1
        have h2 := hl k hk
        rw [e1, hsto.not_comp_symm h1] at h2
        cases h2
      have hkeys : x ∈ (BinaryNode.node e l r).keys ↔ x ∈ r.keys := by
        rw [mem_keys_node]
        constructor
        · rintro (h | h | h)
          · exact absurd rfl (hlne _ h)
          · exact absurd h.symm hne
          · exact h
        · exact fun h => Or.inr (Or.inr h)
      refine ⟨BinaryNode.node e l r1, ?_, ?_, ?_, ?_, ?_, ?_⟩
      · intro fuel hfuel
        rw [height_node] at hfuel
        obtain ⟨f, rfl⟩ : ∃ f, fuel = f + 1 := ⟨fuel - 1, by omega⟩
        rw [erase_at_node, if_pos h1, herase f (by omega)]
        rfl
      · refine ordered_node.2 ⟨hl, ?_, hol, hor1⟩
        intro k hk
        obtain ⟨e1, he1, rfl⟩ := mem_keys_elements.1 hk
        exact hr _ (mem_keys_of_mem ((helts e1).1 he1).1)
      · intro e1
        rw [mem_elements_node, mem_elements_node, helts e1]
        constructor
        · rintro (h | h | h)
          · exact ⟨Or.inl h, hlne _ (mem_keys_of_mem h)⟩
          · exact ⟨Or.inr (Or.inl h), by rw [h]; exact hne⟩
          · exact ⟨Or.inr (Or.inr h.1), h.2⟩
        · rintro ⟨h | h | h, hk⟩
          · exact Or.inl h
          · exact Or.inr (Or.inl h)
          · exact Or.inr (Or.inr ⟨h, hk⟩)
      · rw [height_node, height_node]
        omega
      · intro h
        have := hin (hkeys.1 h)
        rw [nodeCount_node, nodeCount_node]
        omega
      · intro h
        rw [hout (fun h2 => h (hkeys.2 h2))]
    · by_cases h2 : comp x e.1 = true
      · obtain ⟨l1, herase, hol1, helts, hh1, hin, hout⟩ := ihl hol
        have hne : x ≠ e.1 := hsto.ne_of_comp h2
        have hrne : ∀ k ∈ r.keys, k ≠ x := by
          intro k hk e1
          have h3 := hr k hk
          rw [e1, hsto.not_comp_symm h2] at h3
          cases h3
        have hkeys : x ∈ (BinaryNode.node e l r).keys ↔ x ∈ l.keys := by
          rw [mem_keys_node]
          constructor
          · rintro (h | h | h)
            · exact h
            · exact absurd h hne
            · exact absurd rfl (hrne _ h)
          · exact fun h => Or.inl h
        refine ⟨BinaryNode.node e l1 r, ?_, ?_, ?_, ?_, ?_, ?_⟩
        · intro fuel hfuel
          rw [height_node] at hfuel
          obtain ⟨f, rfl⟩ : ∃ f, fuel = f + 1 := ⟨fuel - 1, by omega⟩
          rw [erase_at_node, if_neg h1, if_pos h2, herase f (by omega)]
          rfl
        · refine ordered_node.2 ⟨?_, hr, hol1, hor⟩
          intro k hk
          obtain ⟨e1, he1, rfl⟩ := mem_keys_elements.1 hk
          exact hl _ (mem_keys_of_mem ((helts e1).1 he1).1)
        · intro e1
          rw [mem_elements_node, mem_elements_node, helts e1]
          constructor
          · rintro (h | h | h)
            · exact ⟨Or.inl h.1, h.2⟩
            · exact ⟨Or.inr (Or.inl h), by rw [h]; exact hne.symm⟩
            · exact ⟨Or.inr (Or.inr h), hrne _ (mem_keys_of_mem h)⟩
          · rintro ⟨h | h | h, hk⟩
            · exact Or.inl ⟨h, hk⟩
            · exact Or.inr (Or.inl h)
            · exact Or.inr (Or.inr h)
        · rw [height_node, height_node]
          omega
        · intro h
          have := hin (hkeys.1 h)
          rw [nodeCount_node, nodeCount_node]
          omega
        · intro h
          rw [hout (fun h3 => h (hkeys.2 h3))]
      · have heq : e.1 = x := by
          by_contra hne
          rcases hsto.total e.1 x hne with h | h
          · exact h1 h
          · exact h2 h
        have hlne : ∀ k ∈ l.keys, k ≠ x := by
          intro k hk e1
          have h3 := hl k hk
          rw [e1, heq, hsto.irrefl] at h3
          cases h3
        have hrne : ∀ k ∈ r.keys, k ≠ x := by
          intro k hk e1
          have h3 := hr k hk
          rw [e1, heq, hsto.irrefl] at h3
          cases h3
        have hxin : x ∈ (BinaryNode.node e l r).keys :=
          mem_keys_node.2 (Or.inr (Or.inl heq.symm))
        by_cases hln : l = BinaryNode.null
        · subst hln
          refine ⟨r, ?_, hor, ?_, ?_, ?_, fun h => absurd hxin h⟩
          · intro fuel hfuel
            obtain ⟨f, rfl⟩ : ∃ f, fuel = f + 1 := ⟨fuel - 1, by omega⟩
            exact erase_found_null_left h1 h2 heq
          · intro e1
            rw [mem_elements_node]
            constructor
            · intro h
              exact ⟨Or.inr (Or.inr h), hrne _ (mem_keys_of_mem h)⟩
            · rintro ⟨h | h | h, hk⟩
              · simp [elements] at h
              · exact absurd (by rw [h]; exact heq) hk
              · exact h
          · rw [height_node]
            omega
          · intro _
            rw [nodeCount_node]
            simp [nodeCount, elements]
        · by_cases hrn : r = BinaryNode.null
          · subst hrn
            refine ⟨l, ?_, hol, ?_, ?_, ?_, fun h => absurd hxin h⟩
            · intro fuel hfuel
              obtain ⟨f, rfl⟩ : ∃ f, fuel = f + 1 := ⟨fuel - 1, by omega⟩
              exact erase_found_null_right h1 h2 heq
            · intro e1
              rw [mem_elements_node]
              constructor
              · intro h
                exact ⟨Or.inl h, hlne _ (mem_keys_of_mem h)⟩
              · rintro ⟨h | h | h, hk⟩
                · exact h
                · exact absurd (by rw [h]; exact heq) hk
                · simp [elements] at h
            · rw [height_node]
              omega
            · intro _
              rw [nodeCount_node]
              simp [nodeCount, elements]
          · obtain ⟨m, r1, hmin, hmerase, hmelts, hmkeys, hor1, hmh, hmcount⟩ :=
              erase_min_spec hsto r hrn hor
            have hmmem : m ∈ r.elements := (hmelts m).2 (Or.inl rfl)
            have hem : comp e.1 m.1 = true := hr _ (mem_keys_of_mem hmmem)
            have hrh : 1 ≤ r.height := by
              cases r with
              | null => exact absurd rfl hrn
              | node _ _ _ =>
                rw [height_node]
                omega
            refine ⟨BinaryNode.node m l r1, ?_, ?_, ?_, ?_, ?_, fun h => absurd hxin h⟩
            · intro fuel hfuel
              rw [height_node] at hfuel
              obtain ⟨f, rfl⟩ : ∃ f, fuel = f + 2 := ⟨fuel - 2, by omega⟩
              rw [erase_found_two h1 h2 heq hln hrn, hmin]
              simp only
              rw [erase_at_node, if_pos hem, hmerase f (by omega)]
              rfl
            · refine ordered_node.2 ⟨?_, hmkeys, hol, hor1⟩
              intro k hk
              exact hsto.trans _ _ _ (hl k hk) hem
            · intro e1
              rw [mem_elements_node, mem_elements_node, hmelts e1]
              constructor
              · rintro (h | h | h)
                · exact ⟨Or.inl h, hlne _ (mem_keys_of_mem h)⟩
                · refine ⟨Or.inr (Or.inr (Or.inl h)), ?_⟩
                  rw [h]
                  exact hrne _ (mem_keys_of_mem hmmem)
                · refine ⟨Or.inr (Or.inr (Or.inr h)), ?_⟩
                  exact hrne _ (mem_keys_of_mem ((hmelts e1).2 (Or.inr h)))
              · rintro ⟨h | h | h | h, hk⟩
                · exact Or.inl h
                · exact absurd (by rw [h]; exact heq) hk
                · exact Or.inr (Or.inl h)
                · exact Or.inr (Or.inr h)
            · rw [height_node, height_node]
              omega
            · intro _
              rw [nodeCount_node, nodeCount_node, hmcount]
              omega

end BinarySearchTree

namespace BinarySearchTree

open BinaryNode

variable {K V : Type}

theorem mem_keys_erase {t t1 : BinaryNode K V} {x : K}
    (helts : ∀ e, e ∈ t1.elements ↔ e ∈ t.elements ∧ e.1 ≠ x) (k : K) :
    k ∈ t1.keys ↔ k ∈ t.keys ∧ k ≠ x := by
  constructor
  · intro h
    obtain ⟨e, he, rfl⟩ := mem_keys_elements.1 h
    exact ⟨mem_keys_of_mem ((helts e).1 he).1, ((helts e).1 he).2⟩
  · rintro ⟨h, hk⟩
    obtain ⟨e, he, rfl⟩ := mem_keys_elements.1 h
    exact mem_keys_of_mem ((helts e).2 ⟨he, hk⟩)

variable [DecidableEq K]

/-- A defined result of the private `erase` is the result for every larger bound. -/
theorem erase_at_mono (comp : K → K → Bool) : ∀ (fuel : Nat) (x : K) (t t1 : BinaryNode K V),
    erase_at comp fuel x t = some t1 → erase_at comp (fuel + 1) x t = some t1 := by
  intro fuel
  induction fuel with
  | zero =>
    intro x t t1 h
    cases t <;> cases h
  | succ fuel ih =>
    intro x t t1 h
    cases t with
    | null => exact h
    | node e l r =>
      rw [erase_at_node] at h ⊢
      by_cases h1 : comp e.1 x = true
      · rw [if_pos h1] at h ⊢
        rcases hr : erase_at comp fuel x r with _ | r1
        · rw [hr] at h
          cases h
        · rw [hr] at h
          rw [ih x r r1 hr]
          exact h
      · rw [if_neg h1] at h ⊢
        by_cases h2 : comp x e.1 = true
        · rw [if_pos h2] at h ⊢
          rcases hl : erase_at comp fuel x l with _ | l1
          · rw [hl] at h
            cases h
          · rw [hl] at h
            rw [ih x l l1 hl]
            exact h
        · rw [if_neg h2] at h ⊢
          by_cases h3 : e.1 = x
          · rw [if_pos h3] at h ⊢
            cases l with
            | null => cases r <;> exact h
            | node le ll lr =>
              cases r with
              | null => exact h
              | node re rl rr =>
                simp only at h ⊢
                rcases hm : min_at (BinaryNode.node re rl rr) with _ | m
                · rw [hm] at h
                  cases h
                · rw [hm] at h
                  simp only at h ⊢
                  rcases he : erase_at comp fuel m.1
                      (BinaryNode.node e (BinaryNode.node le ll lr)
                        (BinaryNode.node re rl rr)) with _ | t2
                  · rw [he] at h
                    cases h
                  · rw [he] at h
                    rw [ih _ _ _ he]
                    exact h
          · rw [if_neg h3] at h ⊢
            exact h

theorem erase_at_mono_le (comp : K → K → Bool) (x : K) (t t1 : BinaryNode K V) (fuel : Nat)
    (h : erase_at comp fuel x t = some t1) :
    ∀ n, erase_at comp (fuel + n) x t = some t1 := by
  intro n
  induction n with
  | zero => exact h
  | succ n ih => exact erase_at_mono comp (fuel + n) x t t1 ih

/-- A defined result of the private `erase` on an ordered tree, whatever the bound it was
reached with: the ordered tree of the elements whose key is not `x`. -/
theorem erase_at_result {comp : K → K → Bool} (hsto : StrictTotalOrder comp) {x : K}
    {t t1 : BinaryNode K V} {fuel : Nat} (hord : Ordered comp t)
    (h : erase_at comp fuel x t = some t1) :
    Ordered comp t1 ∧ (∀ e, e ∈ t1.elements ↔ e ∈ t.elements ∧ e.1 ≠ x) ∧
      (x ∈ t.keys → t1.nodeCount + 1 = t.nodeCount) ∧ (x ∉ t.keys → t1 = t) := by
  obtain ⟨t2, herase, hord2, helts, -, hin, hout⟩ := erase_at_ordered hsto x t hord
  have h1 := erase_at_mono_le comp x t t1 fuel h (t.height + 1)
  have h2 := herase (fuel + (t.height + 1)) (by omega)
  rw [h1] at h2
  simp only [Option.some.injEq] at h2
  rw [h2]
  exact ⟨hord2, helts, hin, hout⟩

theorem mem_keys_insert {t t1 : BinaryNode K V} {x : K × V}
    (helts : ∀ e, e ∈ t1.elements ↔ e = x ∨ (e ∈ t.elements ∧ e.1 ≠ x.1)) (k : K) :
    k ∈ t1.keys ↔ k = x.1 ∨ k ∈ t.keys := by
  constructor
  · intro h
    obtain ⟨e, he, rfl⟩ := mem_keys_elements.1 h
    rcases (helts e).1 he with h1 | h1
    · exact Or.inl (by rw [h1])
    · exact Or.inr (mem_keys_of_mem h1.1)
  · rintro (h | h)
    · rw [h]
      exact mem_keys_of_mem ((helts x).2 (Or.inl rfl))
    · by_cases hk : k = x.1
      · rw [hk]
        exact mem_keys_of_mem ((helts x).2 (Or.inl rfl))
      · obtain ⟨e, he, rfl⟩ := mem_keys_elements.1 h
        exact mem_keys_of_mem ((helts e).2 (Or.inr ⟨he, hk⟩))

theorem erase_root {t t1 : BinarySearchTree K V} {fuel : Nat} {key : K}
    (h : t.erase fuel key = some t1) :
    erase_at t.comp fuel key t._root = some t1._root ∧ t1.comp = t.comp ∧
      t1._size = size_decr t._size := by
  unfold erase at h
  rcases he : erase_at t.comp fuel key t._root with _ | root
  · rw [he] at h
    cases h
  · rw [he] at h
    simp only [Option.some.injEq] at h
    rw [← h]
    exact ⟨rfl, rfl, rfl⟩

/-- Every tree reached from an empty tree is ordered and holds the keys inserted and not
erased afterwards. -/
theorem ReachedBy.invariant {calls : List (Call K V)} {t : BinarySearchTree K V}
    (h : ReachedBy calls t) :
    StrictTotalOrder t.comp →
      Ordered t.comp t._root ∧ ∀ k, k ∈ t._root.keys ↔ inserted k calls = true := by
  induction h with
  | new comp =>
    intro _
    refine ⟨trivial, ?_⟩
    intro k
    simp [BinarySearchTree.new, inserted, keys, elements]
  | insert calls t x _ ih =>
    intro hsto
    have hsto1 : StrictTotalOrder t.comp := hsto
    obtain ⟨hord, hkeys⟩ := ih hsto1
    obtain ⟨hord1, helts, -, -⟩ := insert_at_spec hsto1 x t._size t._root hord
    refine ⟨hord1, ?_⟩
    intro k
    have hk : k ∈ (t.insert x)._root.keys ↔ k = x.1 ∨ k ∈ t._root.keys :=
      mem_keys_insert helts k
    rw [hk, hkeys k]
    simp only [inserted, Bool.or_eq_true, decide_eq_true_eq]
    constructor
    · rintro (h | h)
      · exact Or.inl h.symm
      · exact Or.inr h
    · rintro (h | h)
      · exact Or.inl h.symm
      · exact Or.inr h
  | erase calls t t1 fuel key _ hstep ih =>
    intro hsto
    obtain ⟨hroot, hcomp, -⟩ := erase_root hstep
    rw [hcomp] at hsto ⊢
    obtain ⟨hord, hkeys⟩ := ih hsto
    obtain ⟨hord1, helts, -, -⟩ := erase_at_result hsto hord hroot
    refine ⟨hord1, ?_⟩
    intro k
    rw [mem_keys_erase helts k, hkeys k]
    simp only [inserted, Bool.and_eq_true, Bool.not_eq_true', decide_eq_false_iff_not]
    constructor
    · rintro ⟨h, hk⟩
      exact ⟨fun e => hk e.symm, h⟩
    · rintro ⟨hk, h⟩
      exact ⟨h, fun e => hk e.symm⟩

/-- C39.  For every tree reached from an empty tree by `insert` and `erase` calls, the
comparator being a strict total order: the binary-search-tree ordering holds at every
node; a key is stored exactly when it was inserted and not erased afterwards, and
`contains` answers just that; `insert(x)` gives an ordered tree that holds `x` and no other
element with the key of `x`, whose keys are the key of `x` and the keys before, and which
has as many nodes as before when the key was present; and `erase(key)` has a defined
result for every bound above the height of the tree, the same for all of them, whose keys
are the keys before other than `key`. -/
theorem bst_invariants (calls : List (Call K V)) (t : BinarySearchTree K V)
    (hreach : ReachedBy calls t) (hsto : StrictTotalOrder t.comp) :
    Ordered t.comp t._root ∧
      (∀ k, k ∈ t._root.keys ↔ inserted k calls = true) ∧
      (∀ k, t.contains k = inserted k calls) ∧
      (∀ x : K × V, Ordered t.comp (t.insert x)._root ∧ x ∈ (t.insert x)._root.elements ∧
        (∀ e ∈ (t.insert x)._root.elements, e.1 = x.1 → e = x) ∧
        (∀ k, k ∈ (t.insert x)._root.keys ↔ k = x.1 ∨ k ∈ t._root.keys) ∧
        (x.1 ∈ t._root.keys → (t.insert x)._root.nodeCount = t._root.nodeCount)) ∧
      (∀ key, ∃ t1, (∀ fuel, t._root.height < fuel → t.erase fuel key = some t1) ∧
        Ordered t.comp t1._root ∧ ∀ k, k ∈ t1._root.keys ↔ k ∈ t._root.keys ∧ k ≠ key) := by
  obtain ⟨hord, hkeys⟩ := hreach.invariant hsto
  refine ⟨hord, hkeys, ?_, ?_, ?_⟩
  · intro k
    have h : t.contains k = true ↔ k ∈ t._root.keys := contains_at_iff hsto k t._root hord
    rw [hkeys k] at h
    rcases hc : t.contains k with _ | _
    · rcases hi : inserted k calls with _ | _
      · rfl
      · have := h.2 hi
        rw [hc] at this
        cases this
    · exact (h.1 hc).symm
  · intro x
    obtain ⟨hord1, helts, hin, -⟩ := insert_at_spec hsto x t._size t._root hord
    refine ⟨hord1, (helts x).2 (Or.inl rfl), ?_, mem_keys_insert helts, fun h => (hin h).1⟩
    intro e he hk
    rcases (helts e).1 he with h | h
    · exact h
    · exact absurd hk h.2
  · intro key
    obtain ⟨r1, herase, hord1, helts, -, -, -⟩ := erase_at_ordered hsto key t._root hord
    refine ⟨{ t with _root := r1, _size := size_decr t._size }, ?_, hord1,
      mem_keys_erase helts⟩
    intro fuel hfuel
    unfold erase
    rw [herase fuel hfuel]

theorem exampleTree_eq :
    (((BinarySearchTree.new (fun a b => decide (a < b)) : BinarySearchTree Nat Nat).insert
      (2, 20)).insert (1, 10)).insert (3, 30) = exampleTree := rfl

theorem exampleTree_reached :
    ReachedBy [Call.insert (3, 30), Call.insert (1, 10), Call.insert (2, 20)] exampleTree := by
  rw [← exampleTree_eq]
  exact ReachedBy.insert _ _ (3, 30)
    (ReachedBy.insert _ _ (1, 10)
      (ReachedBy.insert [] (BinarySearchTree.new (fun a b => decide (a < b))) (2, 20)
        (ReachedBy.new _)))

theorem exampleTree_strictTotalOrder : StrictTotalOrder exampleTree.comp := by
  refine ⟨?_, ?_, ?_⟩
  · intro a
    simp [exampleTree]
  · intro a b c hab hbc
    simp only [exampleTree, decide_eq_true_eq] at hab hbc ⊢
    omega
  · intro a b hab
    simp only [exampleTree, decide_eq_true_eq]
    omega

theorem bst_invariants_witness :
    ReachedBy [Call.insert (3, 30), Call.insert (1, 10), Call.insert (2, 20)] exampleTree ∧
      StrictTotalOrder exampleTree.comp ∧
      (Ordered exampleTree.comp exampleTree._root ∧
        (∀ k, k ∈ exampleTree._root.keys ↔
          inserted k [Call.insert (3, 30), Call.insert (1, 10), Call.insert (2, 20)] = true) ∧
        (∀ k, exampleTree.contains k =
          inserted k [Call.insert (3, 30), Call.insert (1, 10), Call.insert (2, 20)]) ∧
        (∀ x : Nat × Nat, Ordered exampleTree.comp (exampleTree.insert x)._root ∧
          x ∈ (exampleTree.insert x)._root.elements ∧
          (∀ e ∈ (exampleTree.insert x)._root.elements, e.1 = x.1 → e = x) ∧
          (∀ k, k ∈ (exampleTree.insert x)._root.keys ↔ k = x.1 ∨ k ∈ exampleTree._root.keys) ∧
          (x.1 ∈ exampleTree._root.keys →
            (exampleTree.insert x)._root.nodeCount = exampleTree._root.nodeCount)) ∧
        (∀ key, ∃ t1,
          (∀ fuel, exampleTree._root.height < fuel → exampleTree.erase fuel key = some t1) ∧
          Ordered exampleTree.comp t1._root ∧
          ∀ k, k ∈ t1._root.keys ↔ k ∈ exampleTree._root.keys ∧ k ≠ key)) :=
  ⟨exampleTree_reached, exampleTree_strictTotalOrder,
    bst_invariants _ exampleTree exampleTree_reached exampleTree_strictTotalOrder⟩

theorem bst_example :
    (exampleTree.insert (3, 31))._root.elements = [(1, 10), (2, 20), (3, 31)] ∧
      (exampleTree.erase 3 2).map (fun t => t._root.elements) = some [(1, 10), (3, 30)] ∧
      exampleTree.contains 3 = true ∧ exampleTree.contains 4 = false :=
  ⟨rfl, rfl, rfl, rfl⟩

/-- While only stored keys are erased `_size` stays the number of nodes: `insert` keeps
`_size` equal to the number of nodes, and so does `erase` of a key that is stored. -/
theorem size_tracks_nodes (t : BinarySearchTree K V) (hsto : StrictTotalOrder t.comp)
    (hord : Ordered t.comp t._root) (hsize : t._size = t._root.nodeCount) :
    (∀ x : K × V, (t.insert x)._size = (t.insert x)._root.nodeCount) ∧
      (∀ fuel key t1, key ∈ t._root.keys → t.erase fuel key = some t1 →
        t1._size = t1._root.nodeCount) ∧
      (∀ fuel key t1, key ∉ t._root.keys → t.erase fuel key = some t1 →
        t1._root = t._root ∧ t1._size = size_decr t._size) := by
  refine ⟨?_, ?_, ?_⟩
  · intro x
    obtain ⟨-, -, hin, hout⟩ := insert_at_spec hsto x t._size t._root hord
    by_cases hk : x.1 ∈ t._root.keys
    · have := hin hk
      show (insert_at t.comp x t._root t._size).2 = (insert_at t.comp x t._root t._size).1.nodeCount
      rw [this.1, this.2, hsize]
    · have := hout hk
      show (insert_at t.comp x t._root t._size).2 = (insert_at t.comp x t._root t._size).1.nodeCount
      rw [this.1, this.2, hsize]
  · intro fuel key t1 hk h
    obtain ⟨hroot, -, hs⟩ := erase_root h
    obtain ⟨-, -, hin, -⟩ := erase_at_result hsto hord hroot
    have := hin hk
    rw [hs, hsize]
    unfold size_decr
    have hne : ¬ t._root.nodeCount = 0 := by omega
    rw [if_neg hne]
    omega
  · intro fuel key t1 hk h
    obtain ⟨hroot, -, hs⟩ := erase_root h
    obtain ⟨-, -, -, hout⟩ := erase_at_result hsto hord hroot
    exact ⟨hout hk, hs⟩

/-- C40, at the failing input.  `erase(5)` on an empty tree of numbers finds no node and
still runs `_size--`: the tree reached has no node, `size()` is `2 ^ 64 - 1` and `empty()`
is false.  `erase(5)` on the tree holding 1, 2, 3 leaves its three nodes with `size()`
2. -/
theorem size_after_absent_erase :
    (BinarySearchTree.new (fun a b => decide (a < b)) : BinarySearchTree Nat Nat).erase 1 5 =
        some exampleErasedEmpty ∧
      ReachedBy [Call.erase 5] exampleErasedEmpty ∧
      exampleErasedEmpty._root.nodeCount = 0 ∧ exampleErasedEmpty.size = 2 ^ 64 - 1 ∧
      exampleErasedEmpty.empty = false ∧
      ReachedBy [Call.insert (3, 30), Call.insert (1, 10), Call.insert (2, 20)] exampleTree ∧
      (exampleTree.erase 3 5).map (fun t => (t._root.nodeCount, t.size)) = some (3, 2) :=
  ⟨rfl, ReachedBy.erase [] (BinarySearchTree.new (fun a b => decide (a < b)))
      exampleErasedEmpty 1 5 (ReachedBy.new _) rfl,
    rfl, rfl, by decide, exampleTree_reached, rfl⟩

end BinarySearchTree

/-! ### `Vector`: `insert(pos, count, value)` before `end()` -/

namespace DynamicArray

namespace Vector

variable {T : Type}

theorem shiftLoop_spec (last : Nat) : ∀ (fuel curr : Nat) (prev : T) (block : List T),
    curr ≤ last → last ≤ block.length → last - curr ≤ fuel →
    ∃ b1 p1, shiftLoop last fuel curr prev block = some (b1, last, p1) ∧
      b1.length = block.length ∧
      (∀ j, b1[j]? =
        if curr ≤ j ∧ j < last then (if j = curr then some prev else block[j - 1]?)
        else block[j]?) ∧
      some p1 = (if curr < last then block[last - 1]? else some prev) := by
  intro fuel
  induction fuel with
  | zero =>
    intro curr prev block hc _ hf
    have he : curr = last := by omega
    subst he
    refine ⟨block, prev, by simp [shiftLoop], rfl, ?_, by simp⟩
    intro j
    have h : ¬ (curr ≤ j ∧ j < curr) := by omega
    rw [if_neg h]
  | succ fuel ih =>
    intro curr prev block hc hl hf
    by_cases he : curr = last
    · subst he
      refine ⟨block, prev, by simp [shiftLoop], rfl, ?_, by simp⟩
      intro j
      have h : ¬ (curr ≤ j ∧ j < curr) := by omega
      rw [if_neg h]
    · have hlt : curr < block.length := by omega
      have hget : block[curr]? = some block[curr] := List.getElem?_eq_getElem hlt
      obtain ⟨b1, p1, hb1, hlen1, hspec, hp1⟩ :=
        ih (curr + 1) block[curr] (block.set curr prev) (by omega)
          (by rw [List.length_set]; exact hl) (by omega)
      refine ⟨b1, p1, ?_, by rw [hlen1, List.length_set], ?_, ?_⟩
      · simp only [shiftLoop, he, if_false, hget]
        exact hb1
      · intro j
        rw [hspec j]
        simp only [List.getElem?_set]
        by_cases hj : j = curr
        · subst hj
          have h1 : ¬ (j + 1 ≤ j ∧ j < last) := by omega
          have h2 : j ≤ j ∧ j < last := by omega
          rw [if_neg h1, if_pos h2, if_pos rfl, if_pos rfl, if_pos hlt]
        · by_cases hj1 : j = curr + 1
          · subst hj1
            have h1 : curr + 1 ≤ curr + 1 ∧ curr + 1 < last ∨ ¬ (curr + 1 < last) := by omega
            by_cases h3 : curr + 1 < last
            · have h2 : curr + 1 ≤ curr + 1 ∧ curr + 1 < last := ⟨Nat.le_refl _, h3⟩
              have h4 : curr ≤ curr + 1 ∧ curr + 1 < last := by omega
              rw [if_pos h2, if_pos rfl, if_pos h4, if_neg hj]
              simp [hget]
            · have h2 : ¬ (curr + 1 ≤ curr + 1 ∧ curr + 1 < last) := by omega
              have h4 : ¬ (curr ≤ curr + 1 ∧ curr + 1 < last) := by omega
              rw [if_neg h2, if_neg h4, if_neg (by omega : ¬ curr = curr + 1)]
          · split_ifs <;> first | rfl | (exfalso; omega)
      · rw [hp1]
        simp only [List.getElem?_set]
        by_cases h3 : curr + 1 < last
        · have h4 : curr < last := by omega
          rw [if_pos h3, if_pos h4, if_neg (by omega : ¬ curr = last - 1)]
        · have h4 : curr < last := by omega
          have h5 : last - 1 = curr := by omega
          rw [if_neg h3, if_pos h4, h5, hget]

theorem shiftRounds_spec (fuel pos : Nat) : ∀ (n i : Nat) (block : List T) (size : Nat),
    pos + i < size → size + n ≤ block.length → size - (pos + i) ≤ fuel + 1 →
    ∃ b1, shiftRounds fuel pos n i block size = some (b1, size + n) ∧
      b1.length = block.length ∧
      ∀ j, b1[j]? =
        if pos + i + n ≤ j ∧ j < size + n then block[j - n]?
        else if pos + i ≤ j ∧ j < pos + i + n then block[pos + i]?
        else block[j]? := by
  intro n
  induction n with
  | zero =>
    intro i block size _ _ _
    refine ⟨block, rfl, rfl, ?_⟩
    intro j
    have h1 : ¬ (pos + i ≤ j ∧ j < pos + i + 0) := by omega
    rw [if_neg h1]
    split_ifs <;> rfl
  | succ n ih =>
    intro i block size hp hl hf
    have hplt : pos + i < block.length := by omega
    have hget : block[pos + i]? = some block[pos + i] := List.getElem?_eq_getElem hplt
    obtain ⟨b1, p1, hb1, hlen1, hspec1, hp1⟩ :=
      shiftLoop_spec size fuel (pos + i + 1) block[pos + i] block (by omega) (by omega)
        (by omega)
    have hsz : size < b1.length := by omega
    obtain ⟨b2, hb2⟩ : ∃ b2, b2 = b1.set size p1 := ⟨_, rfl⟩
    have hlen2 : b2.length = block.length := by
      rw [hb2, List.length_set, hlen1]
    have hspec2 : ∀ j, b2[j]? = if pos + i < j ∧ j ≤ size then block[j - 1]? else block[j]? := by
      intro j
      rw [hb2, List.getElem?_set]
      by_cases hj : size = j
      · subst hj
        rw [if_pos rfl, if_pos hsz, hp1]
        have h1 : pos + i < size ∧ size ≤ size := by omega
        rw [if_pos h1]
        by_cases h2 : pos + i + 1 < size
        · rw [if_pos h2]
        · have h3 : size - 1 = pos + i := by omega
          rw [if_neg h2, h3, hget]
      · rw [if_neg hj, hspec1 j]
        by_cases hj2 : j = pos + i + 1
        · subst hj2
          have h1 : pos + i + 1 ≤ pos + i + 1 ∧ pos + i + 1 < size := by omega
          have h2 : pos + i < pos + i + 1 ∧ pos + i + 1 ≤ size := by omega
          rw [if_pos h1, if_pos rfl, if_pos h2]
          simp [hget]
        · split_ifs <;> first | rfl | (exfalso; omega)
    obtain ⟨b3, hb3, hlen3, hspec3⟩ := ih (i + 1) b2 (size + 1) (by omega) (by omega) (by omega)
    refine ⟨b3, ?_, by rw [hlen3, hlen2], ?_⟩
    · simp only [shiftRounds, hget, hb1, hsz, if_true]
      rw [← hb2, hb3]
      congr 2
      omega
    · intro j
      rw [hspec3 j]
      simp only [hspec2]
      have e1 : pos + (i + 1) = pos + i + 1 := by omega
      split_ifs <;> first | rfl | (exfalso; omega) | (congr 1; omega)

theorem fillSlots_spec (pos : Nat) (value : T) : ∀ (n i : Nat) (block : List T),
    pos + i + n ≤ block.length →
    ∃ b1, fillSlots pos value n i block = some b1 ∧ b1.length = block.length ∧
      ∀ j, b1[j]? = if pos + i ≤ j ∧ j < pos + i + n then some value else block[j]? := by
  intro n
  induction n with
  | zero =>
    intro i block _
    refine ⟨block, rfl, rfl, ?_⟩
    intro j
    have h1 : ¬ (pos + i ≤ j ∧ j < pos + i + 0) := by omega
    rw [if_neg h1]
  | succ n ih =>
    intro i block hl
    have hlt : pos + i < block.length := by omega
    obtain ⟨b1, hb1, hlen1, hspec1⟩ := ih (i + 1) (block.set (pos + i) value)
      (by rw [List.length_set]; omega)
    refine ⟨b1, ?_, by rw [hlen1, List.length_set], ?_⟩
    · simp only [fillSlots, hlt, if_true]
      exact hb1
    · intro j
      rw [hspec1 j, List.getElem?_set]
      by_cases hj : pos + i = j
      · subst hj
        have h1 : ¬ (pos + (i + 1) ≤ pos + i ∧ pos + i < pos + (i + 1) + n) := by omega
        have h2 : pos + i ≤ pos + i ∧ pos + i < pos + i + (n + 1) := by omega
        rw [if_neg h1, if_pos rfl, if_pos hlt, if_pos h2]
      · rw [if_neg hj]
        split_ifs <;> first | rfl | (exfalso; omega)

end Vector

end DynamicArray

namespace DynamicArray

namespace Vector

variable {T : Type}

/-- On a vector of the data model whose `array` is null when its capacity is 0, `grow()`
has a defined result: the same elements in a block of capacity 1 when the capacity was 0
and of twice the capacity otherwise. -/
theorem grow_spec [Inhabited T] (v : Vector T) (hwf : WellFormed v)
    (hnull : v._capacity = 0 → v.array = none) :
    ∃ v1, v.grow = some v1 ∧ WellFormed v1 ∧ v1._size = v._size ∧
      v1.elements = v.elements ∧
      v1._capacity = (if v._capacity = 0 then 1 else 2 * v._capacity) ∧
      v1.array ≠ none := by
  have hle := hwf.size_le
  rcases ha : v.array with _ | block
  · have hc0 : v._capacity = 0 := hwf.null_capacity ha
    have h0 : v._size = 0 := by omega
    refine ⟨{ array := some (newBlock 1), _capacity := 1, _size := v._size }, ?_, ?_, rfl,
      ?_, by rw [if_pos hc0], by simp⟩
    · unfold grow
      simp only [ha, h0]
      rfl
    · refine ⟨by show v._size ≤ 1; omega, ?_, ?_⟩
      · intro block2 h2
        have h3 : some (newBlock 1 : List T) = some block2 := h2
        simp only [Option.some.injEq] at h3
        rw [← h3]
        simp [newBlock]
      · intro h2
        have h3 : some (newBlock 1 : List T) = none := h2
        cases h3
    · simp [elements, ha, h0]
  · have hbl := hwf.block_length block ha
    have hcne : ¬ v._capacity = 0 := fun h0 => by
      rw [hnull h0] at ha
      cases ha
    obtain ⟨d1, hd1, hlen1, hspec⟩ := copySlots_spec block v._size 0
      (newBlock (2 * v._capacity))
      (by omega) (by simp only [newBlock, List.length_replicate]; omega)
    refine ⟨{ array := some d1, _capacity := 2 * v._capacity, _size := v._size }, ?_, ?_,
      rfl, ?_, by rw [if_neg hcne], by simp⟩
    · unfold grow
      simp only [ha, hd1]
    · refine ⟨by show v._size ≤ 2 * v._capacity; omega, ?_, ?_⟩
      · intro block2 h2
        have h3 : some d1 = some block2 := h2
        simp only [Option.some.injEq] at h3
        rw [← h3, hlen1]
        simp [newBlock]
      · intro h2
        have h3 : some d1 = none := h2
        cases h3
    · simp only [elements, ha]
      apply List.ext_getElem?
      intro j
      rw [List.getElem?_take, List.getElem?_take, hspec j]
      split_ifs <;> first | rfl | (exfalso; omega)

theorem growUntil_spec [Inhabited T] (count : Nat) : ∀ (d : Nat) (v : Vector T),
    WellFormed v → (v._capacity = 0 → v.array = none) →
    v._size + count - v._capacity ≤ d →
    ∃ v1, (∀ fuel, d ≤ fuel → growUntil fuel v count = some v1) ∧ WellFormed v1 ∧
      v1._size = v._size ∧ v1.elements = v.elements ∧ v._size + count ≤ v1._capacity ∧
      (v1._capacity = 0 → v1.array = none) := by
  intro d
  induction d with
  | zero =>
    intro v hwf hnull hd
    have hno : ¬ v._size + count > v._capacity := by omega
    refine ⟨v, ?_, hwf, rfl, rfl, by omega, hnull⟩
    intro fuel _
    cases fuel <;> simp only [growUntil, hno, if_false]
  | succ d ih =>
    intro v hwf hnull hd
    by_cases hno : v._size + count > v._capacity
    · obtain ⟨v2, hgrow, hwf2, hsize2, helts2, hcap2, harr2⟩ := grow_spec v hwf hnull
      have hcapgt : v._capacity < v2._capacity := by
        rw [hcap2]
        split_ifs <;> omega
      obtain ⟨v3, hrun, hwf3, hsize3, helts3, hcap3, hnull3⟩ :=
        ih v2 hwf2 (fun h0 => by omega) (by rw [hsize2]; omega)
      refine ⟨v3, ?_, hwf3, by rw [hsize3, hsize2], by rw [helts3, helts2],
        by rw [← hsize2]; exact hcap3, hnull3⟩
      intro fuel hfuel
      obtain ⟨f, rfl⟩ : ∃ f, fuel = f + 1 := ⟨fuel - 1, by omega⟩
      simp only [growUntil, hno, if_true, hgrow]
      exact hrun f (by omega)
    · refine ⟨v, ?_, hwf, rfl, rfl, by omega, hnull⟩
      intro fuel _
      cases fuel <;> simp only [growUntil, hno, if_false]

/-- Before `end()` the call does what C38 says.  On a vector of the data model with
elements `e0 .. e(n-1)` whose `array` is null when its capacity is 0, for an iterator at
offset `i < n`: `insert(pos, count, value)` has a defined result for every bound on the
iterations from `n + count` on, the same for all of them; it leaves the vector holding
`e0 .. e(i-1)`, `count` copies of `value`, `e(i) .. e(n-1)`, with `size() == n + count`,
and returns the iterator at offset `i`. -/
theorem insert_count_spec [Inhabited T] (v : Vector T) (i count : Nat) (value : T)
    (hwf : WellFormed v) (hnull : v._capacity = 0 → v.array = none) (hi : i < v.size) :
    ∃ v1, (∀ fuel, v.size + count ≤ fuel → v.insert_count fuel i count value = some (v1, i)) ∧
      v1.elements = v.elements.take i ++ List.replicate count value ++ v.elements.drop i ∧
      v1.size = v.size + count ∧ WellFormed v1 := by
  have hi1 : i < v._size := hi
  obtain ⟨v1, hrun, hwf1, hsize1, helts1, hcap1, -⟩ :=
    growUntil_spec count (v._size + count - v._capacity) v hwf hnull (Nat.le_refl _)
  obtain ⟨block, hblock⟩ : ∃ block, v1.array = some block := by
    rcases ha : v1.array with _ | block
    · have := hwf1.null_capacity ha
      omega
    · exact ⟨block, rfl⟩
  have hbl : block.length = v1._capacity := hwf1.block_length block hblock
  have helts : v.elements = block.take v._size := by
    rw [← helts1]
    simp only [elements, hblock, hsize1]
  obtain ⟨b2, hb2, hlen2, hspec2⟩ : ∃ b2, (∀ fuel, v._size ≤ fuel + 1 + i →
      shiftRounds fuel i count 0 block v._size = some (b2, v._size + count)) ∧
      b2.length = block.length ∧
      ∀ j, b2[j]? =
        if i + 0 + count ≤ j ∧ j < v._size + count then block[j - count]?
        else if i + 0 ≤ j ∧ j < i + 0 + count then block[i + 0]?
        else block[j]? := by
    obtain ⟨b2, hb2, hlen2, hspec2⟩ := shiftRounds_spec (v._size - i - 1) i count 0 block
      v._size (by omega) (by omega) (by omega)
    refine ⟨b2, ?_, hlen2, hspec2⟩
    intro fuel hfuel
    obtain ⟨b3, hb3, -, hspec3⟩ := shiftRounds_spec fuel i count 0 block v._size
      (by omega) (by omega) (by omega)
    rw [hb3]
    congr 2
    apply List.ext_getElem?
    intro j
    rw [hspec3 j, hspec2 j]
  obtain ⟨b3, hb3, hlen3, hspec3⟩ := fillSlots_spec i value count 0 b2 (by omega)
  refine ⟨{ v1 with array := some b3, _size := v._size + count }, ?_, ?_, rfl, ?_⟩
  · intro fuel hfuel
    have hfuel1 : v._size + count ≤ fuel := hfuel
    unfold insert_count
    rw [hrun fuel (by omega)]
    simp only [hblock, hsize1]
    rw [hb2 fuel (by omega)]
    simp only [hb3]
  · rw [helts]
    simp only [elements]
    apply List.ext_getElem?
    intro j
    rw [List.getElem?_take, hspec3 j, hspec2]
    rw [List.getElem?_append, List.getElem?_append]
    simp only [List.length_append, List.length_take, List.length_replicate,
      List.getElem?_take, List.getElem?_drop, List.getElem?_replicate]
    have hmin1 : min v._size block.length = v._size := by omega
    have hmin2 : min i v._size = i := by omega
    rw [hmin1, hmin2]
    split_ifs <;> first | rfl | (exfalso; omega) | (congr 1; omega)
  · refine ⟨by show v._size + count ≤ v1._capacity; omega, ?_, ?_⟩
    · intro block2 h2
      have h3 : some b3 = some block2 := h2
      simp only [Option.some.injEq] at h3
      rw [← h3, hlen3, hlen2, hbl]
    · intro h2
      have h3 : some b3 = none := h2
      cases h3

theorem insert_count_spec_example :
    ∃ v1, (∀ fuel, exampleVector.size + 2 ≤ fuel →
        exampleVector.insert_count fuel 1 2 5 = some (v1, 1)) ∧
      v1.elements = exampleVector.elements.take 1 ++ List.replicate 2 5 ++
        exampleVector.elements.drop 1 ∧
      v1.size = exampleVector.size + 2 ∧ WellFormed v1 :=
  insert_count_spec exampleVector 1 2 5 exampleVector_wellFormed (by decide) (by decide)

end Vector

end DynamicArray

/-! ### Calls with no defined result on reachable tables -/

namespace UnorderedMap

/-- C3, at the failing input.  The table `exampleTwoErased` is reached by `insert({1, 10})`,
`insert({2, 20})`, `erase(1)`, which leaves `_head` at the node it deleted.  The key 12 is
not stored and hashes to the bucket that holds `(2, 20)`; `insert({12, 120})` (either
overload) reads `_head->val` and has no defined result, so no pair is returned, no node is
linked and `size()` is not raised. -/
theorem insert_new_key_undefined :
    Reachable exampleTwoErased ∧ 12 ∉ exampleTwoErased.keys ∧
      exampleTwoErased.chain (exampleTwoErased.bucket 12) = [⟨1, (2, 20)⟩] ∧
      exampleTwoErased._head = some 0 ∧ exampleTwoErased.deref 0 = none ∧
      exampleTwoErased.insert (12, 120) = none ∧
      exampleTwoErased.insert_move (12, 120) = none :=
  ⟨Reachable.erase exampleTwo 1
      (Reachable.insert exampleOne exampleTwo (2, 20) (some 1, true)
        (Reachable.insert exampleEmpty exampleOne (1, 10) (some 0, true)
          (Reachable.construct (fun _ => 5) 5 (fun k => k) (fun a b => a == b) (by decide))
          rfl) rfl),
    by decide, rfl, rfl, rfl, rfl, rfl⟩

/-- C13, at the failing inputs.  On the table reached by `insert({1, 10})`, `erase(1)`, whose
`_head` is at the deleted node, the key 6 is not stored and `operator[](6)` has no defined
result: `_insert_into_bucket` reads `_head->val`.  On a fresh table `operator[](6)` links
the node `(6, T{})`, but the `find(6)` that follows has no defined result. -/
theorem index_absent_key_undefined :
    Reachable exampleErased ∧ 6 ∉ exampleErased.keys ∧ exampleErased._head = some 0 ∧
      exampleErased.deref 0 = none ∧ exampleErased.index 6 = none ∧
      ∃ m1 p, exampleEmpty.index 6 = some (m1, p) ∧ m1.star (some p) = some (6, default) ∧
        m1.find 6 = none :=
  ⟨Reachable.erase exampleOne 1
      (Reachable.insert exampleEmpty exampleOne (1, 10) (some 0, true)
        (Reachable.construct (fun _ => 5) 5 (fun k => k) (fun a b => a == b) (by decide))
        rfl),
    by decide, rfl, rfl, rfl, _, _, rfl, rfl, rfl⟩

/-- C16, at the failing input.  After `insert({1, 10})`, `insert({2, 20})`, `clear()` the
table has `size() == 0`, every `bucket_size(n)` is 0 and `bucket_count()` is 5 as before,
but `find(k)` has no defined result for any key, so it is not the end sentinel. -/
theorem find_after_clear_undefined :
    Reachable exampleTwo.clear ∧ exampleTwo.clear.size = 0 ∧
      (∀ n, exampleTwo.clear.bucket_size n = 0) ∧
      exampleTwo.clear.bucket_count = exampleTwo.bucket_count ∧
      exampleTwo.clear.find 1 = none ∧ ∀ k, exampleTwo.clear.find k = none :=
  ⟨Reachable.clear exampleTwo
      (Reachable.insert exampleOne exampleTwo (2, 20) (some 1, true)
        (Reachable.insert exampleEmpty exampleOne (1, 10) (some 0, true)
          (Reachable.construct (fun _ => 5) 5 (fun k => k) (fun a b => a == b) (by decide))
          rfl) rfl),
    rfl, (clear_spec exampleTwo exampleTwo_reachable.wellFormed).2.2.2.1, rfl, rfl,
    fun k => (find_undefined exampleTwo.clear k).2⟩

end UnorderedMap
